import Mathlib

/-!
# regex2dfa: regular expression to DFA compiler

A shallow embedding of `regex_tree_node.h` and `regex_tree.h`.

Conventions of the embedding.

* `char` is `Char`, compared by code point (the order of `std::map<char, _>` keys).
* `int` is `Int`, `std::size_t` is `Nat`.  A comparison of an `int` with a
  `std::size_t` converts the `int` to unsigned, so a negative `int` compares
  greater than every size.
* `std::set<T>` is a strictly ascending list, `std::map<char, T>` is an
  association list with strictly ascending keys.
* `throw std::runtime_error(..)` and undefined behaviour (null dereference,
  out of bounds `operator[]`) are values of `failure`; a bounded loop that runs
  out of its budget is `failure.out_of_fuel`.
* A position (`node*` of a leaf) is the id of that leaf.  `std::set<node*>` is
  ordered by address, but no result below depends on that order.
-/

namespace Regex2Dfa

/-- The ways a call can fail to return. -/
inductive failure where
  /-- Thrown by `dfa::next`: "out of raaange". -/
  | out_of_range
  /-- Thrown by `dfa::accepting`: "OMG". -/
  | omg
  /-- Thrown by `find_group_index`: "no group found?". -/
  | no_group_found
  /-- Thrown by `regex_tree::match`: "Invalid Regex". -/
  | invalid_regex
  /-- Dereference of a null `std::unique_ptr<node>`. -/
  | null_deref
  /-- Out of bounds `operator[]` on a `std::vector`. -/
  | out_of_bounds
  /-- The iteration budget of a loop of the embedding was used up. -/
  | out_of_fuel
  deriving DecidableEq, Repr

/-! ## Ordered containers -/

/-- Insertion into a `std::set` ordered by `lt`. -/
def set_insert {α : Type} (lt : α → α → Bool) (x : α) : List α → List α
  | [] => [x]
  | y :: ys =>
    if lt x y then x :: y :: ys
    else if lt y x then y :: set_insert lt x ys
    else y :: ys

/-- Range insertion `s.insert(begin(t), end(t))`. -/
def set_insert_all {α : Type} (lt : α → α → Bool) (s t : List α) : List α :=
  t.foldl (fun acc x => set_insert lt x acc) s

/-- Membership test `s.count(x)` for a `std::set` ordered by `lt`. -/
def set_count {α : Type} (lt : α → α → Bool) (x : α) (s : List α) : Bool :=
  s.any (fun y => !lt x y && !lt y x)

/-- Lookup `m.find(c)` in a `std::map<char, T>`. -/
def map_find {β : Type} (c : Char) : List (Char × β) → Option β
  | [] => none
  | (k, v) :: rest => if k = c then some v else map_find c rest

/-- Assignment `m[c] = v` in a `std::map<char, T>`. -/
def map_set {β : Type} (c : Char) (v : β) : List (Char × β) → List (Char × β)
  | [] => [(c, v)]
  | (k, w) :: rest =>
    if c < k then (c, v) :: (k, w) :: rest
    else if k < c then (k, w) :: map_set c v rest
    else (k, v) :: rest

/-- Order of `int`. -/
def int_lt (a b : Int) : Bool := decide (a < b)

/-- Order of `std::set<int>`: `std::lexicographical_compare`. -/
def lex_lt : List Int → List Int → Bool
  | _, [] => false
  | [], _ :: _ => true
  | a :: as, b :: bs => if a < b then true else if b < a then false else lex_lt as bs

/-! ## `regex_tree_node.h` -/

/-- A `std::unique_ptr<node>`: `null`, or one of the node classes.  The sets
`firstpos_`, `lastpos_` and the flag `nullable_` that `or_node` and `cat_node`
compute once in their constructors are recomputed from the children, which
never change after construction.  The member `followpos_` of the leaves is
kept apart, in `regex_tree.followpos_`. -/
inductive node where
  | null : node
  | empty_node : node
  | letter_node (letter_ : Char) (id_ : Nat) : node
  | terminator_node (id_ : Nat) : node
  | or_node (c0 c1 : node) : node
  | cat_node (c0 c1 : node) : node
  | star_node (child_ : node) : node
  deriving DecidableEq, Repr

/-- Order of positions. -/
def pos_lt (a b : Nat) : Bool := decide (a < b)

namespace node

/-- `node::nullable`. -/
def nullable : node → Except failure Bool
  | null => .error .null_deref
  | empty_node => .ok true
  | letter_node _ _ => .ok false
  | terminator_node _ => .ok false
  | or_node c0 c1 => do
    if (← c0.nullable) then return true else c1.nullable
  | cat_node c0 c1 => do
    if (← c0.nullable) then c1.nullable else return false
  | star_node _ => .ok true

/-- `node::firstpos`. -/
def firstpos : node → Except failure (List Nat)
  | null => .error .null_deref
  | empty_node => .ok []
  | letter_node _ i => .ok [i]
  | terminator_node i => .ok [i]
  | or_node c0 c1 => do
    let f1 ← c0.firstpos
    let f2 ← c1.firstpos
    return set_insert_all pos_lt (set_insert_all pos_lt [] f1) f2
  | cat_node c0 c1 => do
    let f1 ← c0.firstpos
    let f2 ← c1.firstpos
    if (← c0.nullable) then
      return set_insert_all pos_lt (set_insert_all pos_lt [] f1) f2
    else
      return f1
  | star_node c => c.firstpos

/-- `node::lastpos`. -/
def lastpos : node → Except failure (List Nat)
  | null => .error .null_deref
  | empty_node => .ok []
  | letter_node _ i => .ok [i]
  | terminator_node i => .ok [i]
  | or_node c0 c1 => do
    let l1 ← c0.lastpos
    let l2 ← c1.lastpos
    return set_insert_all pos_lt (set_insert_all pos_lt [] l1) l2
  | cat_node c0 c1 => do
    let l1 ← c0.lastpos
    let l2 ← c1.lastpos
    if (← c1.nullable) then
      return set_insert_all pos_lt (set_insert_all pos_lt [] l1) l2
    else
      return l2
  | star_node c => c.lastpos

/-- The constructor `or_node::or_node`. -/
def make_or_node (lhs rhs : node) : Except failure node := do
  let _ ← (or_node lhs rhs).nullable
  let _ ← (or_node lhs rhs).firstpos
  let _ ← (or_node lhs rhs).lastpos
  return or_node lhs rhs

/-- The constructor `cat_node::cat_node`. -/
def make_cat_node (lhs rhs : node) : Except failure node := do
  let _ ← (cat_node lhs rhs).nullable
  let _ ← (cat_node lhs rhs).firstpos
  let _ ← (cat_node lhs rhs).lastpos
  return cat_node lhs rhs

/-- The statement `n->followpos_.insert(begin(s), end(s))` for every `n` of `ns`. -/
def add_followpos (ns s : List Nat) (followpos_ : Nat → List Nat) : Nat → List Nat :=
  ns.foldl (fun f n => fun m => if m = n then set_insert_all pos_lt (f n) s else f m) followpos_

/-- `node::build_followpos` with its overrides in `cat_node` and `star_node`. -/
def build_followpos : node → (Nat → List Nat) → Except failure (Nat → List Nat)
  | null, _ => .error .null_deref
  | empty_node, f => .ok f
  | letter_node _ _, f => .ok f
  | terminator_node _, f => .ok f
  | or_node c0 c1, f => do
    let f1 ← c0.build_followpos f
    c1.build_followpos f1
  | cat_node c0 c1, f => do
    let last_set ← c0.lastpos
    let first_set ← c1.firstpos
    let f0 := add_followpos last_set first_set f
    let f1 ← c0.build_followpos f0
    c1.build_followpos f1
  | star_node c, f => do
    let fp ← c.firstpos
    let lp ← c.lastpos
    let f0 := add_followpos lp fp f
    c.build_followpos f0

/-- The leaf object a position points to: the first leaf with the given id. -/
def leaf : node → Nat → Option node
  | null, _ => none
  | empty_node, _ => none
  | letter_node c i, p => if i = p then some (letter_node c i) else none
  | terminator_node i, p => if i = p then some (terminator_node i) else none
  | or_node c0 c1, p => (c0.leaf p).orElse (fun _ => c1.leaf p)
  | cat_node c0 c1, p => (c0.leaf p).orElse (fun _ => c1.leaf p)
  | star_node c, p => c.leaf p

/-- `letter_node::is_terminator`. -/
def is_terminator : node → Bool
  | terminator_node _ => true
  | _ => false

/-- `letter_node::letter`. -/
def letter : node → Char
  | letter_node c _ => c
  | _ => '#'

/-- The language of a regex tree, as the specification defines it:
`Empty` is the empty word, `Letter c` the word `c`, `Or` union, `Cat`
concatenation and `Star` Kleene closure.  The end marker and a null pointer
denote no word. -/
def lang : node → Language Char
  | null => 0
  | empty_node => 1
  | letter_node c _ => {[c]}
  | terminator_node _ => 0
  | or_node c0 c1 => c0.lang + c1.lang
  | cat_node c0 c1 => c0.lang * c1.lang
  | star_node c => KStar.kstar c.lang

end node

/-! ## `struct dfa` -/

/-- The `dfa` of `regex_tree.h`. -/
structure dfa where
  transitions : List (List (Char × Int))
  accepting_ : List Int
  deriving DecidableEq, Repr

namespace dfa

/-- `dfa::size`. -/
def size (d : dfa) : Nat := d.accepting_.length

/-- `dfa::next`. -/
def next (d : dfa) (state : Int) (c : Char) : Except failure Int :=
  if state < 0 ∨ (d.size : Int) < state then .error .out_of_range
  else if state = d.size then .ok d.size
  else
    match d.transitions[state.toNat]? with
    | none => .error .out_of_bounds
    | some m =>
      match map_find c m with
      | none => .ok d.size
      | some t => .ok t

/-- `dfa::accepting`. -/
def accepting (d : dfa) (state : Int) : Except failure Bool :=
  if state < 0 ∨ (d.size : Int) < state then .error .omg
  else if state = d.size then .ok false
  else
    match d.accepting_[state.toNat]? with
    | none => .error .out_of_bounds
    | some a => .ok (a != 0)

/-- The table of `minimize`: `std::vector<std::vector<int>>`, whose cells only
ever hold `0` or `1`. -/
abbrev table := List (List Bool)

/-- Read of `table[i][j]`. -/
def table_get (t : table) (i j : Int) : Except failure Bool :=
  if i < 0 ∨ j < 0 then .error .out_of_bounds
  else
    match t[i.toNat]? with
    | none => .error .out_of_bounds
    | some row =>
      match row[j.toNat]? with
      | none => .error .out_of_bounds
      | some b => .ok b

/-- Write of `table[i][j] = b`. -/
def table_set (t : table) (i j : Int) (b : Bool) : Except failure table :=
  if i < 0 ∨ j < 0 then .error .out_of_bounds
  else
    match t[i.toNat]? with
    | none => .error .out_of_bounds
    | some row =>
      if j.toNat < row.length then .ok (t.set i.toNat (row.set j.toNat b))
      else .error .out_of_bounds

/-- Read through `dfa::distinct`, the cell `table[max(s1,s2)][min(s1,s2)]`. -/
def distinct (s1 s2 : Int) (t : table) : Except failure Bool :=
  table_get t (max s1 s2) (min s1 s2)

/-- Write through `dfa::distinct`. -/
def set_distinct (s1 s2 : Int) (t : table) (b : Bool) : Except failure table :=
  table_set t (max s1 s2) (min s1 s2) b

/-- The map `m1` or `m2` of `update`: `empty` for the dead state. -/
def update_map (d : dfa) (s : Int) : Except failure (List (Char × Int)) :=
  if s = d.size then .ok []
  else if s < 0 then .error .out_of_bounds
  else
    match d.transitions[s.toNat]? with
    | none => .error .out_of_bounds
    | some m => .ok m

/-- The body of the two nested range-for loops of `update`, over the entries
of `m1` followed by those of `m2`. -/
def update_loop (d : dfa) (s1 s2 : Int) :
    List (Char × Int) → Bool × table → Except failure (Bool × table)
  | [], st => .ok st
  | p :: rest, (updated, t) => do
    let c := p.1
    let d1 ← d.next s1 c
    let d2 ← d.next s2 c
    if (← distinct d1 d2 t) then
      let t1 ← set_distinct s1 s2 t true
      update_loop d s1 s2 rest (true, t1)
    else
      update_loop d s1 s2 rest (updated, t)

/-- `dfa::update`. -/
def update (d : dfa) (s1 s2 : Int) (t : table) : Except failure (Bool × table) := do
  if (← distinct s1 s2 t) then
    return (false, t)
  let m1 ← update_map d s1
  let m2 ← update_map d s2
  update_loop d s1 s2 (m1 ++ m2) (false, t)

/-- The pairs `(p, q)` with `q < p <= n`, in the order of the loops
`for p in 0..=n, for q in 0..<p`. -/
def pairs (n : Nat) : List (Nat × Nat) :=
  (List.range (n + 1)).flatMap (fun p => (List.range p).map (fun q => (p, q)))

/-- The seeding loop: `table[p][q] = accepting(p) != accepting(q)`. -/
def seed (d : dfa) : List (Nat × Nat) → table → Except failure table
  | [], t => .ok t
  | (p, q) :: rest, t => do
    let ap ← d.accepting p
    let aq ← d.accepting q
    let t1 ← table_set t p q (ap != aq)
    seed d rest t1

/-- One pass of the `do ... while(updated)` loop: `updated |= update(p,q,table)`
over all pairs. -/
def pass (d : dfa) : List (Nat × Nat) → Bool × table → Except failure (Bool × table)
  | [], st => .ok st
  | (p, q) :: rest, (updated, t) => do
    let (u, t1) ← d.update p q t
    pass d rest (updated || u, t1)

/-- The `do ... while(updated)` loop, given a budget of passes. -/
def fixpoint (d : dfa) : Nat → table → Except failure table
  | 0, _ => .error .out_of_fuel
  | fuel + 1, t => do
    let (updated, t1) ← pass d (pairs d.size) (false, t)
    if updated then fixpoint d fuel t1 else return t1

/-- The inner loop of the grouping: collects into `group` every `q` with
`p == q` or `!distinct(p, q)` and marks it in `grouped`. -/
def group_loop (p : Nat) (t : table) :
    List Nat → List Int × List Bool → Except failure (List Int × List Bool)
  | [], st => .ok st
  | q :: rest, (group, grouped) => do
    let skip ← if p != q then distinct p q t else pure false
    if skip then
      group_loop p t rest (group, grouped)
    else
      if q < grouped.length then
        group_loop p t rest (set_insert int_lt q group, grouped.set q true)
      else .error .out_of_bounds

/-- The outer loop of the grouping. -/
def groups_loop (n : Nat) (t : table) :
    List Nat → List (List Int) × List Bool → Except failure (List (List Int) × List Bool)
  | [], st => .ok st
  | p :: rest, (groups, grouped) =>
    match grouped[p]? with
    | none => .error .out_of_bounds
    | some true => groups_loop n t rest (groups, grouped)
    | some false => do
      let (group, grouped1) ← group_loop p t (List.range (n + 1)) (set_insert int_lt p [], grouped)
      groups_loop n t rest (set_insert lex_lt group groups, grouped1)

/-- The lambda `find_group_index` of `minimize`. -/
def find_group_index (groups_arr : List (List Int)) (state : Int) : Except failure Nat :=
  match groups_arr.findIdx? (fun g => set_count int_lt state g) with
  | some i => .ok i
  | none => .error .no_group_found

/-- The function `std::swap(groups_arr[i], groups_arr[0])`. -/
def swap_front (groups_arr : List (List Int)) (i : Nat) : List (List Int) :=
  (groups_arr.set 0 (groups_arr.getD i [])).set i (groups_arr.getD 0 [])

/-- The loop over the edges of one original state `i`:
`res.transitions[find_group_index(i)][p.first] = find_group_index(p.second)`. -/
def insert_edges (groups_arr : List (List Int)) (i : Nat) :
    List (Char × Int) → List (List (Char × Int)) → Except failure (List (List (Char × Int)))
  | [], tr => .ok tr
  | p :: rest, tr => do
    let target ← find_group_index groups_arr p.2
    let source ← find_group_index groups_arr i
    match tr[source]? with
    | none => .error .out_of_bounds
    | some m => insert_edges groups_arr i rest (tr.set source (map_set p.1 (target : Int) m))

/-- The loop over the original states of `minimize`. -/
def insert_states (groups_arr : List (List Int)) :
    List (Nat × List (Char × Int)) → List (List (Char × Int)) →
      Except failure (List (List (Char × Int)))
  | [], tr => .ok tr
  | (i, m) :: rest, tr => do
    let tr1 ← insert_edges groups_arr i m tr
    insert_states groups_arr rest tr1

/-- The flag `is_accepting` of one group: `is_accepting |= accepting(state)`. -/
def group_accepting (d : dfa) : List Int → Bool → Except failure Bool
  | [], acc => .ok acc
  | s :: rest, acc => do
    let a ← d.accepting s
    group_accepting d rest (acc || a)

/-- The loop that fills `res.accepting_`. -/
def groups_accepting (d : dfa) : List (List Int) → List Int → Except failure (List Int)
  | [], acc => .ok acc
  | g :: rest, acc => do
    let a ← group_accepting d g false
    groups_accepting d rest (acc ++ [if a then 1 else 0])

/-- The table of `minimize` after seeding and the fixed-point loop. -/
def fill_table (d : dfa) : Except failure table := do
  let n := d.size
  let t0 : table := List.replicate (n + 1) (List.replicate (n + 1) false)
  let t1 ← seed d (pairs n) t0
  fixpoint d ((n + 1) * (n + 1) + 1) t1

/-- The sorted `groups_arr` of `minimize`, before the swap. -/
def make_groups (d : dfa) (t : table) : Except failure (List (List Int)) := do
  let n := d.size
  let (groups, _) ← groups_loop n t (List.range (n + 1)) ([], List.replicate (n + 1) false)
  return groups

/-- `dfa::minimize`. -/
def minimize (d : dfa) : Except failure dfa := do
  let t ← fill_table d
  let groups ← make_groups d t
  let tr0 : List (List (Char × Int)) := List.replicate groups.length []
  let start_group ← find_group_index groups 0
  let groups_arr := swap_front groups start_group
  let tr ← insert_states groups_arr d.transitions.enum tr0
  let acc ← groups_accepting d groups_arr []
  return { transitions := tr, accepting_ := acc }

/-- The external matcher of the specification: `next` applied once per
character of `w`, starting from `state`. -/
def run (d : dfa) : Int → List Char → Except failure Int
  | state, [] => .ok state
  | state, c :: w => do
    let s ← d.next state c
    run d s w

/-- The external matcher of the specification: whether the run over `w` from
state 0 ends in a state on which `accepting` returns true. -/
def accepts (d : dfa) (w : List Char) : Except failure Bool := do
  let s ← d.run 0 w
  d.accepting s

/-- A line `graph` writes to its stream inside the loop: the declaration of a
state with its shape, or an edge with its label. -/
inductive dot_line where
  | node (id : Int) (accepting : Bool) : dot_line
  | edge (src dst : Int) (label : Char) : dot_line
  deriving DecidableEq, Repr

/-- The text of a line. -/
def dot_line.render : dot_line → String
  | .node id true => toString id ++ " [shape=doublecircle];\n"
  | .node id false => toString id ++ " [shape=circle];\n"
  | .edge a b c =>
    "\t" ++ toString a ++ " -> " ++ toString b ++ " [label=\"" ++ String.singleton c ++ "\"];\n"

/-- The loop `for(const auto &p : transitions[a])` of `graph`: an unvisited
target is pushed on `q` and inserted into `visited`; every edge is written. -/
def graph_edges (a : Int) :
    List (Char × Int) → List Int × List Int × List dot_line →
      List Int × List Int × List dot_line
  | [], st => st
  | p :: rest, (visited, q, ss) =>
    if set_count int_lt p.2 visited then
      graph_edges a rest (visited, q, ss ++ [dot_line.edge a p.2 p.1])
    else
      graph_edges a rest
        (set_insert int_lt p.2 visited, q ++ [p.2], ss ++ [dot_line.edge a p.2 p.1])

/-- The loop `while(!q.empty())` of `graph`, with a budget of iterations: the
state taken is `q.back()`. -/
def graph_loop (d : dfa) :
    Nat → List Int × List Int × List dot_line → Except failure (List dot_line)
  | fuel, (visited, q, ss) =>
    match q.getLast? with
    | none => .ok ss
    | some a =>
      match fuel with
      | 0 => .error .out_of_fuel
      | fuel + 1 => do
        let acc ← d.accepting a
        let ss1 := ss ++ [dot_line.node a acc]
        if a < 0 then .error .out_of_bounds
        else
          match d.transitions[a.toNat]? with
          | none => .error .out_of_bounds
          | some m => graph_loop d fuel (graph_edges a m (visited, q.dropLast, ss1))

/-- The lines `graph` writes between the header and the closing brace. -/
def graph_lines (d : dfa) : Except failure (List dot_line) :=
  graph_loop d (d.size + 1) ([0], [0], [])

/-- `dfa::graph`. -/
def graph (d : dfa) : Except failure String := do
  let ls ← graph_lines d
  return "digraph G \x7b\n\tgraph [ordering=\"out\" overlap=scale splines=true];\nrankdir=LR;\n"
    ++ String.join (ls.map dot_line.render) ++ "\x7d\n"

/-- The invariant of `std::map<char, int>`: keys strictly ascending. -/
def is_map (m : List (Char × Int)) : Prop :=
  m.Pairwise (fun a b => a.1 < b.1)

instance (m : List (Char × Int)) : Decidable (is_map m) := by
  unfold is_map; infer_instance

/-- A well-formed DFA: at least one state, `transitions` and `accepting_` of
equal length, every transition target in `[0, size]`; every element of
`transitions` is a `std::map`. -/
def well_formed (d : dfa) : Prop :=
  0 < d.size ∧ d.transitions.length = d.accepting_.length ∧
    (∀ m ∈ d.transitions, is_map m) ∧
    ∀ m ∈ d.transitions, ∀ p ∈ m, 0 ≤ p.2 ∧ p.2 ≤ (d.size : Int)

instance (d : dfa) : Decidable (well_formed d) := by
  unfold well_formed; infer_instance

end dfa

/-! ## `class regex_tree` -/

/-- `regex_tree::symbol`. -/
inductive symbol where
  | oparen | cparen | star | plus | bar | empty | letter | concat
  deriving DecidableEq, Repr

/-- The members of `regex_tree`; `pos` is the part of `str` not yet consumed and
`followpos_` holds the member `followpos_` of every leaf, by leaf id. -/
structure regex_tree where
  current_id : Nat
  str : List Char
  pos : List Char
  root : node
  followpos_ : Nat → List Nat

/-- The members the parser works on: `pos` and `current_id`. -/
structure parser_state where
  pos : List Char
  current_id : Nat
  deriving DecidableEq, Repr

namespace regex_tree

/-- `regex_tree::peek`. -/
def peek (st : parser_state) : symbol :=
  match st.pos with
  | [] => symbol.empty
  | c :: _ =>
    if c = '(' then symbol.oparen
    else if c = ')' then symbol.cparen
    else if c = '*' then symbol.star
    else if c = '+' then symbol.plus
    else if c = '|' then symbol.bar
    else symbol.letter

/-- `regex_tree::accept`. -/
def accept (s : symbol) (st : parser_state) : Bool × parser_state :=
  if s = peek st then
    if s ≠ symbol.empty then (true, { st with pos := st.pos.tail })
    else (true, st)
  else (false, st)

/-- `regex_tree::match`: the matched character (`-1` at the end), or "Invalid Regex". -/
def match_ (s : symbol) (st : parser_state) : Except failure (Int × parser_state) :=
  let res : Int := match st.pos with
    | [] => -1
    | c :: _ => c.toNat
  match accept s st with
  | (true, st1) => .ok (res, st1)
  | (false, _) => .error .invalid_regex

/-- The loop `while(accept(symbol::star)) left = star_node(left)` of `term`. -/
def term_stars : List Char → node → Nat → node × parser_state
  | [], left, id => (left, ⟨[], id⟩)
  | c :: rest, left, id =>
    if (accept symbol.star ⟨c :: rest, id⟩).1 then term_stars rest (node.star_node left) id
    else (left, ⟨c :: rest, id⟩)

/-- `regex_tree::term`, given the function to call for `regex()`. -/
def term (regex : parser_state → Except failure (node × parser_state)) (st : parser_state) :
    Except failure (node × parser_state) :=
  match accept symbol.oparen st with
  | (true, st1) => do
    let (left, st2) ← regex st1
    let (_, st3) ← match_ symbol.cparen st2
    return term_stars st3.pos left st3.current_id
  | (false, _) =>
    if peek st = symbol.letter then do
      let (res, st1) ← match_ symbol.letter st
      let c := Char.ofNat res.toNat
      let left := node.letter_node c st1.current_id
      return term_stars st1.pos left (st1.current_id + 1)
    else
      return (node.null, st)

/-- The loop `while((right = term())) left = cat_node(left, right)` of `expr`,
with a budget of iterations. -/
def expr_loop (regex : parser_state → Except failure (node × parser_state)) :
    Nat → node → parser_state → Except failure (node × parser_state)
  | 0, _, _ => .error .out_of_fuel
  | fuel + 1, left, st => do
    let (right, st1) ← term regex st
    if right = node.null then
      return (left, st1)
    else
      let left1 ← node.make_cat_node left right
      expr_loop regex fuel left1 st1

/-- `regex_tree::expr`, given the function to call for `regex()`. -/
def expr (regex : parser_state → Except failure (node × parser_state)) (st : parser_state) :
    Except failure (node × parser_state) := do
  let (left, st1) ← term regex st
  expr_loop regex (st1.pos.length + 1) left st1

/-- The loop `while(accept(symbol::bar)) left = or_node(left, expr())` of `regex`,
with a budget of iterations. -/
def regex_loop (regex : parser_state → Except failure (node × parser_state)) :
    Nat → node → parser_state → Except failure (node × parser_state)
  | 0, _, _ => .error .out_of_fuel
  | fuel + 1, left, st =>
    match accept symbol.bar st with
    | (true, st1) => do
      let (right, st2) ← expr regex st1
      let left1 ← node.make_or_node left right
      regex_loop regex fuel left1 st2
    | (false, st1) => return (left, st1)

/-- The body of `regex_tree::regex`, given the function to call for the nested `regex()`. -/
def regex_body (regex : parser_state → Except failure (node × parser_state))
    (st : parser_state) : Except failure (node × parser_state) :=
  if peek st = symbol.empty then
    return (node.empty_node, st)
  else do
    let (left, st1) ← expr regex st
    regex_loop regex (st1.pos.length + 1) left st1

/-- `regex_tree::regex`, with a budget for the nesting depth of parentheses. -/
def regex : Nat → parser_state → Except failure (node × parser_state)
  | 0, _ => .error .out_of_fuel
  | fuel + 1, st => regex_body (regex fuel) st

/-- `regex_tree::start`. -/
def start (st : parser_state) : Except failure (node × parser_state) := do
  let (res, st1) ← regex (st.pos.length + 1) st
  let (_, st2) ← match_ symbol.empty st1
  return (res, st2)

/-- The constructor `regex_tree::regex_tree`. -/
def new (str_ : List Char) : Except failure regex_tree := do
  let (root0, st) ← start ⟨str_, 0⟩
  let end_marker := node.terminator_node st.current_id
  let root ← node.make_cat_node root0 end_marker
  let followpos_ ← root.build_followpos (fun _ => [])
  return { current_id := st.current_id + 1, str := str_, pos := st.pos, root := root,
           followpos_ := followpos_ }

/-- The local state of `construct_dfa`. -/
structure construct_state where
  res : dfa
  current_state : Nat
  state_id : List (List Nat × Int)
  unmarked : List (List Nat)

/-- Lookup in `state_id`, a `std::map<std::set<node*>, int>`. -/
def state_id_find (U : List Nat) : List (List Nat × Int) → Option Int
  | [] => none
  | (k, v) :: rest => if k = U then some v else state_id_find U rest

/-- The loop `for(node *n : positions)` of `construct_dfa`. -/
def build_u_map (t : regex_tree) :
    List Nat → Bool × List (Char × List Nat) → Except failure (Bool × List (Char × List Nat))
  | [], st => .ok st
  | n :: rest, (accepting, u_map) =>
    match t.root.leaf n with
    | none => .error .null_deref
    | some ln =>
      if ln.is_terminator then build_u_map t rest (true, u_map)
      else
        let letter := ln.letter
        let fp := t.followpos_ n
        let old := (map_find letter u_map).getD []
        build_u_map t rest (accepting, map_set letter (set_insert_all pos_lt old fp) u_map)

/-- The loop `for(auto &u_pair : u_map)` of `construct_dfa`. -/
def add_transitions :
    List (Char × List Nat) → List (Char × Int) × Nat × List (List Nat × Int) × List (List Nat) →
      List (Char × Int) × Nat × List (List Nat × Int) × List (List Nat)
  | [], st => st
  | (a, U) :: rest, (S, current_state, state_id, unmarked) =>
    match state_id_find U state_id with
    | none =>
      add_transitions rest
        (map_set a (current_state : Int) S, current_state + 1,
          state_id ++ [(U, (current_state : Int))], unmarked ++ [U])
    | some i => add_transitions rest (map_set a i S, current_state, state_id, unmarked)

/-- The loop `while(!unmarked.empty())` of `construct_dfa`, with a budget of iterations. -/
def construct_loop (t : regex_tree) : Nat → construct_state → Except failure dfa
  | fuel, ⟨res, current_state, state_id, unmarked⟩ =>
    match unmarked with
    | [] => .ok res
    | positions :: queue =>
      match fuel with
      | 0 => .error .out_of_fuel
      | fuel + 1 => do
        let (accepting, u_map) ← build_u_map t positions (false, [])
        let (S, current_state1, state_id1, unmarked1) :=
          add_transitions u_map ([], current_state, state_id, queue)
        construct_loop t fuel
          ⟨{ transitions := res.transitions ++ [S],
             accepting_ := res.accepting_ ++ [if accepting then 1 else 0] },
            current_state1, state_id1, unmarked1⟩

/-- `regex_tree::construct_dfa`. -/
def construct_dfa (t : regex_tree) : Except failure dfa := do
  let initial ← t.root.firstpos
  construct_loop t (2 ^ t.current_id + 1) ⟨⟨[], []⟩, 1, [(initial, 0)], [initial]⟩

/-- The loop of `construct_dfa` once more, returning all its local variables at
exit together with the position sets it took from the queue, in order. -/
def construct_trace (t : regex_tree) :
    Nat → construct_state → List (List Nat) → Except failure (construct_state × List (List Nat))
  | fuel, ⟨res, current_state, state_id, unmarked⟩, popped =>
    match unmarked with
    | [] => .ok (⟨res, current_state, state_id, []⟩, popped)
    | positions :: queue =>
      match fuel with
      | 0 => .error .out_of_fuel
      | fuel + 1 => do
        let (accepting, u_map) ← build_u_map t positions (false, [])
        let (S, current_state1, state_id1, unmarked1) :=
          add_transitions u_map ([], current_state, state_id, queue)
        construct_trace t fuel
          ⟨{ transitions := res.transitions ++ [S],
             accepting_ := res.accepting_ ++ [if accepting then 1 else 0] },
            current_state1, state_id1, unmarked1⟩ (popped ++ [positions])

/-- The function `construct_dfa` with the local variables at exit and the
position sets taken from the queue. -/
def construct_dfa_trace (t : regex_tree) :
    Except failure (construct_state × List (List Nat)) := do
  let initial ← t.root.firstpos
  construct_trace t (2 ^ t.current_id + 1) ⟨⟨[], []⟩, 1, [(initial, 0)], [initial]⟩ []

end regex_tree

/-- The pipeline `regex_tree tree(str); tree.construct_dfa()`. -/
def compile (str : List Char) : Except failure dfa := do
  let t ← regex_tree.new str
  t.construct_dfa

/-! ## Pure counterparts of the operations, used to state invariants -/

namespace node

/-- No null pointer occurs in the tree. -/
def no_null : node → Prop
  | null => False
  | empty_node => True
  | letter_node _ _ => True
  | terminator_node _ => True
  | or_node c0 c1 => c0.no_null ∧ c1.no_null
  | cat_node c0 c1 => c0.no_null ∧ c1.no_null
  | star_node c => c.no_null

/-- No end marker occurs in the tree. -/
def no_terminator : node → Prop
  | null => True
  | empty_node => True
  | letter_node _ _ => True
  | terminator_node _ => False
  | or_node c0 c1 => c0.no_terminator ∧ c1.no_terminator
  | cat_node c0 c1 => c0.no_terminator ∧ c1.no_terminator
  | star_node c => c.no_terminator

/-- The ids of the leaves, left to right. -/
def leaf_ids : node → List Nat
  | null => []
  | empty_node => []
  | letter_node _ i => [i]
  | terminator_node i => [i]
  | or_node c0 c1 => c0.leaf_ids ++ c1.leaf_ids
  | cat_node c0 c1 => c0.leaf_ids ++ c1.leaf_ids
  | star_node c => c.leaf_ids

/-- The value of `nullable` on a tree without null pointers. -/
def nl : node → Bool
  | null => false
  | empty_node => true
  | letter_node _ _ => false
  | terminator_node _ => false
  | or_node c0 c1 => c0.nl || c1.nl
  | cat_node c0 c1 => c0.nl && c1.nl
  | star_node _ => true

/-- The value of `firstpos` on a tree without null pointers. -/
def fp : node → List Nat
  | null => []
  | empty_node => []
  | letter_node _ i => [i]
  | terminator_node i => [i]
  | or_node c0 c1 => set_insert_all pos_lt (set_insert_all pos_lt [] c0.fp) c1.fp
  | cat_node c0 c1 =>
    if c0.nl then set_insert_all pos_lt (set_insert_all pos_lt [] c0.fp) c1.fp else c0.fp
  | star_node c => c.fp

/-- The value of `lastpos` on a tree without null pointers. -/
def lp : node → List Nat
  | null => []
  | empty_node => []
  | letter_node _ i => [i]
  | terminator_node i => [i]
  | or_node c0 c1 => set_insert_all pos_lt (set_insert_all pos_lt [] c0.lp) c1.lp
  | cat_node c0 c1 =>
    if c1.nl then set_insert_all pos_lt (set_insert_all pos_lt [] c0.lp) c1.lp else c1.lp
  | star_node c => c.lp

/-- The links `build_followpos` adds: `q` is put into the `followpos_` of `p`. -/
def follow : node → Nat → Nat → Prop
  | null, _, _ => False
  | empty_node, _, _ => False
  | letter_node _ _, _, _ => False
  | terminator_node _, _, _ => False
  | or_node c0 c1, p, q => c0.follow p q ∨ c1.follow p q
  | cat_node c0 c1, p, q => (p ∈ c0.lp ∧ q ∈ c1.fp) ∨ c0.follow p q ∨ c1.follow p q
  | star_node c, p, q => (p ∈ c.lp ∧ q ∈ c.fp) ∨ c.follow p q

/-- The language of the tree over positions: every leaf stands for its own id. -/
def plang : node → Language Nat
  | null => 0
  | empty_node => 1
  | letter_node _ i => {[i]}
  | terminator_node i => {[i]}
  | or_node c0 c1 => c0.plang + c1.plang
  | cat_node c0 c1 => c0.plang * c1.plang
  | star_node c => KStar.kstar c.plang

/-- Every letter leaf carries the letter `l` gives to its id. -/
def labelled (l : Nat → Char) : node → Prop
  | null => True
  | empty_node => True
  | letter_node c i => l i = c
  | terminator_node _ => True
  | or_node c0 c1 => c0.labelled l ∧ c1.labelled l
  | cat_node c0 c1 => c0.labelled l ∧ c1.labelled l
  | star_node c => c.labelled l

/-- The letter of the leaf with id `p`. -/
def letter_at (t : node) (p : Nat) : Char :=
  match t.leaf p with
  | some ln => ln.letter
  | none => '#'

/-- The letter leaves, left to right, each with its letter and its id. -/
def letter_leaves : node → List (Char × Nat)
  | null => []
  | empty_node => []
  | letter_node c i => [(c, i)]
  | terminator_node _ => []
  | or_node c0 c1 => c0.letter_leaves ++ c1.letter_leaves
  | cat_node c0 c1 => c0.letter_leaves ++ c1.letter_leaves
  | star_node c => c.letter_leaves

/-- The links the specification gives to `followpos`: at each `Cat(l, r)` from
every position of `lastpos(l)` to every position of `firstpos(r)`, at each
`Star(c)` from every position of `lastpos(c)` to every position of
`firstpos(c)`; `Empty`, `Letter`, `Terminator` and `Or` add none of their own. -/
def spec_follow : node → Nat → Nat → Prop
  | null, _, _ => False
  | empty_node, _, _ => False
  | letter_node _ _, _, _ => False
  | terminator_node _, _, _ => False
  | or_node c0 c1, p, q => c0.spec_follow p q ∨ c1.spec_follow p q
  | cat_node c0 c1, p, q =>
    (∃ l s, c0.lastpos = .ok l ∧ c1.firstpos = .ok s ∧ p ∈ l ∧ q ∈ s) ∨
      c0.spec_follow p q ∨ c1.spec_follow p q
  | star_node c, p, q =>
    (∃ l s, c.lastpos = .ok l ∧ c.firstpos = .ok s ∧ p ∈ l ∧ q ∈ s) ∨ c.spec_follow p q

/-- The ids of the end markers, left to right. -/
def terminators : node → List Nat
  | null => []
  | empty_node => []
  | letter_node _ _ => []
  | terminator_node i => [i]
  | or_node c0 c1 => c0.terminators ++ c1.terminators
  | cat_node c0 c1 => c0.terminators ++ c1.terminators
  | star_node c => c.terminators

end node

/-- What a parsing function guarantees when it returns `res` from the state `st`:
the leaves of the node carry, left to right, exactly the ids handed out during
the call, and the node holds no end marker. -/
def parse_inv (st : parser_state) (res : node × parser_state) : Prop :=
  st.current_id ≤ res.2.current_id ∧
    res.1.leaf_ids = List.range' st.current_id (res.2.current_id - st.current_id) ∧
    res.1.no_terminator

namespace regex_tree

/-- The characters `peek` classifies as `symbol::letter`. -/
def is_letter (c : Char) : Bool := decide (peek ⟨[c], 0⟩ = symbol.letter)

/-- What a parsing function has read when it returns `res` from the state `st`:
the input it consumed holds no `+`, and the letters among it are the letters of
the letter leaves of the node, in the same order. -/
def consumed (st : parser_state) (res : node × parser_state) : Prop :=
  ∃ u, st.pos = u ++ res.2.pos ∧ '+' ∉ u ∧
    res.1.letter_leaves.map Prod.fst = u.filter is_letter

/-- The function `regex()` a parsing function calls stays within its budget on
inputs shorter than `B`: it fails only with "Invalid Regex" or on a null pointer,
and it never adds to the input. -/
def bounded (regexfn : parser_state → Except failure (node × parser_state)) (B : Nat) : Prop :=
  ∀ st, st.pos.length < B →
    (∀ e, regexfn st = .error e → e = failure.invalid_regex ∨ e = failure.null_deref) ∧
      ∀ res, regexfn st = .ok res → res.2.pos.length ≤ st.pos.length

/-- What the constructor establishes: the root is `Cat(r0, Terminator(k))`, the
leaves of `r0` carry the ids `0 .. k-1` left to right, and `followpos_` holds the
links of `build_followpos`. -/
structure built (t : regex_tree) (r0 : node) (k : Nat) : Prop where
  cid : t.current_id = k + 1
  root_eq : t.root = node.cat_node r0 (node.terminator_node k)
  nn : r0.no_null
  ids : r0.leaf_ids = List.range k
  nt : r0.no_terminator
  fol : ∀ p q, q ∈ t.followpos_ p ↔ t.root.follow p q
  fol_sorted : ∀ p, (t.followpos_ p).Pairwise (fun x y => pos_lt x y = true)

/-- The map `state_id` holds `c` pairwise different position sets, numbered
`0 .. c-1` in the order of their insertion; each is a `std::set` of positions
below `n`. -/
def sigma_ok (n c : Nat) (sigma : List (List Nat × Int)) : Prop :=
  sigma.map Prod.snd = (List.range c).map (fun (i : Nat) => (i : Int)) ∧
    (sigma.map Prod.fst).Nodup ∧
    ∀ S ∈ sigma.map Prod.fst, S.Pairwise (fun x y => pos_lt x y = true) ∧ ∀ x ∈ S, x < n

/-- One step of the loop `for(node *n : positions)` on a position that is a leaf. -/
def u_step (t : regex_tree) (st : Bool × List (Char × List Nat)) (n : Nat) :
    Bool × List (Char × List Nat) :=
  match t.root.leaf n with
  | none => st
  | some ln =>
    if ln.is_terminator then (true, st.2)
    else (st.1, map_set ln.letter
      (set_insert_all pos_lt ((map_find ln.letter st.2).getD []) (t.followpos_ n)) st.2)

/-- The flag `accepting` and the map `u_map` of `construct_dfa` for the state
`positions`. -/
def u_map (t : regex_tree) (positions : List Nat) : Bool × List (Char × List Nat) :=
  positions.foldl (u_step t) (false, [])

/-- The rows emitted so far: for every state id below the number of rows, the
flag and the transition map of the position set that was given this id. -/
def rows_ok (t : regex_tree) (res : dfa) (sigma : List (List Nat × Int)) : Prop :=
  ∀ i S, i < res.accepting_.length → (sigma.map Prod.fst)[i]? = some S →
    res.accepting_[i]? = some (if (u_map t S).1 then 1 else 0) ∧
    (∀ e ∈ (u_map t S).2, ∃ j, state_id_find e.2 sigma = some j) ∧
    ∃ row, res.transitions[i]? = some row ∧ dfa.is_map row ∧
      ∀ a, map_find a row =
        match map_find a (u_map t S).2 with
        | some U => state_id_find U sigma
        | none => none

/-- Every state id but 0 was handed out while the row of an earlier state was
built, and is a target of that row. -/
def parent_ok (res : dfa) (c : Nat) : Prop :=
  ∀ j, 0 < j → j < c → ∃ i, i < j ∧ i < res.accepting_.length ∧
    ∃ row a, res.transitions[i]? = some row ∧ map_find a row = some (j : Int)

/-- The invariant of the loop `while(!unmarked.empty())` of `construct_dfa`. -/
structure loop_inv (t : regex_tree) (k : Nat) (st : construct_state) : Prop where
  sig : sigma_ok (k + 1) st.current_state st.state_id
  len : st.res.transitions.length = st.res.accepting_.length
  le : st.res.accepting_.length ≤ st.current_state
  queue : st.unmarked = (st.state_id.map Prod.fst).drop st.res.accepting_.length
  rows : rows_ok t st.res st.state_id
  first : state_id_find t.root.fp st.state_id = some 0
  parent : parent_ok st.res st.current_state

/-- What `construct_dfa` returns: `sigma` is the final `state_id`. -/
structure constructed (t : regex_tree) (k : Nat) (d : dfa) (sigma : List (List Nat × Int)) :
    Prop where
  sig : sigma_ok (k + 1) d.size sigma
  len : d.transitions.length = d.accepting_.length
  rows : rows_ok t d sigma
  first : state_id_find t.root.fp sigma = some 0
  parent : parent_ok d d.size

/-- The position set reached from `S` over the word `w`. -/
def nacc (t : regex_tree) (k : Nat) : (Nat → Prop) → List Char → Prop
  | S, [] => S k
  | S, a :: w =>
    nacc t k (fun q => ∃ n, S n ∧ t.root.leaf n = some (node.letter_node a n) ∧
      q ∈ t.followpos_ n) w

/-- From the position `p` the word `w` leads along `followpos_` to the end marker. -/
def nwalk (t : regex_tree) (k : Nat) : Nat → List Char → Prop
  | p, [] => p = k
  | p, a :: w =>
    t.root.leaf p = some (node.letter_node a p) ∧ ∃ q, q ∈ t.followpos_ p ∧ nwalk t k q w

end regex_tree

/-- From `x` the positions `rest` are visited in turn along `R`, and the last
position visited satisfies `fin`. -/
def walk (R : Nat → Nat → Prop) (fin : Nat → Prop) : Nat → List Nat → Prop
  | x, [] => fin x
  | x, y :: rest => R x y ∧ walk R fin y rest

/-- The sequence of positions is a path of the tree: empty when the tree is
nullable, else from a first position along `follow` to a last position. -/
def gpath (t : node) : List Nat → Prop
  | [] => t.nl = true
  | p :: rest => p ∈ t.fp ∧ walk t.follow (fun x => x ∈ t.lp) p rest

namespace dfa

/-- The value `next` returns on a state of `[0, size]` of a well-formed DFA. -/
def nx (d : dfa) (p : Nat) (c : Char) : Nat :=
  match map_find c (d.transitions.getD p []) with
  | some t => t.toNat
  | none => d.size

/-- The value `accepting` returns on a state of `[0, size]`. -/
def ac (d : dfa) (p : Nat) : Bool :=
  match d.accepting_[p]? with
  | some a => a != 0
  | none => false

/-- The state reached from `p` over the word `w`. -/
def nxs (d : dfa) : Nat → List Char → Nat
  | p, [] => p
  | p, c :: w => nxs d (nx d p c) w

/-- The cell `table[p][q]`. -/
def cell (t : table) (p q : Nat) : Bool := (t.getD p []).getD q false

/-- The table has `n + 1` rows of `n + 1` cells. -/
def dims (t : table) (n : Nat) : Prop :=
  t.length = n + 1 ∧ ∀ row ∈ t, row.length = n + 1

/-- The cell `distinct` reads for the states `p` and `q`. -/
def dcell (t : table) (p q : Nat) : Bool := cell t (max p q) (min p q)

/-- The table with the cell `(p, q)` set to `b`. -/
def tset (t : table) (p q : Nat) (b : Bool) : table :=
  t.set p ((t.getD p []).set q b)

/-- The pair `update` returns on the states `p` and `q` of a well-formed DFA. -/
def upd (d : dfa) (p q : Nat) (t : table) : Bool × table :=
  if dcell t p q then (false, t)
  else
    let u := (d.transitions.getD p [] ++ d.transitions.getD q []).any
      (fun e => dcell t (nx d p e.1) (nx d q e.1))
    (u, if u then tset t (max p q) (min p q) true else t)

/-- The pair one pass over the pairs `l` returns on a well-formed DFA. -/
def pass_pure (d : dfa) : List (Nat × Nat) → Bool × table → Bool × table
  | [], st => st
  | (p, q) :: rest, (updated, t) =>
    pass_pure d rest (updated || (upd d p q t).1, (upd d p q t).2)

/-- The number of cells below the diagonal that are still unmarked. -/
def unmarked_cells (n : Nat) (t : table) : Nat :=
  (pairs n).countP (fun pq => !cell t pq.1 pq.2)

/-- Two states are distinguished by some word. -/
def distinguishable (d : dfa) (p q : Nat) : Prop :=
  ∃ w, ac d (nxs d p w) ≠ ac d (nxs d q w)

/-- Every marked pair of the table is distinguishable. -/
def sound (d : dfa) (t : table) : Prop :=
  ∀ p q, p ≤ d.size → q ≤ d.size → dcell t p q = true → distinguishable d p q

/-- Every pair that differs in acceptance is marked. -/
def seeded (d : dfa) (t : table) : Prop :=
  ∀ p q, p ≤ d.size → q ≤ d.size → ac d p ≠ ac d q → dcell t p q = true

/-- No pass can mark a further pair. -/
def stable (d : dfa) (t : table) : Prop :=
  ∀ p q, q < p → p ≤ d.size → dcell t p q = false →
    ∀ e ∈ d.transitions.getD p [] ++ d.transitions.getD q [],
      dcell t (nx d p e.1) (nx d q e.1) = false

/-- The table `minimize` groups the states by: of the right size, marking only
distinguishable pairs, marking every pair that differs in acceptance, and
closed under the marking rule. -/
def final_table (d : dfa) (t : table) : Prop :=
  dims t d.size ∧ sound d t ∧ seeded d t ∧ stable d t

/-- No word distinguishes the two states. -/
def equiv (d : dfa) (p q : Nat) : Prop :=
  ∀ w, ac d (nxs d p w) = ac d (nxs d q w)

/-- The states of `[0, n]` not marked against `p`, ascending: the group of `p`. -/
def cls (n : Nat) (t : table) (p : Nat) : List Int :=
  List.map (fun (q : Nat) => (q : Int)) ((List.range (n + 1)).filter (fun q => !dcell t p q))

/-- The index `find_group_index` returns when some group contains `state`. -/
def gidx (groups_arr : List (List Int)) (state : Int) : Nat :=
  groups_arr.findIdx (fun g => set_count int_lt state g)

/-- The array holds exactly the groups of the states of `[0, size]`. -/
def is_grouping (d : dfa) (t : table) (groups_arr : List (List Int)) : Prop :=
  (∀ g ∈ groups_arr, ∃ p ≤ d.size, g = cls d.size t p) ∧
    ∀ p ≤ d.size, cls d.size t p ∈ groups_arr

/-- The target stored for the letter `c` in the row `k` of `tr`. -/
def look (tr : List (List (Char × Int))) (k : Nat) (c : Char) : Option Int :=
  map_find c (tr.getD k [])

/-- The flag `is_accepting` computed for a group of states of `[0, size]`. -/
def gacc (d : dfa) (g : List Int) : Bool :=
  g.any (fun s => ac d s.toNat)

/-- What `minimize` computes on a well-formed DFA: `t` is the filled table,
`ga` the array of groups, which the swap leaves as it is, and `m` the result. -/
structure min_spec (d : dfa) (t : table) (ga : List (List Int)) (m : dfa) : Prop where
  final : final_table d t
  grouping : is_grouping d t ga
  groups_eq : make_groups d t = .ok ga
  sorted : ga.Pairwise (fun x y => lex_lt x y = true)
  start : gidx ga 0 = 0
  acc : m.accepting_ = ga.map (fun g => if gacc d g then 1 else 0)
  len : m.transitions.length = ga.length
  maps : ∀ row ∈ m.transitions, is_map row
  sound_tr : ∀ k c v, look m.transitions k c = some v →
    ∃ i j, i < d.size ∧ (c, j) ∈ d.transitions.getD i [] ∧ gidx ga i = k ∧ v = gidx ga j
  total_tr : ∀ i c j, i < d.size → (c, j) ∈ d.transitions.getD i [] →
    ∃ v, look m.transitions (gidx ga i) c = some v

/-- Every stored target is a real state. -/
def closed (d : dfa) : Prop :=
  ∀ m ∈ d.transitions, ∀ p ∈ m, p.2 < (d.size : Int)

instance (d : dfa) : Decidable (closed d) := by
  unfold closed; infer_instance

/-- The real state `s` is reached from state 0 by `next` over some word. -/
def reachable (d : dfa) (s : Int) : Prop :=
  ∃ w, d.run 0 w = .ok s ∧ s < (d.size : Int)

/-- The states declared by a sequence of lines, in order. -/
def declared : List dot_line → List Int
  | [] => []
  | dot_line.node id _ :: rest => id :: declared rest
  | dot_line.edge _ _ _ :: rest => declared rest

/-- The lines one iteration of the loop of `graph` writes for the state `a`: its
declaration, then one edge for each entry of `transitions[a]`, in key order. -/
def block (d : dfa) (a : Int) : List dot_line :=
  dot_line.node a (ac d a.toNat) ::
    (d.transitions.getD a.toNat []).map (fun p => dot_line.edge a p.2 p.1)

/-- The targets stored for the state `s`, in key order. -/
def targets (d : dfa) (s : Int) : List Int :=
  (d.transitions.getD s.toNat []).map Prod.snd

/-- The list `seen` with the states of a list appended in turn, each only if it
is not in the list yet. -/
def push_new (seen : List Int) : List Int → List Int
  | [] => seen
  | x :: rest => if x ∈ seen then push_new seen rest else push_new (seen ++ [x]) rest

/-- The states discovered, in the order of their discovery, when the states of
`P` are handled in turn: state 0 first, then the targets of each state of `P` in
key order, each state the first time it is met. -/
def discovered (d : dfa) (P : List Int) : List Int :=
  P.foldl (fun seen s => push_new seen (targets d s)) [0]

/-- The work list after the states of `P` have been handled in turn: the
discovered states that are not in `P`, in the order of their discovery. -/
def pending (d : dfa) (P : List Int) : List Int :=
  (discovered d P).filter (fun x => decide (x ∉ P))

/-- The invariant of the loop `while(!q.empty())` of `graph`: the visited states
are the declared ones and those on `q`, each once; all of them are real states
reached from state 0; the targets of the declared states are visited; and the
output so far is the sequence of the blocks of the declared states; `q` holds
the discovered states not yet declared, in the order of their discovery, and
every state declared so far was the last of them when it was taken. -/
structure graph_inv (d : dfa) (V q : List Int) (ss : List dot_line) : Prop where
  mem : ∀ x, x ∈ V ↔ x ∈ declared ss ∨ x ∈ q
  nd_decl : (declared ss).Nodup
  nd_q : q.Nodup
  disj : ∀ x ∈ q, x ∉ declared ss
  reach : ∀ x ∈ V, 0 ≤ x ∧ x < (d.size : Int) ∧ ∃ w, ((nxs d 0 w : Nat) : Int) = x
  start : (0 : Int) ∈ V
  edges : ∀ a ∈ declared ss, ∀ p ∈ d.transitions.getD a.toNat [], p.2 ∈ V
  blocks : ss = (declared ss).flatMap (block d)
  head : (declared ss).head? = some 0 ∨ (declared ss = [] ∧ q = [0])
  seen : ∀ x, x ∈ V ↔ x ∈ discovered d (declared ss)
  stack : q = pending d (declared ss)
  order : ∀ k, k < (declared ss).length →
    (declared ss)[k]? = (pending d ((declared ss).take k)).getLast?

/-- The states within `n` transitions of state 0. -/
def within (d : dfa) : Nat → List Int
  | 0 => [0]
  | n + 1 =>
    within d n ++ (within d n).flatMap (fun s =>
      if 0 ≤ s then (d.transitions.getD s.toNat []).map Prod.snd else [])

/-- The breadth-first distance of the state `s` from state 0: the least number
of transitions that lead from state 0 to `s`. -/
def dist (d : dfa) (s : Int) : Option Nat :=
  (List.range (d.size + 1)).find? (fun n => decide (s ∈ within d n))

/-- The DFA has no useless real state: every real state is reached from state 0,
from every real state some word is accepted, and every stored target is a real
state. -/
structure trim (d : dfa) : Prop where
  reach : ∀ i, i < d.size → ∃ w, nxs d 0 w = i
  live : ∀ i, i < d.size → ∃ w, ac d (nxs d i w) = true
  real : ∀ i c v, look d.transitions i c = some v → v.toNat < d.size

/-- A transition map with every target renamed by `f`. -/
def relabel (f : Nat → Nat) (row : List (Char × Int)) : List (Char × Int) :=
  row.map (fun e => (e.1, ((f e.2.toNat : Nat) : Int)))

/-- The renaming `f` of state ids is a bijection of the states of `m1` onto the
states of `m2` that fixes 0 and carries the accepting flags and the transition
maps of `m1` onto those of `m2`. -/
structure isomorphic (m1 m2 : dfa) (f : Nat → Nat) : Prop where
  size_eq : m1.size = m2.size
  rows1 : m1.transitions.length = m1.size
  rows2 : m2.transitions.length = m2.size
  start : f 0 = 0
  lt : ∀ k, k < m1.size → f k < m2.size
  inj : ∀ k k1, k < m1.size → k1 < m1.size → f k = f k1 → k = k1
  surj : ∀ k2, k2 < m2.size → ∃ k, k < m1.size ∧ f k = k2
  acc : ∀ k, k < m1.size → m2.accepting_[f k]? = m1.accepting_[k]?
  tr : ∀ k, k < m1.size → m2.transitions[f k]? = (m1.transitions[k]?).map (relabel f)

/-- Every cell marked in `t` is marked in `t1`. -/
def le_tab (t t1 : table) : Prop :=
  ∀ i j, cell t i j = true → cell t1 i j = true

end dfa

/-! ## Concrete scenarios -/

/-- The DFA that `construct_dfa` returns for the regex `a`. -/
def dfa_a : dfa := ⟨[[('a', 1)], []], [0, 1]⟩

/-- The tree the constructor builds for the regex `a`. -/
def tree_a : regex_tree :=
  { current_id := 2, str := "a".toList, pos := [],
    root := node.cat_node (node.letter_node 'a' 0) (node.terminator_node 1),
    followpos_ := node.add_followpos [0] [1] (fun _ => []) }

/-- The tree `start` returns for the regex `a|b`. -/
def regex_a_or_b : node :=
  node.or_node (node.letter_node 'a' 0) (node.letter_node 'b' 1)

/-- The tree `start` returns for the regex `b|a`. -/
def regex_b_or_a : node :=
  node.or_node (node.letter_node 'b' 0) (node.letter_node 'a' 1)

/-- The tree the constructor builds for the regex `a|b`. -/
def tree_a_or_b : regex_tree :=
  { current_id := 3, str := "a|b".toList, pos := [],
    root := node.cat_node regex_a_or_b (node.terminator_node 2),
    followpos_ := node.add_followpos [0, 1] [2] (fun _ => []) }

/-- The tree the constructor builds for the regex `b|a`. -/
def tree_b_or_a : regex_tree :=
  { current_id := 3, str := "b|a".toList, pos := [],
    root := node.cat_node regex_b_or_a (node.terminator_node 2),
    followpos_ := node.add_followpos [0, 1] [2] (fun _ => []) }

/-- The DFA that `construct_dfa` returns for the regex `a*`. -/
def dfa_a_star : dfa := ⟨[[('a', 0)]], [1]⟩

/-- The DFA that `construct_dfa` returns for the regex `abc`. -/
def dfa_abc : dfa := ⟨[[('a', 1)], [('b', 2)], [('c', 3)], []], [0, 0, 0, 1]⟩

/-- The DFA that `construct_dfa` returns for the regex `ab`. -/
def dfa_ab : dfa := ⟨[[('a', 1)], [('b', 2)], []], [0, 0, 1]⟩

/-- The DFA that `construct_dfa` returns for the empty regex. -/
def dfa_empty : dfa := ⟨[[]], [1]⟩

/-- The DFA that `construct_dfa` returns for the regex `ab|cd`. -/
def dfa_ab_cd : dfa :=
  ⟨[[('a', 1), ('c', 2)], [('b', 3)], [('d', 3)], []], [0, 0, 0, 1]⟩

/-- The DFA that `construct_dfa` returns for the regex `(a|b)*abb`. -/
def dfa_abb : dfa :=
  ⟨[[('a', 1), ('b', 0)], [('a', 1), ('b', 2)], [('a', 1), ('b', 3)], [('a', 1), ('b', 0)]],
    [0, 0, 0, 1]⟩

end Regex2Dfa

namespace Regex2Dfa

@[simp] theorem ok_bind {ε α β : Type} (a : α) (f : α → Except ε β) :
    (Except.ok a >>= f) = f a := rfl
@[simp] theorem error_bind {ε α β : Type} (e : ε) (f : α → Except ε β) :
    (Except.error e >>= f) = Except.error e := rfl
@[simp] theorem pure_eq_ok {ε α : Type} (a : α) : (pure a : Except ε α) = Except.ok a := rfl

namespace dfa

theorem map_find_mem {β : Type} (c : Char) (m : List (Char × β)) (v : β)
    (h : map_find c m = some v) : (c, v) ∈ m := by
  induction m with
  | nil => simp [map_find] at h
  | cons a rest ih =>
    obtain ⟨k, w⟩ := a
    simp only [map_find] at h
    split at h
    · rename_i hk
      simp at h
      subst hk; subst h
      simp
    · exact List.mem_cons_of_mem _ (ih h)

theorem nx_le (d : dfa) (h : d.well_formed) (p : Nat) (c : Char) : nx d p c ≤ d.size := by
  unfold nx
  split
  · rename_i t ht
    have hm := map_find_mem _ _ _ ht
    by_cases hp : p < d.transitions.length
    · have hrow : d.transitions.getD p [] ∈ d.transitions := by
        rw [List.getD_eq_getElem _ _ hp]
        exact List.getElem_mem _
      have := (h.2.2.2 _ hrow _ hm).2
      simp at this
      omega
    · rw [List.getD_eq_default _ _ (by omega)] at hm
      simp at hm
  · exact le_refl _

theorem next_eq (d : dfa) (h : d.well_formed) (p : Nat) (hp : p ≤ d.size) (c : Char) :
    d.next p c = .ok (nx d p c : Int) := by
  unfold next nx
  have h1 : ¬ ((p : Int) < 0 ∨ (d.size : Int) < p) := by omega
  rw [if_neg h1]
  by_cases hpe : p = d.size
  · subst hpe
    have hd : d.transitions.getD d.size [] = [] :=
      List.getD_eq_default _ _ (by rw [h.2.1]; exact le_refl _)
    rw [hd]
    simp [map_find]
  · have hlt : p < d.transitions.length := by rw [h.2.1]; unfold size at *; omega
    have h2 : ¬ ((p : Int) = d.size) := by omega
    rw [if_neg h2]
    simp only [Int.toNat_ofNat]
    rw [List.getElem?_eq_getElem hlt, List.getD_eq_getElem _ _ hlt]
    simp only
    cases hf : map_find c d.transitions[p] with
    | none => rfl
    | some t =>
      simp only
      have hm := map_find_mem _ _ _ hf
      have := (h.2.2.2 _ (List.getElem_mem hlt) _ hm).1
      simp at this
      congr 1
      omega

theorem accepting_eq (d : dfa) (p : Nat) (hp : p ≤ d.size) :
    d.accepting p = .ok (ac d p) := by
  unfold accepting ac
  have h1 : ¬ ((p : Int) < 0 ∨ (d.size : Int) < p) := by omega
  rw [if_neg h1]
  by_cases hpe : p = d.size
  · subst hpe
    simp [size]
  · have h2 : ¬ ((p : Int) = d.size) := by omega
    rw [if_neg h2]
    simp only [Int.toNat_ofNat]
    have hlt : p < d.accepting_.length := by unfold size at *; omega
    rw [List.getElem?_eq_getElem hlt]
end dfa
end Regex2Dfa

namespace Regex2Dfa
namespace dfa

theorem dims_row (t : table) (n : Nat) (h : dims t n) (p : Nat) (hp : p ≤ n) :
    ∃ row, t[p]? = some row ∧ row.length = n + 1 := by
  have hlt : p < t.length := by rw [h.1]; omega
  exact ⟨t[p], List.getElem?_eq_getElem hlt, h.2 _ (List.getElem_mem hlt)⟩

theorem table_get_eq (t : table) (n : Nat) (h : dims t n) (p q : Nat) (hp : p ≤ n)
    (hq : q ≤ n) : table_get t p q = .ok (cell t p q) := by
  obtain ⟨row, hrow, hlen⟩ := dims_row t n h p hp
  have h1 : ¬ ((p : Int) < 0 ∨ (q : Int) < 0) := by omega
  have hq2 : q < row.length := by omega
  simp only [table_get, if_neg h1, Int.toNat_ofNat, hrow, cell, List.getD_eq_getElem?_getD,
    Option.getD_some, List.getElem?_eq_getElem hq2]

theorem table_set_eq (t : table) (n : Nat) (h : dims t n) (p q : Nat) (hp : p ≤ n)
    (hq : q ≤ n) (b : Bool) : table_set t p q b = .ok (tset t p q b) := by
  obtain ⟨row, hrow, hlen⟩ := dims_row t n h p hp
  have h1 : ¬ ((p : Int) < 0 ∨ (q : Int) < 0) := by omega
  have hq2 : q < row.length := by omega
  simp only [table_set, if_neg h1, Int.toNat_ofNat, hrow, if_pos hq2, tset,
    List.getD_eq_getElem?_getD, Option.getD_some]

theorem dims_tset (t : table) (n : Nat) (h : dims t n) (p q : Nat) (b : Bool) :
    dims (tset t p q b) n := by
  refine ⟨by simp [tset, h.1], ?_⟩
  intro r hr
  by_cases hp : p < t.length
  · rcases List.mem_or_eq_of_mem_set hr with hr | hr
    · exact h.2 _ hr
    · subst hr
      simp only [List.length_set, List.getD_eq_getElem _ _ hp]
      exact h.2 _ (List.getElem_mem hp)
  · unfold tset at hr
    rw [List.set_eq_of_length_le (by omega)] at hr
    exact h.2 _ hr

theorem cell_tset (t : table) (n : Nat) (h : dims t n) (p q : Nat) (hp : p ≤ n)
    (hq : q ≤ n) (b : Bool) (i j : Nat) :
    cell (tset t p q b) i j = if i = p ∧ j = q then b else cell t i j := by
  obtain ⟨row, hrow, hlen⟩ := dims_row t n h p hp
  have hq2 : q < row.length := by omega
  have hlt : p < t.length := by rw [h.1]; omega
  simp only [cell, tset, List.getD_eq_getElem?_getD, hrow, Option.getD_some]
  by_cases hi : i = p
  · subst hi
    simp only [List.getElem?_set_self hlt, Option.getD_some, true_and]
    by_cases hj : j = q
    · subst hj
      simp [List.getElem?_set_self hq2]
    · simp only [if_neg hj, hrow, Option.getD_some]
      rw [List.getElem?_set_ne (Ne.symm hj)]
  · rw [List.getElem?_set_ne (Ne.symm hi)]
    simp [hi]

theorem cast_max (p q : Nat) : max (p : Int) (q : Int) = ((max p q : Nat) : Int) := by
  push_cast; rfl

theorem cast_min (p q : Nat) : min (p : Int) (q : Int) = ((min p q : Nat) : Int) := by
  push_cast; rfl

theorem distinct_eq (t : table) (n : Nat) (h : dims t n) (p q : Nat) (hp : p ≤ n)
    (hq : q ≤ n) : distinct p q t = .ok (dcell t p q) := by
  unfold distinct dcell
  rw [cast_max, cast_min]
  exact table_get_eq t n h _ _ (by omega) (by omega)

theorem set_distinct_eq (t : table) (n : Nat) (h : dims t n) (p q : Nat) (hp : p ≤ n)
    (hq : q ≤ n) (b : Bool) :
    set_distinct p q t b = .ok (tset t (max p q) (min p q) b) := by
  unfold set_distinct
  rw [cast_max, cast_min]
  exact table_set_eq t n h _ _ (by omega) (by omega) b

end dfa
end Regex2Dfa

namespace Regex2Dfa
namespace dfa

theorem tset_idem (t : table) (p q : Nat) (b : Bool) :
    tset (tset t p q b) p q b = tset t p q b := by
  unfold tset
  by_cases hp : p < t.length
  · simp [List.getD_eq_getElem?_getD, List.getElem?_set_self hp, List.set_set]
  · have h1 : t.set p ((t.getD p []).set q b) = t := List.set_eq_of_length_le (by omega)
    rw [h1, h1]

theorem update_map_eq (d : dfa) (h : d.well_formed) (p : Nat) (hp : p ≤ d.size) :
    update_map d p = .ok (d.transitions.getD p []) := by
  unfold update_map
  by_cases hpe : p = d.size
  · subst hpe
    have hd : d.transitions.getD d.size [] = [] :=
      List.getD_eq_default _ _ (by rw [h.2.1]; exact le_refl _)
    rw [hd]
    simp
  · have hlt : p < d.transitions.length := by rw [h.2.1]; unfold size at *; omega
    have h2 : ¬ ((p : Int) = d.size) := by omega
    have h3 : ¬ ((p : Int) < 0) := by omega
    simp only [if_neg h2, if_neg h3, Int.toNat_ofNat, List.getElem?_eq_getElem hlt,
      List.getD_eq_getElem _ _ hlt]

theorem update_loop_marked (d : dfa) (h : d.well_formed) (t : table) (hd : dims t d.size)
    (p q : Nat) (hp : p ≤ d.size) (hq : q ≤ d.size) (l : List (Char × Int)) :
    update_loop d p q l (true, tset t (max p q) (min p q) true) =
      .ok (true, tset t (max p q) (min p q) true) := by
  induction l with
  | nil => rfl
  | cons e rest ih =>
    have hd1 := dims_tset t _ hd (max p q) (min p q) true
    simp only [update_loop, next_eq d h p hp, next_eq d h q hq, ok_bind,
      distinct_eq _ _ hd1 _ _ (nx_le d h p e.1) (nx_le d h q e.1),
      set_distinct_eq _ _ hd1 p q hp hq, tset_idem, ih, ite_self]

theorem update_loop_eq (d : dfa) (h : d.well_formed) (t : table) (hd : dims t d.size)
    (p q : Nat) (hp : p ≤ d.size) (hq : q ≤ d.size) (l : List (Char × Int)) :
    update_loop d p q l (false, t) =
      .ok (l.any (fun e => dcell t (nx d p e.1) (nx d q e.1)),
        if l.any (fun e => dcell t (nx d p e.1) (nx d q e.1))
          then tset t (max p q) (min p q) true else t) := by
  induction l with
  | nil => rfl
  | cons e rest ih =>
    simp only [update_loop, next_eq d h p hp, next_eq d h q hq, ok_bind,
      distinct_eq _ _ hd _ _ (nx_le d h p e.1) (nx_le d h q e.1),
      set_distinct_eq _ _ hd p q hp hq, List.any_cons]
    by_cases hc : dcell t (nx d p e.1) (nx d q e.1) = true
    · simp [hc, update_loop_marked d h t hd p q hp hq]
    · have hc1 : dcell t (nx d p e.1) (nx d q e.1) = false := by simpa using hc
      simp only [hc1, Bool.false_or, Bool.false_eq_true, if_false]
      exact ih

theorem update_eq (d : dfa) (h : d.well_formed) (t : table) (hd : dims t d.size)
    (p q : Nat) (hp : p ≤ d.size) (hq : q ≤ d.size) :
    update d p q t = .ok (upd d p q t) := by
  unfold update upd
  simp only [distinct_eq _ _ hd p q hp hq, ok_bind]
  by_cases hc : dcell t p q = true
  · simp [hc]
  · have hc1 : dcell t p q = false := by simpa using hc
    simp only [hc1, update_map_eq d h p hp, update_map_eq d h q hq, ok_bind,
      update_loop_eq d h t hd p q hp hq]
    simp

end dfa
end Regex2Dfa

namespace Regex2Dfa
namespace dfa

theorem mem_pairs (n p q : Nat) : (p, q) ∈ pairs n ↔ q < p ∧ p ≤ n := by
  simp only [pairs, List.mem_flatMap, List.mem_range, List.mem_map, Prod.mk.injEq]
  constructor
  · rintro ⟨a, ha, b, hb, rfl, rfl⟩
    omega
  · rintro ⟨h1, h2⟩
    exact ⟨p, by omega, q, h1, rfl, rfl⟩

theorem dcell_of_lt (t : table) (p q : Nat) (h : q < p) : dcell t p q = cell t p q := by
  unfold dcell
  rw [max_eq_left (le_of_lt h), min_eq_right (le_of_lt h)]

theorem dcell_comm (t : table) (p q : Nat) : dcell t p q = dcell t q p := by
  unfold dcell
  rw [max_comm, min_comm]

theorem dims_upd (d : dfa) (t : table) (n : Nat) (hd : dims t n) (p q : Nat) :
    dims (upd d p q t).2 n := by
  unfold upd
  split
  · exact hd
  · simp only
    split
    · exact dims_tset t n hd _ _ _
    · exact hd

theorem le_tab_refl (t : table) : le_tab t t := fun _ _ h => h

theorem le_tab_trans (t1 t2 t3 : table) (h1 : le_tab t1 t2) (h2 : le_tab t2 t3) :
    le_tab t1 t3 := fun i j h => h2 i j (h1 i j h)

theorem le_tab_tset (t : table) (n : Nat) (hd : dims t n) (p q : Nat) (hp : p ≤ n)
    (hq : q ≤ n) : le_tab t (tset t p q true) := by
  intro i j h
  rw [cell_tset t n hd p q hp hq]
  split
  · rfl
  · exact h

theorem le_tab_upd (d : dfa) (t : table) (n : Nat) (hd : dims t n) (p q : Nat)
    (hp : p ≤ n) (hq : q ≤ n) : le_tab t (upd d p q t).2 := by
  unfold upd
  split
  · exact le_tab_refl t
  · simp only
    split
    · exact le_tab_tset t n hd _ _ (by omega) (by omega)
    · exact le_tab_refl t

theorem distinguishable_symm (d : dfa) (p q : Nat) (h : distinguishable d p q) :
    distinguishable d q p := by
  obtain ⟨w, hw⟩ := h
  exact ⟨w, fun e => hw e.symm⟩

theorem distinguishable_step (d : dfa) (p q : Nat) (c : Char)
    (h : distinguishable d (nx d p c) (nx d q c)) : distinguishable d p q := by
  obtain ⟨w, hw⟩ := h
  exact ⟨c :: w, hw⟩

theorem sound_upd (d : dfa) (t : table) (hd : dims t d.size) (hs : sound d t) (p q : Nat)
    (hp : p ≤ d.size) (hq : q ≤ d.size) (h : d.well_formed) : sound d (upd d p q t).2 := by
  unfold upd
  split
  · exact hs
  · simp only
    split
    · rename_i hany
      rw [List.any_eq_true] at hany
      obtain ⟨e, _, he⟩ := hany
      have hpq : distinguishable d p q :=
        distinguishable_step d p q e.1 (hs _ _ (nx_le d h p e.1) (nx_le d h q e.1) he)
      intro a b ha hb hab
      unfold dcell at hab
      rw [cell_tset t _ hd _ _ (by omega) (by omega)] at hab
      split at hab
      · rename_i heq
        by_cases hab2 : a ≤ b
        · rw [max_eq_right hab2, min_eq_left hab2] at heq
          by_cases hpq2 : p ≤ q
          · rw [max_eq_right hpq2, min_eq_left hpq2] at heq
            obtain ⟨h1, h2⟩ := heq
            subst h1; subst h2; exact hpq
          · rw [max_eq_left (by omega), min_eq_right (by omega)] at heq
            obtain ⟨h1, h2⟩ := heq
            subst h1; subst h2; exact distinguishable_symm d _ _ hpq
        · rw [max_eq_left (by omega), min_eq_right (by omega)] at heq
          by_cases hpq2 : p ≤ q
          · rw [max_eq_right hpq2, min_eq_left hpq2] at heq
            obtain ⟨h1, h2⟩ := heq
            subst h1; subst h2; exact distinguishable_symm d _ _ hpq
          · rw [max_eq_left (by omega), min_eq_right (by omega)] at heq
            obtain ⟨h1, h2⟩ := heq
            subst h1; subst h2; exact hpq
      · exact hs a b ha hb hab
    · exact hs

theorem upd_true (d : dfa) (t : table) (n : Nat) (hd : dims t n) (p q : Nat) (hqp : q < p)
    (hp : p ≤ n) (h : (upd d p q t).1 = true) :
    cell t p q = false ∧ cell (upd d p q t).2 p q = true := by
  unfold upd at h ⊢
  by_cases hc : dcell t p q = true
  · simp [hc] at h
  · have hc1 : dcell t p q = false := by simpa using hc
    simp only [hc1, Bool.false_eq_true, if_false] at h ⊢
    simp only [h, if_true]
    rw [dcell_of_lt t p q hqp] at hc1
    refine ⟨hc1, ?_⟩
    rw [max_eq_left (le_of_lt hqp), min_eq_right (le_of_lt hqp),
      cell_tset t n hd p q hp (by omega)]
    simp

theorem upd_false (d : dfa) (t : table) (p q : Nat) (h : (upd d p q t).1 = false) :
    (upd d p q t).2 = t ∧ (dcell t p q = false →
      ∀ e ∈ d.transitions.getD p [] ++ d.transitions.getD q [],
        dcell t (nx d p e.1) (nx d q e.1) = false) := by
  unfold upd at h ⊢
  by_cases hc : dcell t p q = true
  · simp only [hc, if_true, true_and]
    intro hc2
    exact absurd hc2 (by simp)
  · have hc1 : dcell t p q = false := by simpa using hc
    simp only [hc1, Bool.false_eq_true, if_false] at h ⊢
    simp only [h, Bool.false_eq_true, if_false, true_and]
    intro _ e he
    rw [List.any_eq_false] at h
    simpa using h e he

end dfa
end Regex2Dfa

namespace Regex2Dfa
namespace dfa

theorem pass_eq (d : dfa) (h : d.well_formed) (l : List (Nat × Nat))
    (hl : ∀ pq ∈ l, pq.2 < pq.1 ∧ pq.1 ≤ d.size) (u : Bool) (t : table)
    (hd : dims t d.size) : pass d l (u, t) = .ok (pass_pure d l (u, t)) := by
  induction l generalizing u t with
  | nil => rfl
  | cons pq rest ih =>
    obtain ⟨p, q⟩ := pq
    have hpq := hl (p, q) (List.mem_cons_self _ _)
    simp only at hpq
    simp only [pass, pass_pure, update_eq d h t hd p q hpq.2 (by omega), ok_bind]
    exact ih (fun x hx => hl x (List.mem_cons_of_mem _ hx)) _ _ (dims_upd d t _ hd p q)

theorem pass_pure_inv (d : dfa) (h : d.well_formed) (l : List (Nat × Nat))
    (hl : ∀ pq ∈ l, pq.2 < pq.1 ∧ pq.1 ≤ d.size) (u : Bool) (t : table)
    (hd : dims t d.size) (hs : sound d t) :
    dims (pass_pure d l (u, t)).2 d.size ∧ sound d (pass_pure d l (u, t)).2 ∧
      le_tab t (pass_pure d l (u, t)).2 := by
  induction l generalizing u t with
  | nil => exact ⟨hd, hs, le_tab_refl t⟩
  | cons pq rest ih =>
    obtain ⟨p, q⟩ := pq
    have hpq := hl (p, q) (List.mem_cons_self _ _)
    simp only at hpq
    simp only [pass_pure]
    have h1 := ih (fun x hx => hl x (List.mem_cons_of_mem _ hx)) (u || (upd d p q t).1)
      (upd d p q t).2 (dims_upd d t _ hd p q)
      (sound_upd d t hd hs p q hpq.2 (by omega) h)
    exact ⟨h1.1, h1.2.1, le_tab_trans _ _ _
      (le_tab_upd d t _ hd p q hpq.2 (by omega)) h1.2.2⟩

theorem pass_pure_false (d : dfa) (l : List (Nat × Nat)) (u : Bool) (t : table)
    (h : (pass_pure d l (u, t)).1 = false) :
    u = false ∧ (pass_pure d l (u, t)).2 = t ∧
      ∀ pq ∈ l, dcell t pq.1 pq.2 = false →
        ∀ e ∈ d.transitions.getD pq.1 [] ++ d.transitions.getD pq.2 [],
          dcell t (nx d pq.1 e.1) (nx d pq.2 e.1) = false := by
  induction l generalizing u t with
  | nil => exact ⟨h, rfl, fun _ hx => absurd hx (List.not_mem_nil _)⟩
  | cons pq rest ih =>
    obtain ⟨p, q⟩ := pq
    simp only [pass_pure] at h ⊢
    obtain ⟨h1, h2, h3⟩ := ih _ _ h
    rw [Bool.or_eq_false_iff] at h1
    obtain ⟨hu, hup⟩ := h1
    obtain ⟨h4, h5⟩ := upd_false d t p q hup
    rw [h4] at h3
    refine ⟨hu, h2.trans h4, ?_⟩
    intro x hx
    rcases List.mem_cons.1 hx with hx | hx
    · subst hx; exact h5
    · exact h3 x hx

theorem pass_pure_true (d : dfa) (h : d.well_formed) (l : List (Nat × Nat))
    (hl : ∀ pq ∈ l, pq.2 < pq.1 ∧ pq.1 ≤ d.size) (t : table)
    (hd : dims t d.size) (hs : sound d t) (hu : (pass_pure d l (false, t)).1 = true) :
    ∃ pq ∈ l, cell t pq.1 pq.2 = false ∧ cell (pass_pure d l (false, t)).2 pq.1 pq.2 = true := by
  induction l generalizing t with
  | nil => simp [pass_pure] at hu
  | cons pq rest ih =>
    obtain ⟨p, q⟩ := pq
    have hpq := hl (p, q) (List.mem_cons_self _ _)
    simp only at hpq
    simp only [pass_pure] at hu ⊢
    have hrest := fun x hx => hl x (List.mem_cons_of_mem _ hx)
    have hd1 := dims_upd d t _ hd p q
    have hs1 := sound_upd d t hd hs p q hpq.2 (by omega) h
    have hle := le_tab_upd d t _ hd p q hpq.2 (by omega)
    by_cases hup : (upd d p q t).1 = true
    · obtain ⟨h1, h2⟩ := upd_true d t _ hd p q hpq.1 hpq.2 hup
      refine ⟨(p, q), List.mem_cons_self _ _, h1, ?_⟩
      exact (pass_pure_inv d h rest hrest _ _ hd1 hs1).2.2 p q h2
    · have hup1 : (upd d p q t).1 = false := by simpa using hup
      rw [hup1] at hu ⊢
      simp only [Bool.or_false] at hu ⊢
      obtain ⟨x, hx, h1, h2⟩ := ih hrest _ hd1 hs1 hu
      refine ⟨x, List.mem_cons_of_mem _ hx, ?_, h2⟩
      cases hc : cell t x.1 x.2
      · rfl
      · rw [hle _ _ hc] at h1
        exact absurd h1 (by simp)

theorem countP_lt_of_flip {α : Type} (l : List α) (P Q : α → Bool)
    (hle : ∀ x ∈ l, P x = true → Q x = true) (x : α) (hx : x ∈ l) (hq : Q x = true)
    (hp : P x = false) : l.countP P < l.countP Q := by
  induction l with
  | nil => exact absurd hx (List.not_mem_nil _)
  | cons a rest ih =>
    have hmono : rest.countP P ≤ rest.countP Q :=
      List.countP_mono_left (fun y hy => hle y (List.mem_cons_of_mem _ hy))
    rcases List.mem_cons.1 hx with hxa | hxr
    · subst hxa
      rw [List.countP_cons_of_pos _ _ hq, List.countP_cons_of_neg _ _ (by simp [hp])]
      omega
    · have := ih (fun y hy => hle y (List.mem_cons_of_mem _ hy)) hxr
      by_cases hpa : P a = true
      · rw [List.countP_cons_of_pos _ _ hpa,
          List.countP_cons_of_pos _ _ (hle a (List.mem_cons_self _ _) hpa)]
        omega
      · rw [List.countP_cons_of_neg _ _ hpa]
        by_cases hqa : Q a = true
        · rw [List.countP_cons_of_pos _ _ hqa]; omega
        · rw [List.countP_cons_of_neg _ _ hqa]; omega

theorem unmarked_cells_lt (n : Nat) (t t1 : table) (hle : le_tab t t1) (p q : Nat)
    (hpq : (p, q) ∈ pairs n) (h0 : cell t p q = false) (h1 : cell t1 p q = true) :
    unmarked_cells n t1 < unmarked_cells n t := by
  unfold unmarked_cells
  apply countP_lt_of_flip _ _ _ _ (p, q) hpq
  · simp [h0]
  · simp [h1]
  · intro x _ hx
    cases hc : cell t x.1 x.2
    · rfl
    · rw [hle _ _ hc] at hx
      simp at hx

theorem fixpoint_spec (d : dfa) (h : d.well_formed) (fuel : Nat) (t : table)
    (hd : dims t d.size) (hs : sound d t) (hf : unmarked_cells d.size t < fuel) :
    ∃ t1, fixpoint d fuel t = .ok t1 ∧ dims t1 d.size ∧ sound d t1 ∧ le_tab t t1 ∧
      stable d t1 := by
  induction fuel generalizing t with
  | zero => omega
  | succ fuel ih =>
    have hl : ∀ pq ∈ pairs d.size, pq.2 < pq.1 ∧ pq.1 ≤ d.size := by
      intro pq hpq
      exact (mem_pairs d.size pq.1 pq.2).1 hpq
    obtain ⟨hd1, hs1, hle1⟩ := pass_pure_inv d h _ hl false t hd hs
    simp only [fixpoint, pass_eq d h _ hl false t hd, ok_bind]
    by_cases hu : (pass_pure d (pairs d.size) (false, t)).1 = true
    · obtain ⟨pq, hpq, h0, h1⟩ := pass_pure_true d h _ hl t hd hs hu
      have hlt := unmarked_cells_lt d.size t _ hle1 pq.1 pq.2 hpq h0 h1
      obtain ⟨t2, h2, h3, h4, h5, h6⟩ := ih _ hd1 hs1 (by omega)
      refine ⟨t2, ?_, h3, h4, le_tab_trans _ _ _ hle1 h5, h6⟩
      rw [← h2]
      simp [hu]
    · have hu1 : (pass_pure d (pairs d.size) (false, t)).1 = false := by simpa using hu
      obtain ⟨_, h2, h3⟩ := pass_pure_false d _ _ _ hu1
      refine ⟨t, ?_, hd, hs, le_tab_refl t, ?_⟩
      · simp [hu1, h2]
      · intro p q hqp hp hc e he
        exact h3 (p, q) ((mem_pairs d.size p q).2 ⟨hqp, hp⟩) hc e he

end dfa
end Regex2Dfa

namespace Regex2Dfa
namespace dfa

theorem seed_spec (d : dfa) (l : List (Nat × Nat))
    (hl : ∀ pq ∈ l, pq.2 < pq.1 ∧ pq.1 ≤ d.size) (t : table) (hd : dims t d.size) :
    ∃ t1, seed d l t = .ok t1 ∧ dims t1 d.size ∧
      ∀ i j, cell t1 i j = if (i, j) ∈ l then (ac d i != ac d j) else cell t i j := by
  induction l generalizing t with
  | nil => exact ⟨t, rfl, hd, fun i j => by simp⟩
  | cons pq rest ih =>
    obtain ⟨p, q⟩ := pq
    have hpq := hl (p, q) (List.mem_cons_self _ _)
    simp only at hpq
    have hq : q ≤ d.size := by omega
    obtain ⟨t1, h1, h2, h3⟩ := ih (fun x hx => hl x (List.mem_cons_of_mem _ hx))
      (tset t p q (ac d p != ac d q)) (dims_tset t _ hd p q _)
    refine ⟨t1, ?_, h2, ?_⟩
    · simp only [seed, accepting_eq d p hpq.2, accepting_eq d q hq, ok_bind,
        table_set_eq t _ hd p q hpq.2 hq]
      exact h1
    · intro i j
      rw [h3 i j, cell_tset t _ hd p q hpq.2 hq]
      by_cases hm : (i, j) ∈ rest
      · simp [hm]
      · simp only [hm, if_false, List.mem_cons, Prod.mk.injEq, or_false]
        by_cases he : i = p ∧ j = q
        · obtain ⟨rfl, rfl⟩ := he
          simp
        · simp [he]

theorem cell_replicate (n i j : Nat) :
    cell (List.replicate (n + 1) (List.replicate (n + 1) false)) i j = false := by
  unfold cell
  simp only [List.getD_eq_getElem?_getD, List.getElem?_replicate]
  split
  · simp only [Option.getD_some, List.getElem?_replicate]
    split <;> rfl
  · rfl

theorem dims_replicate (n : Nat) :
    dims (List.replicate (n + 1) (List.replicate (n + 1) false)) n := by
  refine ⟨by simp, ?_⟩
  intro row hrow
  rw [List.eq_of_mem_replicate hrow]
  simp

theorem length_flatMap_pairs_le (n : Nat) (l : List Nat) (hl : ∀ p ∈ l, p ≤ n) :
    (l.flatMap (fun p => (List.range p).map (fun q => (p, q)))).length ≤ l.length * (n + 1) := by
  induction l with
  | nil => simp
  | cons a rest ih =>
    have h1 := ih (fun p hp => hl p (List.mem_cons_of_mem _ hp))
    have h2 := hl a (List.mem_cons_self _ _)
    simp only [List.flatMap_cons, List.length_append, List.length_map, List.length_range,
      List.length_cons]
    nlinarith

theorem length_pairs_le (n : Nat) : (pairs n).length ≤ (n + 1) * (n + 1) := by
  have := length_flatMap_pairs_le n (List.range (n + 1)) (by
    intro p hp
    rw [List.mem_range] at hp
    omega)
  simpa [pairs] using this

theorem fill_table_spec (d : dfa) (h : d.well_formed) :
    ∃ t, fill_table d = .ok t ∧ dims t d.size ∧ sound d t ∧ seeded d t ∧ stable d t := by
  have hl : ∀ pq ∈ pairs d.size, pq.2 < pq.1 ∧ pq.1 ≤ d.size := by
    intro pq hpq
    exact (mem_pairs d.size pq.1 pq.2).1 hpq
  obtain ⟨t1, h1, h2, h3⟩ := seed_spec d (pairs d.size) hl _ (dims_replicate d.size)
  have hcell : ∀ p q, q < p → p ≤ d.size → cell t1 p q = (ac d p != ac d q) := by
    intro p q hqp hp
    rw [h3, if_pos ((mem_pairs _ _ _).2 ⟨hqp, hp⟩)]
  have hdiag : ∀ p q, p ≤ q → cell t1 p q = false := by
    intro p q hpq
    rw [h3, if_neg (by rw [mem_pairs]; omega), cell_replicate]
  have hdc : ∀ p q, p ≤ d.size → q ≤ d.size → dcell t1 p q = (ac d p != ac d q) := by
    intro p q hp hq
    rcases Nat.lt_trichotomy p q with hlt | heq | hgt
    · rw [dcell_comm, dcell_of_lt _ _ _ hlt, hcell q p hlt hq]
      cases ac d p <;> cases ac d q <;> rfl
    · subst heq
      unfold dcell
      rw [max_self, min_self, hdiag p p (le_refl _)]
      cases ac d p <;> rfl
    · rw [dcell_of_lt _ _ _ hgt, hcell p q hgt hp]
  have hs1 : sound d t1 := by
    intro p q hp hq hc
    rw [hdc p q hp hq] at hc
    exact ⟨[], by simpa [nxs] using hc⟩
  have hfuel : unmarked_cells d.size t1 < (d.size + 1) * (d.size + 1) + 1 := by
    have := length_pairs_le d.size
    have h4 : unmarked_cells d.size t1 ≤ (pairs d.size).length := List.countP_le_length _
    omega
  obtain ⟨t2, h5, h6, h7, h8, h9⟩ := fixpoint_spec d h _ t1 h2 hs1 hfuel
  refine ⟨t2, ?_, h6, h7, ?_, h9⟩
  · simp only [fill_table, h1, ok_bind]
    exact h5
  · intro p q hp hq hne
    have : dcell t1 p q = true := by
      rw [hdc p q hp hq]
      simpa using hne
    exact h8 _ _ this

theorem map_find_none {β : Type} (c : Char) (m : List (Char × β))
    (h : map_find c m = none) : ∀ e ∈ m, e.1 ≠ c := by
  induction m with
  | nil => intro e he; exact absurd he (List.not_mem_nil _)
  | cons a rest ih =>
    obtain ⟨k, w⟩ := a
    simp only [map_find] at h
    split at h
    · simp at h
    · rename_i hk
      intro e he
      rcases List.mem_cons.1 he with he | he
      · subst he; exact hk
      · exact ih h e he

theorem nx_dead (d : dfa) (h : d.well_formed) (c : Char) : nx d d.size c = d.size := by
  unfold nx
  have hd : d.transitions.getD d.size [] = [] :=
    List.getD_eq_default _ _ (by rw [h.2.1]; exact le_refl _)
  rw [hd]
  rfl

theorem sound_diag (d : dfa) (t : table) (hs : sound d t) (p : Nat) (hp : p ≤ d.size) :
    dcell t p p = false := by
  cases hc : dcell t p p
  · rfl
  · obtain ⟨w, hw⟩ := hs p p hp hp hc
    exact absurd rfl hw

/-- At the fixed point an unmarked pair stays unmarked after any letter. -/
theorem stable_step (d : dfa) (h : d.well_formed) (t : table) (hs : sound d t)
    (hst : stable d t) (p q : Nat) (hp : p ≤ d.size) (hq : q ≤ d.size)
    (hc : dcell t p q = false) (c : Char) : dcell t (nx d p c) (nx d q c) = false := by
  wlog hqp : q ≤ p generalizing p q
  · rw [dcell_comm]
    exact this q p hq hp (by rw [dcell_comm]; exact hc) (by omega)
  rcases Nat.eq_or_lt_of_le hqp with heq | hlt
  · subst heq
    exact sound_diag d t hs _ (nx_le d h q c)
  · cases hfp : map_find c (d.transitions.getD p []) with
    | some v =>
      have hm := map_find_mem _ _ _ hfp
      exact hst p q hlt hp hc (c, v) (List.mem_append_left _ hm)
    | none =>
      cases hfq : map_find c (d.transitions.getD q []) with
      | some v =>
        have hm := map_find_mem _ _ _ hfq
        exact hst p q hlt hp hc (c, v) (List.mem_append_right _ hm)
      | none =>
        have h1 : nx d p c = d.size := by unfold nx; rw [hfp]
        have h2 : nx d q c = d.size := by unfold nx; rw [hfq]
        rw [h1, h2]
        exact sound_diag d t hs _ (le_refl _)

theorem nxs_le (d : dfa) (h : d.well_formed) (p : Nat) (hp : p ≤ d.size) (w : List Char) :
    nxs d p w ≤ d.size := by
  induction w generalizing p with
  | nil => exact hp
  | cons c w ih => exact ih _ (nx_le d h p c)

theorem dcell_false_iff (d : dfa) (h : d.well_formed) (t : table) (hs : sound d t)
    (hse : seeded d t) (hst : stable d t) (p q : Nat) (hp : p ≤ d.size) (hq : q ≤ d.size) :
    dcell t p q = false ↔ ¬ distinguishable d p q := by
  constructor
  · intro hc ⟨w, hw⟩
    induction w generalizing p q with
    | nil =>
      have := hse p q hp hq hw
      rw [hc] at this
      exact absurd this (by simp)
    | cons c w ih =>
      exact ih _ _ (nx_le d h p c) (nx_le d h q c) (stable_step d h t hs hst p q hp hq hc c) hw
  · intro hnd
    cases hc : dcell t p q
    · rfl
    · exact absurd (hs p q hp hq hc) hnd

end dfa
end Regex2Dfa

namespace Regex2Dfa

/-! ### `set_insert` for a strict total order -/

theorem mem_set_insert {α : Type} (lt : α → α → Bool)
    (htri : ∀ a b, lt a b = false → lt b a = false → a = b) (x a : α) (s : List α) :
    x ∈ set_insert lt a s ↔ x = a ∨ x ∈ s := by
  induction s with
  | nil => simp [set_insert]
  | cons y ys ih =>
    simp only [set_insert]
    by_cases h1 : lt a y = true
    · simp [h1]
    · by_cases h2 : lt y a = true
      · simp only [h1, h2, if_true, if_false, List.mem_cons, ih, Bool.false_eq_true]
        tauto
      · have : a = y := htri a y (by simpa using h1) (by simpa using h2)
        subst this
        simp [h1]

theorem pairwise_set_insert {α : Type} (lt : α → α → Bool)
    (htri : ∀ a b, lt a b = false → lt b a = false → a = b)
    (htrans : ∀ a b c, lt a b = true → lt b c = true → lt a c = true) (a : α) (s : List α)
    (hs : s.Pairwise (fun x y => lt x y = true)) :
    (set_insert lt a s).Pairwise (fun x y => lt x y = true) := by
  induction s with
  | nil => simp [set_insert]
  | cons y ys ih =>
    simp only [set_insert]
    rw [List.pairwise_cons] at hs
    by_cases h1 : lt a y = true
    · simp only [h1, if_true]
      rw [List.pairwise_cons]
      refine ⟨?_, List.pairwise_cons.2 hs⟩
      intro z hz
      rcases List.mem_cons.1 hz with hz | hz
      · subst hz; exact h1
      · exact htrans _ _ _ h1 (hs.1 z hz)
    · by_cases h2 : lt y a = true
      · simp only [h1, h2, if_true, if_false, Bool.false_eq_true]
        rw [List.pairwise_cons]
        refine ⟨?_, ih hs.2⟩
        intro z hz
        rcases (mem_set_insert lt htri z a ys).1 hz with hz | hz
        · subst hz; exact h2
        · exact hs.1 z hz
      · simp only [h1, h2, if_false, Bool.false_eq_true]
        exact List.pairwise_cons.2 hs

theorem mem_set_insert_all {α : Type} (lt : α → α → Bool)
    (htri : ∀ a b, lt a b = false → lt b a = false → a = b) (x : α) (s t : List α) :
    x ∈ set_insert_all lt s t ↔ x ∈ s ∨ x ∈ t := by
  unfold set_insert_all
  induction t generalizing s with
  | nil => simp
  | cons y ys ih =>
    simp only [List.foldl_cons, ih, mem_set_insert lt htri, List.mem_cons]
    tauto

theorem pairwise_set_insert_all {α : Type} (lt : α → α → Bool)
    (htri : ∀ a b, lt a b = false → lt b a = false → a = b)
    (htrans : ∀ a b c, lt a b = true → lt b c = true → lt a c = true) (s t : List α)
    (hs : s.Pairwise (fun x y => lt x y = true)) :
    (set_insert_all lt s t).Pairwise (fun x y => lt x y = true) := by
  unfold set_insert_all
  induction t generalizing s with
  | nil => exact hs
  | cons y ys ih =>
    simp only [List.foldl_cons]
    exact ih _ (pairwise_set_insert lt htri htrans y s hs)

/-- Two strictly ascending lists with the same members are equal. -/
theorem eq_of_pairwise_of_mem {α : Type} (lt : α → α → Bool)
    (hirr : ∀ a, lt a a = false)
    (htrans : ∀ a b c, lt a b = true → lt b c = true → lt a c = true) (s t : List α)
    (hs : s.Pairwise (fun x y => lt x y = true)) (ht : t.Pairwise (fun x y => lt x y = true))
    (hm : ∀ x, x ∈ s ↔ x ∈ t) : s = t := by
  induction s generalizing t with
  | nil =>
    cases t with
    | nil => rfl
    | cons b bs => exact absurd ((hm b).2 (List.mem_cons_self _ _)) (List.not_mem_nil _)
  | cons a as ih =>
    cases t with
    | nil => exact absurd ((hm a).1 (List.mem_cons_self _ _)) (List.not_mem_nil _)
    | cons b bs =>
      rw [List.pairwise_cons] at hs ht
      have hab : a = b := by
        rcases List.mem_cons.1 ((hm a).1 (List.mem_cons_self _ _)) with h | h
        · exact h
        · rcases List.mem_cons.1 ((hm b).2 (List.mem_cons_self _ _)) with h2 | h2
          · exact h2.symm
          · have h3 := htrans _ _ _ (ht.1 a h) (hs.1 b h2)
            rw [hirr] at h3
            exact absurd h3 (by simp)
      subst hab
      congr 1
      apply ih _ hs.2 ht.2
      intro x
      constructor
      · intro hx
        rcases List.mem_cons.1 ((hm x).1 (List.mem_cons_of_mem _ hx)) with h | h
        · subst h
          have := hs.1 x hx
          rw [hirr] at this
          exact absurd this (by simp)
        · exact h
      · intro hx
        rcases List.mem_cons.1 ((hm x).2 (List.mem_cons_of_mem _ hx)) with h | h
        · subst h
          have := ht.1 x hx
          rw [hirr] at this
          exact absurd this (by simp)
        · exact h

theorem int_lt_tri (a b : Int) (h1 : int_lt a b = false) (h2 : int_lt b a = false) : a = b := by
  simp only [int_lt, decide_eq_false_iff_not] at h1 h2
  omega

theorem int_lt_trans (a b c : Int) (h1 : int_lt a b = true) (h2 : int_lt b c = true) :
    int_lt a c = true := by
  simp only [int_lt, decide_eq_true_eq] at *
  omega

theorem int_lt_irrefl (a : Int) : int_lt a a = false := by
  simp [int_lt]

theorem pos_lt_tri (a b : Nat) (h1 : pos_lt a b = false) (h2 : pos_lt b a = false) : a = b := by
  simp only [pos_lt, decide_eq_false_iff_not] at h1 h2
  omega

theorem pos_lt_trans (a b c : Nat) (h1 : pos_lt a b = true) (h2 : pos_lt b c = true) :
    pos_lt a c = true := by
  simp only [pos_lt, decide_eq_true_eq] at *
  omega

theorem pos_lt_irrefl (a : Nat) : pos_lt a a = false := by
  simp [pos_lt]

theorem lex_lt_irrefl (a : List Int) : lex_lt a a = false := by
  induction a with
  | nil => rfl
  | cons x xs ih => simp [lex_lt, ih]

theorem lex_lt_tri (a b : List Int) (h1 : lex_lt a b = false) (h2 : lex_lt b a = false) :
    a = b := by
  induction a generalizing b with
  | nil =>
    cases b with
    | nil => rfl
    | cons y ys => simp [lex_lt] at h1
  | cons x xs ih =>
    cases b with
    | nil => simp [lex_lt] at h2
    | cons y ys =>
      simp only [lex_lt] at h1 h2
      by_cases hxy : x < y
      · simp [hxy] at h1
      · by_cases hyx : y < x
        · simp [hyx] at h2
        · simp only [hxy, hyx, if_false] at h1 h2
          have : x = y := by omega
          subst this
          rw [ih ys h1 h2]

theorem lex_lt_trans (a b c : List Int) (h1 : lex_lt a b = true) (h2 : lex_lt b c = true) :
    lex_lt a c = true := by
  induction a generalizing b c with
  | nil =>
    cases c with
    | nil => cases b <;> simp [lex_lt] at h2
    | cons z zs => simp [lex_lt]
  | cons x xs ih =>
    cases b with
    | nil => simp [lex_lt] at h1
    | cons y ys =>
      cases c with
      | nil => simp [lex_lt] at h2
      | cons z zs =>
        simp only [lex_lt] at h1 h2 ⊢
        by_cases hxy : x < y
        · by_cases hyz : y < z
          · have : x < z := by omega
            simp [this]
          · by_cases hzy : z < y
            · simp [hyz, hzy] at h2
            · have : x < z := by omega
              simp [this]
        · by_cases hyx : y < x
          · simp [hxy, hyx] at h1
          · simp only [hxy, hyx, if_false] at h1
            have hxy2 : x = y := by omega
            subst hxy2
            by_cases hxz : x < z
            · simp [hxz]
            · by_cases hzx : z < x
              · simp [hxz, hzx] at h2
              · simp only [hxz, hzx, if_false] at h2 ⊢
                exact ih ys zs h1 h2

theorem set_count_int (x : Int) (s : List Int) : set_count int_lt x s = true ↔ x ∈ s := by
  unfold set_count
  rw [List.any_eq_true]
  constructor
  · rintro ⟨y, hy, h⟩
    simp only [Bool.and_eq_true, Bool.not_eq_true'] at h
    rw [int_lt_tri x y h.1 h.2]
    exact hy
  · intro h
    exact ⟨x, h, by simp [int_lt_irrefl]⟩

end Regex2Dfa

namespace Regex2Dfa
namespace dfa

theorem final_iff (d : dfa) (h : d.well_formed) (t : table) (hf : final_table d t)
    (p q : Nat) (hp : p ≤ d.size) (hq : q ≤ d.size) :
    dcell t p q = false ↔ equiv d p q := by
  rw [dcell_false_iff d h t hf.2.1 hf.2.2.1 hf.2.2.2 p q hp hq]
  unfold distinguishable equiv
  push_neg
  rfl

theorem equiv_refl (d : dfa) (p : Nat) : equiv d p p := fun _ => rfl

theorem equiv_symm (d : dfa) (p q : Nat) (h : equiv d p q) : equiv d q p :=
  fun w => (h w).symm

theorem equiv_trans (d : dfa) (p q r : Nat) (h1 : equiv d p q) (h2 : equiv d q r) :
    equiv d p r := fun w => (h1 w).trans (h2 w)

theorem equiv_nx (d : dfa) (p q : Nat) (h : equiv d p q) (c : Char) :
    equiv d (nx d p c) (nx d q c) := fun w => h (c :: w)

theorem equiv_ac (d : dfa) (p q : Nat) (h : equiv d p q) : ac d p = ac d q := h []

theorem mem_cls (n : Nat) (t : table) (p : Nat) (x : Int) :
    x ∈ cls n t p ↔ ∃ q, q ≤ n ∧ x = (q : Int) ∧ dcell t p q = false := by
  simp only [cls, List.mem_map, List.mem_filter, List.mem_range, Bool.not_eq_true']
  constructor
  · rintro ⟨q, ⟨h1, h2⟩, rfl⟩
    exact ⟨q, by omega, rfl, h2⟩
  · rintro ⟨q, h1, rfl, h2⟩
    exact ⟨q, ⟨by omega, h2⟩, rfl⟩

theorem pairwise_cls (n : Nat) (t : table) (p : Nat) :
    (cls n t p).Pairwise (fun x y => int_lt x y = true) := by
  unfold cls
  rw [List.pairwise_map]
  apply List.Pairwise.filter
  have := List.pairwise_lt_range (n + 1)
  exact this.imp (fun {a b} hab => by simp [int_lt]; exact hab)

theorem group_loop_spec (n : Nat) (t : table) (hd : dims t n) (p : Nat) (hp : p ≤ n)
    (hdiag : dcell t p p = false) (l : List Nat) (hl : ∀ q ∈ l, q ≤ n) (group : List Int)
    (grouped : List Bool) (hlen : grouped.length = n + 1) :
    ∃ g1 gr1, group_loop p t l (group, grouped) = .ok (g1, gr1) ∧ gr1.length = n + 1 ∧
      (∀ x, x ∈ g1 ↔ x ∈ group ∨ ∃ q ∈ l, x = (q : Int) ∧ dcell t p q = false) ∧
      (∀ i, gr1.getD i false = true ↔
        grouped.getD i false = true ∨ (i ∈ l ∧ dcell t p i = false)) ∧
      (group.Pairwise (fun x y => int_lt x y = true) →
        g1.Pairwise (fun x y => int_lt x y = true)) := by
  induction l generalizing group grouped with
  | nil => exact ⟨group, grouped, rfl, hlen, by simp, by simp, fun h => h⟩
  | cons q rest ih =>
    have hq := hl q (List.mem_cons_self _ _)
    have hrest := fun x hx => hl x (List.mem_cons_of_mem _ hx)
    have hgl : group_loop p t (q :: rest) (group, grouped) =
        (if dcell t p q = true then group_loop p t rest (group, grouped)
          else if q < grouped.length then
            group_loop p t rest (set_insert int_lt (↑q) group, grouped.set q true)
          else .error .out_of_bounds) := by
      by_cases hpq : p = q
      · subst hpq
        simp [group_loop, hdiag]
      · simp [group_loop, hpq, distinct_eq t n hd p q hp hq]
    rw [hgl]
    by_cases hc : dcell t p q = true
    · simp only [hc, if_true]
      obtain ⟨g1, gr1, h1, h2, h3, h4, h5⟩ := ih hrest group grouped hlen
      refine ⟨g1, gr1, h1, h2, ?_, ?_, h5⟩
      · intro x
        rw [h3 x]
        constructor
        · rintro (hx | ⟨q', hq', rfl, hcq⟩)
          · exact Or.inl hx
          · exact Or.inr ⟨q', List.mem_cons_of_mem _ hq', rfl, hcq⟩
        · rintro (hx | ⟨q', hq', rfl, hcq⟩)
          · exact Or.inl hx
          · rcases List.mem_cons.1 hq' with hq' | hq'
            · subst hq'; rw [hc] at hcq; exact absurd hcq (by simp)
            · exact Or.inr ⟨q', hq', rfl, hcq⟩
      · intro i
        rw [h4 i]
        constructor
        · rintro (hx | ⟨hi, hcq⟩)
          · exact Or.inl hx
          · exact Or.inr ⟨List.mem_cons_of_mem _ hi, hcq⟩
        · rintro (hx | ⟨hi, hcq⟩)
          · exact Or.inl hx
          · rcases List.mem_cons.1 hi with hi | hi
            · subst hi; rw [hc] at hcq; exact absurd hcq (by simp)
            · exact Or.inr ⟨hi, hcq⟩
    · have hc1 : dcell t p q = false := by simpa using hc
      have hqlt : q < grouped.length := by omega
      simp only [hc1, Bool.false_eq_true, if_false, if_pos hqlt]
      obtain ⟨g1, gr1, h1, h2, h3, h4, h5⟩ := ih hrest (set_insert int_lt (↑q) group)
        (grouped.set q true) (by simp [hlen])
      refine ⟨g1, gr1, h1, h2, ?_, ?_, ?_⟩
      · intro x
        rw [h3 x, mem_set_insert int_lt int_lt_tri]
        constructor
        · rintro ((hx | hx) | ⟨q', hq', rfl, hcq⟩)
          · exact Or.inr ⟨q, List.mem_cons_self _ _, hx, hc1⟩
          · exact Or.inl hx
          · exact Or.inr ⟨q', List.mem_cons_of_mem _ hq', rfl, hcq⟩
        · rintro (hx | ⟨q', hq', rfl, hcq⟩)
          · exact Or.inl (Or.inr hx)
          · rcases List.mem_cons.1 hq' with hq' | hq'
            · subst hq'; exact Or.inl (Or.inl rfl)
            · exact Or.inr ⟨q', hq', rfl, hcq⟩
      · intro i
        rw [h4 i]
        have hset : (grouped.set q true).getD i false = true ↔
            grouped.getD i false = true ∨ i = q := by
          simp only [List.getD_eq_getElem?_getD]
          by_cases hiq : i = q
          · subst hiq
            simp [List.getElem?_set_self hqlt]
          · rw [List.getElem?_set_ne (Ne.symm hiq)]
            simp [hiq]
        rw [hset]
        constructor
        · rintro ((hx | hx) | ⟨hi, hcq⟩)
          · exact Or.inl hx
          · subst hx; exact Or.inr ⟨List.mem_cons_self _ _, hc1⟩
          · exact Or.inr ⟨List.mem_cons_of_mem _ hi, hcq⟩
        · rintro (hx | ⟨hi, hcq⟩)
          · exact Or.inl (Or.inl hx)
          · rcases List.mem_cons.1 hi with hi | hi
            · exact Or.inl (Or.inr hi)
            · exact Or.inr ⟨hi, hcq⟩
      · intro hpw
        exact h5 (pairwise_set_insert int_lt int_lt_tri int_lt_trans _ _ hpw)

/-- The inner grouping loop, run over all states, returns the group of `p`. -/
theorem group_loop_cls (n : Nat) (t : table) (hd : dims t n) (p : Nat) (hp : p ≤ n)
    (hdiag : dcell t p p = false) (grouped : List Bool) (hlen : grouped.length = n + 1) :
    ∃ gr1, group_loop p t (List.range (n + 1)) (set_insert int_lt (↑p) [], grouped) =
        .ok (cls n t p, gr1) ∧ gr1.length = n + 1 ∧
      ∀ i, gr1.getD i false = true ↔
        grouped.getD i false = true ∨ (i ≤ n ∧ dcell t p i = false) := by
  obtain ⟨g1, gr1, h1, h2, h3, h4, h5⟩ := group_loop_spec n t hd p hp hdiag
    (List.range (n + 1)) (fun q hq => by rw [List.mem_range] at hq; omega)
    (set_insert int_lt (↑p) []) grouped hlen
  have hg : g1 = cls n t p := by
    apply eq_of_pairwise_of_mem int_lt int_lt_irrefl int_lt_trans
    · exact h5 (by simp [set_insert])
    · exact pairwise_cls n t p
    · intro x
      rw [h3 x, mem_cls]
      simp only [set_insert, List.mem_singleton, List.mem_range]
      constructor
      · rintro (hx | ⟨q, hq, rfl, hcq⟩)
        · exact ⟨p, hp, hx, hdiag⟩
        · exact ⟨q, by omega, rfl, hcq⟩
      · rintro ⟨q, hq, rfl, hcq⟩
        exact Or.inr ⟨q, by omega, rfl, hcq⟩
  subst hg
  refine ⟨gr1, h1, h2, ?_⟩
  intro i
  rw [h4 i, List.mem_range]
  constructor
  · rintro (hx | ⟨hi, hcq⟩)
    · exact Or.inl hx
    · exact Or.inr ⟨by omega, hcq⟩
  · rintro (hx | ⟨hi, hcq⟩)
    · exact Or.inl hx
    · exact Or.inr ⟨by omega, hcq⟩

end dfa
end Regex2Dfa

namespace Regex2Dfa
namespace dfa

theorem cls_eq_of_unmarked (d : dfa) (h : d.well_formed) (t : table) (hf : final_table d t)
    (p q : Nat) (hp : p ≤ d.size) (hq : q ≤ d.size) (hpq : dcell t p q = false) :
    cls d.size t p = cls d.size t q := by
  unfold cls
  congr 1
  apply List.filter_congr
  intro r hr
  rw [List.mem_range] at hr
  have hr2 : r ≤ d.size := by omega
  have e1 := (final_iff d h t hf p q hp hq).1 hpq
  congr 1
  cases h1 : dcell t p r
  · have e2 := (final_iff d h t hf p r hp hr2).1 h1
    exact ((final_iff d h t hf q r hq hr2).2
      (equiv_trans d _ _ _ (equiv_symm d _ _ e1) e2)).symm
  · cases h2 : dcell t q r
    · have e2 := (final_iff d h t hf q r hq hr2).1 h2
      have := (final_iff d h t hf p r hp hr2).2 (equiv_trans d _ _ _ e1 e2)
      rw [h1] at this
      exact absurd this (by simp)
    · rfl

theorem mem_cls_self (d : dfa) (t : table) (hf : final_table d t) (p : Nat)
    (hp : p ≤ d.size) : (p : Int) ∈ cls d.size t p := by
  rw [mem_cls]
  exact ⟨p, hp, rfl, sound_diag d t hf.2.1 p hp⟩

theorem groups_loop_spec (d : dfa) (h : d.well_formed) (t : table) (hf : final_table d t)
    (m k : Nat) (hk : k + m = d.size + 1) (groups : List (List Int)) (grouped : List Bool)
    (hlen : grouped.length = d.size + 1)
    (hgr : ∀ i, grouped.getD i false = true ↔ i ≤ d.size ∧ ∃ p < k, dcell t p i = false)
    (hgs : ∀ g, g ∈ groups ↔ ∃ p < k, g = cls d.size t p)
    (hpw : groups.Pairwise (fun x y => lex_lt x y = true)) :
    ∃ gs1 gr1, groups_loop d.size t (List.range' k m) (groups, grouped) = .ok (gs1, gr1) ∧
      (∀ g, g ∈ gs1 ↔ ∃ p ≤ d.size, g = cls d.size t p) ∧
      gs1.Pairwise (fun x y => lex_lt x y = true) := by
  induction m generalizing k groups grouped with
  | zero =>
    refine ⟨groups, grouped, rfl, ?_, hpw⟩
    intro g
    rw [hgs g]
    constructor
    · rintro ⟨p, hp, rfl⟩; exact ⟨p, by omega, rfl⟩
    · rintro ⟨p, hp, rfl⟩; exact ⟨p, by omega, rfl⟩
  | succ m ih =>
    have hkn : k ≤ d.size := by omega
    have hklt : k < grouped.length := by omega
    simp only [List.range'_succ, groups_loop]
    rw [List.getElem?_eq_getElem hklt]
    have hgetD : grouped.getD k false = grouped[k] := List.getD_eq_getElem _ _ hklt
    cases hb : grouped[k] with
    | true =>
      simp only
      rw [hb] at hgetD
      obtain ⟨_, p1, hp1, hc1⟩ := (hgr k).1 hgetD
      have hp1n : p1 ≤ d.size := by omega
      apply ih (k + 1) (by omega) groups grouped hlen
      · intro i
        rw [hgr i]
        constructor
        · rintro ⟨hi, p, hp, hc⟩; exact ⟨hi, p, by omega, hc⟩
        · rintro ⟨hi, p, hp, hc⟩
          refine ⟨hi, ?_⟩
          rcases Nat.lt_succ_iff_lt_or_eq.1 hp with hlt | heq
          · exact ⟨p, hlt, hc⟩
          · subst heq
            refine ⟨p1, hp1, ?_⟩
            exact (final_iff d h t hf p1 i hp1n hi).2 (equiv_trans d _ _ _
              ((final_iff d h t hf p1 p hp1n hkn).1 hc1)
              ((final_iff d h t hf p i hkn hi).1 hc))
      · intro g
        rw [hgs g]
        constructor
        · rintro ⟨p, hp, rfl⟩; exact ⟨p, by omega, rfl⟩
        · rintro ⟨p, hp, rfl⟩
          rcases Nat.lt_succ_iff_lt_or_eq.1 hp with hlt | heq
          · exact ⟨p, hlt, rfl⟩
          · subst heq
            exact ⟨p1, hp1, (cls_eq_of_unmarked d h t hf p1 p hp1n hkn hc1).symm⟩
      · exact hpw
    | false =>
      simp only
      obtain ⟨gr1, h1, h2, h3⟩ := group_loop_cls d.size t hf.1 k hkn
        (sound_diag d t hf.2.1 k hkn) grouped hlen
      simp only [h1, ok_bind]
      apply ih (k + 1) (by omega) _ gr1 h2
      · intro i
        rw [h3 i, hgr i]
        constructor
        · rintro (⟨hi, p, hp, hc⟩ | ⟨hi, hc⟩)
          · exact ⟨hi, p, by omega, hc⟩
          · exact ⟨hi, k, by omega, hc⟩
        · rintro ⟨hi, p, hp, hc⟩
          rcases Nat.lt_succ_iff_lt_or_eq.1 hp with hlt | heq
          · exact Or.inl ⟨hi, p, hlt, hc⟩
          · subst heq
            exact Or.inr ⟨hi, hc⟩
      · intro g
        rw [mem_set_insert lex_lt lex_lt_tri, hgs g]
        constructor
        · rintro (rfl | ⟨p, hp, rfl⟩)
          · exact ⟨k, by omega, rfl⟩
          · exact ⟨p, by omega, rfl⟩
        · rintro ⟨p, hp, rfl⟩
          rcases Nat.lt_succ_iff_lt_or_eq.1 hp with hlt | heq
          · exact Or.inr ⟨p, hlt, rfl⟩
          · subst heq
            exact Or.inl rfl
      · exact pairwise_set_insert lex_lt lex_lt_tri lex_lt_trans _ _ hpw

theorem make_groups_spec (d : dfa) (h : d.well_formed) (t : table) (hf : final_table d t) :
    ∃ groups, make_groups d t = .ok groups ∧
      (∀ g, g ∈ groups ↔ ∃ p ≤ d.size, g = cls d.size t p) ∧
      groups.Pairwise (fun x y => lex_lt x y = true) := by
  obtain ⟨gs1, gr1, h1, h2, h3⟩ := groups_loop_spec d h t hf (d.size + 1) 0 (by omega) []
    (List.replicate (d.size + 1) false) (by simp)
    (by
      intro i
      simp only [List.getD_eq_getElem?_getD, List.getElem?_replicate]
      constructor
      · intro hi
        split at hi <;> simp at hi
      · rintro ⟨_, p, hp, _⟩
        omega)
    (by
      intro g
      simp)
    List.Pairwise.nil
  refine ⟨gs1, ?_, h2, h3⟩
  simp only [make_groups, List.range_eq_range', h1, ok_bind, pure_eq_ok]

end dfa
end Regex2Dfa

namespace Regex2Dfa
namespace dfa

theorem findIdx_congr {α : Type} (l : List α) (p q : α → Bool) (h : ∀ x ∈ l, p x = q x) :
    l.findIdx p = l.findIdx q := by
  induction l with
  | nil => rfl
  | cons a rest ih =>
    rw [List.findIdx_cons, List.findIdx_cons, h a (List.mem_cons_self _ _),
      ih (fun x hx => h x (List.mem_cons_of_mem _ hx))]

theorem find_group_index_eq (d : dfa) (h : d.well_formed) (t : table) (hf : final_table d t)
    (ga : List (List Int)) (hg : is_grouping d t ga) (i : Nat) (hi : i ≤ d.size) :
    find_group_index ga i = .ok (gidx ga i) ∧ gidx ga i < ga.length ∧
      ga[gidx ga i]? = some (cls d.size t i) := by
  have hex : ∃ x, x ∈ ga ∧ (fun g => set_count int_lt (↑i) g) x = true :=
    ⟨cls d.size t i, hg.2 i hi, (set_count_int _ _).2 (mem_cls_self d t hf i hi)⟩
  have hlt : gidx ga i < ga.length := List.findIdx_lt_length_of_exists hex
  refine ⟨?_, hlt, ?_⟩
  · unfold find_group_index
    rw [List.findIdx?_eq_some_of_exists hex]
    rfl
  · rw [List.getElem?_eq_getElem hlt]
    congr 1
    have hmem : (↑i : Int) ∈ ga[gidx ga i] := by
      rw [← set_count_int]
      exact List.findIdx_getElem
    obtain ⟨p, hp, hgp⟩ := hg.1 _ (List.getElem_mem hlt)
    rw [hgp] at hmem ⊢
    rw [mem_cls] at hmem
    obtain ⟨q, hq, hiq, hc⟩ := hmem
    have : i = q := by omega
    subst this
    exact cls_eq_of_unmarked d h t hf p i hp hi hc

theorem gidx_eq_of_unmarked (d : dfa) (h : d.well_formed) (t : table) (hf : final_table d t)
    (ga : List (List Int)) (hg : is_grouping d t ga) (i j : Nat) (hi : i ≤ d.size)
    (hj : j ≤ d.size) (hc : dcell t i j = false) : gidx ga i = gidx ga j := by
  unfold gidx
  apply findIdx_congr
  intro g hgm
  obtain ⟨p, hp, rfl⟩ := hg.1 g hgm
  have e := (final_iff d h t hf i j hi hj).1 hc
  rw [Bool.eq_iff_iff, set_count_int, set_count_int, mem_cls, mem_cls]
  constructor
  · rintro ⟨q, hq, hiq, hcq⟩
    have : i = q := by omega
    subst this
    exact ⟨j, hj, rfl, (final_iff d h t hf p j hp hj).2
      (equiv_trans d _ _ _ ((final_iff d h t hf p i hp hi).1 hcq) e)⟩
  · rintro ⟨q, hq, hiq, hcq⟩
    have : j = q := by omega
    subst this
    exact ⟨i, hi, rfl, (final_iff d h t hf p i hp hi).2
      (equiv_trans d _ _ _ ((final_iff d h t hf p j hp hj).1 hcq) (equiv_symm d _ _ e))⟩

theorem unmarked_of_gidx_eq (d : dfa) (h : d.well_formed) (t : table) (hf : final_table d t)
    (ga : List (List Int)) (hg : is_grouping d t ga) (i j : Nat) (hi : i ≤ d.size)
    (hj : j ≤ d.size) (he : gidx ga i = gidx ga j) : dcell t i j = false := by
  have h1 := (find_group_index_eq d h t hf ga hg i hi).2.2
  have h2 := (find_group_index_eq d h t hf ga hg j hj).2.2
  rw [he, h2] at h1
  have h3 : cls d.size t j = cls d.size t i := by simpa using h1
  have := mem_cls_self d t hf j hj
  rw [h3, mem_cls] at this
  obtain ⟨q, hq, hjq, hc⟩ := this
  have : j = q := by omega
  subst this
  exact hc

theorem getElem?_swap_front (l : List (List Int)) (i : Nat) (hi : i < l.length) (k : Nat) :
    (swap_front l i)[k]? = if k = i then l[0]? else if k = 0 then l[i]? else l[k]? := by
  unfold swap_front
  have h0 : 0 < l.length := by omega
  by_cases hki : k = i
  · subst hki
    rw [if_pos rfl, List.getElem?_set_self (by simpa using hi)]
    simp [List.getD_eq_getElem?_getD, List.getElem?_eq_getElem h0]
  · rw [if_neg hki, List.getElem?_set_ne (Ne.symm hki)]
    by_cases hk0 : k = 0
    · subst hk0
      rw [if_pos rfl, List.getElem?_set_self h0]
      simp [List.getD_eq_getElem?_getD, List.getElem?_eq_getElem hi]
    · rw [if_neg hk0, List.getElem?_set_ne (Ne.symm hk0)]

theorem length_swap_front (l : List (List Int)) (i : Nat) :
    (swap_front l i).length = l.length := by
  simp [swap_front]

theorem mem_swap_front (l : List (List Int)) (i : Nat) (hi : i < l.length) (g : List Int) :
    g ∈ swap_front l i ↔ g ∈ l := by
  have h0 : 0 < l.length := by omega
  simp only [List.mem_iff_getElem?]
  constructor
  · rintro ⟨k, hk⟩
    rw [getElem?_swap_front l i hi] at hk
    split at hk
    · exact ⟨0, hk⟩
    · split at hk
      · exact ⟨i, hk⟩
      · exact ⟨k, hk⟩
  · rintro ⟨k, hk⟩
    by_cases hki : k = i
    · subst hki
      refine ⟨0, ?_⟩
      rw [getElem?_swap_front l k hi]
      by_cases h0k : 0 = k
      · subst h0k; simpa using hk
      · rw [if_neg h0k, if_pos rfl]; exact hk
    · by_cases hk0 : k = 0
      · subst hk0
        refine ⟨i, ?_⟩
        rw [getElem?_swap_front l i hi, if_pos rfl]
        exact hk
      · refine ⟨k, ?_⟩
        rw [getElem?_swap_front l i hi, if_neg hki, if_neg hk0]
        exact hk

theorem is_grouping_swap_front (d : dfa) (t : table) (l : List (List Int)) (i : Nat)
    (hi : i < l.length) (hg : is_grouping d t l) : is_grouping d t (swap_front l i) := by
  constructor
  · intro g hgm
    exact hg.1 g ((mem_swap_front l i hi g).1 hgm)
  · intro p hp
    exact (mem_swap_front l i hi _).2 (hg.2 p hp)

theorem gidx_swap_front_zero (d : dfa) (h : d.well_formed) (t : table) (hf : final_table d t)
    (l : List (List Int)) (hg : is_grouping d t l) :
    gidx (swap_front l (gidx l (0 : Nat))) (0 : Nat) = 0 := by
  obtain ⟨_, h2, h3⟩ := find_group_index_eq d h t hf l hg 0 (Nat.zero_le _)
  have h4 := getElem?_swap_front l _ h2 0
  have h5 : (swap_front l (gidx l (0 : Nat)))[0]? = some (cls d.size t 0) := by
    rw [h4]
    split
    · rename_i h0
      rw [← h0] at h3
      exact h3
    · simpa using h3
  have hlen : 0 < (swap_front l (gidx l (0 : Nat))).length := by
    rw [length_swap_front]; omega
  rw [List.getElem?_eq_getElem hlen] at h5
  have h6 : (swap_front l (gidx l (0 : Nat)))[0] = cls d.size t 0 := by simpa using h5
  refine (List.findIdx_eq (p := fun g => set_count int_lt ((0 : Nat) : Int) g) hlen).2
    ⟨?_, fun j hj => absurd hj (Nat.not_lt_zero _)⟩
  rw [h6, set_count_int]
  exact mem_cls_self d t hf 0 (Nat.zero_le _)

theorem cls_nonneg (n : Nat) (t : table) (p : Nat) (x : Int) (hx : x ∈ cls n t p) :
    0 ≤ x := by
  rw [mem_cls] at hx
  obtain ⟨q, _, rfl, _⟩ := hx
  omega

/-- The group of state 0 is the first of the sorted groups. -/
theorem gidx_sorted_zero (d : dfa) (t : table) (hf : final_table d t)
    (l : List (List Int)) (hg : is_grouping d t l)
    (hpw : l.Pairwise (fun x y => lex_lt x y = true)) : gidx l 0 = 0 := by
  have h0 : ((0 : Nat) : Int) ∈ cls d.size t 0 := mem_cls_self d t hf 0 (Nat.zero_le _)
  simp only [Nat.cast_zero] at h0
  have hc0 := hg.2 0 (Nat.zero_le _)
  cases l with
  | nil => exact absurd hc0 (List.not_mem_nil _)
  | cons g0 rest =>
    have hin : (0 : Int) ∈ g0 := by
      rcases List.mem_cons.1 hc0 with he | hr
      · rw [← he]; exact h0
      · by_contra hnot
        rw [List.pairwise_cons] at hpw
        have hlt := hpw.1 _ hr
        obtain ⟨p, hp, hgp⟩ := hg.1 g0 (List.mem_cons_self _ _)
        have hpin : (p : Int) ∈ g0 := by rw [hgp]; exact mem_cls_self d t hf p hp
        have hnn : ∀ x ∈ g0, 0 ≤ x := by
          intro x hx
          rw [hgp] at hx
          exact cls_nonneg _ _ _ x hx
        have hsorted := pairwise_cls d.size t 0
        cases hg0 : g0 with
        | nil => rw [hg0] at hpin; exact absurd hpin (List.not_mem_nil _)
        | cons a as =>
          cases hcl : cls d.size t 0 with
          | nil => rw [hcl] at h0; exact absurd h0 (List.not_mem_nil _)
          | cons b bs =>
            rw [hg0, hcl] at hlt
            rw [hcl] at h0 hsorted
            have ha0 : 0 ≤ a := hnn a (by rw [hg0]; exact List.mem_cons_self _ _)
            have hane : a ≠ 0 := by
              intro e
              apply hnot
              rw [hg0, e]
              exact List.mem_cons_self _ _
            have hb0 : 0 ≤ b := cls_nonneg d.size t 0 b (by rw [hcl]; exact List.mem_cons_self _ _)
            have hb : b = 0 := by
              rcases List.mem_cons.1 h0 with e | hmem
              · exact e.symm
              · rw [List.pairwise_cons] at hsorted
                have := hsorted.1 0 hmem
                simp only [int_lt, decide_eq_true_eq] at this
                omega
            subst hb
            simp only [lex_lt] at hlt
            have h1 : ¬ a < 0 := by omega
            have h2 : (0 : Int) < a := by omega
            simp [h1, h2] at hlt
    unfold gidx
    rw [List.findIdx_cons]
    have : set_count int_lt 0 g0 = true := (set_count_int 0 g0).2 hin
    simp [this]

theorem swap_front_zero (l : List (List Int)) (hl : 0 < l.length) : swap_front l 0 = l := by
  cases l with
  | nil => simp at hl
  | cons a rest => simp [swap_front]

end dfa
end Regex2Dfa

namespace Regex2Dfa

theorem map_find_map_set {β : Type} (c c1 : Char) (v : β) (m : List (Char × β)) :
    map_find c1 (map_set c v m) = if c = c1 then some v else map_find c1 m := by
  induction m with
  | nil => simp [map_set, map_find]
  | cons a rest ih =>
    obtain ⟨k, w⟩ := a
    simp only [map_set]
    by_cases h1 : c < k
    · simp only [h1, if_true, map_find]
    · by_cases h2 : k < c
      · simp only [h1, h2, if_true, if_false, map_find, ih]
        by_cases h3 : k = c1
        · subst h3
          have : ¬ c = k := fun e => by subst e; exact lt_irrefl _ h2
          simp [this]
        · simp [h3]
      · have : c = k := le_antisymm (not_lt.1 h2) (not_lt.1 h1)
        subst this
        simp only [h1, if_false, map_find]
        by_cases h3 : c = c1 <;> simp [h3]

theorem mem_map_set {β : Type} (c : Char) (v : β) (m : List (Char × β)) (e : Char × β)
    (he : e ∈ map_set c v m) : e = (c, v) ∨ e ∈ m := by
  induction m with
  | nil => simpa [map_set] using he
  | cons a rest ih =>
    obtain ⟨k, w⟩ := a
    simp only [map_set] at he
    by_cases h1 : c < k
    · simp only [h1, if_true, List.mem_cons] at he
      rcases he with he | he | he
      · exact Or.inl he
      · exact Or.inr (he ▸ List.mem_cons_self _ _)
      · exact Or.inr (List.mem_cons_of_mem _ he)
    · by_cases h2 : k < c
      · simp only [h1, h2, if_true, if_false, List.mem_cons] at he
        rcases he with he | he
        · exact Or.inr (he ▸ List.mem_cons_self _ _)
        · rcases ih he with h | h
          · exact Or.inl h
          · exact Or.inr (List.mem_cons_of_mem _ h)
      · have : c = k := le_antisymm (not_lt.1 h2) (not_lt.1 h1)
        subst this
        simp only [h1, if_false, List.mem_cons] at he
        rcases he with he | he
        · exact Or.inl he
        · exact Or.inr (List.mem_cons_of_mem _ he)

theorem pairwise_map_set {β : Type} (c : Char) (v : β) (m : List (Char × β))
    (hm : m.Pairwise (fun a b => a.1 < b.1)) :
    (map_set c v m).Pairwise (fun a b => a.1 < b.1) := by
  induction m with
  | nil => simp [map_set]
  | cons a rest ih =>
    obtain ⟨k, w⟩ := a
    rw [List.pairwise_cons] at hm
    simp only [map_set]
    by_cases h1 : c < k
    · simp only [h1, if_true]
      rw [List.pairwise_cons]
      refine ⟨?_, List.pairwise_cons.2 hm⟩
      intro e he
      rcases List.mem_cons.1 he with he | he
      · subst he; exact h1
      · exact lt_trans h1 (hm.1 e he)
    · by_cases h2 : k < c
      · simp only [h1, h2, if_true, if_false]
        rw [List.pairwise_cons]
        refine ⟨?_, ih hm.2⟩
        intro e he
        rcases mem_map_set c v rest e he with h | h
        · subst h; exact h2
        · exact hm.1 e h
      · have : c = k := le_antisymm (not_lt.1 h2) (not_lt.1 h1)
        subst this
        simp only [h1, if_false]
        rw [List.pairwise_cons]
        exact ⟨hm.1, hm.2⟩

theorem map_find_of_mem {β : Type} (m : List (Char × β))
    (hm : m.Pairwise (fun a b => a.1 < b.1)) (c : Char) (v : β) (h : (c, v) ∈ m) :
    map_find c m = some v := by
  induction m with
  | nil => exact absurd h (List.not_mem_nil _)
  | cons a rest ih =>
    obtain ⟨k, w⟩ := a
    rw [List.pairwise_cons] at hm
    simp only [map_find]
    rcases List.mem_cons.1 h with h | h
    · simp only [Prod.mk.injEq] at h
      obtain ⟨rfl, rfl⟩ := h
      simp
    · have hlt := hm.1 _ h
      simp only at hlt
      have : ¬ k = c := fun e => by subst e; exact lt_irrefl _ hlt
      rw [if_neg this]
      exact ih hm.2 h

namespace dfa

theorem look_set (tr : List (List (Char × Int))) (k : Nat) (hk : k < tr.length) (c : Char)
    (v : Int) (k1 : Nat) (c1 : Char) :
    look (tr.set k (map_set c v (tr.getD k []))) k1 c1 =
      if k1 = k ∧ c1 = c then some v else look tr k1 c1 := by
  unfold look
  simp only [List.getD_eq_getElem?_getD]
  by_cases hk1 : k1 = k
  · subst hk1
    rw [List.getElem?_set_self hk]
    simp only [Option.getD_some, map_find_map_set, true_and]
    by_cases hc : c = c1
    · subst hc; simp
    · have : ¬ c1 = c := fun e => hc e.symm
      simp [hc, this]
  · rw [List.getElem?_set_ne (Ne.symm hk1)]
    simp [hk1]

/-- The state of the transition-insertion loops: the rows hold exactly the
images of the edges processed so far. -/
theorem insert_edges_spec (d : dfa) (h : d.well_formed) (t : table) (hf : final_table d t)
    (ga : List (List Int)) (hg : is_grouping d t ga) (i : Nat) (hi : i ≤ d.size)
    (l : List (Char × Int)) (hl : ∀ p ∈ l, 0 ≤ p.2 ∧ p.2 ≤ (d.size : Int))
    (E : List (Nat × Char × Int)) (tr : List (List (Char × Int)))
    (hlen : tr.length = ga.length) (hmap : ∀ row ∈ tr, is_map row)
    (ha : ∀ k c v, look tr k c = some v → ∃ i1 j, (i1, c, j) ∈ E ∧ gidx ga i1 = k ∧ v = gidx ga j)
    (hb : ∀ i1 c j, (i1, c, j) ∈ E → ∃ v, look tr (gidx ga i1) c = some v) :
    ∃ tr1, insert_edges ga i l tr = .ok tr1 ∧ tr1.length = ga.length ∧
      (∀ row ∈ tr1, is_map row) ∧
      (∀ k c v, look tr1 k c = some v →
        ∃ i1 j, (i1, c, j) ∈ E ++ l.map (fun p => (i, p.1, p.2)) ∧ gidx ga i1 = k ∧
          v = gidx ga j) ∧
      (∀ i1 c j, (i1, c, j) ∈ E ++ l.map (fun p => (i, p.1, p.2)) →
        ∃ v, look tr1 (gidx ga i1) c = some v) := by
  induction l generalizing E tr with
  | nil => exact ⟨tr, rfl, hlen, hmap, by simpa using ha, by simpa using hb⟩
  | cons p rest ih =>
    have hp := hl p (List.mem_cons_self _ _)
    have hp2 : p.2 = ((p.2.toNat : Nat) : Int) := by omega
    have hpn : p.2.toNat ≤ d.size := by omega
    obtain ⟨f1, f2, _⟩ := find_group_index_eq d h t hf ga hg p.2.toNat hpn
    rw [← hp2] at f1 f2
    obtain ⟨g1, g2, _⟩ := find_group_index_eq d h t hf ga hg i hi
    have hsrc : gidx ga i < tr.length := by omega
    simp only [insert_edges, f1, g1, ok_bind, List.getElem?_eq_getElem hsrc]
    have hrow : tr[gidx ga ↑i] = tr.getD (gidx ga ↑i) [] := (List.getD_eq_getElem _ _ hsrc).symm
    rw [hrow]
    obtain ⟨tr1, h1, h2, h3, h4, h5⟩ := ih (fun x hx => hl x (List.mem_cons_of_mem _ hx))
      (E ++ [(i, p.1, p.2)])
      (tr.set (gidx ga ↑i) (map_set p.1 (↑(gidx ga p.2)) (tr.getD (gidx ga ↑i) [])))
      (by simp [hlen])
      (by
        intro row hrow2
        rcases List.mem_or_eq_of_mem_set hrow2 with hr | hr
        · exact hmap row hr
        · subst hr
          apply pairwise_map_set
          rw [← hrow]
          exact hmap _ (List.getElem_mem hsrc))
      (by
        intro k c v hlook
        rw [look_set tr _ hsrc] at hlook
        split at hlook
        · rename_i hkc
          obtain ⟨rfl, rfl⟩ := hkc
          simp only [Option.some.injEq] at hlook
          exact ⟨i, p.2, by simp, rfl, hlook.symm⟩
        · obtain ⟨i1, j, hm, hk, hv⟩ := ha k c v hlook
          exact ⟨i1, j, List.mem_append_left _ hm, hk, hv⟩)
      (by
        intro i1 c j hm
        rw [look_set tr _ hsrc]
        split
        · exact ⟨_, rfl⟩
        · rcases List.mem_append.1 hm with hm | hm
          · exact hb i1 c j hm
          · rename_i hne
            simp only [List.mem_singleton, Prod.mk.injEq] at hm
            obtain ⟨rfl, rfl, rfl⟩ := hm
            exact absurd ⟨rfl, rfl⟩ hne)
    refine ⟨tr1, h1, h2, h3, ?_, ?_⟩
    · intro k c v hlook
      obtain ⟨i1, j, hm, hk, hv⟩ := h4 k c v hlook
      refine ⟨i1, j, ?_, hk, hv⟩
      simpa [List.append_assoc] using hm
    · intro i1 c j hm
      apply h5
      simpa [List.append_assoc] using hm

theorem insert_states_spec (d : dfa) (h : d.well_formed) (t : table) (hf : final_table d t)
    (ga : List (List Int)) (hg : is_grouping d t ga)
    (ls : List (Nat × List (Char × Int)))
    (hls : ∀ x ∈ ls, x.1 ≤ d.size ∧ ∀ p ∈ x.2, 0 ≤ p.2 ∧ p.2 ≤ (d.size : Int))
    (E : List (Nat × Char × Int)) (tr : List (List (Char × Int)))
    (hlen : tr.length = ga.length) (hmap : ∀ row ∈ tr, is_map row)
    (ha : ∀ k c v, look tr k c = some v → ∃ i1 j, (i1, c, j) ∈ E ∧ gidx ga i1 = k ∧ v = gidx ga j)
    (hb : ∀ i1 c j, (i1, c, j) ∈ E → ∃ v, look tr (gidx ga i1) c = some v) :
    ∃ tr1, insert_states ga ls tr = .ok tr1 ∧ tr1.length = ga.length ∧
      (∀ row ∈ tr1, is_map row) ∧
      (∀ k c v, look tr1 k c = some v →
        ∃ i1 j, (i1, c, j) ∈ E ++ ls.flatMap (fun x => x.2.map (fun p => (x.1, p.1, p.2))) ∧
          gidx ga i1 = k ∧ v = gidx ga j) ∧
      (∀ i1 c j, (i1, c, j) ∈ E ++ ls.flatMap (fun x => x.2.map (fun p => (x.1, p.1, p.2))) →
        ∃ v, look tr1 (gidx ga i1) c = some v) := by
  induction ls generalizing E tr with
  | nil => exact ⟨tr, rfl, hlen, hmap, by simpa using ha, by simpa using hb⟩
  | cons x rest ih =>
    obtain ⟨i, m⟩ := x
    have hx := hls (i, m) (List.mem_cons_self _ _)
    obtain ⟨tr1, h1, h2, h3, h4, h5⟩ := insert_edges_spec d h t hf ga hg i hx.1 m hx.2 E tr
      hlen hmap ha hb
    obtain ⟨tr2, k1, k2, k3, k4, k5⟩ := ih (fun y hy => hls y (List.mem_cons_of_mem _ hy))
      _ tr1 h2 h3 h4 h5
    refine ⟨tr2, ?_, k2, k3, ?_, ?_⟩
    · simp only [insert_states, h1, ok_bind]
      exact k1
    · intro k c v hlook
      obtain ⟨i1, j, hm, hk, hv⟩ := k4 k c v hlook
      refine ⟨i1, j, ?_, hk, hv⟩
      simpa [List.append_assoc] using hm
    · intro i1 c j hm
      apply k5
      simpa [List.append_assoc] using hm

end dfa
end Regex2Dfa

namespace Regex2Dfa
namespace dfa

theorem group_accepting_eq (d : dfa) (g : List Int)
    (hg : ∀ x ∈ g, 0 ≤ x ∧ x ≤ (d.size : Int)) (acc : Bool) :
    group_accepting d g acc = .ok (acc || gacc d g) := by
  induction g generalizing acc with
  | nil => simp [group_accepting, gacc]
  | cons x rest ih =>
    have hx := hg x (List.mem_cons_self _ _)
    have hx2 : x = ((x.toNat : Nat) : Int) := by omega
    have h1 : d.accepting x = .ok (ac d x.toNat) := by
      conv => lhs; rw [hx2]
      exact accepting_eq d x.toNat (by omega)
    simp only [group_accepting, h1, ok_bind,
      ih (fun y hy => hg y (List.mem_cons_of_mem _ hy))]
    simp [gacc, Bool.or_assoc]

theorem groups_accepting_eq (d : dfa) (ga : List (List Int))
    (hga : ∀ g ∈ ga, ∀ x ∈ g, 0 ≤ x ∧ x ≤ (d.size : Int)) (acc : List Int) :
    groups_accepting d ga acc =
      .ok (acc ++ ga.map (fun g => if gacc d g then 1 else 0)) := by
  induction ga generalizing acc with
  | nil => simp [groups_accepting]
  | cons g rest ih =>
    simp only [groups_accepting, group_accepting_eq d g (hga g (List.mem_cons_self _ _)),
      ok_bind, Bool.false_or, ih (fun y hy => hga y (List.mem_cons_of_mem _ hy)),
      List.map_cons, List.append_assoc, List.singleton_append]

theorem cls_range (n : Nat) (t : table) (p : Nat) (x : Int) (hx : x ∈ cls n t p) :
    0 ≤ x ∧ x ≤ (n : Int) := by
  rw [mem_cls] at hx
  obtain ⟨q, hq, rfl, _⟩ := hx
  omega

theorem gacc_cls (d : dfa) (h : d.well_formed) (t : table) (hf : final_table d t) (p : Nat)
    (hp : p ≤ d.size) : gacc d (cls d.size t p) = ac d p := by
  unfold gacc
  cases hb : ac d p
  · rw [List.any_eq_false]
    intro x hx
    rw [mem_cls] at hx
    obtain ⟨q, hq, rfl, hc⟩ := hx
    have := equiv_ac d p q ((final_iff d h t hf p q hp hq).1 hc)
    simp only [Int.toNat_ofNat]
    rw [← this, hb]
    simp
  · rw [List.any_eq_true]
    exact ⟨p, mem_cls_self d t hf p hp, by simpa using hb⟩

theorem minimize_spec (d : dfa) (h : d.well_formed) :
    ∃ t ga m, fill_table d = .ok t ∧ d.minimize = .ok m ∧ min_spec d t ga m := by
  obtain ⟨t, ht, hd, hs, hse, hst⟩ := fill_table_spec d h
  have hf : final_table d t := ⟨hd, hs, hse, hst⟩
  obtain ⟨groups, hgs, hmem, hpw⟩ := make_groups_spec d h t hf
  have hg : is_grouping d t groups :=
    ⟨fun g hg => (hmem g).1 hg, fun p hp => (hmem _).2 ⟨p, hp, rfl⟩⟩
  obtain ⟨f1, f2, _⟩ := find_group_index_eq d h t hf groups hg 0 (Nat.zero_le _)
  simp only [Nat.cast_zero] at f1 f2
  have hz := gidx_sorted_zero d t hf groups hg hpw
  have hsw : swap_front groups (gidx groups 0) = groups := by
    rw [hz]
    exact swap_front_zero groups (by omega)
  have hls : ∀ x ∈ d.transitions.enum,
      x.1 ≤ d.size ∧ ∀ p ∈ x.2, 0 ≤ p.2 ∧ p.2 ≤ (d.size : Int) := by
    intro x hx
    rw [List.mem_enum_iff_getElem?] at hx
    have hlt : x.1 < d.transitions.length := by
      by_contra hcon
      rw [List.getElem?_eq_none (by omega)] at hx
      simp at hx
    have hmemx : x.2 ∈ d.transitions := List.mem_iff_getElem?.2 ⟨x.1, hx⟩
    refine ⟨?_, h.2.2.2 _ hmemx⟩
    have := h.2.1
    unfold size
    omega
  obtain ⟨tr, h1, h2, h3, h4, h5⟩ := insert_states_spec d h t hf _ hg d.transitions.enum hls []
    (List.replicate groups.length []) (by simp)
    (by
      intro row hrow
      rw [List.eq_of_mem_replicate hrow]
      exact List.Pairwise.nil)
    (by
      intro k c v hlook
      unfold look at hlook
      simp only [List.getD_eq_getElem?_getD, List.getElem?_replicate] at hlook
      split at hlook <;> simp [map_find] at hlook)
    (by
      intro i1 c j hm
      exact absurd hm (List.not_mem_nil _))
  have hE : ∀ i c j, (i, c, j) ∈ ([] : List (Nat × Char × Int)) ++
      d.transitions.enum.flatMap (fun x => x.2.map (fun p => (x.1, p.1, p.2))) ↔
      i < d.size ∧ (c, j) ∈ d.transitions.getD i [] := by
    intro i c j
    simp only [List.nil_append, List.mem_flatMap, List.mem_map, Prod.mk.injEq, Prod.exists,
      List.mk_mem_enum_iff_getElem?]
    constructor
    · rintro ⟨a, b, hab, c1, j1, hcj, rfl, rfl, rfl⟩
      have hlt : a < d.transitions.length := by
        by_contra hcon
        rw [List.getElem?_eq_none (by omega)] at hab
        simp at hab
      refine ⟨by have := h.2.1; unfold size; omega, ?_⟩
      rw [List.getD_eq_getElem?_getD, hab]
      exact hcj
    · rintro ⟨hi, hcj⟩
      have hlt : i < d.transitions.length := by have := h.2.1; unfold size at hi; omega
      refine ⟨i, d.transitions[i], List.getElem?_eq_getElem hlt, c, j, ?_, rfl, rfl, rfl⟩
      rw [List.getD_eq_getElem _ _ hlt] at hcj
      exact hcj
  have hacc := groups_accepting_eq d groups
    (by
      intro g hgm x hx
      obtain ⟨p, hp, rfl⟩ := hg.1 g hgm
      exact cls_range _ _ _ x hx) []
  refine ⟨t, groups, ⟨tr, groups.map (fun g => if gacc d g then 1 else 0)⟩,
    ht, ?_, ⟨hf, hg, hgs, hpw, hz, rfl, h2, h3, ?_, ?_⟩⟩
  · simp only [minimize, ht, hgs, f1, ok_bind, hsw, h1, hacc, List.nil_append, pure_eq_ok]
  · intro k c v hlook
    obtain ⟨i1, j, hm, hk, hv⟩ := h4 k c v hlook
    rw [hE] at hm
    exact ⟨i1, j, hm.1, hm.2, hk, hv⟩
  · intro i c j hi hcj
    exact h5 i c j ((hE i c j).2 ⟨hi, hcj⟩)

end dfa
end Regex2Dfa

namespace Regex2Dfa
namespace dfa

theorem run_eq (d : dfa) (h : d.well_formed) (p : Nat) (hp : p ≤ d.size) (w : List Char) :
    d.run p w = .ok (nxs d p w : Int) := by
  induction w generalizing p with
  | nil => rfl
  | cons c w ih =>
    simp only [run, next_eq d h p hp c, ok_bind, nxs]
    exact ih _ (nx_le d h p c)

theorem accepts_eq (d : dfa) (h : d.well_formed) (w : List Char) :
    d.accepts w = .ok (ac d (nxs d 0 w)) := by
  have := run_eq d h 0 (Nat.zero_le _) w
  simp only [Nat.cast_zero] at this
  simp only [accepts, this, ok_bind]
  exact accepting_eq d _ (nxs_le d h 0 (Nat.zero_le _) w)

theorem min_size (d : dfa) (t : table) (ga : List (List Int)) (m : dfa)
    (hm : min_spec d t ga m) : m.size = ga.length := by
  unfold size
  rw [hm.acc]
  simp

theorem min_gidx_lt (d : dfa) (h : d.well_formed) (t : table) (ga : List (List Int))
    (m : dfa) (hm : min_spec d t ga m) (i : Nat) (hi : i ≤ d.size) : gidx ga i < m.size := by
  rw [min_size d t ga m hm]
  exact (find_group_index_eq d h t hm.final ga hm.grouping i hi).2.1

theorem min_well_formed (d : dfa) (h : d.well_formed) (t : table) (ga : List (List Int))
    (m : dfa) (hm : min_spec d t ga m) : m.well_formed := by
  have hsz := min_size d t ga m hm
  refine ⟨?_, ?_, hm.maps, ?_⟩
  · have := min_gidx_lt d h t ga m hm 0 (Nat.zero_le _)
    omega
  · rw [hm.len]
    unfold size at hsz
    exact hsz.symm
  · intro row hrow p hp
    obtain ⟨k, hk⟩ := List.mem_iff_getElem?.1 hrow
    have hlook : look m.transitions k p.1 = some p.2 := by
      unfold look
      rw [List.getD_eq_getElem?_getD, hk]
      exact map_find_of_mem row (hm.maps row hrow) p.1 p.2 hp
    obtain ⟨i, j, hi, hcj, _, hv⟩ := hm.sound_tr k p.1 p.2 hlook
    have hrowd : d.transitions.getD i [] ∈ d.transitions := by
      have hlt : i < d.transitions.length := by have := h.2.1; unfold size at hi; omega
      rw [List.getD_eq_getElem _ _ hlt]
      exact List.getElem_mem hlt
    have hj := h.2.2.2 _ hrowd _ hcj
    simp only at hj
    have hj2 : j = ((j.toNat : Nat) : Int) := by omega
    have := min_gidx_lt d h t ga m hm j.toNat (by omega)
    rw [← hj2] at this
    rw [hv]
    omega

theorem min_ac (d : dfa) (h : d.well_formed) (t : table) (ga : List (List Int))
    (m : dfa) (hm : min_spec d t ga m) (i : Nat) (hi : i ≤ d.size) :
    ac m (gidx ga i) = ac d i := by
  obtain ⟨_, h2, h3⟩ := find_group_index_eq d h t hm.final ga hm.grouping i hi
  unfold ac
  rw [hm.acc, List.getElem?_map, h3]
  simp only [Option.map_some']
  rw [gacc_cls d h t hm.final i hi]
  change ((if ac d i = true then (1 : Int) else 0) != 0) = ac d i
  cases ac d i <;> simp

theorem ac_dead (d : dfa) : ac d d.size = false := by
  unfold ac size
  simp

theorem min_nx (d : dfa) (h : d.well_formed) (t : table) (ga : List (List Int))
    (m : dfa) (hm : min_spec d t ga m) (s : Nat) (hs : s ≤ d.size) (c : Char) :
    (nx m (gidx ga s) c = gidx ga (nx d s c)) ∨
      (nx m (gidx ga s) c = m.size ∧ nx d s c = d.size) := by
  have hlk : look m.transitions (gidx ga s) c =
      map_find c (m.transitions.getD (gidx ga s) []) := rfl
  cases hl : look m.transitions (gidx ga s) c with
  | some v =>
    left
    obtain ⟨i, j, hi, hcj, hk, hv⟩ := hm.sound_tr _ c v hl
    have hilt : i < d.transitions.length := by have := h.2.1; unfold size at hi; omega
    have hrowd : d.transitions.getD i [] ∈ d.transitions := by
      rw [List.getD_eq_getElem _ _ hilt]
      exact List.getElem_mem hilt
    have hfind := map_find_of_mem _ (h.2.2.1 _ hrowd) c j hcj
    have hnxi : nx d i c = j.toNat := by unfold nx; rw [hfind]
    have hj := h.2.2.2 _ hrowd _ hcj
    simp only at hj
    have hj2 : j = ((j.toNat : Nat) : Int) := by omega
    have hun := unmarked_of_gidx_eq d h t hm.final ga hm.grouping i s (le_of_lt hi) hs hk
    have heq := equiv_nx d i s ((final_iff d h t hm.final i s (le_of_lt hi) hs).1 hun) c
    have hun2 := (final_iff d h t hm.final _ _ (nx_le d h i c) (nx_le d h s c)).2 heq
    have hg := gidx_eq_of_unmarked d h t hm.final ga hm.grouping _ _ (nx_le d h i c) (nx_le d h s c) hun2
    rw [hlk] at hl
    have hnm : nx m (gidx ga s) c = v.toNat := by unfold nx; rw [hl]
    rw [hnm, hv, Int.toNat_ofNat, ← hg, hnxi, ← hj2]
  | none =>
    right
    rw [hlk] at hl
    constructor
    · unfold nx
      rw [hl]
    · cases hf : map_find c (d.transitions.getD s []) with
      | none => unfold nx; rw [hf]
      | some j =>
        exfalso
        have hmem := map_find_mem _ _ _ hf
        have hslt : s < d.size := by
          rcases Nat.eq_or_lt_of_le hs with he | hlt
          · subst he
            have hd : d.transitions.getD d.size [] = [] :=
              List.getD_eq_default _ _ (by rw [h.2.1]; exact le_refl _)
            rw [hd] at hmem
            exact absurd hmem (List.not_mem_nil _)
          · exact hlt
        obtain ⟨v, hv⟩ := hm.total_tr s c j hslt hmem
        rw [hlk, hl] at hv
        exact absurd hv (by simp)

/-- The simulation between a well-formed DFA and its minimized form: after any
word the minimized DFA is in the group of the state of the original one, or
both are dead. -/
theorem min_simulation (d : dfa) (h : d.well_formed) (t : table) (ga : List (List Int))
    (m : dfa) (hm : min_spec d t ga m) (w : List Char) (s u : Nat) (hs : s ≤ d.size)
    (hr : u = gidx ga s ∨ (u = m.size ∧ s = d.size)) :
    ac m (nxs m u w) = ac d (nxs d s w) := by
  have hmw := min_well_formed d h t ga m hm
  induction w generalizing s u with
  | nil =>
    simp only [nxs]
    rcases hr with hr | ⟨hr1, hr2⟩
    · rw [hr]; exact min_ac d h t ga m hm s hs
    · rw [hr1, hr2, ac_dead, ac_dead]
  | cons c w ih =>
    simp only [nxs]
    apply ih _ _ (nx_le d h s c)
    rcases hr with hr | ⟨hr1, hr2⟩
    · rw [hr]
      rcases min_nx d h t ga m hm s hs c with h1 | ⟨h1, h2⟩
      · exact Or.inl h1
      · exact Or.inr ⟨h1, h2⟩
    · right
      rw [hr1, hr2]
      exact ⟨nx_dead m hmw c, nx_dead d h c⟩

end dfa

/-- C2: `minimize` returns on every well-formed DFA, and the result accepts
exactly the words the DFA accepts: for every word, running `next` from state 0
ends in an accepting state in the one iff it does in the other. -/
theorem minimize_preserves_language (d : dfa) (h : d.well_formed) :
    ∃ m, d.minimize = .ok m ∧ ∀ w, ∃ b, d.accepts w = .ok b ∧ m.accepts w = .ok b := by
  obtain ⟨t, ga, m, _, hmin, hm⟩ := dfa.minimize_spec d h
  refine ⟨m, hmin, fun w => ⟨dfa.ac d (dfa.nxs d 0 w), dfa.accepts_eq d h w, ?_⟩⟩
  rw [dfa.accepts_eq m (dfa.min_well_formed d h t ga m hm) w]
  congr 1
  apply dfa.min_simulation d h t ga m hm w 0 0 (Nat.zero_le _)
  left
  have := hm.start
  simp only [Nat.cast_zero]
  exact this.symm

/-- C2 witness: the theorem applied to the DFA of the regex `a`. -/
theorem minimize_preserves_language_witness :
    dfa_a.well_formed ∧
      ∃ m, dfa_a.minimize = .ok m ∧ ∀ w, ∃ b, dfa_a.accepts w = .ok b ∧ m.accepts w = .ok b :=
  ⟨by decide, minimize_preserves_language dfa_a (by decide)⟩

end Regex2Dfa

namespace Regex2Dfa
namespace dfa

theorem nodup_of_sorted (l : List (List Int))
    (h : l.Pairwise (fun x y => lex_lt x y = true)) : l.Nodup := by
  unfold List.Nodup
  apply h.imp
  intro a b hab e
  subst e
  rw [lex_lt_irrefl] at hab
  exact absurd hab (by simp)

/-- Every state of the minimized DFA is the group of some original state. -/
theorem min_surj (d : dfa) (h : d.well_formed) (t : table) (ga : List (List Int))
    (m : dfa) (hm : min_spec d t ga m) (k : Nat) (hk : k < m.size) :
    ∃ i, i ≤ d.size ∧ gidx ga i = k := by
  rw [min_size d t ga m hm] at hk
  obtain ⟨p, hp, hgp⟩ := hm.grouping.1 _ (List.getElem_mem hk)
  obtain ⟨_, h2, h3⟩ := find_group_index_eq d h t hm.final ga hm.grouping p hp
  refine ⟨p, hp, ?_⟩
  rw [List.getElem?_eq_getElem h2, ← hgp] at h3
  have h4 : ga[gidx ga ↑p] = ga[k] := by simpa using h3
  exact ((nodup_of_sorted ga hm.sorted).getElem_inj_iff).1 h4

theorem min_equiv_iff (d : dfa) (h : d.well_formed) (t : table) (ga : List (List Int))
    (m : dfa) (hm : min_spec d t ga m) (i j : Nat) (hi : i ≤ d.size) (hj : j ≤ d.size) :
    equiv m (gidx ga i) (gidx ga j) ↔ equiv d i j := by
  unfold equiv
  constructor
  · intro he w
    rw [← min_simulation d h t ga m hm w i _ hi (Or.inl rfl),
      ← min_simulation d h t ga m hm w j _ hj (Or.inl rfl)]
    exact he w
  · intro he w
    rw [min_simulation d h t ga m hm w i _ hi (Or.inl rfl),
      min_simulation d h t ga m hm w j _ hj (Or.inl rfl)]
    exact he w

theorem min_equiv_dead (d : dfa) (h : d.well_formed) (t : table) (ga : List (List Int))
    (m : dfa) (hm : min_spec d t ga m) : equiv m (gidx ga d.size) m.size := by
  intro w
  rw [min_simulation d h t ga m hm w d.size _ (le_refl _) (Or.inl rfl),
    min_simulation d h t ga m hm w d.size _ (le_refl _) (Or.inr ⟨rfl, rfl⟩)]

/-- Two states of the minimized DFA that no word distinguishes are the same. -/
theorem min_equiv_eq (d : dfa) (h : d.well_formed) (t : table) (ga : List (List Int))
    (m : dfa) (hm : min_spec d t ga m) (k1 k2 : Nat) (hk1 : k1 < m.size) (hk2 : k2 < m.size)
    (he : equiv m k1 k2) : k1 = k2 := by
  obtain ⟨i, hi, rfl⟩ := min_surj d h t ga m hm k1 hk1
  obtain ⟨j, hj, rfl⟩ := min_surj d h t ga m hm k2 hk2
  have e := (min_equiv_iff d h t ga m hm i j hi hj).1 he
  exact gidx_eq_of_unmarked d h t hm.final ga hm.grouping i j hi hj
    ((final_iff d h t hm.final i j hi hj).2 e)

theorem min_equiv_dead_iff (d : dfa) (h : d.well_formed) (t : table) (ga : List (List Int))
    (m : dfa) (hm : min_spec d t ga m) (k : Nat) (hk : k < m.size) :
    equiv m k m.size ↔ k = gidx ga d.size := by
  constructor
  · intro he
    apply min_equiv_eq d h t ga m hm k _ hk (min_gidx_lt d h t ga m hm d.size (le_refl _))
    exact equiv_trans m _ _ _ he (equiv_symm m _ _ (min_equiv_dead d h t ga m hm))
  · rintro rfl
    exact min_equiv_dead d h t ga m hm

/-- In the table of the minimized DFA a state is unmarked only against itself
and, for the group of the dead state, against the new dead state. -/
theorem min_unmarked_iff (d : dfa) (h : d.well_formed) (t : table) (ga : List (List Int))
    (m : dfa) (hm : min_spec d t ga m) (t2 : table) (hf2 : final_table m t2) (k q : Nat)
    (hk : k < m.size) (hq : q ≤ m.size) :
    dcell t2 k q = false ↔ q = k ∨ (q = m.size ∧ k = gidx ga d.size) := by
  have hmw := min_well_formed d h t ga m hm
  rw [final_iff m hmw t2 hf2 k q (le_of_lt hk) hq]
  constructor
  · intro he
    rcases Nat.eq_or_lt_of_le hq with hqe | hqlt
    · right
      subst hqe
      exact ⟨rfl, (min_equiv_dead_iff d h t ga m hm k hk).1 he⟩
    · left
      exact (min_equiv_eq d h t ga m hm k q hk hqlt he).symm
  · rintro (rfl | ⟨rfl, hkd⟩)
    · exact equiv_refl m _
    · exact (min_equiv_dead_iff d h t ga m hm k hk).2 hkd

theorem min_cls (d : dfa) (h : d.well_formed) (t : table) (ga : List (List Int))
    (m : dfa) (hm : min_spec d t ga m) (t2 : table) (hf2 : final_table m t2) (k : Nat)
    (hk : k < m.size) :
    cls m.size t2 k = if k = gidx ga d.size then [(k : Int), (m.size : Int)] else [(k : Int)] := by
  apply eq_of_pairwise_of_mem int_lt int_lt_irrefl int_lt_trans
  · exact pairwise_cls _ _ _
  · split
    · simp only [List.pairwise_cons, List.mem_singleton, forall_eq, List.not_mem_nil,
        false_implies, implies_true, List.Pairwise.nil, and_true, int_lt, decide_eq_true_eq]
      omega
    · simp
  · intro x
    rw [mem_cls]
    constructor
    · rintro ⟨q, hq, rfl, hc⟩
      rcases (min_unmarked_iff d h t ga m hm t2 hf2 k q hk hq).1 hc with rfl | ⟨rfl, hkd⟩
      · split <;> simp
      · simp [hkd]
    · intro hx
      split at hx
      · rename_i hkd
        simp only [List.mem_cons, List.mem_singleton, List.not_mem_nil, or_false] at hx
        rcases hx with rfl | rfl
        · exact ⟨k, le_of_lt hk, rfl,
            (min_unmarked_iff d h t ga m hm t2 hf2 k k hk (le_of_lt hk)).2 (Or.inl rfl)⟩
        · exact ⟨m.size, le_refl _, rfl,
            (min_unmarked_iff d h t ga m hm t2 hf2 k _ hk (le_refl _)).2 (Or.inr ⟨rfl, hkd⟩)⟩
      · simp only [List.mem_singleton] at hx
        subst hx
        exact ⟨k, le_of_lt hk, rfl,
          (min_unmarked_iff d h t ga m hm t2 hf2 k k hk (le_of_lt hk)).2 (Or.inl rfl)⟩

end dfa
end Regex2Dfa

namespace Regex2Dfa
namespace dfa

theorem lex_lt_min_cls (D K k1 k2 : Nat) (h : k1 < k2) :
    lex_lt (if k1 = D then [(k1 : Int), (K : Int)] else [(k1 : Int)])
      (if k2 = D then [(k2 : Int), (K : Int)] else [(k2 : Int)]) = true := by
  have h1 : (k1 : Int) < (k2 : Int) := by omega
  split <;> split <;> simp [lex_lt, h1]

/-- The groups of the minimized DFA, in their sorted order, are the groups of
its states in the order of the states. -/
theorem min_groups (d : dfa) (h : d.well_formed) (t : table) (ga : List (List Int))
    (m : dfa) (hm : min_spec d t ga m) (t2 : table) (ga2 : List (List Int)) (m2 : dfa)
    (hm2 : min_spec m t2 ga2 m2) :
    ga2 = (List.range m.size).map (fun k => cls m.size t2 k) := by
  have hmw := min_well_formed d h t ga m hm
  apply eq_of_pairwise_of_mem lex_lt lex_lt_irrefl lex_lt_trans
  · exact hm2.sorted
  · rw [List.pairwise_map]
    apply List.Pairwise.imp_of_mem _ (List.pairwise_lt_range m.size)
    intro a b ha hb hab
    rw [List.mem_range] at ha hb
    rw [min_cls d h t ga m hm t2 hm2.final a ha, min_cls d h t ga m hm t2 hm2.final b hb]
    exact lex_lt_min_cls _ _ a b hab
  · intro g
    simp only [List.mem_map, List.mem_range]
    constructor
    · intro hg
      obtain ⟨p, hp, rfl⟩ := hm2.grouping.1 g hg
      rcases Nat.eq_or_lt_of_le hp with he | hlt
      · subst he
        have hD := min_gidx_lt d h t ga m hm d.size (le_refl _)
        refine ⟨gidx ga d.size, hD, ?_⟩
        apply cls_eq_of_unmarked m hmw t2 hm2.final _ _ (le_of_lt hD) (le_refl _)
        exact (min_unmarked_iff d h t ga m hm t2 hm2.final _ _ hD (le_refl _)).2
          (Or.inr ⟨rfl, rfl⟩)
      · exact ⟨p, hlt, rfl⟩
    · rintro ⟨k, hk, rfl⟩
      exact hm2.grouping.2 k (le_of_lt hk)

theorem min_gidx_self (d : dfa) (h : d.well_formed) (t : table) (ga : List (List Int))
    (m : dfa) (hm : min_spec d t ga m) (t2 : table) (ga2 : List (List Int)) (m2 : dfa)
    (hm2 : min_spec m t2 ga2 m2) (k : Nat) (hk : k < m.size) : gidx ga2 k = k := by
  have hmw := min_well_formed d h t ga m hm
  obtain ⟨_, h2, h3⟩ := find_group_index_eq m hmw t2 hm2.final ga2 hm2.grouping k (le_of_lt hk)
  have hlen : ga2.length = m.size := by
    rw [min_groups d h t ga m hm t2 ga2 m2 hm2]; simp
  have hlt : gidx ga2 ↑k < m.size := by omega
  have hge : ∀ j, j < m.size → ga2[j]? = some (cls m.size t2 j) := by
    intro j hj
    rw [min_groups d h t ga m hm t2 ga2 m2 hm2, List.getElem?_map, List.getElem?_range hj]
    rfl
  have h4 := hge _ hlt
  rw [h3] at h4
  have h5 : cls m.size t2 k = cls m.size t2 (gidx ga2 ↑k) := by simpa using h4
  have h6 := mem_cls_self m t2 hm2.final k (le_of_lt hk)
  rw [h5, mem_cls] at h6
  obtain ⟨q, hq, hkq, hc⟩ := h6
  have hkq2 : k = q := by omega
  subst hkq2
  rcases (min_unmarked_iff d h t ga m hm t2 hm2.final _ k hlt hq).1 hc with e | ⟨e, _⟩
  · exact e.symm
  · omega

theorem min_acc_value (d : dfa) (t : table) (ga : List (List Int)) (m : dfa)
    (hm : min_spec d t ga m) (k : Nat) (hk : k < m.size) :
    m.accepting_[k]? = some (if ac m k then 1 else 0) := by
  have hk2 : k < ga.length := by rw [← min_size d t ga m hm]; exact hk
  unfold ac
  rw [hm.acc, List.getElem?_map, List.getElem?_eq_getElem hk2]
  simp only [Option.map_some']
  by_cases hg : gacc d ga[k] = true <;> simp [hg]

/-- Minimizing the minimized DFA gives the same accepting flags. -/
theorem min_min_acc (d : dfa) (h : d.well_formed) (t : table) (ga : List (List Int))
    (m : dfa) (hm : min_spec d t ga m) (t2 : table) (ga2 : List (List Int)) (m2 : dfa)
    (hm2 : min_spec m t2 ga2 m2) : m2.accepting_ = m.accepting_ := by
  have hmw := min_well_formed d h t ga m hm
  have hlen : ga2.length = m.size := by
    rw [min_groups d h t ga m hm t2 ga2 m2 hm2]; simp
  apply List.ext_getElem?
  intro k
  by_cases hk : k < m.size
  · rw [min_acc_value d t ga m hm k hk, hm2.acc, List.getElem?_map,
      List.getElem?_eq_getElem (by omega)]
    simp only [Option.map_some']
    obtain ⟨_, h2, h3⟩ := find_group_index_eq m hmw t2 hm2.final ga2 hm2.grouping k
      (le_of_lt hk)
    rw [min_gidx_self d h t ga m hm t2 ga2 m2 hm2 k hk, List.getElem?_eq_getElem (by omega)] at h3
    have h4 : ga2[k] = cls m.size t2 k := by simpa using h3
    rw [h4, gacc_cls m hmw t2 hm2.final k (le_of_lt hk)]
  · rw [List.getElem?_eq_none, List.getElem?_eq_none]
    · unfold size at hk; omega
    · rw [hm2.acc]; simp only [List.length_map]; omega

theorem min_target_lt (d : dfa) (h : d.well_formed) (t : table) (ga : List (List Int))
    (m : dfa) (hm : min_spec d t ga m) (k : Nat) (c : Char) (v : Int)
    (hl : look m.transitions k c = some v) : 0 ≤ v ∧ v < (m.size : Int) := by
  obtain ⟨i, j, hi, hcj, _, hv⟩ := hm.sound_tr k c v hl
  have hrowd : d.transitions.getD i [] ∈ d.transitions := by
    have hlt : i < d.transitions.length := by have := h.2.1; unfold size at hi; omega
    rw [List.getD_eq_getElem _ _ hlt]
    exact List.getElem_mem hlt
  have hj := h.2.2.2 _ hrowd _ hcj
  simp only at hj
  have hj2 : j = ((j.toNat : Nat) : Int) := by omega
  have := min_gidx_lt d h t ga m hm j.toNat (by omega)
  rw [← hj2] at this
  rw [hv]
  omega

theorem look_of_mem (tr : List (List (Char × Int))) (hmap : ∀ row ∈ tr, is_map row)
    (k : Nat) (c : Char) (v : Int) : look tr k c = some v ↔ (c, v) ∈ tr.getD k [] := by
  unfold look
  constructor
  · exact map_find_mem c _ v
  · intro hmem
    by_cases hk : k < tr.length
    · apply map_find_of_mem _ _ c v hmem
      rw [List.getD_eq_getElem _ _ hk]
      exact hmap _ (List.getElem_mem hk)
    · rw [List.getD_eq_default _ _ (by omega)] at hmem
      exact absurd hmem (List.not_mem_nil _)

/-- Minimizing the minimized DFA gives the same transitions. -/
theorem min_min_transitions (d : dfa) (h : d.well_formed) (t : table) (ga : List (List Int))
    (m : dfa) (hm : min_spec d t ga m) (t2 : table) (ga2 : List (List Int)) (m2 : dfa)
    (hm2 : min_spec m t2 ga2 m2) : m2.transitions = m.transitions := by
  have hmw := min_well_formed d h t ga m hm
  have hlen : ga2.length = m.size := by
    rw [min_groups d h t ga m hm t2 ga2 m2 hm2]; simp
  have hlen1 : m.transitions.length = m.size := hmw.2.1
  have hself := min_gidx_self d h t ga m hm t2 ga2 m2 hm2
  apply List.ext_getElem (by rw [hm2.len, hlen, hlen1])
  intro k hk2 hk1
  have hk : k < m.size := by omega
  have hrow1 : m.transitions.getD k [] = m.transitions[k] := List.getD_eq_getElem _ _ hk1
  have hrow2 : m2.transitions.getD k [] = m2.transitions[k] := List.getD_eq_getElem _ _ hk2
  have key : ∀ c v, look m2.transitions k c = some v ↔ look m.transitions k c = some v := by
    intro c v
    constructor
    · intro hl
      obtain ⟨i, j, hi, hcj, hgi, hv⟩ := hm2.sound_tr k c v hl
      rw [hself i hi] at hgi
      subst hgi
      have hl1 := (look_of_mem m.transitions hm.maps i c j).2 hcj
      obtain ⟨hj0, hjlt⟩ := min_target_lt d h t ga m hm i c j hl1
      have hj2 : j = ((j.toNat : Nat) : Int) := by omega
      have hjs := hself j.toNat (by omega)
      rw [← hj2] at hjs
      rw [hv, hjs, ← hj2]
      exact hl1
    · intro hl1
      have hcj := (look_of_mem m.transitions hm.maps k c v).1 hl1
      obtain ⟨v2, hl2⟩ := hm2.total_tr k c v hk hcj
      rw [hself k hk] at hl2
      obtain ⟨i, j, hi, hcj2, hgi, hv⟩ := hm2.sound_tr k c v2 hl2
      rw [hself i hi] at hgi
      subst hgi
      have hl3 := (look_of_mem m.transitions hm.maps i c j).2 hcj2
      rw [hl1] at hl3
      have hvj : v = j := by simpa using hl3
      subst hvj
      obtain ⟨hj0, hjlt⟩ := min_target_lt d h t ga m hm i c v hl1
      have hj2 : v = ((v.toNat : Nat) : Int) := by omega
      have hjs := hself v.toNat (by omega)
      rw [← hj2] at hjs
      rw [hl2, hv, hjs, ← hj2]
  have hp1 : m.transitions[k].Pairwise (fun a b => a.1 < b.1) :=
    hm.maps _ (List.getElem_mem hk1)
  have hp2 : m2.transitions[k].Pairwise (fun a b => a.1 < b.1) :=
    hm2.maps _ (List.getElem_mem hk2)
  apply eq_of_pairwise_of_mem (fun a b => decide (a.1 < b.1))
  · intro a; simp
  · intro a b c hab hbc
    simp only [decide_eq_true_eq] at *
    exact lt_trans hab hbc
  · simpa using hp2
  · simpa using hp1
  · intro x
    obtain ⟨c, v⟩ := x
    rw [← hrow1, ← hrow2, ← look_of_mem m2.transitions hm2.maps, ← look_of_mem m.transitions hm.maps]
    exact key c v

end dfa

/-- C4: `minimize` is idempotent.  On every well-formed DFA it returns a DFA `m`
on which `minimize` returns `m` again: the same number of states, the same
accepting flags and the same transitions, the renumbering of the states being
the identity (which fixes state 0). -/
theorem minimize_idempotent (d : dfa) (h : d.well_formed) :
    ∃ m, d.minimize = .ok m ∧ m.minimize = .ok m := by
  obtain ⟨t, ga, m, _, hmin, hm⟩ := dfa.minimize_spec d h
  obtain ⟨t2, ga2, m2, _, hmin2, hm2⟩ := dfa.minimize_spec m (dfa.min_well_formed d h t ga m hm)
  refine ⟨m, hmin, ?_⟩
  rw [hmin2]
  congr 1
  have h1 := dfa.min_min_transitions d h t ga m hm t2 ga2 m2 hm2
  have h2 := dfa.min_min_acc d h t ga m hm t2 ga2 m2 hm2
  cases m
  cases m2
  simp only at h1 h2
  rw [h1, h2]

/-- C4 witness: the theorem applied to the DFA of the regex `(a|b)*abb`. -/
theorem minimize_idempotent_witness :
    dfa_abb.well_formed ∧ ∃ m, dfa_abb.minimize = .ok m ∧ m.minimize = .ok m :=
  ⟨by decide, minimize_idempotent dfa_abb (by decide)⟩

end Regex2Dfa

namespace Regex2Dfa
namespace node

theorem nullable_eq (t : node) (h : t.no_null) : t.nullable = .ok t.nl := by
  induction t with
  | null => exact absurd h id
  | empty_node => rfl
  | letter_node c i => rfl
  | terminator_node i => rfl
  | or_node a b iha ihb =>
    simp only [nullable, nl, iha h.1, ihb h.2, ok_bind]
    cases a.nl <;> simp
  | cat_node a b iha ihb =>
    simp only [nullable, nl, iha h.1, ihb h.2, ok_bind]
    cases a.nl <;> simp
  | star_node c _ => rfl

theorem firstpos_eq (t : node) (h : t.no_null) : t.firstpos = .ok t.fp := by
  induction t with
  | null => exact absurd h id
  | empty_node => rfl
  | letter_node c i => rfl
  | terminator_node i => rfl
  | or_node a b iha ihb =>
    simp only [firstpos, fp, iha h.1, ihb h.2, ok_bind, pure_eq_ok]
  | cat_node a b iha ihb =>
    simp only [firstpos, fp, iha h.1, ihb h.2, ok_bind, nullable_eq a h.1]
    cases a.nl <;> simp
  | star_node c ih => exact ih h

theorem lastpos_eq (t : node) (h : t.no_null) : t.lastpos = .ok t.lp := by
  induction t with
  | null => exact absurd h id
  | empty_node => rfl
  | letter_node c i => rfl
  | terminator_node i => rfl
  | or_node a b iha ihb =>
    simp only [lastpos, lp, iha h.1, ihb h.2, ok_bind, pure_eq_ok]
  | cat_node a b iha ihb =>
    simp only [lastpos, lp, iha h.1, ihb h.2, ok_bind, nullable_eq b h.2]
    cases b.nl <;> simp
  | star_node c ih => exact ih h

theorem bind_ok_inv {ε α β : Type} (x : Except ε α) (f : α → Except ε β) (b : β)
    (h : (x >>= f) = .ok b) : ∃ a, x = .ok a ∧ f a = .ok b := by
  cases x with
  | error e => simp at h
  | ok a => exact ⟨a, rfl, h⟩

/-- A tree on which `firstpos` returns has no null pointer. -/
theorem no_null_of_firstpos (t : node) (F : List Nat) (h : t.firstpos = .ok F) :
    t.no_null := by
  induction t generalizing F with
  | null => simp [firstpos] at h
  | empty_node => trivial
  | letter_node c i => trivial
  | terminator_node i => trivial
  | or_node a b iha ihb =>
    simp only [firstpos] at h
    obtain ⟨f1, h1, h2⟩ := bind_ok_inv _ _ _ h
    obtain ⟨f2, h3, _⟩ := bind_ok_inv _ _ _ h2
    exact ⟨iha f1 h1, ihb f2 h3⟩
  | cat_node a b iha ihb =>
    simp only [firstpos] at h
    obtain ⟨f1, h1, h2⟩ := bind_ok_inv _ _ _ h
    obtain ⟨f2, h3, _⟩ := bind_ok_inv _ _ _ h2
    exact ⟨iha f1 h1, ihb f2 h3⟩
  | star_node c ih => exact ih F h

theorem mem_union (x : Nat) (s t : List Nat) :
    x ∈ set_insert_all pos_lt (set_insert_all pos_lt [] s) t ↔ x ∈ s ∨ x ∈ t := by
  rw [mem_set_insert_all pos_lt pos_lt_tri, mem_set_insert_all pos_lt pos_lt_tri]
  simp

theorem pairwise_union (s t : List Nat) :
    (set_insert_all pos_lt (set_insert_all pos_lt [] s) t).Pairwise
      (fun x y => pos_lt x y = true) := by
  apply pairwise_set_insert_all pos_lt pos_lt_tri pos_lt_trans
  apply pairwise_set_insert_all pos_lt pos_lt_tri pos_lt_trans
  exact List.Pairwise.nil

theorem mem_fp_or (a b : node) (x : Nat) : x ∈ (or_node a b).fp ↔ x ∈ a.fp ∨ x ∈ b.fp := by
  simp only [fp, mem_union]

theorem mem_lp_or (a b : node) (x : Nat) : x ∈ (or_node a b).lp ↔ x ∈ a.lp ∨ x ∈ b.lp := by
  simp only [lp, mem_union]

theorem mem_fp_cat (a b : node) (x : Nat) :
    x ∈ (cat_node a b).fp ↔ x ∈ a.fp ∨ (a.nl = true ∧ x ∈ b.fp) := by
  simp only [fp]
  split
  · rename_i h; simp [mem_union, h]
  · rename_i h; simp [h]

theorem mem_lp_cat (a b : node) (x : Nat) :
    x ∈ (cat_node a b).lp ↔ x ∈ b.lp ∨ (b.nl = true ∧ x ∈ a.lp) := by
  simp only [lp]
  split
  · rename_i h; simp [mem_union, h]; tauto
  · rename_i h; simp [h]

theorem pairwise_fp (t : node) : t.fp.Pairwise (fun x y => pos_lt x y = true) := by
  induction t with
  | null => exact List.Pairwise.nil
  | empty_node => exact List.Pairwise.nil
  | letter_node c i => simp [fp]
  | terminator_node i => simp [fp]
  | or_node a b _ _ => exact pairwise_union _ _
  | cat_node a b iha _ =>
    simp only [fp]
    split
    · exact pairwise_union _ _
    · exact iha
  | star_node c ih => exact ih

theorem fp_sub (t : node) (x : Nat) (h : x ∈ t.fp) : x ∈ t.leaf_ids := by
  induction t with
  | null => exact h
  | empty_node => exact h
  | letter_node c i => exact h
  | terminator_node i => exact h
  | or_node a b iha ihb =>
    rw [mem_fp_or] at h
    simp only [leaf_ids, List.mem_append]
    exact h.imp iha ihb
  | cat_node a b iha ihb =>
    rw [mem_fp_cat] at h
    simp only [leaf_ids, List.mem_append]
    exact h.imp iha (fun h2 => ihb h2.2)
  | star_node c ih => exact ih h

theorem lp_sub (t : node) (x : Nat) (h : x ∈ t.lp) : x ∈ t.leaf_ids := by
  induction t with
  | null => exact h
  | empty_node => exact h
  | letter_node c i => exact h
  | terminator_node i => exact h
  | or_node a b iha ihb =>
    rw [mem_lp_or] at h
    simp only [leaf_ids, List.mem_append]
    exact h.imp iha ihb
  | cat_node a b iha ihb =>
    rw [mem_lp_cat] at h
    simp only [leaf_ids, List.mem_append]
    rcases h with h | h
    · exact Or.inr (ihb h)
    · exact Or.inl (iha h.2)
  | star_node c ih => exact ih h

theorem follow_sub (t : node) (p q : Nat) (h : t.follow p q) :
    p ∈ t.leaf_ids ∧ q ∈ t.leaf_ids := by
  induction t with
  | null => exact absurd h id
  | empty_node => exact absurd h id
  | letter_node c i => exact absurd h id
  | terminator_node i => exact absurd h id
  | or_node a b iha ihb =>
    simp only [leaf_ids, List.mem_append]
    rcases h with h | h
    · exact ⟨Or.inl (iha h).1, Or.inl (iha h).2⟩
    · exact ⟨Or.inr (ihb h).1, Or.inr (ihb h).2⟩
  | cat_node a b iha ihb =>
    simp only [leaf_ids, List.mem_append]
    rcases h with h | h | h
    · exact ⟨Or.inl (lp_sub a p h.1), Or.inr (fp_sub b q h.2)⟩
    · exact ⟨Or.inl (iha h).1, Or.inl (iha h).2⟩
    · exact ⟨Or.inr (ihb h).1, Or.inr (ihb h).2⟩
  | star_node c ih =>
    rcases h with h | h
    · exact ⟨lp_sub c p h.1, fp_sub c q h.2⟩
    · exact ih h

end node
end Regex2Dfa

namespace Regex2Dfa
namespace node

theorem mem_add_followpos (ns s : List Nat) (f : Nat → List Nat) (m q : Nat) :
    q ∈ add_followpos ns s f m ↔ q ∈ f m ∨ (m ∈ ns ∧ q ∈ s) := by
  unfold add_followpos
  induction ns generalizing f with
  | nil => simp
  | cons n rest ih =>
    simp only [List.foldl_cons]
    rw [ih]
    by_cases hmn : m = n
    · subst hmn
      simp only [if_true, mem_set_insert_all pos_lt pos_lt_tri, List.mem_cons, true_or, true_and]
      tauto
    · simp [hmn]

theorem pairwise_add_followpos (ns s : List Nat) (f : Nat → List Nat)
    (hf : ∀ m, (f m).Pairwise (fun x y => pos_lt x y = true)) (m : Nat) :
    (add_followpos ns s f m).Pairwise (fun x y => pos_lt x y = true) := by
  unfold add_followpos
  induction ns generalizing f with
  | nil => exact hf m
  | cons n rest ih =>
    simp only [List.foldl_cons]
    apply ih
    intro k
    split
    · exact pairwise_set_insert_all pos_lt pos_lt_tri pos_lt_trans _ _ (hf n)
    · exact hf k

/-- On a tree without null pointers `build_followpos` returns, and adds to the
`followpos_` sets exactly the links of `follow`. -/
theorem build_followpos_spec (t : node) (h : t.no_null) (f0 : Nat → List Nat) :
    ∃ f1, t.build_followpos f0 = .ok f1 ∧
      (∀ p q, q ∈ f1 p ↔ q ∈ f0 p ∨ t.follow p q) ∧
      ((∀ m, (f0 m).Pairwise (fun x y => pos_lt x y = true)) →
        ∀ m, (f1 m).Pairwise (fun x y => pos_lt x y = true)) := by
  induction t generalizing f0 with
  | null => exact absurd h id
  | empty_node => exact ⟨f0, rfl, by simp [follow], fun hp => hp⟩
  | letter_node c i => exact ⟨f0, rfl, by simp [follow], fun hp => hp⟩
  | terminator_node i => exact ⟨f0, rfl, by simp [follow], fun hp => hp⟩
  | or_node a b iha ihb =>
    obtain ⟨f1, h1, h2, h3⟩ := iha h.1 f0
    obtain ⟨f2, k1, k2, k3⟩ := ihb h.2 f1
    refine ⟨f2, ?_, ?_, fun hp => k3 (h3 hp)⟩
    · simp only [build_followpos, h1, ok_bind, k1]
    · intro p q
      rw [k2, h2]
      simp only [follow]
      tauto
  | cat_node a b iha ihb =>
    obtain ⟨f1, h1, h2, h3⟩ := iha h.1 (add_followpos a.lp b.fp f0)
    obtain ⟨f2, k1, k2, k3⟩ := ihb h.2 f1
    refine ⟨f2, ?_, ?_, fun hp => k3 (h3 (pairwise_add_followpos _ _ _ hp))⟩
    · simp only [build_followpos, lastpos_eq a h.1, firstpos_eq b h.2, ok_bind, h1, k1]
    · intro p q
      rw [k2, h2, mem_add_followpos]
      simp only [follow]
      tauto
  | star_node c ih =>
    obtain ⟨f1, h1, h2, h3⟩ := ih h (add_followpos c.lp c.fp f0)
    refine ⟨f1, ?_, ?_, fun hp => h3 (pairwise_add_followpos _ _ _ hp)⟩
    · simp only [build_followpos, lastpos_eq c h, firstpos_eq c h, ok_bind, h1]
    · intro p q
      rw [h2, mem_add_followpos]
      simp only [follow]
      tauto

end node
end Regex2Dfa

namespace Regex2Dfa

theorem walk_mono (R R1 : Nat → Nat → Prop) (fin fin1 : Nat → Prop)
    (hR : ∀ x y, R x y → R1 x y) (hf : ∀ x, fin x → fin1 x) (x : Nat) (l : List Nat)
    (h : walk R fin x l) : walk R1 fin1 x l := by
  induction l generalizing x with
  | nil => exact hf x h
  | cons y rest ih => exact ⟨hR x y h.1, ih y h.2⟩

theorem walk_append_cons (R : Nat → Nat → Prop) (fin : Nat → Prop) (x : Nat)
    (u : List Nat) (y : Nat) (v : List Nat) :
    walk R fin x (u ++ y :: v) ↔ walk R (fun z => R z y ∧ walk R fin y v) x u := by
  induction u generalizing x with
  | nil => exact Iff.rfl
  | cons a rest ih => exact and_congr Iff.rfl (ih a)

/-- A walk that starts inside `A` and cannot leave it is a walk of the
relation restricted to `A`. -/
theorem walk_restrict (R R1 : Nat → Nat → Prop) (fin fin1 : Nat → Prop) (A : Nat → Prop)
    (hR : ∀ x y, A x → R x y → R1 x y ∧ A y) (hf : ∀ x, A x → fin x → fin1 x) (x : Nat)
    (hx : A x) (l : List Nat) (h : walk R fin x l) : walk R1 fin1 x l := by
  induction l generalizing x with
  | nil => exact hf x hx h
  | cons y rest ih =>
    obtain ⟨h1, h2⟩ := hR x y hx h.1
    exact ⟨h1, ih y h2 h.2⟩

namespace node

theorem gpath_cat (a b : node) (u v : List Nat) (hu : gpath a u) (hv : gpath b v) :
    gpath (cat_node a b) (u ++ v) := by
  cases u with
  | nil =>
    cases v with
    | nil =>
      simp only [gpath] at hu hv
      simp [gpath, nl, hu, hv]
    | cons q v1 =>
      simp only [gpath] at hu hv
      refine ⟨(mem_fp_cat a b q).2 (Or.inr ⟨hu, hv.1⟩), ?_⟩
      apply walk_mono _ _ _ _ _ _ q v1 hv.2
      · intro x y hxy
        exact Or.inr (Or.inr hxy)
      · intro x hx
        exact (mem_lp_cat a b x).2 (Or.inl hx)
  | cons p u1 =>
    cases v with
    | nil =>
      simp only [gpath] at hu hv
      rw [List.append_nil]
      refine ⟨(mem_fp_cat a b p).2 (Or.inl hu.1), ?_⟩
      apply walk_mono _ _ _ _ _ _ p u1 hu.2
      · intro x y hxy
        exact Or.inr (Or.inl hxy)
      · intro x hx
        exact (mem_lp_cat a b x).2 (Or.inr ⟨hv, hx⟩)
    | cons q v1 =>
      simp only [gpath] at hu hv
      refine ⟨(mem_fp_cat a b p).2 (Or.inl hu.1), ?_⟩
      refine (walk_append_cons _ _ p u1 q v1).2 ?_
      apply walk_mono _ _ _ _ _ _ p u1 hu.2
      · intro x y hxy
        exact Or.inr (Or.inl hxy)
      · intro x hx
        refine ⟨Or.inl ⟨hx, hv.1⟩, ?_⟩
        apply walk_mono _ _ _ _ _ _ q v1 hv.2
        · intro x y hxy
          exact Or.inr (Or.inr hxy)
        · intro x hx
          exact (mem_lp_cat a b x).2 (Or.inl hx)

theorem gpath_star_of (c : node) (u : List Nat) (hu : gpath c u) : gpath (star_node c) u := by
  cases u with
  | nil => rfl
  | cons p u1 =>
    refine ⟨hu.1, ?_⟩
    exact walk_mono _ _ _ _ (fun x y hxy => Or.inr hxy) (fun x hx => hx) p u1 hu.2

theorem gpath_star_append (c : node) (u v : List Nat) (hu : gpath (star_node c) u)
    (hv : gpath (star_node c) v) : gpath (star_node c) (u ++ v) := by
  cases u with
  | nil => exact hv
  | cons p u1 =>
    cases v with
    | nil => rw [List.append_nil]; exact hu
    | cons q v1 =>
      refine ⟨hu.1, ?_⟩
      refine (walk_append_cons _ _ p u1 q v1).2 ?_
      apply walk_mono _ _ _ _ (fun x y hxy => hxy) _ p u1 hu.2
      intro x hx
      exact ⟨Or.inl ⟨hx, hv.1⟩, hv.2⟩

theorem gpath_star_flatten (c : node) (L : List (List Nat)) (hL : ∀ y ∈ L, gpath c y) :
    gpath (star_node c) L.flatten := by
  induction L with
  | nil => rfl
  | cons y rest ih =>
    rw [List.flatten_cons]
    exact gpath_star_append c _ _ (gpath_star_of c y (hL y (List.mem_cons_self _ _)))
      (ih (fun z hz => hL z (List.mem_cons_of_mem _ hz)))

theorem gpath_or_left (a b : node) (u : List Nat) (hu : gpath a u) :
    gpath (or_node a b) u := by
  cases u with
  | nil =>
    simp only [gpath] at hu
    simp [gpath, nl, hu]
  | cons p u1 =>
    refine ⟨(mem_fp_or a b p).2 (Or.inl hu.1), ?_⟩
    exact walk_mono _ _ _ _ (fun x y hxy => Or.inl hxy)
      (fun x hx => (mem_lp_or a b x).2 (Or.inl hx)) p u1 hu.2

theorem gpath_or_right (a b : node) (u : List Nat) (hu : gpath b u) :
    gpath (or_node a b) u := by
  cases u with
  | nil =>
    simp only [gpath] at hu
    simp [gpath, nl, hu]
  | cons p u1 =>
    refine ⟨(mem_fp_or a b p).2 (Or.inr hu.1), ?_⟩
    exact walk_mono _ _ _ _ (fun x y hxy => Or.inr hxy)
      (fun x hx => (mem_lp_or a b x).2 (Or.inr hx)) p u1 hu.2

/-- Every word of the position language is a path of the tree. -/
theorem gpath_of_plang (t : node) (ps : List Nat) (h : ps ∈ t.plang) : gpath t ps := by
  induction t generalizing ps with
  | null => exact absurd h (by simp [plang])
  | empty_node =>
    simp only [plang, Language.mem_one] at h
    subst h
    rfl
  | letter_node c i =>
    have : ps = [i] := h
    subst this
    simp [gpath, fp, walk, lp]
  | terminator_node i =>
    have : ps = [i] := h
    subst this
    simp [gpath, fp, walk, lp]
  | or_node a b iha ihb =>
    simp only [plang, Language.mem_add] at h
    rcases h with h | h
    · exact gpath_or_left a b ps (iha ps h)
    · exact gpath_or_right a b ps (ihb ps h)
  | cat_node a b iha ihb =>
    simp only [plang, Language.mem_mul] at h
    obtain ⟨u, hu, v, hv, rfl⟩ := h
    exact gpath_cat a b u v (iha u hu) (ihb v hv)
  | star_node c ih =>
    simp only [plang, Language.mem_kstar] at h
    obtain ⟨L, rfl, hL⟩ := h
    exact gpath_star_flatten c L (fun y hy => ih y (hL y hy))

end node
end Regex2Dfa

namespace Regex2Dfa
namespace node

theorem disjoint_of_nodup_append (l1 l2 : List Nat) (h : (l1 ++ l2).Nodup) (x : Nat)
    (h1 : x ∈ l1) (h2 : x ∈ l2) : False :=
  (List.nodup_append.1 h).2.2 h1 h2

/-- A walk of `Cat(a, b)` that starts in `b` is a walk of `b`. -/
theorem walk_cat_right (a b : node) (hnd : (a.leaf_ids ++ b.leaf_ids).Nodup) (y : Nat)
    (hy : y ∈ b.leaf_ids) (rest : List Nat)
    (h : walk (cat_node a b).follow (fun x => x ∈ (cat_node a b).lp) y rest) :
    walk b.follow (fun x => x ∈ b.lp) y rest := by
  apply walk_restrict _ _ _ _ (fun x => x ∈ b.leaf_ids) _ _ y hy rest h
  · intro x z hx hxz
    rcases hxz with hxz | hxz | hxz
    · exact absurd (lp_sub a x hxz.1) (fun hxa => disjoint_of_nodup_append _ _ hnd x hxa hx)
    · exact absurd (follow_sub a x z hxz).1
        (fun hxa => disjoint_of_nodup_append _ _ hnd x hxa hx)
    · exact ⟨hxz, (follow_sub b x z hxz).2⟩
  · intro x hx hxl
    rcases (mem_lp_cat a b x).1 hxl with h1 | h1
    · exact h1
    · exact absurd (lp_sub a x h1.2) (fun hxa => disjoint_of_nodup_append _ _ hnd x hxa hx)

/-- A walk of `Cat(a, b)` that starts in `a` is a walk of `a` followed by a
path of `b`. -/
theorem walk_cat_left (a b : node) (hnd : (a.leaf_ids ++ b.leaf_ids).Nodup) (x : Nat)
    (hx : x ∈ a.leaf_ids) (rest : List Nat)
    (h : walk (cat_node a b).follow (fun x => x ∈ (cat_node a b).lp) x rest) :
    ∃ u v, rest = u ++ v ∧ walk a.follow (fun x => x ∈ a.lp) x u ∧ gpath b v := by
  induction rest generalizing x with
  | nil =>
    refine ⟨[], [], rfl, ?_, ?_⟩
    · rcases (mem_lp_cat a b x).1 h with h1 | h1
      · exact absurd (lp_sub b x h1) (fun hxb => disjoint_of_nodup_append _ _ hnd x hx hxb)
      · exact h1.2
    · rcases (mem_lp_cat a b x).1 h with h1 | h1
      · exact absurd (lp_sub b x h1) (fun hxb => disjoint_of_nodup_append _ _ hnd x hx hxb)
      · exact h1.1
  | cons y rest1 ih =>
    obtain ⟨hxy, hw⟩ := h
    rcases hxy with hxy | hxy | hxy
    · refine ⟨[], y :: rest1, rfl, hxy.1, hxy.2, ?_⟩
      exact walk_cat_right a b hnd y (fp_sub b y hxy.2) rest1 hw
    · obtain ⟨u, v, huv, hu, hv⟩ := ih y (follow_sub a x y hxy).2 hw
      refine ⟨y :: u, v, ?_, ⟨hxy, hu⟩, hv⟩
      rw [huv]
      rfl
    · exact absurd (follow_sub b x y hxy).1
        (fun hxb => disjoint_of_nodup_append _ _ hnd x hx hxb)

/-- A walk of `Star(c)` is a walk of `c` followed by paths of `c`. -/
theorem walk_star (c : node) (x : Nat) (rest : List Nat)
    (h : walk (star_node c).follow (fun x => x ∈ (star_node c).lp) x rest) :
    ∃ u L, rest = u ++ List.flatten L ∧ walk c.follow (fun x => x ∈ c.lp) x u ∧
      ∀ y ∈ L, gpath c y := by
  induction rest generalizing x with
  | nil => exact ⟨[], [], rfl, h, fun y hy => absurd hy (List.not_mem_nil _)⟩
  | cons y rest1 ih =>
    obtain ⟨hxy, hw⟩ := h
    obtain ⟨u, L, huL, hu, hL⟩ := ih y hw
    rcases hxy with hxy | hxy
    · refine ⟨[], (y :: u) :: L, ?_, hxy.1, ?_⟩
      · rw [huL]
        rfl
      · intro z hz
        rcases List.mem_cons.1 hz with hz | hz
        · subst hz
          exact ⟨hxy.2, hu⟩
        · exact hL z hz
    · refine ⟨y :: u, L, ?_, ⟨hxy, hu⟩, hL⟩
      rw [huL]
      rfl

/-- On a tree without null pointers whose leaf ids are distinct, every path of the
tree is a word of the position language. -/
theorem plang_of_gpath (t : node) (hn : t.no_null) (hnd : t.leaf_ids.Nodup) (ps : List Nat)
    (h : gpath t ps) : ps ∈ t.plang := by
  induction t generalizing ps with
  | null => exact absurd hn id
  | empty_node =>
    cases ps with
    | nil => simp [plang]
    | cons p rest => exact absurd h.1 (List.not_mem_nil _)
  | letter_node c i =>
    cases ps with
    | nil => simp [gpath, nl] at h
    | cons p rest =>
      cases rest with
      | nil =>
        have hp : p = i := by simpa [fp] using h.1
        subst hp
        rfl
      | cons q rest1 => exact absurd h.2.1 id
  | terminator_node i =>
    cases ps with
    | nil => simp [gpath, nl] at h
    | cons p rest =>
      cases rest with
      | nil =>
        have hp : p = i := by simpa [fp] using h.1
        subst hp
        rfl
      | cons q rest1 => exact absurd h.2.1 id
  | or_node a b iha ihb =>
    have hnd2 : (a.leaf_ids ++ b.leaf_ids).Nodup := hnd
    obtain ⟨hna, hnb, _⟩ := List.nodup_append.1 hnd2
    simp only [plang, Language.mem_add]
    cases ps with
    | nil =>
      simp only [gpath, nl, Bool.or_eq_true] at h
      exact h.imp (fun h1 => iha hn.1 hna [] h1) (fun h1 => ihb hn.2 hnb [] h1)
    | cons p rest =>
      obtain ⟨hp, hw⟩ := h
      rcases (mem_fp_or a b p).1 hp with hp | hp
      · left
        apply iha hn.1 hna
        refine ⟨hp, ?_⟩
        apply walk_restrict _ _ _ _ (fun x => x ∈ a.leaf_ids) _ _ p (fp_sub a p hp) rest hw
        · intro x z hx hxz
          rcases hxz with hxz | hxz
          · exact ⟨hxz, (follow_sub a x z hxz).2⟩
          · exact absurd (follow_sub b x z hxz).1
              (fun hxb => disjoint_of_nodup_append _ _ hnd2 x hx hxb)
        · intro x hx hxl
          rcases (mem_lp_or a b x).1 hxl with h1 | h1
          · exact h1
          · exact absurd (lp_sub b x h1) (fun hxb => disjoint_of_nodup_append _ _ hnd2 x hx hxb)
      · right
        apply ihb hn.2 hnb
        refine ⟨hp, ?_⟩
        apply walk_restrict _ _ _ _ (fun x => x ∈ b.leaf_ids) _ _ p (fp_sub b p hp) rest hw
        · intro x z hx hxz
          rcases hxz with hxz | hxz
          · exact absurd (follow_sub a x z hxz).1
              (fun hxa => disjoint_of_nodup_append _ _ hnd2 x hxa hx)
          · exact ⟨hxz, (follow_sub b x z hxz).2⟩
        · intro x hx hxl
          rcases (mem_lp_or a b x).1 hxl with h1 | h1
          · exact absurd (lp_sub a x h1) (fun hxa => disjoint_of_nodup_append _ _ hnd2 x hxa hx)
          · exact h1
  | cat_node a b iha ihb =>
    have hnd2 : (a.leaf_ids ++ b.leaf_ids).Nodup := hnd
    obtain ⟨hna, hnb, _⟩ := List.nodup_append.1 hnd2
    simp only [plang, Language.mem_mul]
    cases ps with
    | nil =>
      simp only [gpath, nl, Bool.and_eq_true] at h
      exact ⟨[], iha hn.1 hna [] h.1, [], ihb hn.2 hnb [] h.2, rfl⟩
    | cons p rest =>
      obtain ⟨hp, hw⟩ := h
      rcases (mem_fp_cat a b p).1 hp with hp | hp
      · obtain ⟨u, v, huv, hu, hv⟩ := walk_cat_left a b hnd2 p (fp_sub a p hp) rest hw
        refine ⟨p :: u, iha hn.1 hna _ ⟨hp, hu⟩, v, ihb hn.2 hnb v hv, ?_⟩
        rw [huv]
        rfl
      · refine ⟨[], iha hn.1 hna [] hp.1, p :: rest, ihb hn.2 hnb _ ⟨hp.2, ?_⟩, rfl⟩
        exact walk_cat_right a b hnd2 p (fp_sub b p hp.2) rest hw
  | star_node c ih =>
    simp only [plang, Language.mem_kstar]
    cases ps with
    | nil => exact ⟨[], rfl, fun y hy => absurd hy (List.not_mem_nil _)⟩
    | cons p rest =>
      obtain ⟨hp, hw⟩ := h
      obtain ⟨u, L, huL, hu, hL⟩ := walk_star c p rest hw
      refine ⟨(p :: u) :: L, ?_, ?_⟩
      · rw [huL]
        rfl
      · intro y hy
        rcases List.mem_cons.1 hy with hy | hy
        · subst hy
          exact ih hn hnd _ ⟨hp, hu⟩
        · exact ih hn hnd y (hL y hy)

/-- The paths of a tree are the words of its position language. -/
theorem gpath_iff_plang (t : node) (hn : t.no_null) (hnd : t.leaf_ids.Nodup) (ps : List Nat) :
    gpath t ps ↔ ps ∈ t.plang :=
  ⟨plang_of_gpath t hn hnd ps, gpath_of_plang t ps⟩

theorem plang_sub (t : node) (ps : List Nat) (h : ps ∈ t.plang) :
    ∀ p ∈ ps, p ∈ t.leaf_ids := by
  induction t generalizing ps with
  | null => exact absurd h (by simp [plang])
  | empty_node =>
    simp only [plang, Language.mem_one] at h
    subst h
    intro p hp
    exact absurd hp (List.not_mem_nil _)
  | letter_node c i =>
    have : ps = [i] := h
    subst this
    intro p hp
    exact hp
  | terminator_node i =>
    have : ps = [i] := h
    subst this
    intro p hp
    exact hp
  | or_node a b iha ihb =>
    simp only [plang, Language.mem_add] at h
    intro p hp
    simp only [leaf_ids, List.mem_append]
    rcases h with h | h
    · exact Or.inl (iha ps h p hp)
    · exact Or.inr (ihb ps h p hp)
  | cat_node a b iha ihb =>
    simp only [plang, Language.mem_mul] at h
    obtain ⟨u, hu, v, hv, rfl⟩ := h
    intro p hp
    simp only [leaf_ids, List.mem_append]
    rcases List.mem_append.1 hp with hp | hp
    · exact Or.inl (iha u hu p hp)
    · exact Or.inr (ihb v hv p hp)
  | star_node c ih =>
    simp only [plang, Language.mem_kstar] at h
    obtain ⟨L, rfl, hL⟩ := h
    intro p hp
    rw [List.mem_flatten] at hp
    obtain ⟨y, hy, hpy⟩ := hp
    exact ih y (hL y hy) p hpy

end node
end Regex2Dfa

namespace Regex2Dfa
namespace node

theorem leaf_none_of_not_mem (t : node) (i : Nat) (h : i ∉ t.leaf_ids) : t.leaf i = none := by
  induction t with
  | null => rfl
  | empty_node => rfl
  | letter_node c j =>
    simp only [leaf_ids, List.mem_singleton] at h
    simp only [leaf]
    rw [if_neg (fun e => h e.symm)]
  | terminator_node j =>
    simp only [leaf_ids, List.mem_singleton] at h
    simp only [leaf]
    rw [if_neg (fun e => h e.symm)]
  | or_node a b iha ihb =>
    simp only [leaf_ids, List.mem_append, not_or] at h
    simp [leaf, iha h.1, ihb h.2]
  | cat_node a b iha ihb =>
    simp only [leaf_ids, List.mem_append, not_or] at h
    simp [leaf, iha h.1, ihb h.2]
  | star_node c ih => exact ih h

theorem labelled_of_leaf (t : node) (l : Nat → Char) (hnd : t.leaf_ids.Nodup)
    (h : ∀ i ln, t.leaf i = some ln → l i = ln.letter) : t.labelled l := by
  induction t with
  | null => trivial
  | empty_node => trivial
  | letter_node c j => exact h j (letter_node c j) (by simp [leaf])
  | terminator_node j => trivial
  | or_node a b iha ihb =>
    have hnd2 : (a.leaf_ids ++ b.leaf_ids).Nodup := hnd
    obtain ⟨hna, hnb, hdis⟩ := List.nodup_append.1 hnd2
    refine ⟨iha hna ?_, ihb hnb ?_⟩
    · intro i ln hl
      exact h i ln (by simp [leaf, hl])
    · intro i ln hl
      apply h i ln
      have hib : i ∈ b.leaf_ids := by
        by_contra hcon
        rw [leaf_none_of_not_mem b i hcon] at hl
        exact absurd hl (by simp)
      have hia : i ∉ a.leaf_ids := fun hia => hdis hia hib
      simp [leaf, leaf_none_of_not_mem a i hia, hl]
  | cat_node a b iha ihb =>
    have hnd2 : (a.leaf_ids ++ b.leaf_ids).Nodup := hnd
    obtain ⟨hna, hnb, hdis⟩ := List.nodup_append.1 hnd2
    refine ⟨iha hna ?_, ihb hnb ?_⟩
    · intro i ln hl
      exact h i ln (by simp [leaf, hl])
    · intro i ln hl
      apply h i ln
      have hib : i ∈ b.leaf_ids := by
        by_contra hcon
        rw [leaf_none_of_not_mem b i hcon] at hl
        exact absurd hl (by simp)
      have hia : i ∉ a.leaf_ids := fun hia => hdis hia hib
      simp [leaf, leaf_none_of_not_mem a i hia, hl]
  | star_node c ih => exact ih hnd h

theorem labelled_letter_at (t : node) (hnd : t.leaf_ids.Nodup) : t.labelled t.letter_at := by
  apply labelled_of_leaf t _ hnd
  intro i ln hl
  simp [letter_at, hl]

theorem map_singleton (l : Nat → Char) (i : Nat) :
    Language.map l ({[i]} : Language Nat) = ({[l i]} : Language Char) := by
  apply Language.ext
  intro x
  constructor
  · rintro ⟨y, hy, rfl⟩
    have : y = [i] := hy
    subst this
    rfl
  · intro hx
    have : x = [l i] := hx
    subst this
    exact ⟨[i], rfl, rfl⟩

/-- The language of a tree is the image of its position language under the
letters of the leaves. -/
theorem lang_eq_map (t : node) (l : Nat → Char) (hl : t.labelled l) (hnt : t.no_terminator) :
    t.lang = Language.map l t.plang := by
  induction t with
  | null => simp [lang, plang]
  | empty_node => simp [lang, plang]
  | letter_node c i =>
    have : l i = c := hl
    subst this
    simp only [lang, plang]
    exact (map_singleton l i).symm
  | terminator_node i => exact absurd hnt id
  | or_node a b iha ihb =>
    simp only [lang, plang, map_add, iha hl.1 hnt.1, ihb hl.2 hnt.2]
  | cat_node a b iha ihb =>
    simp only [lang, plang, map_mul, iha hl.1 hnt.1, ihb hl.2 hnt.2]
  | star_node c ih =>
    simp only [lang, plang, Language.map_kstar, ih hl hnt]

theorem mem_lang_iff (t : node) (l : Nat → Char) (hl : t.labelled l) (hnt : t.no_terminator)
    (w : List Char) : w ∈ t.lang ↔ ∃ ps, ps ∈ t.plang ∧ ps.map l = w := by
  rw [lang_eq_map t l hl hnt]
  rfl

end node
end Regex2Dfa

namespace Regex2Dfa
namespace regex_tree

theorem accept_cid (s : symbol) (st : parser_state) :
    (accept s st).2.current_id = st.current_id := by
  unfold accept
  split
  · split <;> rfl
  · rfl

theorem match_cid (s : symbol) (st : parser_state) (r : Int) (st1 : parser_state)
    (h : match_ s st = .ok (r, st1)) : st1.current_id = st.current_id := by
  unfold match_ at h
  have hc := accept_cid s st
  cases hacc : accept s st with
  | mk b st2 =>
    rw [hacc] at h hc
    cases b with
    | true =>
      simp only [Except.ok.injEq, Prod.mk.injEq] at h
      rw [← h.2]
      exact hc
    | false => exact absurd h (by simp)

theorem term_stars_spec (pos : List Char) (left : node) (id : Nat) :
    (term_stars pos left id).2.current_id = id ∧
      (term_stars pos left id).1.leaf_ids = left.leaf_ids ∧
      (left.no_terminator → (term_stars pos left id).1.no_terminator) := by
  induction pos generalizing left with
  | nil => exact ⟨rfl, rfl, fun h => h⟩
  | cons c rest ih =>
    simp only [term_stars]
    split
    · obtain ⟨h1, h2, h3⟩ := ih (node.star_node left)
      exact ⟨h1, h2, fun h => h3 h⟩
    · exact ⟨rfl, rfl, fun h => h⟩

theorem parse_inv_null (st : parser_state) : parse_inv st (node.null, st) := by
  refine ⟨le_refl _, ?_, trivial⟩
  simp [node.leaf_ids]

theorem term_inv (regexfn : parser_state → Except failure (node × parser_state))
    (hre : ∀ st res, regexfn st = .ok res → parse_inv st res) (st : parser_state)
    (res : node × parser_state) (h : term regexfn st = .ok res) : parse_inv st res := by
  unfold term at h
  split at h
  · rename_i st1 hacc
    have hc1 : st1.current_id = st.current_id := by
      have := accept_cid symbol.oparen st
      rw [hacc] at this
      exact this
    obtain ⟨⟨left, st2⟩, h1, h2⟩ := node.bind_ok_inv _ _ _ h
    obtain ⟨⟨r, st3⟩, h3, h4⟩ := node.bind_ok_inv _ _ _ h2
    have hinv := hre st1 _ h1
    have hc3 := match_cid _ _ _ _ h3
    simp only [pure_eq_ok, Except.ok.injEq] at h4
    obtain ⟨k1, k2, k3⟩ := term_stars_spec st3.pos left st3.current_id
    rw [← h4]
    refine ⟨?_, ?_, k3 hinv.2.2⟩
    · rw [k1, hc3, ← hc1]; exact hinv.1
    · rw [k1, k2, hc3, ← hc1]; exact hinv.2.1
  · split at h
    · obtain ⟨⟨r, st1⟩, h1, h2⟩ := node.bind_ok_inv _ _ _ h
      have hc1 := match_cid _ _ _ _ h1
      simp only [pure_eq_ok, Except.ok.injEq] at h2
      obtain ⟨k1, k2, k3⟩ := term_stars_spec st1.pos
        (node.letter_node (Char.ofNat r.toNat) st1.current_id) (st1.current_id + 1)
      rw [← h2]
      refine ⟨?_, ?_, k3 trivial⟩
      · rw [k1, hc1]; omega
      · rw [k1, k2, hc1]
        simp [node.leaf_ids]
    · simp only [pure_eq_ok, Except.ok.injEq] at h
      rw [← h]
      exact parse_inv_null st

theorem make_cat_node_eq (l r n : node) (h : node.make_cat_node l r = .ok n) :
    n = node.cat_node l r := by
  unfold node.make_cat_node at h
  obtain ⟨_, _, h1⟩ := node.bind_ok_inv _ _ _ h
  obtain ⟨_, _, h2⟩ := node.bind_ok_inv _ _ _ h1
  obtain ⟨_, _, h3⟩ := node.bind_ok_inv _ _ _ h2
  simpa using h3.symm

theorem make_or_node_eq (l r n : node) (h : node.make_or_node l r = .ok n) :
    n = node.or_node l r := by
  unfold node.make_or_node at h
  obtain ⟨_, _, h1⟩ := node.bind_ok_inv _ _ _ h
  obtain ⟨_, _, h2⟩ := node.bind_ok_inv _ _ _ h1
  obtain ⟨_, _, h3⟩ := node.bind_ok_inv _ _ _ h2
  simpa using h3.symm

theorem range'_append_le (lo mid hi : Nat) (h1 : lo ≤ mid) (h2 : mid ≤ hi) :
    List.range' lo (mid - lo) ++ List.range' mid (hi - mid) = List.range' lo (hi - lo) := by
  have := List.range'_append lo (mid - lo) (hi - mid) 1
  rw [one_mul, show lo + (mid - lo) = mid by omega,
    show hi - mid + (mid - lo) = hi - lo by omega] at this
  exact this

/-- Sequencing: a node made of the leaves of two consecutive calls. -/
theorem parse_inv_seq (st st1 st2 : parser_state) (a b n : node)
    (ha : parse_inv st (a, st1)) (hb : parse_inv st1 (b, st2))
    (hn : n.leaf_ids = a.leaf_ids ++ b.leaf_ids)
    (hnt : a.no_terminator → b.no_terminator → n.no_terminator) : parse_inv st (n, st2) := by
  refine ⟨le_trans ha.1 hb.1, ?_, hnt ha.2.2 hb.2.2⟩
  simp only at *
  rw [hn, ha.2.1, hb.2.1]
  exact range'_append_le _ _ _ ha.1 hb.1

theorem expr_loop_inv (regexfn : parser_state → Except failure (node × parser_state))
    (hre : ∀ st res, regexfn st = .ok res → parse_inv st res) (fuel : Nat) (st0 : parser_state)
    (left : node) (st : parser_state) (hleft : parse_inv st0 (left, st))
    (res : node × parser_state) (h : expr_loop regexfn fuel left st = .ok res) :
    parse_inv st0 res := by
  induction fuel generalizing left st with
  | zero => simp [expr_loop] at h
  | succ fuel ih =>
    simp only [expr_loop] at h
    obtain ⟨⟨right, st1⟩, h1, h2⟩ := node.bind_ok_inv _ _ _ h
    have hr := term_inv regexfn hre st _ h1
    simp only at h2
    split at h2
    · rename_i hnull
      simp only [pure_eq_ok, Except.ok.injEq] at h2
      rw [← h2]
      subst hnull
      exact parse_inv_seq st0 st st1 left node.null left hleft hr (by simp [node.leaf_ids])
        (fun ha _ => ha)
    · obtain ⟨left1, h3, h4⟩ := node.bind_ok_inv _ _ _ h2
      have := make_cat_node_eq _ _ _ h3
      subst this
      exact ih _ st1 (parse_inv_seq st0 st st1 left right (node.cat_node left right) hleft hr
        rfl (fun ha hb => ⟨ha, hb⟩)) h4

theorem expr_inv (regexfn : parser_state → Except failure (node × parser_state))
    (hre : ∀ st res, regexfn st = .ok res → parse_inv st res) (st : parser_state)
    (res : node × parser_state) (h : expr regexfn st = .ok res) : parse_inv st res := by
  unfold expr at h
  obtain ⟨⟨left, st1⟩, h1, h2⟩ := node.bind_ok_inv _ _ _ h
  exact expr_loop_inv regexfn hre _ st left st1 (term_inv regexfn hre st _ h1) res h2

theorem regex_loop_inv (regexfn : parser_state → Except failure (node × parser_state))
    (hre : ∀ st res, regexfn st = .ok res → parse_inv st res) (fuel : Nat) (st0 : parser_state)
    (left : node) (st : parser_state) (hleft : parse_inv st0 (left, st))
    (res : node × parser_state) (h : regex_loop regexfn fuel left st = .ok res) :
    parse_inv st0 res := by
  induction fuel generalizing left st with
  | zero => simp [regex_loop] at h
  | succ fuel ih =>
    simp only [regex_loop] at h
    split at h
    · rename_i st1 hacc
      have hc1 : st1.current_id = st.current_id := by
        have := accept_cid symbol.bar st
        rw [hacc] at this
        exact this
      obtain ⟨⟨right, st2⟩, h1, h2⟩ := node.bind_ok_inv _ _ _ h
      obtain ⟨left1, h3, h4⟩ := node.bind_ok_inv _ _ _ h2
      have := make_or_node_eq _ _ _ h3
      subst this
      have hr := expr_inv regexfn hre st1 _ h1
      have hleft1 : parse_inv st0 (left, st1) := by
        unfold parse_inv at hleft ⊢
        simp only at hleft ⊢
        rw [hc1]
        exact hleft
      exact ih _ st2 (parse_inv_seq st0 st1 st2 left right (node.or_node left right) hleft1 hr
        rfl (fun ha hb => ⟨ha, hb⟩)) h4
    · rename_i st1 hacc
      have hc1 : st1.current_id = st.current_id := by
        have := accept_cid symbol.bar st
        rw [hacc] at this
        exact this
      simp only [pure_eq_ok, Except.ok.injEq] at h
      rw [← h]
      unfold parse_inv at hleft ⊢
      simp only at hleft ⊢
      rw [hc1]
      exact hleft

theorem regex_body_inv (regexfn : parser_state → Except failure (node × parser_state))
    (hre : ∀ st res, regexfn st = .ok res → parse_inv st res) (st : parser_state)
    (res : node × parser_state) (h : regex_body regexfn st = .ok res) : parse_inv st res := by
  unfold regex_body at h
  split at h
  · simp only [pure_eq_ok, Except.ok.injEq] at h
    rw [← h]
    refine ⟨le_refl _, ?_, trivial⟩
    simp [node.leaf_ids]
  · obtain ⟨⟨left, st1⟩, h1, h2⟩ := node.bind_ok_inv _ _ _ h
    exact regex_loop_inv regexfn hre _ st left st1 (expr_inv regexfn hre st _ h1) res h2

theorem regex_inv (fuel : Nat) (st : parser_state) (res : node × parser_state)
    (h : regex fuel st = .ok res) : parse_inv st res := by
  induction fuel generalizing st res with
  | zero => simp [regex] at h
  | succ fuel ih => exact regex_body_inv (regex fuel) (fun st res h => ih st res h) st res h

theorem start_inv (st : parser_state) (res : node × parser_state)
    (h : start st = .ok res) : parse_inv st res := by
  unfold start at h
  obtain ⟨⟨r, st1⟩, h1, h2⟩ := node.bind_ok_inv _ _ _ h
  obtain ⟨⟨_, st2⟩, h3, h4⟩ := node.bind_ok_inv _ _ _ h2
  have hinv := regex_inv _ st _ h1
  have hc := match_cid _ _ _ _ h3
  simp only [pure_eq_ok, Except.ok.injEq] at h4
  rw [← h4]
  unfold parse_inv at hinv ⊢
  simp only at hinv ⊢
  rw [hc]
  exact hinv

end regex_tree
end Regex2Dfa

namespace Regex2Dfa
namespace node

theorem leaf_some (t : node) (n : Nat) (ln : node) (h : t.leaf n = some ln) :
    n ∈ t.leaf_ids ∧ ((∃ c, ln = letter_node c n) ∨ ln = terminator_node n) := by
  induction t with
  | null => simp [leaf] at h
  | empty_node => simp [leaf] at h
  | letter_node c i =>
    simp only [leaf] at h
    split at h
    · rename_i hi
      subst hi
      simp only [Option.some.injEq] at h
      exact ⟨by simp [leaf_ids], Or.inl ⟨c, h.symm⟩⟩
    · exact absurd h (by simp)
  | terminator_node i =>
    simp only [leaf] at h
    split at h
    · rename_i hi
      subst hi
      simp only [Option.some.injEq] at h
      exact ⟨by simp [leaf_ids], Or.inr h.symm⟩
    · exact absurd h (by simp)
  | or_node a b iha ihb =>
    simp only [leaf] at h
    simp only [leaf_ids, List.mem_append]
    cases ha : a.leaf n with
    | some x =>
      rw [ha] at h
      simp only [Option.orElse, Option.some.injEq] at h
      subst h
      exact ⟨Or.inl (iha ha).1, (iha ha).2⟩
    | none =>
      rw [ha] at h
      simp only [Option.orElse] at h
      exact ⟨Or.inr (ihb h).1, (ihb h).2⟩
  | cat_node a b iha ihb =>
    simp only [leaf] at h
    simp only [leaf_ids, List.mem_append]
    cases ha : a.leaf n with
    | some x =>
      rw [ha] at h
      simp only [Option.orElse, Option.some.injEq] at h
      subst h
      exact ⟨Or.inl (iha ha).1, (iha ha).2⟩
    | none =>
      rw [ha] at h
      simp only [Option.orElse] at h
      exact ⟨Or.inr (ihb h).1, (ihb h).2⟩
  | star_node c ih => exact ih h

theorem leaf_of_mem (t : node) (n : Nat) (h : n ∈ t.leaf_ids) : ∃ ln, t.leaf n = some ln := by
  cases hl : t.leaf n with
  | some ln => exact ⟨ln, rfl⟩
  | none =>
    exfalso
    induction t with
    | null => simp [leaf_ids] at h
    | empty_node => simp [leaf_ids] at h
    | letter_node c i =>
      simp only [leaf_ids, List.mem_singleton] at h
      subst h
      simp [leaf] at hl
    | terminator_node i =>
      simp only [leaf_ids, List.mem_singleton] at h
      subst h
      simp [leaf] at hl
    | or_node a b iha ihb =>
      simp only [leaf_ids, List.mem_append] at h
      simp only [leaf] at hl
      cases ha : a.leaf n with
      | some x => rw [ha] at hl; simp [Option.orElse] at hl
      | none =>
        rw [ha] at hl
        simp only [Option.orElse] at hl
        rcases h with h | h
        · exact iha h ha
        · exact ihb h hl
    | cat_node a b iha ihb =>
      simp only [leaf_ids, List.mem_append] at h
      simp only [leaf] at hl
      cases ha : a.leaf n with
      | some x => rw [ha] at hl; simp [Option.orElse] at hl
      | none =>
        rw [ha] at hl
        simp only [Option.orElse] at hl
        rcases h with h | h
        · exact iha h ha
        · exact ihb h hl
    | star_node c ih => exact ih h hl

/-- In a tree without end marker every leaf is a letter. -/
theorem leaf_letter_of_no_terminator (t : node) (hnt : t.no_terminator) (n : Nat) (ln : node)
    (h : t.leaf n = some ln) : ∃ c, ln = letter_node c n := by
  induction t with
  | null => simp [leaf] at h
  | empty_node => simp [leaf] at h
  | letter_node c i =>
    simp only [leaf] at h
    split at h
    · rename_i hi
      subst hi
      simp only [Option.some.injEq] at h
      exact ⟨c, h.symm⟩
    · exact absurd h (by simp)
  | terminator_node i => exact absurd hnt id
  | or_node a b iha ihb =>
    simp only [leaf] at h
    cases ha : a.leaf n with
    | some x =>
      rw [ha] at h
      simp only [Option.orElse, Option.some.injEq] at h
      subst h
      exact iha hnt.1 ha
    | none =>
      rw [ha] at h
      simp only [Option.orElse] at h
      exact ihb hnt.2 h
  | cat_node a b iha ihb =>
    simp only [leaf] at h
    cases ha : a.leaf n with
    | some x =>
      rw [ha] at h
      simp only [Option.orElse, Option.some.injEq] at h
      subst h
      exact iha hnt.1 ha
    | none =>
      rw [ha] at h
      simp only [Option.orElse] at h
      exact ihb hnt.2 h
  | star_node c ih => exact ih hnt h

end node

namespace regex_tree

theorem built.root_ids (t : regex_tree) (r0 : node) (k : Nat) (hb : built t r0 k) :
    t.root.leaf_ids = List.range (k + 1) := by
  rw [hb.root_eq]
  simp only [node.leaf_ids, hb.ids]
  rw [List.range_succ]

theorem built.root_nodup (t : regex_tree) (r0 : node) (k : Nat) (hb : built t r0 k) :
    t.root.leaf_ids.Nodup := by
  rw [built.root_ids t r0 k hb]
  exact List.nodup_range _

theorem built.root_nn (t : regex_tree) (r0 : node) (k : Nat) (hb : built t r0 k) :
    t.root.no_null := by
  rw [hb.root_eq]
  exact ⟨hb.nn, trivial⟩

theorem built.leaf_lt (t : regex_tree) (r0 : node) (k : Nat) (hb : built t r0 k) (n : Nat)
    (hn : n < k) : ∃ c, t.root.leaf n = some (node.letter_node c n) ∧ r0.leaf n =
      some (node.letter_node c n) := by
  have hmem : n ∈ r0.leaf_ids := by rw [hb.ids, List.mem_range]; exact hn
  obtain ⟨ln, hln⟩ := node.leaf_of_mem r0 n hmem
  obtain ⟨c, hc⟩ := node.leaf_letter_of_no_terminator r0 hb.nt n ln hln
  subst hc
  refine ⟨c, ?_, hln⟩
  rw [hb.root_eq]
  simp [node.leaf, hln]

theorem built.leaf_k (t : regex_tree) (r0 : node) (k : Nat) (hb : built t r0 k) :
    t.root.leaf k = some (node.terminator_node k) := by
  have hnot : k ∉ r0.leaf_ids := by rw [hb.ids, List.mem_range]; omega
  rw [hb.root_eq]
  simp [node.leaf, node.leaf_none_of_not_mem r0 k hnot]

theorem built.leaf_letter (t : regex_tree) (r0 : node) (k : Nat) (hb : built t r0 k)
    (n : Nat) (a : Char) (h : t.root.leaf n = some (node.letter_node a n)) :
    n < k ∧ t.root.letter_at n = a := by
  have hmem := (node.leaf_some t.root n _ h).1
  rw [built.root_ids t r0 k hb, List.mem_range] at hmem
  refine ⟨?_, by simp [node.letter_at, h, node.letter]⟩
  rcases Nat.lt_succ_iff_lt_or_eq.1 hmem with hlt | heq
  · exact hlt
  · subst heq
    rw [built.leaf_k t r0 n hb] at h
    exact absurd h (by simp)

/-- The constructor establishes `built`. -/
theorem new_built (r : List Char) (t : regex_tree) (h : regex_tree.new r = .ok t) :
    ∃ r0 st, start ⟨r, 0⟩ = .ok (r0, st) ∧ built t r0 st.current_id := by
  unfold regex_tree.new at h
  obtain ⟨⟨r0, st⟩, h1, h2⟩ := node.bind_ok_inv _ _ _ h
  obtain ⟨root, h3, h4⟩ := node.bind_ok_inv _ _ _ h2
  obtain ⟨fol, h5, h6⟩ := node.bind_ok_inv _ _ _ h4
  simp only [pure_eq_ok, Except.ok.injEq] at h6
  have hroot := make_cat_node_eq _ _ _ h3
  have hinv := start_inv _ _ h1
  unfold parse_inv at hinv
  simp only [Nat.sub_zero] at hinv
  have hnn : r0.no_null := by
    unfold node.make_cat_node at h3
    obtain ⟨_, _, k1⟩ := node.bind_ok_inv _ _ _ h3
    obtain ⟨F, k2, _⟩ := node.bind_ok_inv _ _ _ k1
    exact (node.no_null_of_firstpos _ F k2).1
  have hrn : root.no_null := by rw [hroot]; exact ⟨hnn, trivial⟩
  obtain ⟨f1, k1, k2, k3⟩ := node.build_followpos_spec root hrn (fun _ => [])
  rw [h5] at k1
  simp only [Except.ok.injEq] at k1
  subst k1
  refine ⟨r0, st, h1, ?_⟩
  rw [← h6]
  refine ⟨rfl, hroot, hnn, ?_, hinv.2.2, ?_, ?_⟩
  · rw [hinv.2.1, List.range_eq_range']
  · intro p q
    rw [k2]
    simp
  · exact k3 (fun _ => List.Pairwise.nil)

end regex_tree
end Regex2Dfa

namespace Regex2Dfa
namespace regex_tree

theorem build_u_map_eq (t : regex_tree) (S : List Nat)
    (hS : ∀ n ∈ S, n ∈ t.root.leaf_ids) (st : Bool × List (Char × List Nat)) :
    build_u_map t S st = .ok (S.foldl (u_step t) st) := by
  induction S generalizing st with
  | nil => rfl
  | cons n rest ih =>
    obtain ⟨acc, um⟩ := st
    obtain ⟨ln, hln⟩ := node.leaf_of_mem t.root n (hS n (List.mem_cons_self _ _))
    have hrest := fun x hx => hS x (List.mem_cons_of_mem _ hx)
    simp only [build_u_map, hln, List.foldl_cons, u_step]
    split
    · exact ih hrest _
    · exact ih hrest _

theorem u_step_letter (t : regex_tree) (st : Bool × List (Char × List Nat)) (n : Nat)
    (c : Char) (h : t.root.leaf n = some (node.letter_node c n)) :
    u_step t st n = (st.1, map_set c
      (set_insert_all pos_lt ((map_find c st.2).getD []) (t.followpos_ n)) st.2) := by
  simp [u_step, h, node.is_terminator, node.letter]

theorem u_step_terminator (t : regex_tree) (st : Bool × List (Char × List Nat)) (n : Nat)
    (h : t.root.leaf n = some (node.terminator_node n)) : u_step t st n = (true, st.2) := by
  simp [u_step, h, node.is_terminator]

/-- What the loop over the positions of a state computes. -/
theorem u_fold_spec (t : regex_tree) (r0 : node) (k : Nat) (hb : built t r0 k) (S : List Nat)
    (hS : ∀ n ∈ S, n < k + 1) (st : Bool × List (Char × List Nat)) :
    ((S.foldl (u_step t) st).1 = true ↔ st.1 = true ∨ k ∈ S) ∧
    (∀ a q, (∃ U, map_find a (S.foldl (u_step t) st).2 = some U ∧ q ∈ U) ↔
      (∃ U, map_find a st.2 = some U ∧ q ∈ U) ∨
      ∃ n ∈ S, t.root.leaf n = some (node.letter_node a n) ∧ q ∈ t.followpos_ n) ∧
    (∀ a, map_find a (S.foldl (u_step t) st).2 = none ↔
      map_find a st.2 = none ∧ ¬ ∃ n ∈ S, t.root.leaf n = some (node.letter_node a n)) ∧
    (st.2.Pairwise (fun x y => x.1 < y.1) →
      (S.foldl (u_step t) st).2.Pairwise (fun x y => x.1 < y.1)) ∧
    ((∀ e ∈ st.2, e.2.Pairwise (fun x y => pos_lt x y = true)) →
      ∀ e ∈ (S.foldl (u_step t) st).2, e.2.Pairwise (fun x y => pos_lt x y = true)) := by
  induction S generalizing st with
  | nil => simp
  | cons n rest ih =>
    have hrest := fun x hx => hS x (List.mem_cons_of_mem _ hx)
    have hn := hS n (List.mem_cons_self _ _)
    simp only [List.foldl_cons]
    obtain ⟨i1, i2, i3, i4, i5⟩ := ih hrest (u_step t st n)
    rcases Nat.lt_succ_iff_lt_or_eq.1 hn with hlt | heq
    · obtain ⟨c, hc, _⟩ := built.leaf_lt t r0 k hb n hlt
      have hstep := u_step_letter t st n c hc
      have hnk : n ≠ k := by omega
      refine ⟨?_, ?_, ?_, ?_, ?_⟩
      · rw [i1, hstep]
        simp only [List.mem_cons]
        constructor
        · rintro (h | h)
          · exact Or.inl h
          · exact Or.inr (Or.inr h)
        · rintro (h | h | h)
          · exact Or.inl h
          · exact absurd h.symm hnk
          · exact Or.inr h
      · intro a q
        rw [i2 a q, hstep]
        simp only [map_find_map_set, List.mem_cons, exists_eq_or_imp]
        by_cases hca : c = a
        · subst hca
          simp only [if_true, Option.some.injEq, exists_eq_left',
            mem_set_insert_all pos_lt pos_lt_tri, hc, true_and]
          cases hf : map_find c st.2 with
          | none => simp
          | some U0 => simp [or_assoc]
        · simp only [if_neg hca]
          have : ¬ (t.root.leaf n = some (node.letter_node a n)) := by
            rw [hc]
            simp [hca]
          simp [this]
      · intro a
        rw [i3 a, hstep]
        simp only [map_find_map_set, List.mem_cons, exists_eq_or_imp]
        by_cases hca : c = a
        · subst hca
          simp [hc]
        · have : ¬ (t.root.leaf n = some (node.letter_node a n)) := by
            rw [hc]
            simp [hca]
          simp [hca, this]
      · intro hp
        apply i4
        rw [hstep]
        exact pairwise_map_set _ _ _ hp
      · intro hp
        apply i5
        rw [hstep]
        intro e he
        rcases mem_map_set _ _ _ e he with h | h
        · rw [h]
          apply pairwise_set_insert_all pos_lt pos_lt_tri pos_lt_trans
          cases hf : map_find c st.2 with
          | none => exact List.Pairwise.nil
          | some U0 => exact hp _ (dfa.map_find_mem _ _ _ hf)
        · exact hp e h
    · subst heq
      have hstep := u_step_terminator t st n (built.leaf_k t r0 n hb)
      have hnl : ∀ a, ¬ (t.root.leaf n = some (node.letter_node a n)) := by
        intro a
        rw [built.leaf_k t r0 n hb]
        simp
      refine ⟨?_, ?_, ?_, ?_, ?_⟩
      · rw [i1, hstep]
        simp
      · intro a q
        rw [i2 a q, hstep]
        simp [hnl]
      · intro a
        rw [i3 a, hstep]
        simp [hnl]
      · intro hp
        apply i4
        rw [hstep]
        exact hp
      · intro hp
        apply i5
        rw [hstep]
        exact hp

end regex_tree
end Regex2Dfa

namespace Regex2Dfa
namespace regex_tree

theorem sid_none (U : List Nat) (sigma : List (List Nat × Int)) :
    state_id_find U sigma = none ↔ U ∉ sigma.map Prod.fst := by
  induction sigma with
  | nil => simp [state_id_find]
  | cons e rest ih =>
    obtain ⟨k, v⟩ := e
    simp only [state_id_find, List.map_cons, List.mem_cons, not_or]
    by_cases hk : k = U
    · simp [hk]
    · rw [if_neg hk, ih]
      constructor
      · intro h; exact ⟨fun e => hk e.symm, h⟩
      · intro h; exact h.2

theorem sid_some_mem (U : List Nat) (sigma : List (List Nat × Int)) (j : Int)
    (h : state_id_find U sigma = some j) : (U, j) ∈ sigma := by
  induction sigma with
  | nil => simp [state_id_find] at h
  | cons e rest ih =>
    obtain ⟨k, v⟩ := e
    simp only [state_id_find] at h
    split at h
    · rename_i hk
      simp only [Option.some.injEq] at h
      subst hk; subst h
      exact List.mem_cons_self _ _
    · exact List.mem_cons_of_mem _ (ih h)

theorem sid_append (U : List Nat) (sigma new : List (List Nat × Int)) (j : Int)
    (h : state_id_find U sigma = some j) : state_id_find U (sigma ++ new) = some j := by
  induction sigma with
  | nil => simp [state_id_find] at h
  | cons e rest ih =>
    obtain ⟨k, v⟩ := e
    simp only [state_id_find, List.cons_append] at h ⊢
    split
    · rename_i hk
      rw [if_pos hk] at h
      exact h
    · rename_i hk
      rw [if_neg hk] at h
      exact ih h

theorem sid_append_new (U : List Nat) (sigma : List (List Nat × Int)) (j : Int)
    (h : state_id_find U sigma = none) : state_id_find U (sigma ++ [(U, j)]) = some j := by
  induction sigma with
  | nil => simp [state_id_find]
  | cons e rest ih =>
    obtain ⟨k, v⟩ := e
    simp only [state_id_find, List.cons_append] at h ⊢
    split
    · rename_i hk
      rw [if_pos hk] at h
      exact absurd h (by simp)
    · rename_i hk
      rw [if_neg hk] at h
      exact ih h

/-- A set found in `state_id` under the id `j` is the `j`-th set inserted. -/
theorem sid_index (n c : Nat) (sigma : List (List Nat × Int)) (hs : sigma_ok n c sigma)
    (U : List Nat) (j : Int) (h : state_id_find U sigma = some j) :
    ∃ i, i < c ∧ j = (i : Int) ∧ sigma[i]? = some (U, j) := by
  obtain ⟨i, hi⟩ := List.mem_iff_getElem?.1 (sid_some_mem U sigma j h)
  have hlen : sigma.length = c := by
    have := congrArg List.length hs.1
    simpa using this
  have hilt : i < sigma.length := by
    by_contra hcon
    rw [List.getElem?_eq_none (by omega)] at hi
    exact absurd hi (by simp)
  have h1 : (sigma.map Prod.snd)[i]? = some j := by
    rw [List.getElem?_map, hi]
    rfl
  rw [hs.1, List.getElem?_map, List.getElem?_range (by omega)] at h1
  simp only [Option.map_some', Option.some.injEq] at h1
  exact ⟨i, by omega, h1.symm, hi⟩

theorem sigma_ok_append (n c : Nat) (sigma : List (List Nat × Int)) (hs : sigma_ok n c sigma)
    (U : List Nat) (hU : state_id_find U sigma = none)
    (hsorted : U.Pairwise (fun x y => pos_lt x y = true)) (hlt : ∀ x ∈ U, x < n) :
    sigma_ok n (c + 1) (sigma ++ [(U, (c : Int))]) := by
  refine ⟨?_, ?_, ?_⟩
  · rw [List.map_append, hs.1, List.range_succ, List.map_append]
    rfl
  · rw [List.map_append, List.nodup_append]
    refine ⟨hs.2.1, by simp, ?_⟩
    intro x hx hx2
    simp only [List.map_cons, List.map_nil, List.mem_singleton] at hx2
    subst hx2
    exact (sid_none x sigma).1 hU hx
  · intro S hS
    rw [List.map_append, List.mem_append] at hS
    rcases hS with hS | hS
    · exact hs.2.2 S hS
    · simp only [List.map_cons, List.map_nil, List.mem_singleton] at hS
      subst hS
      exact ⟨hsorted, hlt⟩

theorem map_find_none_of_lt {β : Type} (a : Char) (rest : List (Char × β))
    (h : ∀ e ∈ rest, a < e.1) : map_find a rest = none := by
  cases hf : map_find a rest with
  | none => rfl
  | some v =>
    have := h _ (dfa.map_find_mem a rest v hf)
    exact absurd this (lt_irrefl _)

/-- What the loop `for(auto &u_pair : u_map)` computes. -/
theorem add_transitions_spec (n : Nat) (E : List (Char × List Nat))
    (hE : E.Pairwise (fun x y => x.1 < y.1))
    (hEU : ∀ e ∈ E, e.2.Pairwise (fun x y => pos_lt x y = true) ∧ ∀ x ∈ e.2, x < n)
    (S : List (Char × Int)) (c : Nat) (sigma : List (List Nat × Int)) (q : List (List Nat))
    (hs : sigma_ok n c sigma) (hS : dfa.is_map S) :
    ∃ new, (add_transitions E (S, c, sigma, q)).2.2.1 = sigma ++ new ∧
      (add_transitions E (S, c, sigma, q)).2.2.2 = q ++ new.map Prod.fst ∧
      sigma_ok n (add_transitions E (S, c, sigma, q)).2.1 (sigma ++ new) ∧
      dfa.is_map (add_transitions E (S, c, sigma, q)).1 ∧
      (∀ a, map_find a (add_transitions E (S, c, sigma, q)).1 =
        match map_find a E with
        | some U => state_id_find U (sigma ++ new)
        | none => map_find a S) ∧
      (∀ e ∈ E, ∃ j, state_id_find e.2 (sigma ++ new) = some j) ∧
      ∀ e ∈ new, ∃ a, map_find a (add_transitions E (S, c, sigma, q)).1 = some e.2 := by
  induction E generalizing S c sigma q with
  | nil =>
    refine ⟨[], by simp [add_transitions], by simp [add_transitions], ?_, hS, ?_, ?_, ?_⟩
    · simpa [add_transitions] using hs
    · intro a; simp [add_transitions, map_find]
    · intro e he; exact absurd he (List.not_mem_nil _)
    · intro e he; exact absurd he (List.not_mem_nil _)
  | cons e rest ih =>
    obtain ⟨a, U⟩ := e
    rw [List.pairwise_cons] at hE
    have hU := hEU (a, U) (List.mem_cons_self _ _)
    have hrestU := fun x hx => hEU x (List.mem_cons_of_mem _ hx)
    have hnone : map_find a rest = none := map_find_none_of_lt a rest (fun x hx => hE.1 x hx)
    cases hf : state_id_find U sigma with
    | none =>
      have hs1 := sigma_ok_append n c sigma hs U hf hU.1 hU.2
      obtain ⟨new, h1, h2, h3, h4, h5, h6, h7⟩ := ih hE.2 hrestU (map_set a (c : Int) S) (c + 1)
        (sigma ++ [(U, (c : Int))]) (q ++ [U]) hs1 (pairwise_map_set _ _ _ hS)
      have hfind : state_id_find U (sigma ++ [(U, (c : Int))] ++ new) = some (c : Int) :=
        sid_append _ _ _ _ (sid_append_new U sigma _ hf)
      have hrowa : map_find a (add_transitions rest
          (map_set a (c : Int) S, c + 1, sigma ++ [(U, (c : Int))], q ++ [U])).1 =
          some (c : Int) := by
        rw [h5 a, hnone]
        simp [map_find_map_set]
      refine ⟨(U, (c : Int)) :: new, ?_, ?_, ?_, ?_, ?_, ?_, ?_⟩
      · simp only [add_transitions, hf]
        rw [h1]; simp
      · simp only [add_transitions, hf]
        rw [h2]; simp
      · simp only [add_transitions, hf]
        have : sigma ++ (U, (c : Int)) :: new = sigma ++ [(U, (c : Int))] ++ new := by simp
        rw [this]
        exact h3
      · simp only [add_transitions, hf]
        exact h4
      · intro a1
        simp only [add_transitions, hf]
        have : sigma ++ (U, (c : Int)) :: new = sigma ++ [(U, (c : Int))] ++ new := by simp
        have hfind2 : state_id_find U (sigma ++ (U, (c : Int)) :: new) = some (c : Int) := by
          rw [this]; exact hfind
        rw [this, h5 a1]
        simp only [map_find]
        by_cases ha : a = a1
        · subst ha
          rw [hnone]
          simp [map_find_map_set, hfind2]
        · rw [if_neg ha]
          cases map_find a1 rest with
          | none => simp [map_find_map_set, ha]
          | some U1 => rfl
      · intro e he
        have : sigma ++ (U, (c : Int)) :: new = sigma ++ [(U, (c : Int))] ++ new := by simp
        rw [this]
        rcases List.mem_cons.1 he with he | he
        · subst he; exact ⟨_, hfind⟩
        · exact h6 e he
      · intro e he
        simp only [add_transitions, hf]
        rcases List.mem_cons.1 he with he | he
        · subst he; exact ⟨a, hrowa⟩
        · exact h7 e he
    | some i =>
      obtain ⟨new, h1, h2, h3, h4, h5, h6, h7⟩ := ih hE.2 hrestU (map_set a i S) c sigma q hs
        (pairwise_map_set _ _ _ hS)
      have hfind : state_id_find U (sigma ++ new) = some i := sid_append _ _ _ _ hf
      refine ⟨new, ?_, ?_, ?_, ?_, ?_, ?_, ?_⟩
      · simp only [add_transitions, hf]
        exact h1
      · simp only [add_transitions, hf]
        exact h2
      · simp only [add_transitions, hf]
        exact h3
      · simp only [add_transitions, hf]
        exact h4
      · intro a1
        simp only [add_transitions, hf]
        rw [h5 a1]
        simp only [map_find]
        by_cases ha : a = a1
        · subst ha
          rw [hnone]
          simp [map_find_map_set, hfind]
        · rw [if_neg ha]
          cases map_find a1 rest with
          | none => simp [map_find_map_set, ha]
          | some U1 => rfl
      · intro e he
        rcases List.mem_cons.1 he with he | he
        · subst he; exact ⟨_, hfind⟩
        · exact h6 e he
      · intro e he
        simp only [add_transitions, hf]
        exact h7 e he

end regex_tree
end Regex2Dfa

namespace Regex2Dfa
namespace regex_tree

theorem sigma_length (n c : Nat) (sigma : List (List Nat × Int)) (hs : sigma_ok n c sigma) :
    sigma.length = c := by
  have := congrArg List.length hs.1
  simpa using this

/-- There are at most `2 ^ n` sets of positions below `n`. -/
theorem sigma_card_le (n c : Nat) (sigma : List (List Nat × Int)) (hs : sigma_ok n c sigma) :
    c ≤ 2 ^ n := by
  have hlen := sigma_length n c sigma hs
  have hinj : ∀ x ∈ sigma.map Prod.fst, ∀ y ∈ sigma.map Prod.fst,
      x.toFinset = y.toFinset → x = y := by
    intro x hx y hy hxy
    apply eq_of_pairwise_of_mem pos_lt pos_lt_irrefl pos_lt_trans x y (hs.2.2 x hx).1
      (hs.2.2 y hy).1
    intro z
    rw [← List.mem_toFinset, ← List.mem_toFinset, hxy]
  have hnd : ((sigma.map Prod.fst).map List.toFinset).Nodup := List.Nodup.map_on hinj hs.2.1
  have hcard : ((sigma.map Prod.fst).map List.toFinset).toFinset.card = c := by
    rw [List.toFinset_card_of_nodup hnd]
    simp [hlen]
  have hsub : ((sigma.map Prod.fst).map List.toFinset).toFinset ⊆
      (Finset.range n).powerset := by
    intro F hF
    rw [List.mem_toFinset, List.mem_map] at hF
    obtain ⟨S, hS, rfl⟩ := hF
    rw [Finset.mem_powerset]
    intro x hx
    rw [List.mem_toFinset] at hx
    rw [Finset.mem_range]
    exact (hs.2.2 S hS).2 x hx
  have := Finset.card_le_card hsub
  rw [hcard, Finset.card_powerset, Finset.card_range] at this
  exact this

theorem u_map_props (t : regex_tree) (r0 : node) (k : Nat) (hb : built t r0 k) (S : List Nat)
    (hS : ∀ n ∈ S, n < k + 1) :
    (u_map t S).2.Pairwise (fun x y => x.1 < y.1) ∧
      ∀ e ∈ (u_map t S).2, e.2.Pairwise (fun x y => pos_lt x y = true) ∧
        ∀ x ∈ e.2, x < k + 1 := by
  obtain ⟨_, i2, _, i4, i5⟩ := u_fold_spec t r0 k hb S hS (false, [])
  have hp := i4 List.Pairwise.nil
  refine ⟨hp, ?_⟩
  intro e he
  refine ⟨i5 (fun e he => absurd he (List.not_mem_nil _)) e he, ?_⟩
  intro x hx
  have hfind := map_find_of_mem _ hp e.1 e.2 he
  have := (i2 e.1 x).1 ⟨e.2, hfind, hx⟩
  rcases this with ⟨U, hU, _⟩ | ⟨n, _, _, hxn⟩
  · simp [map_find] at hU
  · have hfol := (hb.fol n x).1 hxn
    have hmem := (node.follow_sub t.root n x hfol).2
    rw [built.root_ids t r0 k hb, List.mem_range] at hmem
    exact hmem

/-- One iteration of the loop of `construct_dfa` keeps the invariant. -/
theorem loop_step (t : regex_tree) (r0 : node) (k : Nat) (hb : built t r0 k)
    (res : dfa) (c : Nat) (sigma : List (List Nat × Int)) (S : List Nat)
    (queue : List (List Nat)) (hinv : loop_inv t k ⟨res, c, sigma, S :: queue⟩) :
    loop_inv t k
      ⟨{ transitions := res.transitions ++ [(add_transitions (u_map t S).2
            ([], c, sigma, queue)).1],
         accepting_ := res.accepting_ ++ [if (u_map t S).1 then 1 else 0] },
        (add_transitions (u_map t S).2 ([], c, sigma, queue)).2.1,
        (add_transitions (u_map t S).2 ([], c, sigma, queue)).2.2.1,
        (add_transitions (u_map t S).2 ([], c, sigma, queue)).2.2.2⟩ ∧
      res.accepting_.length < c ∧ ∀ n ∈ S, n < k + 1 := by
  have hq := hinv.queue
  simp only at hq
  have hlen : sigma.length = c := sigma_length _ _ _ hinv.sig
  have hklen : (sigma.map Prod.fst).length = c := by simp [hlen]
  have hlt : res.accepting_.length < c := by
    by_contra hcon
    rw [List.drop_of_length_le (by omega)] at hq
    exact absurd hq (by simp)
  have hSk : (sigma.map Prod.fst)[res.accepting_.length]? = some S := by
    have := congrArg List.head? hq
    simp only [List.head?_cons, List.head?_drop] at this
    exact this.symm
  have hqueue : queue = (sigma.map Prod.fst).drop (res.accepting_.length + 1) := by
    have := congrArg List.tail hq
    simp only [List.tail_cons, List.tail_drop] at this
    exact this
  have hSmem : S ∈ sigma.map Prod.fst := List.mem_iff_getElem?.2 ⟨_, hSk⟩
  have hSlt : ∀ n ∈ S, n < k + 1 := (hinv.sig.2.2 S hSmem).2
  obtain ⟨hE, hEU⟩ := u_map_props t r0 k hb S hSlt
  obtain ⟨new, h1, h2, h3, h4, h5, h6, h7⟩ := add_transitions_spec (k + 1) (u_map t S).2 hE hEU
    [] c sigma queue hinv.sig List.Pairwise.nil
  refine ⟨⟨?_, ?_, ?_, ?_, ?_, ?_, ?_⟩, hlt, hSlt⟩
  · simp only
    rw [h1]
    exact h3
  · simp only [List.length_append, List.length_singleton]
    rw [hinv.len]
  · simp only [List.length_append, List.length_singleton]
    have := sigma_length _ _ _ h3
    rw [List.length_append, hlen] at this
    omega
  · simp only [List.length_append, List.length_singleton]
    rw [h2, h1, List.map_append, List.drop_append_of_le_length (by omega), ← hqueue]
  · intro i S1 hi hS1
    simp only [List.length_append, List.length_singleton] at hi
    simp only at hS1
    rw [h1, List.map_append] at hS1
    rcases Nat.lt_succ_iff_lt_or_eq.1 hi with hi1 | hi1
    · rw [List.getElem?_append_left (by omega)] at hS1
      obtain ⟨r1, r2, row, r3, r4, r5⟩ := hinv.rows i S1 hi1 hS1
      simp only at r1 r2 r3 r5
      refine ⟨?_, ?_, row, ?_, r4, ?_⟩
      · simp only
        rw [List.getElem?_append_left hi1]
        exact r1
      · intro e he
        obtain ⟨j, hj⟩ := r2 e he
        simp only
        rw [h1]
        exact ⟨j, sid_append _ _ _ _ hj⟩
      · simp only
        rw [List.getElem?_append_left (by rw [hinv.len]; exact hi1)]
        exact r3
      · intro a
        rw [r5 a]
        simp only
        rw [h1]
        cases hf : map_find a (u_map t S1).2 with
        | none => rfl
        | some U =>
          simp only
          obtain ⟨j, hj⟩ := r2 (a, U) (dfa.map_find_mem _ _ _ hf)
          rw [hj, sid_append _ _ _ _ hj]
    · subst hi1
      rw [List.getElem?_append_left (by omega), hSk] at hS1
      simp only [Option.some.injEq] at hS1
      subst hS1
      refine ⟨?_, ?_, _, ?_, h4, ?_⟩
      · simp
      · intro e he
        simp only
        rw [h1]
        exact h6 e he
      · simp only
        rw [← hinv.len]
        simp
      · intro a
        rw [h5 a]
        simp only
        rw [h1]
        cases map_find a (u_map t S).2 <;> rfl
  · simp only
    rw [h1]
    exact sid_append _ _ _ _ hinv.first
  · intro j hj0 hjc
    simp only at hjc
    simp only [List.length_append, List.length_singleton]
    by_cases hjold : j < c
    · obtain ⟨i, hij, hi, row, a, hrow, hfind⟩ := hinv.parent j hj0 hjold
      simp only at hi hrow
      refine ⟨i, hij, by omega, row, a, ?_, hfind⟩
      rw [List.getElem?_append_left (by rw [hinv.len]; exact hi)]
      exact hrow
    · have hlen3 := sigma_length _ _ _ h3
      have hjlt : j < (sigma ++ new).length := by omega
      have hsnd : ((sigma ++ new).map Prod.snd)[j]? = some (j : Int) := by
        rw [h3.1, List.getElem?_map, List.getElem?_range hjc]
        rfl
      rw [List.getElem?_map, List.getElem?_append_right (by omega)] at hsnd
      cases hnew : new[j - sigma.length]? with
      | none => rw [hnew] at hsnd; exact absurd hsnd (by simp)
      | some e =>
        rw [hnew] at hsnd
        simp only [Option.map_some', Option.some.injEq] at hsnd
        obtain ⟨a, ha⟩ := h7 e (List.mem_iff_getElem?.2 ⟨_, hnew⟩)
        rw [hsnd] at ha
        refine ⟨res.accepting_.length, by omega, by omega, _, a, ?_, ha⟩
        rw [← hinv.len]
        simp

theorem construct_loop_spec (t : regex_tree) (r0 : node) (k : Nat) (hb : built t r0 k)
    (fuel : Nat) (st : construct_state) (hinv : loop_inv t k st)
    (hfuel : 2 ^ (k + 1) + 1 ≤ fuel + st.res.accepting_.length) :
    ∃ d sigma, construct_loop t fuel st = .ok d ∧ constructed t k d sigma := by
  induction fuel generalizing st with
  | zero =>
    obtain ⟨res, c, sigma, unmarked⟩ := st
    cases unmarked with
    | nil =>
      refine ⟨res, sigma, by simp [construct_loop], ?_⟩
      have hq := hinv.queue
      simp only at hq
      have hlen : sigma.length = c := sigma_length _ _ _ hinv.sig
      have hle : res.accepting_.length ≤ c := hinv.le
      have hge : c ≤ res.accepting_.length := by
        have := congrArg List.length hq
        simp only [List.length_nil, List.length_drop, List.length_map] at this
        omega
      have hc : c = res.accepting_.length := by omega
      have hsig := hinv.sig
      have hpar := hinv.parent
      simp only at hsig hpar
      rw [hc] at hsig hpar
      exact ⟨hsig, hinv.len, hinv.rows, hinv.first, hpar⟩
    | cons S queue =>
      exfalso
      have := (loop_step t r0 k hb res c sigma S queue hinv).2.1
      have hcard : c ≤ 2 ^ (k + 1) := sigma_card_le _ _ _ hinv.sig
      simp only at hfuel
      omega
  | succ fuel ih =>
    obtain ⟨res, c, sigma, unmarked⟩ := st
    cases unmarked with
    | nil =>
      refine ⟨res, sigma, by simp [construct_loop], ?_⟩
      have hq := hinv.queue
      simp only at hq
      have hlen : sigma.length = c := sigma_length _ _ _ hinv.sig
      have hle : res.accepting_.length ≤ c := hinv.le
      have hge : c ≤ res.accepting_.length := by
        have := congrArg List.length hq
        simp only [List.length_nil, List.length_drop, List.length_map] at this
        omega
      have hc : c = res.accepting_.length := by omega
      have hsig := hinv.sig
      have hpar := hinv.parent
      simp only at hsig hpar
      rw [hc] at hsig hpar
      exact ⟨hsig, hinv.len, hinv.rows, hinv.first, hpar⟩
    | cons S queue =>
      obtain ⟨hstep, _, hSlt⟩ := loop_step t r0 k hb res c sigma S queue hinv
      have hSmem : ∀ n ∈ S, n ∈ t.root.leaf_ids := by
        intro n hn
        rw [built.root_ids t r0 k hb, List.mem_range]
        exact hSlt n hn
      obtain ⟨d, sg, h1, h2⟩ := ih _ hstep (by
        simp only [List.length_append, List.length_singleton] at hfuel ⊢
        omega)
      refine ⟨d, sg, ?_, h2⟩
      simp only [construct_loop, build_u_map_eq t S hSmem, ok_bind]
      exact h1

/-- `construct_dfa` returns on every tree the constructor built. -/
theorem construct_dfa_spec (t : regex_tree) (r0 : node) (k : Nat) (hb : built t r0 k) :
    ∃ d sigma, construct_dfa t = .ok d ∧ constructed t k d sigma := by
  have hfp : (t.root.fp).Pairwise (fun x y => pos_lt x y = true) := node.pairwise_fp _
  have hfplt : ∀ x ∈ t.root.fp, x < k + 1 := by
    intro x hx
    have := node.fp_sub _ x hx
    rw [built.root_ids t r0 k hb, List.mem_range] at this
    exact this
  have hinv : loop_inv t k ⟨⟨[], []⟩, 1, [(t.root.fp, 0)], [t.root.fp]⟩ := by
    refine ⟨⟨rfl, by simp, ?_⟩, rfl, by simp, rfl, ?_, by simp [state_id_find], ?_⟩
    · intro S hS
      simp only [List.map_cons, List.map_nil, List.mem_singleton] at hS
      subst hS
      exact ⟨hfp, hfplt⟩
    · intro i S hi
      simp at hi
    · intro j hj0 hj1
      simp only at hj1
      omega
  obtain ⟨d, sg, h1, h2⟩ := construct_loop_spec t r0 k hb (2 ^ t.current_id + 1) _ hinv (by
    rw [hb.cid]
    simp)
  refine ⟨d, sg, ?_, h2⟩
  simp only [construct_dfa, node.firstpos_eq _ (built.root_nn t r0 k hb), ok_bind]
  exact h1

end regex_tree
end Regex2Dfa

namespace Regex2Dfa
namespace regex_tree

theorem constructed.size_pos (t : regex_tree) (k : Nat) (d : dfa)
    (sigma : List (List Nat × Int)) (hc : constructed t k d sigma) :
    0 < d.size ∧ (sigma.map Prod.fst)[0]? = some t.root.fp := by
  obtain ⟨i, hi, hj, hs⟩ := sid_index _ _ _ hc.sig _ _ hc.first
  have hi0 : i = 0 := by omega
  subst hi0
  refine ⟨hi, ?_⟩
  rw [List.getElem?_map, hs]
  rfl

theorem constructed.key (t : regex_tree) (k : Nat) (d : dfa)
    (sigma : List (List Nat × Int)) (hc : constructed t k d sigma) (i : Nat)
    (hi : i < d.size) : ∃ S, (sigma.map Prod.fst)[i]? = some S ∧ ∀ n ∈ S, n < k + 1 := by
  have hlen := sigma_length _ _ _ hc.sig
  have hlt : i < (sigma.map Prod.fst).length := by simp [hlen]; exact hi
  refine ⟨(sigma.map Prod.fst)[i], List.getElem?_eq_getElem hlt, ?_⟩
  exact (hc.sig.2.2 _ (List.getElem_mem hlt)).2

/-- Every target of the constructed DFA is a real state. -/
theorem constructed.target (t : regex_tree) (k : Nat) (d : dfa)
    (sigma : List (List Nat × Int)) (hc : constructed t k d sigma) (i : Nat) (S : List Nat)
    (hS : (sigma.map Prod.fst)[i]? = some S) (hi : i < d.size) (a : Char) (v : Int)
    (row : List (Char × Int)) (hrow : d.transitions[i]? = some row)
    (hv : map_find a row = some v) :
    ∃ U j, map_find a (u_map t S).2 = some U ∧ j < d.size ∧ v = (j : Int) ∧
      (sigma.map Prod.fst)[j]? = some U := by
  obtain ⟨_, _, row1, r3, _, r5⟩ := hc.rows i S hi hS
  rw [hrow] at r3
  simp only [Option.some.injEq] at r3
  subst r3
  rw [r5 a] at hv
  cases hf : map_find a (u_map t S).2 with
  | none => rw [hf] at hv; exact absurd hv (by simp)
  | some U =>
    rw [hf] at hv
    simp only at hv
    obtain ⟨j, hj, hvj, hs⟩ := sid_index _ _ _ hc.sig _ _ hv
    refine ⟨U, j, rfl, hj, hvj, ?_⟩
    rw [List.getElem?_map, hs]
    rfl

theorem constructed.well_formed (t : regex_tree) (k : Nat) (d : dfa)
    (sigma : List (List Nat × Int)) (hc : constructed t k d sigma) : d.well_formed := by
  refine ⟨(constructed.size_pos t k d sigma hc).1, hc.len, ?_, ?_⟩
  · intro m hm
    obtain ⟨i, hi⟩ := List.mem_iff_getElem?.1 hm
    have hilt : i < d.size := by
      by_contra hcon
      rw [List.getElem?_eq_none (by rw [hc.len]; unfold dfa.size at hcon; omega)] at hi
      exact absurd hi (by simp)
    obtain ⟨S, hS, _⟩ := constructed.key t k d sigma hc i hilt
    obtain ⟨_, _, row, r3, r4, _⟩ := hc.rows i S hilt hS
    rw [hi] at r3
    simp only [Option.some.injEq] at r3
    subst r3
    exact r4
  · intro m hm p hp
    obtain ⟨i, hi⟩ := List.mem_iff_getElem?.1 hm
    have hilt : i < d.size := by
      by_contra hcon
      rw [List.getElem?_eq_none (by rw [hc.len]; unfold dfa.size at hcon; omega)] at hi
      exact absurd hi (by simp)
    obtain ⟨S, hS, _⟩ := constructed.key t k d sigma hc i hilt
    obtain ⟨_, _, row, r3, r4, _⟩ := hc.rows i S hilt hS
    rw [hi] at r3
    simp only [Option.some.injEq] at r3
    subst r3
    have hv := map_find_of_mem m r4 p.1 p.2 hp
    obtain ⟨U, j, _, hj, hvj, _⟩ := constructed.target t k d sigma hc i S hS hilt p.1 p.2 m hi hv
    omega

theorem nacc_empty (t : regex_tree) (k : Nat) (S : Nat → Prop) (hS : ∀ q, ¬ S q)
    (w : List Char) : ¬ nacc t k S w := by
  induction w generalizing S with
  | nil => exact hS k
  | cons a w ih =>
    apply ih
    rintro q ⟨n, hn, _⟩
    exact hS n hn

/-- The constructed DFA, started in the state of a position set, accepts the
words that lead from the set to the end marker. -/
theorem constructed.sim (t : regex_tree) (r0 : node) (k : Nat) (hb : built t r0 k) (d : dfa)
    (sigma : List (List Nat × Int)) (hc : constructed t k d sigma) (w : List Char) (i : Nat)
    (Sabs : Nat → Prop) (hi : i ≤ d.size)
    (hreal : i < d.size → ∃ S, (sigma.map Prod.fst)[i]? = some S ∧ ∀ q, q ∈ S ↔ Sabs q)
    (hdead : i = d.size → ∀ q, ¬ Sabs q) :
    dfa.ac d (dfa.nxs d i w) = true ↔ nacc t k Sabs w := by
  have hwf := constructed.well_formed t k d sigma hc
  induction w generalizing i Sabs with
  | nil =>
    simp only [dfa.nxs, nacc]
    rcases Nat.eq_or_lt_of_le hi with he | hlt
    · subst he
      rw [dfa.ac_dead]
      simp [hdead rfl k]
    · obtain ⟨S, hS, hSabs⟩ := hreal hlt
      obtain ⟨r1, _, _⟩ := hc.rows i S hlt hS
      have hSlt : ∀ n ∈ S, n < k + 1 :=
        (hc.sig.2.2 S (List.mem_iff_getElem?.2 ⟨i, hS⟩)).2
      obtain ⟨i1, _⟩ := u_fold_spec t r0 k hb S hSlt (false, [])
      unfold dfa.ac
      rw [r1]
      rw [← hSabs]
      have : (u_map t S).1 = true ↔ k ∈ S := by
        unfold u_map
        rw [i1]
        simp
      rw [← this]
      cases (u_map t S).1 <;> simp
  | cons a w ih =>
    simp only [dfa.nxs, nacc]
    apply ih _ _ (dfa.nx_le d hwf i a)
    · intro hnx
      rcases Nat.eq_or_lt_of_le hi with he | hlt
      · subst he
        rw [dfa.nx_dead d hwf a] at hnx
        exact absurd hnx (lt_irrefl _)
      · obtain ⟨S, hS, hSabs⟩ := hreal hlt
        have hSlt : ∀ n ∈ S, n < k + 1 :=
          (hc.sig.2.2 S (List.mem_iff_getElem?.2 ⟨i, hS⟩)).2
        obtain ⟨_, i2, _, _, _⟩ := u_fold_spec t r0 k hb S hSlt (false, [])
        have hrowlt : i < d.transitions.length := by rw [hc.len]; exact hlt
        cases hf : map_find a (d.transitions.getD i []) with
        | none =>
          have : dfa.nx d i a = d.size := by unfold dfa.nx; rw [hf]
          rw [this] at hnx
          exact absurd hnx (lt_irrefl _)
        | some v =>
          have hrow : d.transitions[i]? = some (d.transitions.getD i []) := by
            rw [List.getD_eq_getElem _ _ hrowlt, List.getElem?_eq_getElem hrowlt]
          obtain ⟨U, j, hU, hj, hvj, hUk⟩ :=
            constructed.target t k d sigma hc i S hS hlt a v _ hrow hf
          have hnxj : dfa.nx d i a = j := by
            unfold dfa.nx
            rw [hf, hvj]
            simp
          rw [hnxj]
          refine ⟨U, hUk, ?_⟩
          intro q
          have := i2 a q
          simp only [map_find] at this
          constructor
          · intro hq
            obtain ⟨n, hn, hl, hqn⟩ := (this.1 ⟨U, hU, hq⟩).resolve_left (by simp)
            exact ⟨n, (hSabs n).1 hn, hl, hqn⟩
          · rintro ⟨n, hn, hl, hqn⟩
            obtain ⟨U1, hU1, hq⟩ := this.2 (Or.inr ⟨n, (hSabs n).2 hn, hl, hqn⟩)
            unfold u_map at hU
            rw [hU] at hU1
            simp only [Option.some.injEq] at hU1
            subst hU1
            exact hq
    · intro hnx
      rintro q ⟨n, hn, hl, _⟩
      rcases Nat.eq_or_lt_of_le hi with he | hlt
      · exact hdead he n hn
      · obtain ⟨S, hS, hSabs⟩ := hreal hlt
        have hSlt : ∀ n ∈ S, n < k + 1 :=
          (hc.sig.2.2 S (List.mem_iff_getElem?.2 ⟨i, hS⟩)).2
        obtain ⟨_, _, i3, _, _⟩ := u_fold_spec t r0 k hb S hSlt (false, [])
        obtain ⟨_, r2, row, r3, _, r5⟩ := hc.rows i S hlt hS
        have hrowlt : i < d.transitions.length := by rw [hc.len]; exact hlt
        have hrow : d.transitions.getD i [] = row := by
          rw [List.getElem?_eq_getElem hrowlt] at r3
          rw [List.getD_eq_getElem _ _ hrowlt]
          simpa using r3
        cases hf : map_find a (u_map t S).2 with
        | none =>
          have := (i3 a).1 hf
          exact this.2 ⟨n, (hSabs n).2 hn, hl⟩
        | some U =>
          obtain ⟨j, hj⟩ := r2 (a, U) (dfa.map_find_mem _ _ _ hf)
          obtain ⟨j1, hj1, hjj, _⟩ := sid_index _ _ _ hc.sig _ _ hj
          have h5 := r5 a
          rw [hf] at h5
          simp only at h5
          rw [hj] at h5
          have : dfa.nx d i a = j1 := by
            unfold dfa.nx
            rw [hrow, h5, hjj]
            simp
          omega

theorem nacc_iff_nwalk (t : regex_tree) (k : Nat) (S : Nat → Prop) (w : List Char) :
    nacc t k S w ↔ ∃ p, S p ∧ nwalk t k p w := by
  induction w generalizing S with
  | nil =>
    simp only [nacc, nwalk]
    constructor
    · intro h; exact ⟨k, h, rfl⟩
    · rintro ⟨p, hp, rfl⟩; exact hp
  | cons a w ih =>
    simp only [nacc, nwalk]
    rw [ih]
    constructor
    · rintro ⟨q, ⟨n, hn, hl, hq⟩, hw⟩
      exact ⟨n, hn, hl, q, hq, hw⟩
    · rintro ⟨n, hn, hl, q, hq, hw⟩
      exact ⟨q, ⟨n, hn, hl, hq⟩, hw⟩

end regex_tree
end Regex2Dfa

namespace Regex2Dfa
namespace regex_tree

theorem built.lp_root (t : regex_tree) (r0 : node) (k : Nat) (hb : built t r0 k) (x : Nat) :
    x ∈ t.root.lp ↔ x = k := by
  rw [hb.root_eq, node.mem_lp_cat]
  simp [node.lp, node.nl]

/-- A walk along `followpos_` that spells `w` and ends in the end marker is a
walk of the tree through letter leaves. -/
theorem path_of_nwalk (t : regex_tree) (r0 : node) (k : Nat) (hb : built t r0 k)
    (w : List Char) (x : Nat) (h : nwalk t k x w) :
    ∃ ps ps1, ps.map t.root.letter_at = w ∧ (∀ p ∈ ps, p < k) ∧ x :: ps1 = ps ++ [k] ∧
      walk t.root.follow (fun y => y ∈ t.root.lp) x ps1 := by
  induction w generalizing x with
  | nil =>
    have hx : x = k := h
    subst hx
    exact ⟨[], [], rfl, fun p hp => absurd hp (List.not_mem_nil _), rfl,
      (built.lp_root t r0 x hb x).2 rfl⟩
  | cons a w ih =>
    obtain ⟨hl, q, hq, hw⟩ := h
    obtain ⟨ps, ps1, h1, h2, h3, h4⟩ := ih q hw
    obtain ⟨hxk, hxa⟩ := built.leaf_letter t r0 k hb x a hl
    refine ⟨x :: ps, q :: ps1, ?_, ?_, ?_, ?_⟩
    · simp [h1, hxa]
    · intro p hp
      rcases List.mem_cons.1 hp with hp | hp
      · subst hp; exact hxk
      · exact h2 p hp
    · rw [h3]; rfl
    · exact ⟨(hb.fol x q).1 hq, h4⟩

theorem nwalk_of_path (t : regex_tree) (r0 : node) (k : Nat) (hb : built t r0 k)
    (ps : List Nat) (hps : ∀ p ∈ ps, p < k) (x : Nat) (ps1 : List Nat)
    (he : x :: ps1 = ps ++ [k])
    (hw : walk t.root.follow (fun y => y ∈ t.root.lp) x ps1) :
    nwalk t k x (ps.map t.root.letter_at) := by
  induction ps generalizing x ps1 with
  | nil =>
    simp only [List.nil_append, List.cons.injEq] at he
    exact he.1
  | cons p rest ih =>
    simp only [List.cons_append, List.cons.injEq] at he
    obtain ⟨hxp, hps1⟩ := he
    subst hxp
    have hxk := hps x (List.mem_cons_self _ _)
    obtain ⟨c, hc, _⟩ := built.leaf_lt t r0 k hb x hxk
    have hxa : t.root.letter_at x = c := by simp [node.letter_at, hc, node.letter]
    cases ps1 with
    | nil =>
      have := congrArg List.length hps1
      simp at this
    | cons y ps2 =>
      obtain ⟨hfol, hw2⟩ := hw
      refine ⟨?_, y, (hb.fol x y).2 hfol, ?_⟩
      · rw [hxa]; exact hc
      · exact ih (fun q hq => hps q (List.mem_cons_of_mem _ hq)) y ps2 hps1 hw2

/-- The words that lead from `firstpos(root)` to the end marker are the words of
the language of the parsed regex. -/
theorem nacc_iff_lang (t : regex_tree) (r0 : node) (k : Nat) (hb : built t r0 k)
    (w : List Char) : nacc t k (fun q => q ∈ t.root.fp) w ↔ w ∈ r0.lang := by
  have hnd := built.root_nodup t r0 k hb
  have hnn := built.root_nn t r0 k hb
  have hlab : r0.labelled t.root.letter_at := by
    have := node.labelled_letter_at t.root hnd
    rw [hb.root_eq] at this ⊢
    exact this.1
  rw [nacc_iff_nwalk, node.mem_lang_iff r0 _ hlab hb.nt]
  constructor
  · rintro ⟨p, hp, hw⟩
    obtain ⟨ps, ps1, h1, h2, h3, h4⟩ := path_of_nwalk t r0 k hb w p hw
    refine ⟨ps, ?_, h1⟩
    have hg : gpath t.root (p :: ps1) := ⟨hp, h4⟩
    rw [h3] at hg
    have hpl := node.plang_of_gpath t.root hnn hnd _ hg
    rw [hb.root_eq] at hpl
    simp only [node.plang, Language.mem_mul] at hpl
    obtain ⟨u, hu, v, hv, huv⟩ := hpl
    have hvk : v = [k] := hv
    subst hvk
    have := List.append_inj_left' huv rfl
    subst this
    exact hu
  · rintro ⟨ps, hps, hmap⟩
    have hlt : ∀ p ∈ ps, p < k := by
      intro p hp
      have := node.plang_sub r0 ps hps p hp
      rw [hb.ids, List.mem_range] at this
      exact this
    have hpl : ps ++ [k] ∈ t.root.plang := by
      rw [hb.root_eq]
      simp only [node.plang]
      exact Language.append_mem_mul hps rfl
    have hg := node.gpath_of_plang t.root _ hpl
    cases hcase : ps ++ [k] with
    | nil => simp at hcase
    | cons x ps1 =>
      rw [hcase] at hg
      refine ⟨x, hg.1, ?_⟩
      rw [← hmap]
      exact nwalk_of_path t r0 k hb ps hlt x ps1 hcase.symm hg.2

end regex_tree

/-- C1: for every input on which the constructor succeeds, `construct_dfa`
returns a DFA `d`, and for every word `w` the run of `next` from state 0 over `w`
ends in a state on which `accepting` is true if and only if `w` is in the
language of the parsed regex `r0` (the tree `start` returns, to which the
constructor appends the end marker). -/
theorem construct_dfa_language (r : List Char) (t : regex_tree)
    (h : regex_tree.new r = .ok t) :
    ∃ r0 st d, regex_tree.start ⟨r, 0⟩ = .ok (r0, st) ∧
      t.root = node.cat_node r0 (node.terminator_node st.current_id) ∧
      t.construct_dfa = .ok d ∧
      ∀ w, ∃ b, d.accepts w = .ok b ∧ (b = true ↔ w ∈ r0.lang) := by
  obtain ⟨r0, st, hs, hb⟩ := regex_tree.new_built r t h
  obtain ⟨d, sigma, hd, hc⟩ := regex_tree.construct_dfa_spec t r0 _ hb
  refine ⟨r0, st, d, hs, hb.root_eq, hd, ?_⟩
  intro w
  have hwf := regex_tree.constructed.well_formed t _ d sigma hc
  refine ⟨_, dfa.accepts_eq d hwf w, ?_⟩
  rw [← regex_tree.nacc_iff_lang t r0 _ hb w]
  obtain ⟨hpos, hkey⟩ := regex_tree.constructed.size_pos t _ d sigma hc
  exact regex_tree.constructed.sim t r0 _ hb d sigma hc w 0 _ (Nat.zero_le _)
    (fun _ => ⟨_, hkey, fun q => Iff.rfl⟩) (fun h0 => by omega)

/-- C1 witness: the theorem applied to the regex `a`. -/
theorem construct_dfa_language_witness :
    regex_tree.new "a".toList = .ok tree_a ∧
      ∃ r0 st d, regex_tree.start ⟨"a".toList, 0⟩ = .ok (r0, st) ∧
        tree_a.root = node.cat_node r0 (node.terminator_node st.current_id) ∧
        tree_a.construct_dfa = .ok d ∧
        ∀ w, ∃ b, d.accepts w = .ok b ∧ (b = true ↔ w ∈ r0.lang) :=
  ⟨by rfl, construct_dfa_language "a".toList tree_a (by rfl)⟩

end Regex2Dfa

namespace Regex2Dfa
namespace node

/-- The position language of a tree without null pointers is not empty. -/
theorem plang_nonempty (t : node) (hn : t.no_null) : ∃ ps, ps ∈ t.plang := by
  induction t with
  | null => exact absurd hn (by simp [no_null])
  | empty_node => exact ⟨[], by simp [plang]⟩
  | letter_node c i => exact ⟨[i], Set.mem_singleton _⟩
  | terminator_node i => exact ⟨[i], Set.mem_singleton _⟩
  | or_node c0 c1 ih0 _ =>
    obtain ⟨ps, hps⟩ := ih0 hn.1
    exact ⟨ps, by simp only [plang, Language.mem_add]; exact Or.inl hps⟩
  | cat_node c0 c1 ih0 ih1 =>
    obtain ⟨ps, hps⟩ := ih0 hn.1
    obtain ⟨qs, hqs⟩ := ih1 hn.2
    exact ⟨ps ++ qs, by simp only [plang]; exact Language.append_mem_mul hps hqs⟩
  | star_node c _ => exact ⟨[], by simp only [plang]; exact Language.nil_mem_kstar _⟩

/-- Every leaf of a tree without null pointers occurs in a word of its position
language. -/
theorem leaf_in_plang (t : node) (hn : t.no_null) (p : Nat) (hp : p ∈ t.leaf_ids) :
    ∃ u v, u ++ p :: v ∈ t.plang := by
  induction t with
  | null => exact absurd hn (by simp [no_null])
  | empty_node => simp [leaf_ids] at hp
  | letter_node c i =>
    simp only [leaf_ids, List.mem_singleton] at hp
    subst hp
    exact ⟨[], [], Set.mem_singleton _⟩
  | terminator_node i =>
    simp only [leaf_ids, List.mem_singleton] at hp
    subst hp
    exact ⟨[], [], Set.mem_singleton _⟩
  | or_node c0 c1 ih0 ih1 =>
    simp only [leaf_ids, List.mem_append] at hp
    rcases hp with hp | hp
    · obtain ⟨u, v, h⟩ := ih0 hn.1 hp
      exact ⟨u, v, by simp only [plang, Language.mem_add]; exact Or.inl h⟩
    · obtain ⟨u, v, h⟩ := ih1 hn.2 hp
      exact ⟨u, v, by simp only [plang, Language.mem_add]; exact Or.inr h⟩
  | cat_node c0 c1 ih0 ih1 =>
    simp only [leaf_ids, List.mem_append] at hp
    rcases hp with hp | hp
    · obtain ⟨u, v, h⟩ := ih0 hn.1 hp
      obtain ⟨z, hz⟩ := plang_nonempty c1 hn.2
      refine ⟨u, v ++ z, ?_⟩
      have := Language.append_mem_mul h hz
      simp only [plang]
      simpa using this
    · obtain ⟨u, v, h⟩ := ih1 hn.2 hp
      obtain ⟨z, hz⟩ := plang_nonempty c0 hn.1
      refine ⟨z ++ u, v, ?_⟩
      have := Language.append_mem_mul hz h
      simp only [plang]
      simpa using this
  | star_node c ih =>
    obtain ⟨u, v, h⟩ := ih hn hp
    refine ⟨u, v, ?_⟩
    simp only [plang]
    exact Language.mem_kstar.2 ⟨[u ++ p :: v], by simp, by simpa using h⟩

end node

/-- A walk that passes through `p` continues from `p`. -/
theorem walk_suffix (R : Nat → Nat → Prop) (fin : Nat → Prop) (x : Nat) (u : List Nat)
    (p : Nat) (v : List Nat) (h : walk R fin x (u ++ p :: v)) : walk R fin p v := by
  induction u generalizing x with
  | nil => exact h.2
  | cons y u ih => exact ih y h.2

namespace regex_tree

/-- From every position of the augmented tree some word leads along `followpos_`
to the end marker. -/
theorem nwalk_exists (t : regex_tree) (r0 : node) (k : Nat) (hb : built t r0 k) (p : Nat)
    (hp : p < k + 1) : ∃ w, nwalk t k p w := by
  have hmem : p ∈ t.root.leaf_ids := by
    rw [built.root_ids t r0 k hb, List.mem_range]; exact hp
  obtain ⟨u, v, huv⟩ := node.leaf_in_plang t.root (built.root_nn t r0 k hb) p hmem
  have hg := node.gpath_of_plang t.root _ huv
  have hw : walk t.root.follow (fun y => y ∈ t.root.lp) p v := by
    cases u with
    | nil => exact hg.2
    | cons x u1 => exact walk_suffix _ _ x u1 p v hg.2
  rw [hb.root_eq] at huv
  simp only [node.plang, Language.mem_mul] at huv
  obtain ⟨z, hz, e, he, hze⟩ := huv
  have hek : e = [k] := he
  subst hek
  have hzlt : ∀ q ∈ z, q < k := by
    intro q hq
    have := node.plang_sub r0 z hz q hq
    rw [hb.ids, List.mem_range] at this
    exact this
  -- split `p :: v` into its letters and the end marker
  have hsplit : ∃ ps, p :: v = ps ++ [k] ∧ ∀ q ∈ ps, q < k := by
    rcases List.eq_nil_or_concat v with hv | ⟨v1, l, hv⟩
    · subst hv
      have h1 : z ++ [k] = u ++ [p] := hze
      have := List.append_inj_right' h1 rfl
      simp only [List.cons.injEq, and_true] at this
      subst this
      exact ⟨[], rfl, fun q hq => absurd hq (List.not_mem_nil _)⟩
    · subst hv
      have h1 : z ++ [k] = (u ++ p :: v1) ++ [l] := by
        rw [hze]; simp
      have h2 := List.append_inj_right' h1 rfl
      have h3 := List.append_inj_left' h1 rfl
      simp only [List.cons.injEq, and_true] at h2
      subst h2
      refine ⟨p :: v1, by simp, ?_⟩
      intro q hq
      apply hzlt
      rw [h3]
      exact List.mem_append_right _ hq
  obtain ⟨ps, hps, hlt⟩ := hsplit
  exact ⟨_, nwalk_of_path t r0 k hb ps hlt p v hps hw⟩

/-- The `followpos_` of a letter position is not empty. -/
theorem follow_nonempty (t : regex_tree) (r0 : node) (k : Nat) (hb : built t r0 k) (p : Nat)
    (hp : p < k) : ∃ q, q ∈ t.followpos_ p := by
  obtain ⟨w, hw⟩ := nwalk_exists t r0 k hb p (by omega)
  cases w with
  | nil =>
    have : p = k := hw
    omega
  | cons a w =>
    obtain ⟨_, q, hq, _⟩ := hw
    exact ⟨q, hq⟩

/-- The start state `firstpos(root)` is not empty. -/
theorem fp_root_nonempty (t : regex_tree) (r0 : node) (k : Nat) (hb : built t r0 k) :
    ∃ x, x ∈ t.root.fp := by
  obtain ⟨ps, hps⟩ := node.plang_nonempty t.root (built.root_nn t r0 k hb)
  have hg := node.gpath_of_plang t.root _ hps
  rw [hb.root_eq] at hps
  simp only [node.plang, Language.mem_mul] at hps
  obtain ⟨z, _, e, he, hze⟩ := hps
  have hek : e = [k] := he
  subst hek
  cases ps with
  | nil => simp at hze
  | cons x rest => exact ⟨x, hg.1⟩

end regex_tree
end Regex2Dfa

namespace Regex2Dfa
namespace dfa

theorem nxs_append (d : dfa) (p : Nat) (u v : List Char) :
    nxs d p (u ++ v) = nxs d (nxs d p u) v := by
  induction u generalizing p with
  | nil => rfl
  | cons c u ih => exact ih (nx d p c)

theorem nxs_dead (d : dfa) (h : d.well_formed) (w : List Char) : nxs d d.size w = d.size := by
  induction w with
  | nil => rfl
  | cons c w ih =>
    show nxs d (nx d d.size c) w = d.size
    rw [nx_dead d h c]
    exact ih

theorem ac_nxs_dead (d : dfa) (h : d.well_formed) (w : List Char) :
    ac d (nxs d d.size w) = false := by
  rw [nxs_dead d h w]
  exact ac_dead d

end dfa

namespace regex_tree

/-- Every position set that was given a state id is not empty. -/
theorem constructed.nonempty (t : regex_tree) (r0 : node) (k : Nat) (hb : built t r0 k)
    (d : dfa) (sigma : List (List Nat × Int)) (hc : constructed t k d sigma) (i : Nat)
    (hi : i < d.size) (S : List Nat) (hS : (sigma.map Prod.fst)[i]? = some S) :
    ∃ p, p ∈ S := by
  rcases Nat.eq_zero_or_pos i with h0 | hpos
  · subst h0
    rw [(constructed.size_pos t k d sigma hc).2] at hS
    simp only [Option.some.injEq] at hS
    subst hS
    exact fp_root_nonempty t r0 k hb
  · obtain ⟨i1, hlt, hi1, row, a, hrow, hfind⟩ := hc.parent i hpos hi
    obtain ⟨S1, hS1, hS1lt⟩ := constructed.key t k d sigma hc i1 hi1
    obtain ⟨U, j, hU, hj, hvj, hsj⟩ :=
      constructed.target t k d sigma hc i1 S1 hS1 hi1 a _ row hrow hfind
    have hij : i = j := by exact_mod_cast hvj
    subst hij
    rw [hS] at hsj
    simp only [Option.some.injEq] at hsj
    subst hsj
    obtain ⟨_, h2, h3, _, _⟩ := u_fold_spec t r0 k hb S1 hS1lt (false, [])
    have hne : ¬ map_find a (S1.foldl (u_step t) (false, [])).2 = none := by
      have : map_find a (u_map t S1).2 = some S := hU
      unfold u_map at this
      rw [this]
      simp
    have hex : ∃ n ∈ S1, t.root.leaf n = some (node.letter_node a n) := by
      by_contra hcon
      exact hne ((h3 a).2 ⟨rfl, hcon⟩)
    obtain ⟨n, hn, hleaf⟩ := hex
    obtain ⟨hnk, _⟩ := built.leaf_letter t r0 k hb n a hleaf
    obtain ⟨q, hq⟩ := follow_nonempty t r0 k hb n hnk
    obtain ⟨U1, hU1, hqU1⟩ := (h2 a q).2 (Or.inr ⟨n, hn, hleaf, hq⟩)
    have hU2 : map_find a (S1.foldl (u_step t) (false, [])).2 = some S := hU
    rw [hU2] at hU1
    simp only [Option.some.injEq] at hU1
    subst hU1
    exact ⟨q, hqU1⟩

/-- The DFA `construct_dfa` returns has no useless real state. -/
theorem constructed.trim (t : regex_tree) (r0 : node) (k : Nat) (hb : built t r0 k)
    (d : dfa) (sigma : List (List Nat × Int)) (hc : constructed t k d sigma) : d.trim := by
  refine ⟨?_, ?_, ?_⟩
  · intro i
    induction i using Nat.strong_induction_on with
    | _ i ih =>
      intro hi
      rcases Nat.eq_zero_or_pos i with h0 | hpos
      · subst h0; exact ⟨[], rfl⟩
      · obtain ⟨i1, hlt, hi1, row, a, hrow, hfind⟩ := hc.parent i hpos hi
        obtain ⟨w, hw⟩ := ih i1 hlt hi1
        refine ⟨w ++ [a], ?_⟩
        rw [dfa.nxs_append, hw]
        show dfa.nx d i1 a = i
        unfold dfa.nx
        have hg : d.transitions.getD i1 [] = row := by
          rw [List.getD_eq_getElem?_getD, hrow]; rfl
        rw [hg, hfind]
        simp
  · intro i hi
    obtain ⟨S, hS, hSlt⟩ := constructed.key t k d sigma hc i hi
    obtain ⟨p, hp⟩ := constructed.nonempty t r0 k hb d sigma hc i hi S hS
    obtain ⟨w, hw⟩ := nwalk_exists t r0 k hb p (hSlt p hp)
    refine ⟨w, ?_⟩
    rw [constructed.sim t r0 k hb d sigma hc w i (fun q => q ∈ S) (Nat.le_of_lt hi)
      (fun _ => ⟨S, hS, fun q => Iff.rfl⟩) (fun h => by omega)]
    exact (nacc_iff_nwalk t k _ w).2 ⟨p, hp, hw⟩
  · intro i c v hv
    unfold dfa.look at hv
    by_cases hi : i < d.transitions.length
    · have hrow : d.transitions[i]? = some (d.transitions[i]) := List.getElem?_eq_getElem hi
      have hg : d.transitions.getD i [] = d.transitions[i] := by
        rw [List.getD_eq_getElem?_getD, hrow]; rfl
      rw [hg] at hv
      have hi1 : i < d.size := by
        have := hc.len
        unfold dfa.size
        omega
      obtain ⟨S, hS, _⟩ := constructed.key t k d sigma hc i hi1
      obtain ⟨U, j, _, hj, hvj, _⟩ :=
        constructed.target t k d sigma hc i S hS hi1 c v _ hrow hv
      subst hvj
      simpa using hj
    · have hg : d.transitions.getD i [] = [] := by
        rw [List.getD_eq_getElem?_getD, List.getElem?_eq_none (by omega)]; rfl
      rw [hg] at hv
      simp [map_find] at hv

end regex_tree
end Regex2Dfa

namespace Regex2Dfa
namespace dfa

/-- The words accepted from the group of `i` in the minimized DFA are the words
accepted from `i`. -/
theorem min_lang (d : dfa) (h : d.well_formed) (t : table) (ga : List (List Int))
    (m : dfa) (hm : min_spec d t ga m) (i : Nat) (hi : i ≤ d.size) (w : List Char) :
    ac m (nxs m (gidx ga i) w) = ac d (nxs d i w) :=
  min_simulation d h t ga m hm w i _ hi (Or.inl rfl)

theorem min_lang_start (d : dfa) (h : d.well_formed) (t : table) (ga : List (List Int))
    (m : dfa) (hm : min_spec d t ga m) (w : List Char) :
    ac m (nxs m 0 w) = ac d (nxs d 0 w) := by
  have := min_lang d h t ga m hm 0 (Nat.zero_le _) w
  have h0 : gidx ga ((0 : Nat) : Int) = 0 := hm.start
  rw [h0] at this
  exact this

/-- Every state of the minimized DFA of a trim DFA accepts a residual of the
language or nothing. -/
theorem min_state_cases (d : dfa) (h : d.well_formed) (htrim : d.trim) (t : table)
    (ga : List (List Int)) (m : dfa) (hm : min_spec d t ga m) (k : Nat) (hk : k < m.size) :
    (∃ u, ∀ v, ac m (nxs m k v) = ac d (nxs d 0 (u ++ v))) ∨
      ∀ v, ac m (nxs m k v) = false := by
  obtain ⟨i, hi, hik⟩ := min_surj d h t ga m hm k hk
  subst hik
  rcases Nat.lt_or_ge i d.size with hlt | hge
  · left
    obtain ⟨u, hu⟩ := htrim.reach i hlt
    refine ⟨u, fun v => ?_⟩
    rw [min_lang d h t ga m hm i hi v, nxs_append, hu]
  · right
    have : i = d.size := by omega
    subst this
    intro v
    rw [min_lang d h t ga m hm _ hi v]
    exact ac_nxs_dead d h v

/-- Every residual of the language is accepted from some state of the minimized
DFA. -/
theorem min_state_of_word (d : dfa) (h : d.well_formed) (t : table)
    (ga : List (List Int)) (m : dfa) (hm : min_spec d t ga m) (u : List Char) :
    ∃ k, k < m.size ∧ ∀ v, ac m (nxs m k v) = ac d (nxs d 0 (u ++ v)) := by
  have hle := nxs_le d h 0 (Nat.zero_le _) u
  refine ⟨gidx ga (nxs d 0 u), min_gidx_lt d h t ga m hm _ hle, fun v => ?_⟩
  rw [min_lang d h t ga m hm _ hle v, nxs_append]

/-- Some state of the minimized DFA accepts nothing. -/
theorem min_state_dead (d : dfa) (h : d.well_formed) (t : table)
    (ga : List (List Int)) (m : dfa) (hm : min_spec d t ga m) :
    ∃ k, k < m.size ∧ ∀ v, ac m (nxs m k v) = false := by
  refine ⟨gidx ga d.size, min_gidx_lt d h t ga m hm _ (Nat.le_refl _), fun v => ?_⟩
  rw [min_lang d h t ga m hm _ (Nat.le_refl _) v]
  exact ac_nxs_dead d h v

/-- A stored target of the minimized DFA is the state `next` moves to. -/
theorem min_look_nx (d : dfa) (h : d.well_formed) (t : table) (ga : List (List Int))
    (m : dfa) (hm : min_spec d t ga m) (k : Nat) (c : Char) (v : Int)
    (hl : look m.transitions k c = some v) : v = (nx m k c : Int) ∧ nx m k c < m.size := by
  obtain ⟨h0, h1⟩ := min_target_lt d h t ga m hm k c v hl
  have hnx : nx m k c = v.toNat := by
    unfold nx
    unfold look at hl
    rw [hl]
  rw [hnx]
  omega

theorem look_nx (d : dfa) (i : Nat) (c : Char) (v : Int)
    (hl : look d.transitions i c = some v) : nx d i c = v.toNat := by
  unfold nx
  unfold look at hl
  rw [hl]

theorem look_none_nx (d : dfa) (i : Nat) (c : Char)
    (hl : look d.transitions i c = none) : nx d i c = d.size := by
  unfold nx
  unfold look at hl
  rw [hl]

/-- A state of the minimized DFA of a trim DFA has a transition on `c` exactly
when some word that starts with `c` is accepted from it. -/
theorem min_key_iff (d : dfa) (h : d.well_formed) (htrim : d.trim) (t : table)
    (ga : List (List Int)) (m : dfa) (hm : min_spec d t ga m) (k : Nat) (hk : k < m.size)
    (c : Char) :
    (∃ v, look m.transitions k c = some v) ↔ ∃ w, ac m (nxs m k (c :: w)) = true := by
  constructor
  · rintro ⟨v, hv⟩
    obtain ⟨i, j, hi, hcj, hik, _⟩ := hm.sound_tr k c v hv
    have hlook : look d.transitions i c = some j :=
      (look_of_mem d.transitions h.2.2.1 i c j).2 hcj
    have hj := htrim.real i c j hlook
    obtain ⟨w, hw⟩ := htrim.live j.toNat hj
    refine ⟨w, ?_⟩
    rw [← hik, min_lang d h t ga m hm i (Nat.le_of_lt hi) (c :: w)]
    show ac d (nxs d (nx d i c) w) = true
    rw [look_nx d i c j hlook]
    exact hw
  · rintro ⟨w, hw⟩
    obtain ⟨i, hi, hik⟩ := min_surj d h t ga m hm k hk
    subst hik
    rw [min_lang d h t ga m hm i hi (c :: w)] at hw
    have hw1 : ac d (nxs d (nx d i c) w) = true := hw
    cases hl : look d.transitions i c with
    | none =>
      rw [look_none_nx d i c hl, ac_nxs_dead d h w] at hw1
      exact absurd hw1 (by simp)
    | some j =>
      have hlt : i < d.size := by
        rcases Nat.lt_or_ge i d.size with hlt | hge
        · exact hlt
        · have : i = d.size := by omega
          subst this
          rw [nx_dead d h c, ac_nxs_dead d h w] at hw1
          exact absurd hw1 (by simp)
      exact hm.total_tr i c j hlt ((look_of_mem d.transitions h.2.2.1 i c j).1 hl)

/-- Two states of the minimized DFA that accept the same words are one state. -/
theorem min_inj (d : dfa) (h : d.well_formed) (t : table) (ga : List (List Int))
    (m : dfa) (hm : min_spec d t ga m) (k1 k2 : Nat) (hk1 : k1 < m.size) (hk2 : k2 < m.size)
    (he : ∀ v, ac m (nxs m k1 v) = ac m (nxs m k2 v)) : k1 = k2 :=
  min_equiv_eq d h t ga m hm k1 k2 hk1 hk2 he

end dfa
end Regex2Dfa

namespace Regex2Dfa
namespace dfa

theorem le_of_inj_on (f : Nat → Nat) (a b : Nat) (hlt : ∀ k, k < a → f k < b)
    (hinj : ∀ k k1, k < a → k1 < a → f k = f k1 → k = k1) : a ≤ b := by
  have hcard : (Finset.range a).card ≤ (Finset.range b).card := by
    apply Finset.card_le_card_of_injOn f
    · intro k hk
      exact Finset.mem_range.2 (hlt k (Finset.mem_range.1 hk))
    · intro k hk k1 hk1 he
      exact hinj k k1 (Finset.mem_range.1 (Finset.mem_coe.1 hk))
        (Finset.mem_range.1 (Finset.mem_coe.1 hk1)) he
  simpa using hcard

/-- Every state of the first minimized DFA has a state of the second that
accepts the same words, when the two trim DFAs accept the same language. -/
theorem min_corr (d1 d2 : dfa) (h1 : d1.well_formed) (h2 : d2.well_formed)
    (htrim1 : d1.trim) (t1 t2 : table) (ga1 ga2 : List (List Int)) (m1 m2 : dfa)
    (hm1 : min_spec d1 t1 ga1 m1) (hm2 : min_spec d2 t2 ga2 m2)
    (hL : ∀ w, ac d1 (nxs d1 0 w) = ac d2 (nxs d2 0 w)) (k1 : Nat) (hk1 : k1 < m1.size) :
    ∃ k2, k2 < m2.size ∧ ∀ v, ac m2 (nxs m2 k2 v) = ac m1 (nxs m1 k1 v) := by
  rcases min_state_cases d1 h1 htrim1 t1 ga1 m1 hm1 k1 hk1 with ⟨u, hu⟩ | hdead
  · obtain ⟨k2, hk2, hv⟩ := min_state_of_word d2 h2 t2 ga2 m2 hm2 u
    exact ⟨k2, hk2, fun v => by rw [hv v, hu v, hL]⟩
  · obtain ⟨k2, hk2, hv⟩ := min_state_dead d2 h2 t2 ga2 m2 hm2
    exact ⟨k2, hk2, fun v => by rw [hv v, hdead v]⟩

/-- The correspondence of states by accepted words, as a function: it maps the
states of the first minimized DFA one-to-one into those of the second. -/
theorem min_corr_fun (d1 d2 : dfa) (h1 : d1.well_formed) (h2 : d2.well_formed)
    (htrim1 : d1.trim) (t1 t2 : table) (ga1 ga2 : List (List Int)) (m1 m2 : dfa)
    (hm1 : min_spec d1 t1 ga1 m1) (hm2 : min_spec d2 t2 ga2 m2)
    (hL : ∀ w, ac d1 (nxs d1 0 w) = ac d2 (nxs d2 0 w)) :
    ∃ f : Nat → Nat, (∀ k, k < m1.size → f k < m2.size ∧
        ∀ v, ac m2 (nxs m2 (f k) v) = ac m1 (nxs m1 k v)) ∧
      (∀ k k1, k < m1.size → k1 < m1.size → f k = f k1 → k = k1) ∧ m1.size ≤ m2.size := by
  have hcorr := min_corr d1 d2 h1 h2 htrim1 t1 t2 ga1 ga2 m1 m2 hm1 hm2 hL
  choose! f hf using hcorr
  have hinj : ∀ k k1, k < m1.size → k1 < m1.size → f k = f k1 → k = k1 := by
    intro k k1 hk hk1 he
    apply min_inj d1 h1 t1 ga1 m1 hm1 k k1 hk hk1
    intro v
    rw [← (hf k hk).2 v, ← (hf k1 hk1).2 v, he]
  exact ⟨f, hf, hinj, le_of_inj_on f _ _ (fun k hk => (hf k hk).1) hinj⟩

theorem pairwise_relabel (f : Nat → Nat) (row : List (Char × Int)) (h : is_map row) :
    is_map (relabel f row) := by
  unfold is_map relabel
  rw [List.pairwise_map]
  exact h

theorem mem_relabel (f : Nat → Nat) (row : List (Char × Int)) (c : Char) (v : Int) :
    (c, v) ∈ relabel f row ↔ ∃ v1, (c, v1) ∈ row ∧ v = ((f v1.toNat : Nat) : Int) := by
  unfold relabel
  simp only [List.mem_map, Prod.mk.injEq, Prod.exists]
  constructor
  · rintro ⟨a, b, hab, ha, hb⟩
    subst ha
    exact ⟨b, hab, hb.symm⟩
  · rintro ⟨v1, hv1, hv⟩
    exact ⟨c, v1, hv1, rfl, hv.symm⟩

theorem key_lt_irrefl (a : Char × Int) : decide (a.1 < a.1) = false := by
  simp

theorem key_lt_trans (a b c : Char × Int) (hab : decide (a.1 < b.1) = true)
    (hbc : decide (b.1 < c.1) = true) : decide (a.1 < c.1) = true := by
  simp only [decide_eq_true_eq] at hab hbc ⊢
  exact lt_trans hab hbc

/-- Two `std::map`s with the same entries are equal. -/
theorem is_map_ext (r1 r2 : List (Char × Int)) (h1 : is_map r1) (h2 : is_map r2)
    (hm : ∀ x, x ∈ r1 ↔ x ∈ r2) : r1 = r2 := by
  apply eq_of_pairwise_of_mem (fun a b => decide (a.1 < b.1)) key_lt_irrefl key_lt_trans
  · unfold is_map at h1
    exact h1.imp (fun h => by simpa using h)
  · unfold is_map at h2
    exact h2.imp (fun h => by simpa using h)
  · exact hm

end dfa
end Regex2Dfa

namespace Regex2Dfa
namespace dfa

/-- The minimized DFAs of two trim DFAs that accept the same language are
isomorphic. -/
theorem min_isomorphic (d1 d2 : dfa) (h1 : d1.well_formed) (h2 : d2.well_formed)
    (htrim1 : d1.trim) (htrim2 : d2.trim) (t1 t2 : table) (ga1 ga2 : List (List Int))
    (m1 m2 : dfa) (hm1 : min_spec d1 t1 ga1 m1) (hm2 : min_spec d2 t2 ga2 m2)
    (hL : ∀ w, ac d1 (nxs d1 0 w) = ac d2 (nxs d2 0 w)) : ∃ f, isomorphic m1 m2 f := by
  obtain ⟨f, hf, hinj, hle⟩ :=
    min_corr_fun d1 d2 h1 h2 htrim1 t1 t2 ga1 ga2 m1 m2 hm1 hm2 hL
  obtain ⟨f1, hf1, _, hle1⟩ :=
    min_corr_fun d2 d1 h2 h1 htrim2 t2 t1 ga2 ga1 m2 m1 hm2 hm1 (fun w => (hL w).symm)
  have hsize : m1.size = m2.size := le_antisymm hle hle1
  have hwf1 := min_well_formed d1 h1 t1 ga1 m1 hm1
  have hwf2 := min_well_formed d2 h2 t2 ga2 m2 hm2
  have hrows1 : m1.transitions.length = m1.size := by
    rw [hm1.len, min_size d1 t1 ga1 m1 hm1]
  have hrows2 : m2.transitions.length = m2.size := by
    rw [hm2.len, min_size d2 t2 ga2 m2 hm2]
  have h0 : f 0 = 0 := by
    apply min_inj d2 h2 t2 ga2 m2 hm2 (f 0) 0 (hf 0 hwf1.1).1 hwf2.1
    intro v
    rw [(hf 0 hwf1.1).2 v, min_lang_start d1 h1 t1 ga1 m1 hm1 v,
      min_lang_start d2 h2 t2 ga2 m2 hm2 v, hL]
  have htgt : ∀ k, k < m1.size → ∀ c v1 v2, look m1.transitions k c = some v1 →
      look m2.transitions (f k) c = some v2 → v2 = ((f v1.toNat : Nat) : Int) := by
    intro k hk c v1 v2 hl1 hl2
    obtain ⟨e1, hlt1⟩ := min_look_nx d1 h1 t1 ga1 m1 hm1 k c v1 hl1
    obtain ⟨e2, hlt2⟩ := min_look_nx d2 h2 t2 ga2 m2 hm2 (f k) c v2 hl2
    have hv1 : v1.toNat = nx m1 k c := by rw [e1]; simp
    rw [hv1, e2]
    have hnx : nx m2 (f k) c = f (nx m1 k c) := by
      apply min_inj d2 h2 t2 ga2 m2 hm2 _ _ hlt2 (hf _ hlt1).1
      intro v
      rw [(hf _ hlt1).2 v]
      exact (hf k hk).2 (c :: v)
    rw [hnx]
  have hkey : ∀ k, k < m1.size → ∀ c, (∃ v, look m1.transitions k c = some v) ↔
      ∃ v, look m2.transitions (f k) c = some v := by
    intro k hk c
    rw [min_key_iff d1 h1 htrim1 t1 ga1 m1 hm1 k hk c,
      min_key_iff d2 h2 htrim2 t2 ga2 m2 hm2 (f k) (hf k hk).1 c]
    constructor
    · rintro ⟨w, hw⟩
      exact ⟨w, by rw [(hf k hk).2]; exact hw⟩
    · rintro ⟨w, hw⟩
      exact ⟨w, by rw [← (hf k hk).2]; exact hw⟩
  refine ⟨f, hsize, hrows1, hrows2, h0, fun k hk => (hf k hk).1, hinj, ?_, ?_, ?_⟩
  · intro k2 hk2
    refine ⟨f1 k2, (hf1 k2 hk2).1, ?_⟩
    apply min_inj d2 h2 t2 ga2 m2 hm2 _ _ (hf _ (hf1 k2 hk2).1).1 hk2
    intro v
    rw [(hf _ (hf1 k2 hk2).1).2 v, (hf1 k2 hk2).2 v]
  · intro k hk
    rw [min_acc_value d2 t2 ga2 m2 hm2 (f k) (hf k hk).1, min_acc_value d1 t1 ga1 m1 hm1 k hk]
    have hac : ac m2 (f k) = ac m1 k := (hf k hk).2 []
    rw [hac]
  · intro k hk
    have hk1 : k < m1.transitions.length := by rw [hrows1]; exact hk
    have hk2 : f k < m2.transitions.length := by rw [hrows2]; exact (hf k hk).1
    rw [List.getElem?_eq_getElem hk2, List.getElem?_eq_getElem hk1]
    simp only [Option.map_some', Option.some.injEq]
    apply is_map_ext _ _ (hm2.maps _ (List.getElem_mem hk2))
      (pairwise_relabel f _ (hm1.maps _ (List.getElem_mem hk1)))
    rintro ⟨c, v⟩
    rw [mem_relabel]
    have hg1 : m1.transitions.getD k [] = m1.transitions[k] := List.getD_eq_getElem _ _ hk1
    have hg2 : m2.transitions.getD (f k) [] = m2.transitions[f k] :=
      List.getD_eq_getElem _ _ hk2
    rw [← hg1, ← hg2, ← look_of_mem m2.transitions hm2.maps (f k) c v]
    constructor
    · intro hl2
      obtain ⟨v1, hl1⟩ := (hkey k hk c).2 ⟨v, hl2⟩
      exact ⟨v1, (look_of_mem _ hm1.maps k c v1).1 hl1, htgt k hk c v1 v hl1 hl2⟩
    · rintro ⟨v1, hmem, hv⟩
      have hl1 := (look_of_mem _ hm1.maps k c v1).2 hmem
      obtain ⟨v2, hl2⟩ := (hkey k hk c).1 ⟨v1, hl1⟩
      rw [hv, ← htgt k hk c v1 v2 hl1 hl2]
      exact hl2

end dfa
end Regex2Dfa

namespace Regex2Dfa

/-- The DFAs constructed for two inputs whose parsed regexes have equal
languages accept the same words, and both have a minimized DFA described by
`min_spec`. -/
theorem constructed_same_language (t1 t2 : regex_tree) (r01 r02 : node) (k1 k2 : Nat)
    (hb1 : regex_tree.built t1 r01 k1) (hb2 : regex_tree.built t2 r02 k2)
    (d1 d2 : dfa) (sigma1 sigma2 : List (List Nat × Int))
    (hc1 : regex_tree.constructed t1 k1 d1 sigma1)
    (hc2 : regex_tree.constructed t2 k2 d2 sigma2) (hl : r01.lang = r02.lang)
    (w : List Char) : dfa.ac d1 (dfa.nxs d1 0 w) = dfa.ac d2 (dfa.nxs d2 0 w) := by
  have e1 : dfa.ac d1 (dfa.nxs d1 0 w) = true ↔ w ∈ r01.lang := by
    rw [← regex_tree.nacc_iff_lang t1 r01 k1 hb1 w]
    obtain ⟨_, hkey⟩ := regex_tree.constructed.size_pos t1 k1 d1 sigma1 hc1
    exact regex_tree.constructed.sim t1 r01 k1 hb1 d1 sigma1 hc1 w 0 _ (Nat.zero_le _)
      (fun _ => ⟨_, hkey, fun q => Iff.rfl⟩) (fun h0 => by
        have := (regex_tree.constructed.size_pos t1 k1 d1 sigma1 hc1).1
        omega)
  have e2 : dfa.ac d2 (dfa.nxs d2 0 w) = true ↔ w ∈ r02.lang := by
    rw [← regex_tree.nacc_iff_lang t2 r02 k2 hb2 w]
    obtain ⟨_, hkey⟩ := regex_tree.constructed.size_pos t2 k2 d2 sigma2 hc2
    exact regex_tree.constructed.sim t2 r02 k2 hb2 d2 sigma2 hc2 w 0 _ (Nat.zero_le _)
      (fun _ => ⟨_, hkey, fun q => Iff.rfl⟩) (fun h0 => by
        have := (regex_tree.constructed.size_pos t2 k2 d2 sigma2 hc2).1
        omega)
  rw [Bool.eq_iff_iff, e1, e2, hl]

/-- C8: for all inputs `r1`, `r2` on which the constructor succeeds and whose
parsed regexes (the trees `start` returns) have equal languages, `construct_dfa`
followed by `minimize` returns on both, the two minimized DFAs have the same
number of states, and a bijection `f` of state ids that fixes 0 carries the
accepting flags and the transition maps of the first onto those of the second. -/
theorem minimized_dfas_isomorphic (r1 r2 : List Char) (t1 t2 : regex_tree)
    (r01 r02 : node) (st1 st2 : parser_state)
    (h1 : regex_tree.new r1 = .ok t1) (h2 : regex_tree.new r2 = .ok t2)
    (hs1 : regex_tree.start ⟨r1, 0⟩ = .ok (r01, st1))
    (hs2 : regex_tree.start ⟨r2, 0⟩ = .ok (r02, st2))
    (hl : r01.lang = r02.lang) :
    ∃ d1 d2 m1 m2 f, t1.construct_dfa = .ok d1 ∧ t2.construct_dfa = .ok d2 ∧
      d1.minimize = .ok m1 ∧ d2.minimize = .ok m2 ∧ dfa.isomorphic m1 m2 f := by
  obtain ⟨q1, s1, hq1, hb1⟩ := regex_tree.new_built r1 t1 h1
  obtain ⟨q2, s2, hq2, hb2⟩ := regex_tree.new_built r2 t2 h2
  rw [hs1] at hq1
  rw [hs2] at hq2
  simp only [Except.ok.injEq, Prod.mk.injEq] at hq1 hq2
  obtain ⟨e1, e1s⟩ := hq1
  obtain ⟨e2, e2s⟩ := hq2
  subst e1 e1s e2 e2s
  obtain ⟨d1, sigma1, hd1, hc1⟩ := regex_tree.construct_dfa_spec t1 r01 _ hb1
  obtain ⟨d2, sigma2, hd2, hc2⟩ := regex_tree.construct_dfa_spec t2 r02 _ hb2
  have hwf1 := regex_tree.constructed.well_formed t1 _ d1 sigma1 hc1
  have hwf2 := regex_tree.constructed.well_formed t2 _ d2 sigma2 hc2
  have htr1 := regex_tree.constructed.trim t1 r01 _ hb1 d1 sigma1 hc1
  have htr2 := regex_tree.constructed.trim t2 r02 _ hb2 d2 sigma2 hc2
  obtain ⟨tb1, ga1, m1, _, hmin1, hm1⟩ := dfa.minimize_spec d1 hwf1
  obtain ⟨tb2, ga2, m2, _, hmin2, hm2⟩ := dfa.minimize_spec d2 hwf2
  obtain ⟨f, hf⟩ := dfa.min_isomorphic d1 d2 hwf1 hwf2 htr1 htr2 tb1 tb2 ga1 ga2 m1 m2 hm1 hm2
    (constructed_same_language t1 t2 r01 r02 _ _ hb1 hb2 d1 d2 sigma1 sigma2 hc1 hc2 hl)
  exact ⟨d1, d2, m1, m2, f, hd1, hd2, hmin1, hmin2, hf⟩

/-- C8 witness: the theorem applied to the regexes `a|b` and `b|a`. -/
theorem minimized_dfas_isomorphic_witness :
    regex_tree.new "a|b".toList = .ok tree_a_or_b ∧
      regex_tree.new "b|a".toList = .ok tree_b_or_a ∧
      regex_tree.start ⟨"a|b".toList, 0⟩ = .ok (regex_a_or_b, ⟨[], 2⟩) ∧
      regex_tree.start ⟨"b|a".toList, 0⟩ = .ok (regex_b_or_a, ⟨[], 2⟩) ∧
      regex_a_or_b.lang = regex_b_or_a.lang ∧
      ∃ d1 d2 m1 m2 f, tree_a_or_b.construct_dfa = .ok d1 ∧
        tree_b_or_a.construct_dfa = .ok d2 ∧
        d1.minimize = .ok m1 ∧ d2.minimize = .ok m2 ∧ dfa.isomorphic m1 m2 f :=
  ⟨by rfl, by rfl, by rfl, by rfl, add_comm _ _,
    minimized_dfas_isomorphic "a|b".toList "b|a".toList tree_a_or_b tree_b_or_a
      regex_a_or_b regex_b_or_a ⟨[], 2⟩ ⟨[], 2⟩ (by rfl) (by rfl) (by rfl) (by rfl)
      (add_comm _ _)⟩

end Regex2Dfa

namespace Regex2Dfa
namespace node

theorem bind_error_inv {ε α β : Type} (x : Except ε α) (f : α → Except ε β) (e : ε)
    (h : (x >>= f) = .error e) : x = .error e ∨ ∃ a, x = .ok a ∧ f a = .error e := by
  cases x with
  | error e1 => left; simpa using h
  | ok a => right; exact ⟨a, rfl, h⟩

/-- The only failure of `nullable` is the dereference of a null pointer. -/
theorem nullable_error (t : node) (e : failure) (h : t.nullable = .error e) :
    e = .null_deref := by
  induction t with
  | null => simp only [nullable, Except.error.injEq] at h; exact h.symm
  | empty_node => simp [nullable] at h
  | letter_node c i => simp [nullable] at h
  | terminator_node i => simp [nullable] at h
  | or_node c0 c1 ih0 ih1 =>
    simp only [nullable] at h
    rcases bind_error_inv _ _ _ h with h1 | ⟨b, _, h2⟩
    · exact ih0 h1
    · cases b
      · exact ih1 (by simpa using h2)
      · simp at h2
  | cat_node c0 c1 ih0 ih1 =>
    simp only [nullable] at h
    rcases bind_error_inv _ _ _ h with h1 | ⟨b, _, h2⟩
    · exact ih0 h1
    · cases b
      · simp at h2
      · exact ih1 (by simpa using h2)
  | star_node c _ => simp [nullable] at h

/-- The only failure of `firstpos` is the dereference of a null pointer. -/
theorem firstpos_error (t : node) (e : failure) (h : t.firstpos = .error e) :
    e = .null_deref := by
  induction t with
  | null => simp only [firstpos, Except.error.injEq] at h; exact h.symm
  | empty_node => simp [firstpos] at h
  | letter_node c i => simp [firstpos] at h
  | terminator_node i => simp [firstpos] at h
  | or_node c0 c1 ih0 ih1 =>
    simp only [firstpos] at h
    rcases bind_error_inv _ _ _ h with h1 | ⟨f1, _, h2⟩
    · exact ih0 h1
    · rcases bind_error_inv _ _ _ h2 with h3 | ⟨f2, _, h4⟩
      · exact ih1 h3
      · simp at h4
  | cat_node c0 c1 ih0 ih1 =>
    simp only [firstpos] at h
    rcases bind_error_inv _ _ _ h with h1 | ⟨f1, _, h2⟩
    · exact ih0 h1
    · rcases bind_error_inv _ _ _ h2 with h3 | ⟨f2, _, h4⟩
      · exact ih1 h3
      · rcases bind_error_inv _ _ _ h4 with h5 | ⟨b, _, h6⟩
        · exact nullable_error c0 e h5
        · cases b <;> simp at h6
  | star_node c ih =>
    simp only [firstpos] at h
    exact ih h

/-- The only failure of `lastpos` is the dereference of a null pointer. -/
theorem lastpos_error (t : node) (e : failure) (h : t.lastpos = .error e) :
    e = .null_deref := by
  induction t with
  | null => simp only [lastpos, Except.error.injEq] at h; exact h.symm
  | empty_node => simp [lastpos] at h
  | letter_node c i => simp [lastpos] at h
  | terminator_node i => simp [lastpos] at h
  | or_node c0 c1 ih0 ih1 =>
    simp only [lastpos] at h
    rcases bind_error_inv _ _ _ h with h1 | ⟨f1, _, h2⟩
    · exact ih0 h1
    · rcases bind_error_inv _ _ _ h2 with h3 | ⟨f2, _, h4⟩
      · exact ih1 h3
      · simp at h4
  | cat_node c0 c1 ih0 ih1 =>
    simp only [lastpos] at h
    rcases bind_error_inv _ _ _ h with h1 | ⟨f1, _, h2⟩
    · exact ih0 h1
    · rcases bind_error_inv _ _ _ h2 with h3 | ⟨f2, _, h4⟩
      · exact ih1 h3
      · rcases bind_error_inv _ _ _ h4 with h5 | ⟨b, _, h6⟩
        · exact nullable_error c1 e h5
        · cases b <;> simp at h6
  | star_node c ih =>
    simp only [lastpos] at h
    exact ih h

/-- The only failure of the constructor of `cat_node` is the dereference of a
null child. -/
theorem make_cat_node_error (l r : node) (e : failure)
    (h : make_cat_node l r = .error e) : e = .null_deref := by
  unfold make_cat_node at h
  rcases bind_error_inv _ _ _ h with h1 | ⟨_, _, h2⟩
  · exact nullable_error _ e h1
  · rcases bind_error_inv _ _ _ h2 with h3 | ⟨_, _, h4⟩
    · exact firstpos_error _ e h3
    · rcases bind_error_inv _ _ _ h4 with h5 | ⟨_, _, h6⟩
      · exact lastpos_error _ e h5
      · simp at h6

/-- The only failure of the constructor of `or_node` is the dereference of a
null child. -/
theorem make_or_node_error (l r : node) (e : failure)
    (h : make_or_node l r = .error e) : e = .null_deref := by
  unfold make_or_node at h
  rcases bind_error_inv _ _ _ h with h1 | ⟨_, _, h2⟩
  · exact nullable_error _ e h1
  · rcases bind_error_inv _ _ _ h2 with h3 | ⟨_, _, h4⟩
    · exact firstpos_error _ e h3
    · rcases bind_error_inv _ _ _ h4 with h5 | ⟨_, _, h6⟩
      · exact lastpos_error _ e h5
      · simp at h6

/-- The only failure of `build_followpos` is the dereference of a null pointer. -/
theorem build_followpos_error (t : node) (f : Nat → List Nat) (e : failure)
    (h : t.build_followpos f = .error e) : e = .null_deref := by
  induction t generalizing f with
  | null => simp only [build_followpos, Except.error.injEq] at h; exact h.symm
  | empty_node => simp [build_followpos] at h
  | letter_node c i => simp [build_followpos] at h
  | terminator_node i => simp [build_followpos] at h
  | or_node c0 c1 ih0 ih1 =>
    simp only [build_followpos] at h
    rcases bind_error_inv _ _ _ h with h1 | ⟨f1, _, h2⟩
    · exact ih0 f h1
    · exact ih1 f1 h2
  | cat_node c0 c1 ih0 ih1 =>
    simp only [build_followpos] at h
    rcases bind_error_inv _ _ _ h with h1 | ⟨l, _, h2⟩
    · exact lastpos_error c0 e h1
    · rcases bind_error_inv _ _ _ h2 with h3 | ⟨s, _, h4⟩
      · exact firstpos_error c1 e h3
      · rcases bind_error_inv _ _ _ h4 with h5 | ⟨f1, _, h6⟩
        · exact ih0 _ h5
        · exact ih1 f1 h6
  | star_node c ih =>
    simp only [build_followpos] at h
    rcases bind_error_inv _ _ _ h with h1 | ⟨s, _, h2⟩
    · exact firstpos_error c e h1
    · rcases bind_error_inv _ _ _ h2 with h3 | ⟨l, _, h4⟩
      · exact lastpos_error c e h3
      · exact ih _ h4

end node
end Regex2Dfa

namespace Regex2Dfa
namespace regex_tree

theorem peek_nil (id : Nat) : peek ⟨[], id⟩ = symbol.empty := rfl

theorem peek_cons (c : Char) (rest : List Char) (id : Nat) :
    peek ⟨c :: rest, id⟩ ≠ symbol.empty := by
  simp only [peek]
  split_ifs <;> simp

/-- What `accept` leaves of the input: nothing is added, and an accepted symbol
other than the end is consumed. -/
theorem accept_len (s : symbol) (st : parser_state) :
    (accept s st).2.pos.length ≤ st.pos.length ∧
      ((accept s st).1 = true → s ≠ symbol.empty →
        (accept s st).2.pos.length + 1 = st.pos.length) ∧
      ((accept s st).1 = false → (accept s st).2 = st) := by
  obtain ⟨pos, id⟩ := st
  unfold accept
  split
  · rename_i hs
    split
    · rename_i hne
      cases pos with
      | nil => exact absurd hs hne
      | cons c rest => simp
    · rename_i hne
      have hse : s = symbol.empty := not_not.1 hne
      simp [hse]
  · simp

theorem match_error (s : symbol) (st : parser_state) (e : failure)
    (h : match_ s st = .error e) : e = .invalid_regex := by
  unfold match_ at h
  cases hacc : accept s st with
  | mk b st1 =>
    rw [hacc] at h
    cases b with
    | true => simp at h
    | false => simp only [Except.error.injEq] at h; exact h.symm

theorem match_len (s : symbol) (st : parser_state) (r : Int) (st1 : parser_state)
    (h : match_ s st = .ok (r, st1)) :
    st1.pos.length ≤ st.pos.length ∧ (s ≠ symbol.empty → st1.pos.length + 1 = st.pos.length) := by
  unfold match_ at h
  have hl := accept_len s st
  cases hacc : accept s st with
  | mk b st2 =>
    rw [hacc] at h hl
    cases b with
    | true =>
      simp only [Except.ok.injEq, Prod.mk.injEq] at h
      rw [← h.2]
      exact ⟨hl.1, hl.2.1 rfl⟩
    | false => exact absurd h (by simp)

theorem term_stars_len (pos : List Char) (left : node) (id : Nat) :
    (term_stars pos left id).2.pos.length ≤ pos.length := by
  induction pos generalizing left with
  | nil => exact Nat.le_refl _
  | cons c rest ih =>
    simp only [term_stars]
    split
    · exact Nat.le_trans (ih _) (by simp)
    · exact Nat.le_refl _

end regex_tree
end Regex2Dfa

namespace Regex2Dfa
namespace regex_tree

/-- On an input no longer than `B`, `term` fails only with "Invalid Regex" or on
a null pointer, never adds to the input, and consumes input when it returns a
node. -/
theorem term_fuel (regexfn : parser_state → Except failure (node × parser_state)) (B : Nat)
    (hre : bounded regexfn B) (st : parser_state) (hst : st.pos.length ≤ B) :
    (∀ e, term regexfn st = .error e → e = failure.invalid_regex ∨ e = failure.null_deref) ∧
      ∀ res, term regexfn st = .ok res → res.2.pos.length ≤ st.pos.length ∧
        (res.1 ≠ node.null → res.2.pos.length < st.pos.length) := by
  have hal := accept_len symbol.oparen st
  unfold term
  cases hacc : accept symbol.oparen st with
  | mk b st1 =>
    rw [hacc] at hal
    cases b with
    | true =>
      simp only
      have h1len : st1.pos.length + 1 = st.pos.length := hal.2.1 rfl (by decide)
      obtain ⟨hre1, hre2⟩ := hre st1 (by omega)
      constructor
      · intro e h
        rcases node.bind_error_inv _ _ _ h with h1 | ⟨⟨left, st2⟩, _, h2⟩
        · exact hre1 e h1
        · rcases node.bind_error_inv _ _ _ h2 with h3 | ⟨⟨_, st3⟩, _, h4⟩
          · exact Or.inl (match_error _ _ _ h3)
          · simp at h4
      · intro res h
        obtain ⟨⟨left, st2⟩, h1, h2⟩ := node.bind_ok_inv _ _ _ h
        obtain ⟨⟨r, st3⟩, h3, h4⟩ := node.bind_ok_inv _ _ _ h2
        simp only [pure_eq_ok, Except.ok.injEq] at h4
        have k1 : st2.pos.length ≤ st1.pos.length := hre2 _ h1
        have k2 : st3.pos.length ≤ st2.pos.length := (match_len _ _ _ _ h3).1
        have k3 := term_stars_len st3.pos left st3.current_id
        rw [← h4]
        constructor
        · omega
        · intro _; omega
    | false =>
      simp only
      split
      · constructor
        · intro e h
          rcases node.bind_error_inv _ _ _ h with h1 | ⟨⟨r, st2⟩, _, h2⟩
          · exact Or.inl (match_error _ _ _ h1)
          · simp at h2
        · intro res h
          obtain ⟨⟨r, st2⟩, h1, h2⟩ := node.bind_ok_inv _ _ _ h
          simp only [pure_eq_ok, Except.ok.injEq] at h2
          have k2 : st2.pos.length + 1 = st.pos.length := (match_len _ _ _ _ h1).2 (by decide)
          have k3 := term_stars_len st2.pos
            (node.letter_node (Char.ofNat r.toNat) st2.current_id) (st2.current_id + 1)
          rw [← h2]
          constructor
          · omega
          · intro _; omega
      · constructor
        · intro e h
          simp at h
        · intro res h
          simp only [pure_eq_ok, Except.ok.injEq] at h
          rw [← h]
          exact ⟨Nat.le_refl _, fun hn => absurd rfl hn⟩

/-- With a budget above the length of the input, the loop of `expr` does not run
out of it. -/
theorem expr_loop_fuel (regexfn : parser_state → Except failure (node × parser_state))
    (B : Nat) (hre : bounded regexfn B) (fuel : Nat) (left : node) (st : parser_state)
    (hf : st.pos.length < fuel) (hst : st.pos.length ≤ B) :
    (∀ e, expr_loop regexfn fuel left st = .error e →
        e = failure.invalid_regex ∨ e = failure.null_deref) ∧
      ∀ res, expr_loop regexfn fuel left st = .ok res → res.2.pos.length ≤ st.pos.length := by
  induction fuel generalizing left st with
  | zero => omega
  | succ fuel ih =>
    obtain ⟨ht1, ht2⟩ := term_fuel regexfn B hre st hst
    simp only [expr_loop]
    constructor
    · intro e h
      rcases node.bind_error_inv _ _ _ h with h1 | ⟨⟨right, st1⟩, hr, h2⟩
      · exact ht1 e h1
      · simp only at h2
        split at h2
        · simp at h2
        · rename_i hnn
          have hlen := (ht2 _ hr).2 hnn
          simp only at hlen
          rcases node.bind_error_inv _ _ _ h2 with h3 | ⟨left1, _, h4⟩
          · exact Or.inr (node.make_cat_node_error _ _ _ h3)
          · exact (ih left1 st1 (by omega) (by omega)).1 e h4
    · intro res h
      obtain ⟨⟨right, st1⟩, hr, h2⟩ := node.bind_ok_inv _ _ _ h
      simp only at h2
      split at h2
      · simp only [pure_eq_ok, Except.ok.injEq] at h2
        rw [← h2]
        exact (ht2 _ hr).1
      · rename_i hnn
        have hlen := (ht2 _ hr).2 hnn
        simp only at hlen
        obtain ⟨left1, _, h4⟩ := node.bind_ok_inv _ _ _ h2
        have := (ih left1 st1 (by omega) (by omega)).2 res h4
        omega

theorem expr_fuel (regexfn : parser_state → Except failure (node × parser_state))
    (B : Nat) (hre : bounded regexfn B) (st : parser_state) (hst : st.pos.length ≤ B) :
    (∀ e, expr regexfn st = .error e → e = failure.invalid_regex ∨ e = failure.null_deref) ∧
      ∀ res, expr regexfn st = .ok res → res.2.pos.length ≤ st.pos.length := by
  obtain ⟨ht1, ht2⟩ := term_fuel regexfn B hre st hst
  unfold expr
  constructor
  · intro e h
    rcases node.bind_error_inv _ _ _ h with h1 | ⟨⟨left, st1⟩, hr, h2⟩
    · exact ht1 e h1
    · have hlen := (ht2 _ hr).1
      simp only at hlen
      exact (expr_loop_fuel regexfn B hre _ left st1 (Nat.lt_succ_self _) (by omega)).1 e h2
  · intro res h
    obtain ⟨⟨left, st1⟩, hr, h2⟩ := node.bind_ok_inv _ _ _ h
    have hlen := (ht2 _ hr).1
    simp only at hlen
    have := (expr_loop_fuel regexfn B hre _ left st1 (Nat.lt_succ_self _) (by omega)).2 res h2
    omega

/-- With a budget above the length of the input, the loop of `regex` does not
run out of it. -/
theorem regex_loop_fuel (regexfn : parser_state → Except failure (node × parser_state))
    (B : Nat) (hre : bounded regexfn B) (fuel : Nat) (left : node) (st : parser_state)
    (hf : st.pos.length < fuel) (hst : st.pos.length ≤ B) :
    (∀ e, regex_loop regexfn fuel left st = .error e →
        e = failure.invalid_regex ∨ e = failure.null_deref) ∧
      ∀ res, regex_loop regexfn fuel left st = .ok res → res.2.pos.length ≤ st.pos.length := by
  induction fuel generalizing left st with
  | zero => omega
  | succ fuel ih =>
    have hal := accept_len symbol.bar st
    simp only [regex_loop]
    cases hacc : accept symbol.bar st with
    | mk b st1 =>
      rw [hacc] at hal
      cases b with
      | true =>
        simp only
        have h1len : st1.pos.length + 1 = st.pos.length := hal.2.1 rfl (by decide)
        obtain ⟨he1, he2⟩ := expr_fuel regexfn B hre st1 (by omega)
        constructor
        · intro e h
          rcases node.bind_error_inv _ _ _ h with h1 | ⟨⟨right, st2⟩, hr, h2⟩
          · exact he1 e h1
          · have hlen := he2 _ hr
            simp only at hlen
            rcases node.bind_error_inv _ _ _ h2 with h3 | ⟨left1, _, h4⟩
            · exact Or.inr (node.make_or_node_error _ _ _ h3)
            · exact (ih left1 st2 (by omega) (by omega)).1 e h4
        · intro res h
          obtain ⟨⟨right, st2⟩, hr, h2⟩ := node.bind_ok_inv _ _ _ h
          have hlen := he2 _ hr
          simp only at hlen
          obtain ⟨left1, _, h4⟩ := node.bind_ok_inv _ _ _ h2
          have := (ih left1 st2 (by omega) (by omega)).2 res h4
          omega
      | false =>
        simp only
        have hst1 : st1 = st := hal.2.2 rfl
        constructor
        · intro e h
          simp at h
        · intro res h
          simp only [pure_eq_ok, Except.ok.injEq] at h
          rw [← h, hst1]

theorem regex_body_fuel (regexfn : parser_state → Except failure (node × parser_state))
    (B : Nat) (hre : bounded regexfn B) (st : parser_state) (hst : st.pos.length ≤ B) :
    (∀ e, regex_body regexfn st = .error e →
        e = failure.invalid_regex ∨ e = failure.null_deref) ∧
      ∀ res, regex_body regexfn st = .ok res → res.2.pos.length ≤ st.pos.length := by
  obtain ⟨he1, he2⟩ := expr_fuel regexfn B hre st hst
  unfold regex_body
  split
  · constructor
    · intro e h
      simp at h
    · intro res h
      simp only [pure_eq_ok, Except.ok.injEq] at h
      rw [← h]
  · constructor
    · intro e h
      rcases node.bind_error_inv _ _ _ h with h1 | ⟨⟨left, st1⟩, hr, h2⟩
      · exact he1 e h1
      · have hlen := he2 _ hr
        simp only at hlen
        exact (regex_loop_fuel regexfn B hre _ left st1 (Nat.lt_succ_self _) (by omega)).1 e h2
    · intro res h
      obtain ⟨⟨left, st1⟩, hr, h2⟩ := node.bind_ok_inv _ _ _ h
      have hlen := he2 _ hr
      simp only at hlen
      have := (regex_loop_fuel regexfn B hre _ left st1 (Nat.lt_succ_self _) (by omega)).2 res h2
      omega

/-- A budget above the length of the input is enough for `regex`: the nesting
of parentheses is not deeper than the input is long. -/
theorem regex_fuel (fuel : Nat) : bounded (regex fuel) fuel := by
  induction fuel with
  | zero => intro st hst; omega
  | succ fuel ih =>
    intro st hst
    exact regex_body_fuel (regex fuel) fuel ih st (by omega)

/-- The parser `start` fails only with "Invalid Regex" or on a null pointer; it
does not run out of its budget. -/
theorem start_error (st : parser_state) (e : failure) (h : start st = .error e) :
    e = failure.invalid_regex ∨ e = failure.null_deref := by
  unfold start at h
  rcases node.bind_error_inv _ _ _ h with h1 | ⟨⟨res, st1⟩, _, h2⟩
  · exact (regex_fuel _ st (Nat.lt_succ_self _)).1 e h1
  · rcases node.bind_error_inv _ _ _ h2 with h3 | ⟨⟨_, st2⟩, _, h4⟩
    · exact Or.inl (match_error _ _ _ h3)
    · simp at h4

/-- The constructor fails only with "Invalid Regex" or on a null pointer: the
budgets of the model are never the reason for a failure. -/
theorem new_error (r : List Char) (e : failure) (h : regex_tree.new r = .error e) :
    e = failure.invalid_regex ∨ e = failure.null_deref := by
  unfold regex_tree.new at h
  rcases node.bind_error_inv _ _ _ h with h1 | ⟨⟨r0, st⟩, _, h2⟩
  · exact start_error _ e h1
  · rcases node.bind_error_inv _ _ _ h2 with h3 | ⟨root, _, h4⟩
    · exact Or.inr (node.make_cat_node_error _ _ _ h3)
    · rcases node.bind_error_inv _ _ _ h4 with h5 | ⟨fol, _, h6⟩
      · exact Or.inr (node.build_followpos_error _ _ e h5)
      · simp at h6

end regex_tree
end Regex2Dfa

namespace Regex2Dfa
namespace regex_tree

/-- The letters are the characters other than the five metacharacters. -/
theorem is_letter_iff (c : Char) :
    is_letter c = true ↔ c ∉ ['(', ')', '*', '+', '|'] := by
  simp only [is_letter, peek]
  split_ifs with h1 h2 h3 h4 h5 <;> simp [*]

theorem peek_head (c : Char) (rest : List Char) (id : Nat) :
    peek ⟨c :: rest, id⟩ = peek ⟨[c], 0⟩ := rfl

theorem peek_plus (c : Char) (s : symbol) (h : peek ⟨[c], 0⟩ = s) (hs : s ≠ symbol.plus) :
    c ≠ '+' := by
  intro hc
  subst hc
  apply hs
  rw [← h]
  rfl

theorem is_letter_of_peek (c : Char) (h : peek ⟨[c], 0⟩ = symbol.letter) :
    is_letter c = true := by
  simp [is_letter, h]

theorem not_letter_of_peek (c : Char) (s : symbol) (h : peek ⟨[c], 0⟩ = s)
    (hs : s ≠ symbol.letter) : is_letter c = false := by
  simp [is_letter, h, hs]

/-- An accepted symbol other than the end is the first character of the input. -/
theorem accept_true (s : symbol) (st st1 : parser_state) (h : accept s st = (true, st1))
    (hne : s ≠ symbol.empty) :
    ∃ c, st.pos = c :: st1.pos ∧ peek ⟨[c], 0⟩ = s := by
  obtain ⟨pos, id⟩ := st
  unfold accept at h
  split at h
  · rename_i hs
    simp only [Prod.mk.injEq, true_and] at h
    cases pos with
    | nil => exact absurd hs hne
    | cons c rest =>
      refine ⟨c, ?_, ?_⟩
      · rw [← h]; rfl
      · rw [hs]; rfl
  · simp at h

theorem accept_false (s : symbol) (st st1 : parser_state) (h : accept s st = (false, st1)) :
    st1 = st := by
  unfold accept at h
  split at h
  · split at h <;> simp at h
  · simp only [Prod.mk.injEq, true_and] at h
    exact h.symm

theorem accept_empty (st st1 : parser_state) (h : accept symbol.empty st = (true, st1)) :
    st1 = st ∧ st.pos = [] := by
  obtain ⟨pos, id⟩ := st
  unfold accept at h
  split at h
  · rename_i hs
    simp only [ne_eq, not_true_eq_false, ↓reduceIte, Prod.mk.injEq, true_and] at h
    refine ⟨h.symm, ?_⟩
    cases pos with
    | nil => rfl
    | cons c rest => exact absurd hs.symm (peek_cons c rest id)
  · simp at h

/-- What `match` returns for a symbol other than the end: the first character
of the input, which it consumes. -/
theorem match_ok (s : symbol) (st : parser_state) (r : Int) (st1 : parser_state)
    (h : match_ s st = .ok (r, st1)) (hne : s ≠ symbol.empty) :
    ∃ c, st.pos = c :: st1.pos ∧ peek ⟨[c], 0⟩ = s ∧ r = (c.toNat : Int) := by
  unfold match_ at h
  cases hacc : accept s st with
  | mk b st2 =>
    rw [hacc] at h
    cases b with
    | true =>
      simp only [Except.ok.injEq, Prod.mk.injEq] at h
      obtain ⟨c, hc, hp⟩ := accept_true s st st2 hacc hne
      rw [h.2] at hc
      refine ⟨c, hc, hp, ?_⟩
      rw [← h.1, hc]
    | false => exact absurd h (by simp)

theorem match_empty_ok (st : parser_state) (r : Int) (st1 : parser_state)
    (h : match_ symbol.empty st = .ok (r, st1)) : st1 = st ∧ st.pos = [] := by
  unfold match_ at h
  cases hacc : accept symbol.empty st with
  | mk b st2 =>
    rw [hacc] at h
    cases b with
    | true =>
      simp only [Except.ok.injEq, Prod.mk.injEq] at h
      have := accept_empty st st2 hacc
      rw [h.2] at this
      exact this
    | false => exact absurd h (by simp)

/-- The star loop of `term` consumes stars only and keeps the letter leaves. -/
theorem term_stars_consumed (pos : List Char) (left : node) (id : Nat) :
    ∃ u, pos = u ++ (term_stars pos left id).2.pos ∧ '+' ∉ u ∧ u.filter is_letter = [] ∧
      (term_stars pos left id).1.letter_leaves = left.letter_leaves := by
  induction pos generalizing left with
  | nil => exact ⟨[], rfl, by simp, rfl, rfl⟩
  | cons c rest ih =>
    simp only [term_stars]
    cases hacc : accept symbol.star ⟨c :: rest, id⟩ with
    | mk b st2 =>
      cases b with
      | true =>
        obtain ⟨c1, hc1, hp⟩ := accept_true _ _ _ hacc (by decide)
        simp only [List.cons.injEq] at hc1
        obtain ⟨hcc, _⟩ := hc1
        subst hcc
        obtain ⟨u, h1, h2, h3, h4⟩ := ih (node.star_node left)
        simp only [↓reduceIte]
        refine ⟨c :: u, ?_, ?_, ?_, ?_⟩
        · rw [List.cons_append, ← h1]
        · simp only [List.mem_cons, not_or]
          exact ⟨(peek_plus c _ hp (by decide)).symm, h2⟩
        · rw [List.filter_cons, not_letter_of_peek c _ hp (by decide)]
          simpa using h3
        · rw [h4]; rfl
      | false =>
        refine ⟨[], ?_, ?_, ?_, ?_⟩ <;> simp

/-- Sequencing: a node made of the letter leaves of two consecutive calls. -/
theorem consumed_seq (st st1 st2 : parser_state) (a b n : node)
    (ha : consumed st (a, st1)) (hb : consumed st1 (b, st2))
    (hn : n.letter_leaves = a.letter_leaves ++ b.letter_leaves) : consumed st (n, st2) := by
  obtain ⟨u, hu1, hu2, hu3⟩ := ha
  obtain ⟨v, hv1, hv2, hv3⟩ := hb
  simp only at hu1 hu3 hv1 hv3
  refine ⟨u ++ v, ?_, ?_, ?_⟩
  · simp only
    rw [hu1, hv1, List.append_assoc]
  · simp only [List.mem_append, not_or]
    exact ⟨hu2, hv2⟩
  · simp only
    rw [hn, List.map_append, hu3, hv3, List.filter_append]

/-- Reading one character that is neither a letter nor `+` before a call. -/
theorem consumed_skip (st st1 : parser_state) (c : Char) (s : symbol) (res : node × parser_state)
    (hpos : st.pos = c :: st1.pos) (hp : peek ⟨[c], 0⟩ = s) (hs : s ≠ symbol.plus)
    (hl : s ≠ symbol.letter) (h : consumed st1 res) : consumed st res := by
  obtain ⟨u, hu1, hu2, hu3⟩ := h
  refine ⟨c :: u, ?_, ?_, ?_⟩
  · rw [hpos, hu1]; rfl
  · simp only [List.mem_cons, not_or]
    exact ⟨(peek_plus c s hp hs).symm, hu2⟩
  · rw [hu3, List.filter_cons, not_letter_of_peek c s hp hl]
    simp

theorem consumed_refl (st : parser_state) (n : node) (hn : n.letter_leaves = []) :
    consumed st (n, st) :=
  ⟨[], rfl, by simp, by simp [hn]⟩

end regex_tree
end Regex2Dfa

namespace Regex2Dfa
namespace regex_tree

theorem char_of_match (c : Char) : Char.ofNat ((c.toNat : Int)).toNat = c := by
  rw [Int.toNat_ofNat]
  exact Char.ofNat_toNat c

/-- What `term` consumed, given what the nested `regex()` consumes. -/
theorem term_consumed (regexfn : parser_state → Except failure (node × parser_state))
    (hre : ∀ st res, regexfn st = .ok res → consumed st res) (st : parser_state)
    (res : node × parser_state) (h : term regexfn st = .ok res) : consumed st res := by
  unfold term at h
  split at h
  · rename_i st1 hacc
    obtain ⟨c, hc, hp⟩ := accept_true _ _ _ hacc (by decide)
    obtain ⟨⟨left, st2⟩, h1, h2⟩ := node.bind_ok_inv _ _ _ h
    obtain ⟨⟨r, st3⟩, h3, h4⟩ := node.bind_ok_inv _ _ _ h2
    simp only [pure_eq_ok, Except.ok.injEq] at h4
    obtain ⟨u, hu1, hu2, hu3⟩ := hre st1 _ h1
    simp only at hu1 hu3
    obtain ⟨c2, hc2, hp2, _⟩ := match_ok _ _ _ _ h3 (by decide)
    obtain ⟨u3, k1, k2, k3, k4⟩ := term_stars_consumed st3.pos left st3.current_id
    rw [← h4]
    apply consumed_skip st st1 c _ _ hc hp (by decide) (by decide)
    refine ⟨u ++ c2 :: u3, ?_, ?_, ?_⟩
    · simp only [List.append_assoc, List.cons_append]
      rw [← k1, ← hc2]
      exact hu1
    · simp only [List.mem_append, List.mem_cons, not_or]
      exact ⟨hu2, (peek_plus c2 _ hp2 (by decide)).symm, k2⟩
    · show (term_stars st3.pos left st3.current_id).1.letter_leaves.map Prod.fst =
        (u ++ c2 :: u3).filter is_letter
      rw [k4, hu3, List.filter_append, List.filter_cons,
        not_letter_of_peek c2 _ hp2 (by decide), k3]
      simp
  · split at h
    · obtain ⟨⟨r, st1⟩, h1, h2⟩ := node.bind_ok_inv _ _ _ h
      simp only [pure_eq_ok, Except.ok.injEq] at h2
      obtain ⟨c, hc, hp, hr⟩ := match_ok _ _ _ _ h1 (by decide)
      obtain ⟨u3, k1, k2, k3, k4⟩ := term_stars_consumed st1.pos
        (node.letter_node (Char.ofNat r.toNat) st1.current_id) (st1.current_id + 1)
      rw [← h2]
      refine ⟨c :: u3, ?_, ?_, ?_⟩
      · simp only [List.cons_append]
        rw [← k1]
        exact hc
      · simp only [List.mem_cons, not_or]
        exact ⟨(peek_plus c _ hp (by decide)).symm, k2⟩
      · show (term_stars st1.pos (node.letter_node (Char.ofNat r.toNat) st1.current_id)
          (st1.current_id + 1)).1.letter_leaves.map Prod.fst = (c :: u3).filter is_letter
        rw [k4, List.filter_cons, is_letter_of_peek c hp, k3, hr, char_of_match]
        simp [node.letter_leaves]
    · simp only [pure_eq_ok, Except.ok.injEq] at h
      rw [← h]
      exact consumed_refl st node.null rfl

theorem expr_loop_consumed (regexfn : parser_state → Except failure (node × parser_state))
    (hre : ∀ st res, regexfn st = .ok res → consumed st res) (fuel : Nat) (st0 : parser_state)
    (left : node) (st : parser_state) (hleft : consumed st0 (left, st))
    (res : node × parser_state) (h : expr_loop regexfn fuel left st = .ok res) :
    consumed st0 res := by
  induction fuel generalizing left st with
  | zero => simp [expr_loop] at h
  | succ fuel ih =>
    simp only [expr_loop] at h
    obtain ⟨⟨right, st1⟩, h1, h2⟩ := node.bind_ok_inv _ _ _ h
    have hr := term_consumed regexfn hre st _ h1
    simp only at h2
    split at h2
    · rename_i hnull
      simp only [pure_eq_ok, Except.ok.injEq] at h2
      rw [← h2]
      subst hnull
      exact consumed_seq st0 st st1 left node.null left hleft hr (by simp [node.letter_leaves])
    · obtain ⟨left1, h3, h4⟩ := node.bind_ok_inv _ _ _ h2
      have := make_cat_node_eq _ _ _ h3
      subst this
      exact ih _ st1 (consumed_seq st0 st st1 left right (node.cat_node left right) hleft hr
        rfl) h4

theorem expr_consumed (regexfn : parser_state → Except failure (node × parser_state))
    (hre : ∀ st res, regexfn st = .ok res → consumed st res) (st : parser_state)
    (res : node × parser_state) (h : expr regexfn st = .ok res) : consumed st res := by
  unfold expr at h
  obtain ⟨⟨left, st1⟩, h1, h2⟩ := node.bind_ok_inv _ _ _ h
  exact expr_loop_consumed regexfn hre _ st left st1 (term_consumed regexfn hre st _ h1) res h2

theorem regex_loop_consumed (regexfn : parser_state → Except failure (node × parser_state))
    (hre : ∀ st res, regexfn st = .ok res → consumed st res) (fuel : Nat) (st0 : parser_state)
    (left : node) (st : parser_state) (hleft : consumed st0 (left, st))
    (res : node × parser_state) (h : regex_loop regexfn fuel left st = .ok res) :
    consumed st0 res := by
  induction fuel generalizing left st with
  | zero => simp [regex_loop] at h
  | succ fuel ih =>
    simp only [regex_loop] at h
    split at h
    · rename_i st1 hacc
      obtain ⟨c, hc, hp⟩ := accept_true _ _ _ hacc (by decide)
      obtain ⟨⟨right, st2⟩, h1, h2⟩ := node.bind_ok_inv _ _ _ h
      obtain ⟨left1, h3, h4⟩ := node.bind_ok_inv _ _ _ h2
      have := make_or_node_eq _ _ _ h3
      subst this
      have hr : consumed st (right, st2) :=
        consumed_skip st st1 c _ _ hc hp (by decide) (by decide)
          (expr_consumed regexfn hre st1 _ h1)
      exact ih _ st2 (consumed_seq st0 st st2 left right (node.or_node left right) hleft hr
        rfl) h4
    · rename_i st1 hacc
      have hst := accept_false _ _ _ hacc
      simp only [pure_eq_ok, Except.ok.injEq] at h
      rw [← h, hst]
      exact hleft

theorem regex_body_consumed (regexfn : parser_state → Except failure (node × parser_state))
    (hre : ∀ st res, regexfn st = .ok res → consumed st res) (st : parser_state)
    (res : node × parser_state) (h : regex_body regexfn st = .ok res) : consumed st res := by
  unfold regex_body at h
  split at h
  · simp only [pure_eq_ok, Except.ok.injEq] at h
    rw [← h]
    exact consumed_refl st node.empty_node rfl
  · obtain ⟨⟨left, st1⟩, h1, h2⟩ := node.bind_ok_inv _ _ _ h
    exact regex_loop_consumed regexfn hre _ st left st1 (expr_consumed regexfn hre st _ h1)
      res h2

theorem regex_consumed (fuel : Nat) (st : parser_state) (res : node × parser_state)
    (h : regex fuel st = .ok res) : consumed st res := by
  induction fuel generalizing st res with
  | zero => simp [regex] at h
  | succ fuel ih =>
    exact regex_body_consumed (regex fuel) (fun st res h => ih st res h) st res h

/-- When `start` returns, the whole input was consumed: it holds no `+`, and its
letters are the letters of the letter leaves, left to right. -/
theorem start_consumed (st : parser_state) (res : node × parser_state)
    (h : start st = .ok res) :
    res.2.pos = [] ∧ '+' ∉ st.pos ∧
      res.1.letter_leaves.map Prod.fst = st.pos.filter is_letter := by
  unfold start at h
  obtain ⟨⟨r, st1⟩, h1, h2⟩ := node.bind_ok_inv _ _ _ h
  obtain ⟨⟨_, st2⟩, h3, h4⟩ := node.bind_ok_inv _ _ _ h2
  obtain ⟨u, hu1, hu2, hu3⟩ := regex_consumed _ st _ h1
  obtain ⟨hst, hnil⟩ := match_empty_ok _ _ _ h3
  simp only [pure_eq_ok, Except.ok.injEq] at h4
  simp only at hu1 hu3
  rw [hnil, List.append_nil] at hu1
  rw [← h4, hu1]
  exact ⟨by rw [hst]; exact hnil, hu2, hu3⟩

end regex_tree
end Regex2Dfa

namespace Regex2Dfa
namespace node

theorem letter_leaves_ids (t : node) (h : t.no_terminator) :
    t.letter_leaves.map Prod.snd = t.leaf_ids := by
  induction t with
  | null => rfl
  | empty_node => rfl
  | letter_node c i => rfl
  | terminator_node i => exact absurd h (by simp [no_terminator])
  | or_node c0 c1 ih0 ih1 =>
    simp only [letter_leaves, leaf_ids, List.map_append, ih0 h.1, ih1 h.2]
  | cat_node c0 c1 ih0 ih1 =>
    simp only [letter_leaves, leaf_ids, List.map_append, ih0 h.1, ih1 h.2]
  | star_node c ih => exact ih h

theorem terminators_nil (t : node) (h : t.no_terminator) : t.terminators = [] := by
  induction t with
  | null => rfl
  | empty_node => rfl
  | letter_node c i => rfl
  | terminator_node i => exact absurd h (by simp [no_terminator])
  | or_node c0 c1 ih0 ih1 => simp only [terminators, ih0 h.1, ih1 h.2, List.append_nil]
  | cat_node c0 c1 ih0 ih1 => simp only [terminators, ih0 h.1, ih1 h.2, List.append_nil]
  | star_node c ih => exact ih h

end node

theorem zip_of_maps {α β : Type} (l : List (α × β)) :
    l = (l.map Prod.fst).zip (l.map Prod.snd) := by
  induction l with
  | nil => rfl
  | cons a rest ih =>
    simp only [List.map_cons, List.zip_cons_cons]
    rw [← ih]

namespace regex_tree

/-- An input on which the constructor succeeds holds no `+`, and its letters are
the letters of the letter leaves of the parsed regex, left to right. -/
theorem new_consumed (r : List Char) (t : regex_tree) (h : regex_tree.new r = .ok t) :
    ∃ r0 st, start ⟨r, 0⟩ = .ok (r0, st) ∧ built t r0 st.current_id ∧ '+' ∉ r ∧
      r0.letter_leaves.map Prod.fst = r.filter is_letter := by
  obtain ⟨r0, st, hs, hb⟩ := new_built r t h
  obtain ⟨_, h2, h3⟩ := start_consumed _ _ hs
  exact ⟨r0, st, hs, hb, h2, h3⟩

end regex_tree

/-- C15: for every input on which the constructor succeeds, the root is
`Cat(r0, Terminator(k))`, where `k` is the number of letters (characters other
than `( ) * + |`) of the input; the letter leaves of the augmented tree, read left
to right, carry the letters of the input in input order with the ids
`0, 1, .., k-1`; the only end marker is `Terminator(k)`; and the ids of all the
leaves are `0 .. k`, pairwise different. -/
theorem leaf_ids_left_to_right (r : List Char) (t : regex_tree)
    (h : regex_tree.new r = .ok t) :
    ∃ r0 k, t.root = node.cat_node r0 (node.terminator_node k) ∧
      k = (r.filter regex_tree.is_letter).length ∧
      t.root.letter_leaves = (r.filter regex_tree.is_letter).zip (List.range k) ∧
      t.root.terminators = [k] ∧ r0.terminators = [] ∧
      t.root.leaf_ids = List.range (k + 1) ∧ t.root.leaf_ids.Nodup ∧
      ∀ c, regex_tree.is_letter c = true ↔ c ∉ ['(', ')', '*', '+', '|'] := by
  obtain ⟨r0, st, _, hb, _, hlet⟩ := regex_tree.new_consumed r t h
  have hids : r0.letter_leaves.map Prod.snd = List.range st.current_id := by
    rw [node.letter_leaves_ids r0 hb.nt, hb.ids]
  have hk : st.current_id = (r.filter regex_tree.is_letter).length := by
    have h1 := congrArg List.length hids
    have h2 := congrArg List.length hlet
    simp only [List.length_map, List.length_range] at h1 h2
    omega
  have hterm := node.terminators_nil r0 hb.nt
  refine ⟨r0, st.current_id, hb.root_eq, hk, ?_, ?_, hterm,
    regex_tree.built.root_ids t r0 _ hb, regex_tree.built.root_nodup t r0 _ hb,
    regex_tree.is_letter_iff⟩
  · rw [hb.root_eq]
    simp only [node.letter_leaves, List.append_nil]
    rw [← hlet, ← hids]
    exact zip_of_maps _
  · rw [hb.root_eq]
    simp only [node.terminators, hterm, List.nil_append]

/-- C15 witness: the theorem applied to the regex `a|b`. -/
theorem leaf_ids_left_to_right_witness :
    regex_tree.new "a|b".toList = .ok tree_a_or_b ∧
      ∃ r0 k, tree_a_or_b.root = node.cat_node r0 (node.terminator_node k) ∧
        k = ("a|b".toList.filter regex_tree.is_letter).length ∧
        tree_a_or_b.root.letter_leaves =
          ("a|b".toList.filter regex_tree.is_letter).zip (List.range k) ∧
        tree_a_or_b.root.terminators = [k] ∧ r0.terminators = [] ∧
        tree_a_or_b.root.leaf_ids = List.range (k + 1) ∧ tree_a_or_b.root.leaf_ids.Nodup ∧
        ∀ c, regex_tree.is_letter c = true ↔ c ∉ ['(', ')', '*', '+', '|'] :=
  ⟨by rfl, leaf_ids_left_to_right "a|b".toList tree_a_or_b (by rfl)⟩

end Regex2Dfa

namespace Regex2Dfa
namespace node

/-- A tree on which `lastpos` returns has no null pointer. -/
theorem no_null_of_lastpos (t : node) (F : List Nat) (h : t.lastpos = .ok F) :
    t.no_null := by
  induction t generalizing F with
  | null => simp [lastpos] at h
  | empty_node => trivial
  | letter_node c i => trivial
  | terminator_node i => trivial
  | or_node c0 c1 ih0 ih1 =>
    simp only [lastpos] at h
    obtain ⟨l1, h1, h2⟩ := bind_ok_inv _ _ _ h
    obtain ⟨l2, h3, _⟩ := bind_ok_inv _ _ _ h2
    exact ⟨ih0 l1 h1, ih1 l2 h3⟩
  | cat_node c0 c1 ih0 ih1 =>
    simp only [lastpos] at h
    obtain ⟨l1, h1, h2⟩ := bind_ok_inv _ _ _ h
    obtain ⟨l2, h3, _⟩ := bind_ok_inv _ _ _ h2
    exact ⟨ih0 l1 h1, ih1 l2 h3⟩
  | star_node c ih =>
    simp only [lastpos] at h
    exact ih F h

/-- On a tree without null pointers the links of the specification are the
links of `follow`. -/
theorem spec_follow_iff (t : node) (h : t.no_null) (p q : Nat) :
    t.spec_follow p q ↔ t.follow p q := by
  induction t with
  | null => exact Iff.rfl
  | empty_node => exact Iff.rfl
  | letter_node c i => exact Iff.rfl
  | terminator_node i => exact Iff.rfl
  | or_node c0 c1 ih0 ih1 =>
    simp only [spec_follow, follow, ih0 h.1, ih1 h.2]
  | cat_node c0 c1 ih0 ih1 =>
    simp only [spec_follow, follow, ih0 h.1, ih1 h.2, lastpos_eq c0 h.1, firstpos_eq c1 h.2,
      Except.ok.injEq]
    constructor
    · rintro (⟨l, s, hl, hs, hp, hq⟩ | h2)
      · subst hl; subst hs; exact Or.inl ⟨hp, hq⟩
      · exact Or.inr h2
    · rintro (⟨hp, hq⟩ | h2)
      · exact Or.inl ⟨_, _, rfl, rfl, hp, hq⟩
      · exact Or.inr h2
  | star_node c ih =>
    simp only [spec_follow, follow, ih h, lastpos_eq c h, firstpos_eq c h, Except.ok.injEq]
    constructor
    · rintro (⟨l, s, hl, hs, hp, hq⟩ | h2)
      · subst hl; subst hs; exact Or.inl ⟨hp, hq⟩
      · exact Or.inr h2
    · rintro (⟨hp, hq⟩ | h2)
      · exact Or.inl ⟨_, _, rfl, rfl, hp, hq⟩
      · exact Or.inr h2

/-- The links of `Star(Star(c))` are the links of `Star(c)`. -/
theorem follow_star_star (c : node) (p q : Nat) :
    (star_node (star_node c)).follow p q ↔ (star_node c).follow p q := by
  simp only [follow, lp, fp]
  tauto

end node

/-- C16: for every node `c`, `Star(Star(c))` has the `nullable`, `firstpos` and
`lastpos` of `Star(c)`; `build_followpos` on `Star(Star(c))` fails exactly when it
fails on `Star(c)`, and when it returns, the `followpos_` sets hold the same
positions as after `build_followpos` on `Star(c)`.  The constructor succeeds on
`a**`, and `construct_dfa` returns the same DFA for `a**` and for `a*`. -/
theorem stacked_stars_collapse (c : node) (f : Nat → List Nat) :
    (node.star_node (node.star_node c)).nullable = (node.star_node c).nullable ∧
      (node.star_node (node.star_node c)).firstpos = (node.star_node c).firstpos ∧
      (node.star_node (node.star_node c)).lastpos = (node.star_node c).lastpos ∧
      (∀ g1, (node.star_node c).build_followpos f = .ok g1 →
        ∃ g2, (node.star_node (node.star_node c)).build_followpos f = .ok g2 ∧
          ∀ p q, q ∈ g2 p ↔ q ∈ g1 p) ∧
      (∀ e, (node.star_node c).build_followpos f = .error e →
        (node.star_node (node.star_node c)).build_followpos f = .error e) ∧
      (regex_tree.new "a**".toList).map (fun t => t.root) =
        .ok (node.cat_node (node.star_node (node.star_node (node.letter_node 'a' 0)))
          (node.terminator_node 1)) ∧
      compile "a**".toList = .ok dfa_a_star ∧ compile "a*".toList = .ok dfa_a_star := by
  refine ⟨rfl, rfl, rfl, ?_, ?_, by rfl, by rfl, by rfl⟩
  · intro g1 h1
    have hnn : c.no_null := by
      simp only [node.build_followpos] at h1
      obtain ⟨s, hs, _⟩ := node.bind_ok_inv _ _ _ h1
      exact node.no_null_of_firstpos c s hs
    obtain ⟨k1, e1, m1, _⟩ := node.build_followpos_spec (node.star_node c) hnn f
    obtain ⟨k2, e2, m2, _⟩ :=
      node.build_followpos_spec (node.star_node (node.star_node c)) hnn f
    rw [h1] at e1
    simp only [Except.ok.injEq] at e1
    subst e1
    refine ⟨k2, e2, fun p q => ?_⟩
    rw [m1, m2, node.follow_star_star]
  · intro e h1
    simp only [node.build_followpos, node.firstpos, node.lastpos] at h1 ⊢
    rcases node.bind_error_inv _ _ _ h1 with h2 | ⟨s, hs, h3⟩
    · rw [h2]; rfl
    · rcases node.bind_error_inv _ _ _ h3 with h4 | ⟨l, hl, h5⟩
      · rw [hs, h4]; rfl
      · have hnn : ¬ c.no_null := by
          intro hnn
          obtain ⟨k1, e1, _⟩ := node.build_followpos_spec c hnn (node.add_followpos l s f)
          rw [e1] at h5
          exact absurd h5 (by simp)
        exact absurd (node.no_null_of_firstpos c s hs) hnn

/-- C20: for every input on which the constructor succeeds and every leaf `p`,
the set `followpos(p)` built by `build_followpos` on the augmented tree holds
exactly the positions the specification links to `p`: those of `firstpos(r)` for
every `Cat(l, r)` with `p` in `lastpos(l)` and those of `firstpos(c)` for every
`Star(c)` with `p` in `lastpos(c)`. -/
theorem followpos_exact (r : List Char) (t : regex_tree) (h : regex_tree.new r = .ok t) :
    t.root.build_followpos (fun _ => []) = .ok t.followpos_ ∧
      ∀ p q, q ∈ t.followpos_ p ↔ t.root.spec_follow p q := by
  obtain ⟨r0, st, _, hb⟩ := regex_tree.new_built r t h
  have hnn := regex_tree.built.root_nn t r0 _ hb
  constructor
  · unfold regex_tree.new at h
    obtain ⟨⟨q0, s0⟩, _, h2⟩ := node.bind_ok_inv _ _ _ h
    obtain ⟨root, _, h4⟩ := node.bind_ok_inv _ _ _ h2
    obtain ⟨fol, h5, h6⟩ := node.bind_ok_inv _ _ _ h4
    simp only [pure_eq_ok, Except.ok.injEq] at h6
    rw [← h6]
    exact h5
  · intro p q
    rw [hb.fol, node.spec_follow_iff t.root hnn]

/-- C20 witness: the theorem applied to the regex `a`. -/
theorem followpos_exact_witness :
    regex_tree.new "a".toList = .ok tree_a ∧
      tree_a.root.build_followpos (fun _ => []) = .ok tree_a.followpos_ ∧
      ∀ p q, q ∈ tree_a.followpos_ p ↔ tree_a.root.spec_follow p q :=
  ⟨by rfl, followpos_exact "a".toList tree_a (by rfl)⟩

end Regex2Dfa

namespace Regex2Dfa

/-- C17: for every `dfa` value `d`, state id `s >= 0` and character `c`:
`next(s, c)` throws exactly when `s > size`; for `s == size` it returns `size`;
for `s < size` whose row `transitions[s]` exists it returns the value stored for
`c` in that row, and `size` when `c` is not a key of the row.  When `transitions`
and `accepting_` have equal length (the invariant of a DFA), the row exists for
every `s < size`, and `next` fails in no other way than by that throw. -/
theorem next_contract (d : dfa) (s : Nat) (c : Char) :
    (d.next s c = .error .out_of_range ↔ d.size < s) ∧
      (s = d.size → d.next s c = .ok (d.size : Int)) ∧
      (∀ row, s < d.size → d.transitions[s]? = some row →
        d.next s c = .ok (match map_find c row with
          | some t => t
          | none => (d.size : Int))) ∧
      (d.transitions.length = d.accepting_.length →
        ((∃ e, d.next s c = .error e) ↔ d.size < s) ∧
          (s < d.size → ∃ row, d.transitions[s]? = some row)) := by
  have hs0 : ¬ ((s : Int) < 0) := by omega
  refine ⟨?_, ?_, ?_, ?_⟩
  · unfold dfa.next
    constructor
    · intro h
      by_contra hle
      have h1 : ¬ ((s : Int) < 0 ∨ (d.size : Int) < (s : Int)) := by omega
      rw [if_neg h1] at h
      split at h
      · simp at h
      · split at h
        · simp at h
        · split at h <;> simp at h
    · intro h
      rw [if_pos (Or.inr (by exact_mod_cast h))]
  · intro h
    unfold dfa.next
    rw [if_neg (by omega), if_pos (by exact_mod_cast h)]
  · intro row hlt hrow
    unfold dfa.next
    rw [if_neg (by omega), if_neg (by omega)]
    simp only [Int.toNat_ofNat, hrow]
    cases map_find c row <;> rfl
  · intro hlen
    constructor
    · constructor
      · rintro ⟨e, he⟩
        by_contra hle
        unfold dfa.next at he
        rw [if_neg (by omega)] at he
        split at he
        · simp at he
        · have hlt : s < d.transitions.length := by
            rename_i hne
            have hne2 : s ≠ d.size := fun h => hne (by exact_mod_cast h)
            unfold dfa.size at hne2 hle
            omega
          simp only [Int.toNat_ofNat, List.getElem?_eq_getElem hlt] at he
          split at he <;> simp at he
      · intro h
        refine ⟨failure.out_of_range, ?_⟩
        unfold dfa.next
        rw [if_pos (Or.inr (by exact_mod_cast h))]
    · intro hlt
      have hlt2 : s < d.transitions.length := by
        unfold dfa.size at hlt
        omega
      exact ⟨_, List.getElem?_eq_getElem hlt2⟩

/-- C18: for every input on which the constructor succeeds, `construct_dfa`
returns a DFA with at least one state, as many transition maps as accepting
flags, and every transition target in `[0, size]`. -/
theorem construct_dfa_well_formed (r : List Char) (t : regex_tree)
    (h : regex_tree.new r = .ok t) :
    ∃ d, t.construct_dfa = .ok d ∧ 0 < d.size ∧
      d.transitions.length = d.accepting_.length ∧
      (∀ m ∈ d.transitions, ∀ p ∈ m, 0 ≤ p.2 ∧ p.2 ≤ (d.size : Int)) ∧ d.well_formed := by
  obtain ⟨r0, st, _, hb⟩ := regex_tree.new_built r t h
  obtain ⟨d, sigma, hd, hc⟩ := regex_tree.construct_dfa_spec t r0 _ hb
  have hwf := regex_tree.constructed.well_formed t _ d sigma hc
  exact ⟨d, hd, hwf.1, hwf.2.1, hwf.2.2.2, hwf⟩

/-- C18 witness: the theorem applied to the regex `a|b`. -/
theorem construct_dfa_well_formed_witness :
    regex_tree.new "a|b".toList = .ok tree_a_or_b ∧
      ∃ d, tree_a_or_b.construct_dfa = .ok d ∧ 0 < d.size ∧
        d.transitions.length = d.accepting_.length ∧
        (∀ m ∈ d.transitions, ∀ p ∈ m, 0 ≤ p.2 ∧ p.2 ≤ (d.size : Int)) ∧ d.well_formed :=
  ⟨by rfl, construct_dfa_well_formed "a|b".toList tree_a_or_b (by rfl)⟩

end Regex2Dfa

namespace Regex2Dfa

/-- C19: on every well-formed DFA `minimize` returns a DFA `m` with one state per
group of the array `ga`, which the swap leaves as it is because the group of
state 0 is already its first; `find_group_index(0)` is 0; and for every
transition `i --a--> j` of the DFA the row of `m` for the group of `i` maps `a`
to the group of `j`.  The value stored for a group and a letter is therefore the
same whichever of the fused states wrote it last. -/
theorem quotient_map_homomorphism (d : dfa) (h : d.well_formed) :
    ∃ t ga m, d.fill_table = .ok t ∧ d.make_groups t = .ok ga ∧ d.minimize = .ok m ∧
      dfa.find_group_index ga 0 = .ok 0 ∧ dfa.swap_front ga 0 = ga ∧ m.size = ga.length ∧
      ∀ (i : Nat) (row : List (Char × Int)) (a : Char) (j : Int),
        d.transitions[i]? = some row → (a, j) ∈ row →
        ∃ gi gj, dfa.find_group_index ga i = .ok gi ∧ dfa.find_group_index ga j = .ok gj ∧
          (∃ g, ga[gi]? = some g ∧ (i : Int) ∈ g) ∧ (∃ g, ga[gj]? = some g ∧ j ∈ g) ∧
          dfa.look m.transitions gi a = some (gj : Int) := by
  obtain ⟨t, ga, m, hfill, hmin, hm⟩ := dfa.minimize_spec d h
  have hz := dfa.find_group_index_eq d h t hm.final ga hm.grouping 0 (Nat.zero_le _)
  have hstart : dfa.gidx ga ((0 : Nat) : Int) = 0 := hm.start
  refine ⟨t, ga, m, hfill, hm.groups_eq, hmin, ?_, ?_, dfa.min_size d t ga m hm, ?_⟩
  · have := hz.1
    rw [hstart] at this
    exact this
  · exact dfa.swap_front_zero ga (by have := hz.2.1; omega)
  · intro i row a j hrow hmem
    have hil : i < d.transitions.length := by
      by_contra hge
      rw [List.getElem?_eq_none (by omega)] at hrow
      exact absurd hrow (by simp)
    have hi : i < d.size := by
      have := h.2.1
      unfold dfa.size
      omega
    have hget : d.transitions.getD i [] = row := by
      rw [List.getD_eq_getElem?_getD, hrow]; rfl
    have hrowmem : row ∈ d.transitions := List.mem_iff_getElem?.2 ⟨i, hrow⟩
    have hj := h.2.2.2 row hrowmem (a, j) hmem
    simp only at hj
    have hjn : j = ((j.toNat : Nat) : Int) := by omega
    have hjle : j.toNat ≤ d.size := by omega
    obtain ⟨ei, _, ci⟩ := dfa.find_group_index_eq d h t hm.final ga hm.grouping i
      (Nat.le_of_lt hi)
    obtain ⟨ej, _, cj⟩ := dfa.find_group_index_eq d h t hm.final ga hm.grouping j.toNat hjle
    rw [← hjn] at ej
    refine ⟨dfa.gidx ga i, dfa.gidx ga j, ei, ej,
      ⟨_, ci, dfa.mem_cls_self d t hm.final i (Nat.le_of_lt hi)⟩, ?_, ?_⟩
    · refine ⟨dfa.cls d.size t j.toNat, ?_, ?_⟩
      · have hc := cj
        rw [← hjn] at hc
        exact hc
      · have := dfa.mem_cls_self d t hm.final j.toNat hjle
        rw [← hjn] at this
        exact this
    · have hmem2 : (a, j) ∈ d.transitions.getD i [] := by rw [hget]; exact hmem
      obtain ⟨v, hv⟩ := hm.total_tr i a j hi hmem2
      obtain ⟨ev, hlt⟩ := dfa.min_look_nx d h t ga m hm _ a v hv
      have hlook : dfa.look d.transitions i a = some j :=
        (dfa.look_of_mem d.transitions h.2.2.1 i a j).2 hmem2
      have hnx := dfa.look_nx d i a j hlook
      rcases dfa.min_nx d h t ga m hm i (Nat.le_of_lt hi) a with h1 | ⟨h1, _⟩
      · rw [hv, ev, h1, hnx, ← hjn]
      · omega

/-- C19 witness: the theorem applied to the DFA of `(a|b)*abb`. -/
theorem quotient_map_homomorphism_witness :
    dfa_abb.well_formed ∧
      ∃ t ga m, dfa_abb.fill_table = .ok t ∧ dfa_abb.make_groups t = .ok ga ∧
        dfa_abb.minimize = .ok m ∧
        dfa.find_group_index ga 0 = .ok 0 ∧ dfa.swap_front ga 0 = ga ∧ m.size = ga.length ∧
        ∀ (i : Nat) (row : List (Char × Int)) (a : Char) (j : Int),
          dfa_abb.transitions[i]? = some row → (a, j) ∈ row →
          ∃ gi gj, dfa.find_group_index ga i = .ok gi ∧
            dfa.find_group_index ga j = .ok gj ∧
            (∃ g, ga[gi]? = some g ∧ (i : Int) ∈ g) ∧ (∃ g, ga[gj]? = some g ∧ j ∈ g) ∧
            dfa.look m.transitions gi a = some (gj : Int) :=
  ⟨by decide, quotient_map_homomorphism dfa_abb (by decide)⟩

end Regex2Dfa

namespace Regex2Dfa
namespace dfa

theorem declared_append (l1 l2 : List dot_line) :
    declared (l1 ++ l2) = declared l1 ++ declared l2 := by
  induction l1 with
  | nil => rfl
  | cons x rest ih =>
    cases x with
    | node id acc =>
      show id :: declared (rest ++ l2) = id :: declared rest ++ declared l2
      rw [ih]; rfl
    | edge a b c =>
      show declared (rest ++ l2) = declared rest ++ declared l2
      exact ih

theorem declared_edges (a : Int) (row : List (Char × Int)) :
    declared (row.map (fun p => dot_line.edge a p.2 p.1)) = [] := by
  induction row with
  | nil => rfl
  | cons p rest ih => simp only [List.map_cons, declared, ih]

theorem declared_block (d : dfa) (a : Int) : declared (block d a) = [a] := by
  simp only [block, declared, declared_edges]

theorem mem_int_insert (x a : Int) (s : List Int) :
    x ∈ set_insert int_lt a s ↔ x = a ∨ x ∈ s :=
  mem_set_insert int_lt int_lt_tri x a s

/-- The loop over the entries of `transitions[a]`: every edge is written, and
the targets not yet visited are pushed on `q` and inserted into `visited`, each
once. -/
theorem graph_edges_spec (a : Int) (row : List (Char × Int)) (visited q : List Int)
    (ss : List dot_line) :
    ∃ fresh, (graph_edges a row (visited, q, ss)).2.1 = q ++ fresh ∧
      (graph_edges a row (visited, q, ss)).2.2 =
        ss ++ row.map (fun p => dot_line.edge a p.2 p.1) ∧
      (∀ x, x ∈ (graph_edges a row (visited, q, ss)).1 ↔ x ∈ visited ∨ x ∈ fresh) ∧
      fresh.Nodup ∧ (∀ x ∈ fresh, x ∉ visited ∧ ∃ c, (c, x) ∈ row) ∧
      ∀ p ∈ row, p.2 ∈ visited ∨ p.2 ∈ fresh := by
  induction row generalizing visited q ss with
  | nil =>
    refine ⟨[], by simp [graph_edges], by simp [graph_edges], ?_, List.nodup_nil, ?_, ?_⟩
    · intro x; simp [graph_edges]
    · intro x hx; exact absurd hx (List.not_mem_nil _)
    · intro p hp; exact absurd hp (List.not_mem_nil _)
  | cons p rest ih =>
    by_cases hc : set_count int_lt p.2 visited = true
    · have hmem : p.2 ∈ visited := (set_count_int _ _).1 hc
      obtain ⟨fresh, h1, h2, h3, h4, h5, h6⟩ :=
        ih visited q (ss ++ [dot_line.edge a p.2 p.1])
      refine ⟨fresh, ?_, ?_, ?_, h4, ?_, ?_⟩
      · simp only [graph_edges, hc, if_true]; exact h1
      · simp only [graph_edges, hc, if_true]
        rw [h2]; simp
      · intro x
        simp only [graph_edges, hc, if_true]; exact h3 x
      · intro x hx
        obtain ⟨k1, c, k2⟩ := h5 x hx
        exact ⟨k1, c, List.mem_cons_of_mem _ k2⟩
      · intro p1 hp1
        rcases List.mem_cons.1 hp1 with he | hr
        · subst he; exact Or.inl hmem
        · exact h6 p1 hr
    · have hc1 : set_count int_lt p.2 visited = false := by simpa using hc
      have hmem : p.2 ∉ visited := fun hm => hc ((set_count_int _ _).2 hm)
      obtain ⟨fresh, h1, h2, h3, h4, h5, h6⟩ :=
        ih (set_insert int_lt p.2 visited) (q ++ [p.2]) (ss ++ [dot_line.edge a p.2 p.1])
      refine ⟨p.2 :: fresh, ?_, ?_, ?_, ?_, ?_, ?_⟩
      · simp only [graph_edges, hc1, Bool.false_eq_true, if_false]
        rw [h1]; simp
      · simp only [graph_edges, hc1, Bool.false_eq_true, if_false]
        rw [h2]; simp
      · intro x
        simp only [graph_edges, hc1, Bool.false_eq_true, if_false]
        rw [h3 x, mem_int_insert, List.mem_cons]
        tauto
      · refine List.nodup_cons.2 ⟨?_, h4⟩
        intro hin
        exact (h5 _ hin).1 ((mem_int_insert _ _ _).2 (Or.inl rfl))
      · intro x hx
        rcases List.mem_cons.1 hx with he | hr
        · subst he
          exact ⟨hmem, p.1, List.mem_cons_self _ _⟩
        · obtain ⟨k1, c, k2⟩ := h5 x hr
          exact ⟨fun hv => k1 ((mem_int_insert _ _ _).2 (Or.inr hv)), c,
            List.mem_cons_of_mem _ k2⟩
      · intro p1 hp1
        rcases List.mem_cons.1 hp1 with he | hr
        · subst he; exact Or.inr (List.mem_cons_self _ _)
        · rcases h6 p1 hr with k | k
          · rcases (mem_int_insert _ _ _).1 k with k1 | k1
            · rw [k1]; exact Or.inr (List.mem_cons_self _ _)
            · exact Or.inl k1
          · exact Or.inr (List.mem_cons_of_mem _ k)

theorem discovered_append (d : dfa) (P : List Int) (a : Int) :
    discovered d (P ++ [a]) = push_new (discovered d P) (targets d a) := by
  simp [discovered, List.foldl_append]

/-- The loop over the entries of `transitions[a]` pushes on `q` what `push_new`
appends to the list of the states seen so far, in the same order. -/
theorem graph_edges_order (a : Int) (row : List (Char × Int)) (visited q : List Int)
    (ss : List dot_line) (seen : List Int) (hV : ∀ x, x ∈ visited ↔ x ∈ seen) :
    ∃ fresh, (graph_edges a row (visited, q, ss)).2.1 = q ++ fresh ∧
      push_new seen (row.map Prod.snd) = seen ++ fresh ∧
      ∀ x, x ∈ (graph_edges a row (visited, q, ss)).1 ↔ x ∈ seen ++ fresh := by
  induction row generalizing visited q ss seen with
  | nil =>
    refine ⟨[], by simp [graph_edges], by simp [push_new], ?_⟩
    intro x
    simpa [graph_edges] using hV x
  | cons p rest ih =>
    by_cases hc : set_count int_lt p.2 visited = true
    · have hmem : p.2 ∈ seen := (hV _).1 ((set_count_int _ _).1 hc)
      obtain ⟨fresh, h1, h2, h3⟩ := ih visited q (ss ++ [dot_line.edge a p.2 p.1]) seen hV
      refine ⟨fresh, ?_, ?_, ?_⟩
      · simp only [graph_edges, hc, if_true]; exact h1
      · simp only [List.map_cons, push_new, hmem, if_true]; exact h2
      · intro x
        simp only [graph_edges, hc, if_true]; exact h3 x
    · have hc1 : set_count int_lt p.2 visited = false := by simpa using hc
      have hmem : p.2 ∉ seen := fun hm => hc ((set_count_int _ _).2 ((hV _).2 hm))
      obtain ⟨fresh, h1, h2, h3⟩ :=
        ih (set_insert int_lt p.2 visited) (q ++ [p.2]) (ss ++ [dot_line.edge a p.2 p.1])
          (seen ++ [p.2]) (by
            intro x
            rw [mem_int_insert, hV x]
            simp only [List.mem_append, List.mem_singleton]
            tauto)
      refine ⟨p.2 :: fresh, ?_, ?_, ?_⟩
      · simp only [graph_edges, hc1, Bool.false_eq_true, if_false]
        rw [h1]; simp
      · simp only [List.map_cons, push_new, hmem, if_false]
        rw [h2]; simp
      · intro x
        simp only [graph_edges, hc1, Bool.false_eq_true, if_false]
        rw [h3 x]; simp

/-- Taking the last pending state `a` and appending the newly discovered states
gives the pending states of the longer list of handled states. -/
theorem pending_step (L D q1 fresh : List Int) (a : Int)
    (hq : q1 ++ [a] = L.filter (fun x => decide (x ∉ D))) (ha : a ∉ q1)
    (hf : ∀ x ∈ fresh, x ∉ D ∧ x ≠ a) :
    (L ++ fresh).filter (fun x => decide (x ∉ D ++ [a])) = q1 ++ fresh := by
  have h1 : L.filter (fun x => decide (x ∉ D ++ [a])) =
      (L.filter (fun x => decide (x ∉ D))).filter (fun x => decide (x ≠ a)) := by
    rw [List.filter_filter]
    congr 1
    funext x
    simp only [List.mem_append, List.mem_singleton, not_or, Bool.decide_and]
    rw [Bool.and_comm]
  have h2 : (q1 ++ [a]).filter (fun x => decide (x ≠ a)) = q1 := by
    rw [List.filter_append]
    have e1 : q1.filter (fun x => decide (x ≠ a)) = q1 := by
      apply List.filter_eq_self.2
      intro x hx
      have : x ≠ a := fun hxa => ha (hxa ▸ hx)
      simpa using this
    rw [e1]
    simp
  have h3 : fresh.filter (fun x => decide (x ∉ D ++ [a])) = fresh := by
    apply List.filter_eq_self.2
    intro x hx
    have := hf x hx
    simp only [List.mem_append, List.mem_singleton, not_or, decide_eq_true_eq]
    exact this
  rw [List.filter_append, h1, ← hq, h2, h3]

/-- The rule "the state taken next is the last of the pending states" fixes the
whole order: two lists of the same length that follow it are equal. -/
theorem pending_order_unique (d : dfa) (D1 D2 : List Int) (hlen : D1.length = D2.length)
    (h1 : ∀ k, k < D1.length → D1[k]? = (pending d (D1.take k)).getLast?)
    (h2 : ∀ k, k < D2.length → D2[k]? = (pending d (D2.take k)).getLast?) : D1 = D2 := by
  have key : ∀ n, n ≤ D1.length → D1.take n = D2.take n := by
    intro n
    induction n with
    | zero => intro _; simp
    | succ n ih =>
      intro hn
      have e := ih (by omega)
      rw [List.take_succ, List.take_succ, h1 n (by omega), h2 n (by omega), e]
  have := key D1.length (le_refl _)
  rw [List.take_length] at this
  rw [this, hlen, List.take_length]

/-- Pairwise different integers of `[0, n)` are at most `n`. -/
theorem length_le_of_nodup_range (l : List Int) (n : Nat) (hnd : l.Nodup)
    (hl : ∀ x ∈ l, 0 ≤ x ∧ x < (n : Int)) : l.length ≤ n := by
  have hmap : (l.map Int.toNat).Nodup := by
    refine List.Nodup.map_on ?_ hnd
    intro x hx y hy hxy
    have h1 := hl x hx
    have h2 := hl y hy
    omega
  have hsub : l.map Int.toNat ⊆ List.range n := by
    intro x hx
    obtain ⟨y, hy, hyx⟩ := List.mem_map.1 hx
    have := hl y hy
    rw [List.mem_range]
    omega
  have := (List.subperm_of_subset hmap hsub).length_le
  simpa using this

theorem getLast?_concat {α : Type} (l : List α) (a : α) : (l ++ [a]).getLast? = some a := by
  simp

theorem dropLast_concat_eq {α : Type} (l : List α) (a : α) : (l ++ [a]).dropLast = l := by
  simp

end dfa
end Regex2Dfa

namespace Regex2Dfa
namespace dfa

theorem graph_inv_init (d : dfa) (h : d.well_formed) : graph_inv d [0] [0] [] := by
  refine ⟨?_, ?_, ?_, ?_, ?_, ?_, ?_, ?_, ?_, ?_, ?_, ?_⟩
  · intro x; simp [declared]
  · simp [declared]
  · simp
  · intro x _; simp [declared]
  · intro x hx
    simp only [List.mem_singleton] at hx
    subst hx
    have := h.1
    exact ⟨le_refl _, by exact_mod_cast this, [], rfl⟩
  · simp
  · intro a ha; simp [declared] at ha
  · rfl
  · exact Or.inr ⟨rfl, rfl⟩
  · intro x; simp [declared, discovered]
  · simp [declared, discovered, pending]
  · intro k hk; simp [declared] at hk

/-- One iteration of the loop of `graph` on a well-formed DFA whose targets are
real states: the state taken from the back of `q` is declared, its edges are
written, and the invariant holds again. -/
theorem graph_step (d : dfa) (h : d.well_formed) (hc : d.closed) (V q1 : List Int) (a : Int)
    (ss : List dot_line) (hinv : graph_inv d V (q1 ++ [a]) ss) :
    ∃ row, d.transitions[a.toNat]? = some row ∧ ¬ a < 0 ∧
      d.accepting a = .ok (ac d a.toNat) ∧
      ∀ V1 q2 ss1,
        graph_edges a row (V, q1, ss ++ [dot_line.node a (ac d a.toNat)]) = (V1, q2, ss1) →
        graph_inv d V1 q2 ss1 ∧ declared ss1 = declared ss ++ [a] := by
  have haV : a ∈ V := (hinv.mem a).2 (Or.inr (by simp))
  obtain ⟨h0, hlt, w, hw⟩ := hinv.reach a haV
  have haeq : a = ((a.toNat : Nat) : Int) := by omega
  have han : a.toNat < d.size := by omega
  have hil : a.toNat < d.transitions.length := by
    have := h.2.1
    unfold size at han
    omega
  have hrow : d.transitions[a.toNat]? = some (d.transitions[a.toNat]) :=
    List.getElem?_eq_getElem hil
  have hget : d.transitions.getD a.toNat [] = d.transitions[a.toNat] := by
    rw [List.getD_eq_getElem?_getD, hrow]; rfl
  have hrowmem : d.transitions[a.toNat] ∈ d.transitions := List.getElem_mem hil
  have hacc : d.accepting a = .ok (ac d a.toNat) := by
    have := accepting_eq d a.toNat (Nat.le_of_lt han)
    rw [← haeq] at this
    exact this
  have hnd := hinv.nd_q
  have haq1 : a ∉ q1 := by
    intro hin
    have := List.nodup_append.1 hnd
    exact this.2.2 hin (List.mem_singleton_self a)
  have hq1nd : q1.Nodup := (List.nodup_append.1 hnd).1
  have hadecl : a ∉ declared ss := hinv.disj a (by simp)
  refine ⟨_, hrow, by omega, hacc, ?_⟩
  intro V1 q2 ss1 hge
  obtain ⟨fresh, e1, e2, e3, e4, e5, e6⟩ := graph_edges_spec a (d.transitions[a.toNat]) V q1
    (ss ++ [dot_line.node a (ac d a.toNat)])
  rw [hge] at e1 e2 e3
  simp only at e1 e2 e3
  have hdecl : declared ss1 = declared ss ++ [a] := by
    rw [e2, declared_append, declared_append, declared_edges]
    simp [declared]
  obtain ⟨fresh2, o1, o2, o3⟩ := graph_edges_order a (d.transitions[a.toNat]) V q1
    (ss ++ [dot_line.node a (ac d a.toNat)]) (discovered d (declared ss)) hinv.seen
  rw [hge] at o1 o3
  simp only at o1 o3
  have hff : fresh2 = fresh := List.append_cancel_left (o1.symm.trans e1)
  rw [hff] at o2 o3
  have htar : targets d a = (d.transitions[a.toNat]).map Prod.snd := by
    unfold targets
    rw [hget]
  have hdisc : discovered d (declared ss1) = discovered d (declared ss) ++ fresh := by
    rw [hdecl, discovered_append, htar]
    exact o2
  have hstack : q1 ++ [a] =
      (discovered d (declared ss)).filter (fun x => decide (x ∉ declared ss)) := hinv.stack
  refine ⟨⟨?_, ?_, ?_, ?_, ?_, ?_, ?_, ?_, ?_, ?_, ?_, ?_⟩, hdecl⟩
  · intro x
    rw [e3 x, hdecl, e1, hinv.mem x]
    simp only [List.mem_append, List.mem_singleton]
    tauto
  · rw [hdecl]
    refine List.nodup_append.2 ⟨hinv.nd_decl, by simp, ?_⟩
    intro x hx hy
    simp only [List.mem_singleton] at hy
    subst hy
    exact hadecl hx
  · rw [e1]
    refine List.nodup_append.2 ⟨hq1nd, e4, ?_⟩
    intro x hx hy
    exact (e5 x hy).1 ((hinv.mem x).2 (Or.inr (List.mem_append_left _ hx)))
  · intro x hx
    rw [hdecl]
    rw [e1] at hx
    simp only [List.mem_append, List.mem_singleton, not_or]
    rcases List.mem_append.1 hx with hx1 | hx2
    · refine ⟨hinv.disj x (List.mem_append_left _ hx1), ?_⟩
      intro hxa
      subst hxa
      exact haq1 hx1
    · have hxV := (e5 x hx2).1
      refine ⟨fun hd => hxV ((hinv.mem x).2 (Or.inl hd)), ?_⟩
      intro hxa
      subst hxa
      exact hxV haV
  · intro x hx
    rcases (e3 x).1 hx with hxV | hxf
    · exact hinv.reach x hxV
    · obtain ⟨_, c, hcx⟩ := e5 x hxf
      have hx0 := (h.2.2.2 _ hrowmem (c, x) hcx).1
      have hxlt := hc _ hrowmem (c, x) hcx
      simp only at hx0 hxlt
      refine ⟨hx0, hxlt, w ++ [c], ?_⟩
      have hwn : nxs d 0 w = a.toNat := by omega
      have hlook : look d.transitions a.toNat c = some x := by
        rw [look_of_mem d.transitions h.2.2.1, hget]
        exact hcx
      rw [nxs_append, hwn]
      show ((nx d a.toNat c : Nat) : Int) = x
      rw [look_nx d a.toNat c x hlook]
      omega
  · exact (e3 0).2 (Or.inl hinv.start)
  · intro b hb p hp
    rw [hdecl] at hb
    rcases List.mem_append.1 hb with hb1 | hb2
    · exact (e3 p.2).2 (Or.inl (hinv.edges b hb1 p hp))
    · simp only [List.mem_singleton] at hb2
      subst hb2
      rw [hget] at hp
      exact (e3 p.2).2 (e6 p hp)
  · have hb : block d a = dot_line.node a (ac d a.toNat) ::
        List.map (fun p => dot_line.edge a p.2 p.1) d.transitions[a.toNat] := by
      unfold block
      rw [hget]
    rw [hdecl, List.flatMap_append, ← hinv.blocks, e2]
    simp [hb]
  · left
    rw [hdecl]
    rcases hinv.head with hh | ⟨hnil, hq⟩
    · cases hds : declared ss with
      | nil => rw [hds] at hh; simp at hh
      | cons y rest => rw [hds] at hh; simpa using hh
    · rw [hnil]
      have : q1 ++ [a] = [] ++ [(0 : Int)] := by simpa using hq
      have := List.append_inj_right' this rfl
      simp only [List.cons.injEq, and_true] at this
      subst this
      rfl
  · intro x
    rw [hdisc]
    exact o3 x
  · show q2 = (discovered d (declared ss1)).filter (fun x => decide (x ∉ declared ss1))
    rw [hdisc, hdecl, e1]
    refine (pending_step _ _ q1 fresh a hstack haq1 ?_).symm
    intro x hx
    have hxV := (e5 x hx).1
    refine ⟨fun hd => hxV ((hinv.mem x).2 (Or.inl hd)), ?_⟩
    intro hxa
    subst hxa
    exact hxV haV
  · intro k hk
    rw [hdecl] at hk ⊢
    rw [List.length_append, List.length_singleton] at hk
    by_cases hlt : k < (declared ss).length
    · rw [List.getElem?_append_left hlt, List.take_append_of_le_length (le_of_lt hlt)]
      exact hinv.order k hlt
    · have hk1 : k = (declared ss).length := by omega
      subst hk1
      have e7 : (declared ss ++ [a]).take (declared ss).length = declared ss := by simp
      have e8 : (declared ss ++ [a])[(declared ss).length]? = some a := by simp
      rw [e7, e8]
      show some a = ((discovered d (declared ss)).filter
        (fun x => decide (x ∉ declared ss))).getLast?
      rw [← hstack]
      simp

end dfa
end Regex2Dfa

namespace Regex2Dfa
namespace dfa

theorem graph_loop_nil (d : dfa) (fuel : Nat) (V : List Int) (ss : List dot_line) :
    graph_loop d fuel (V, [], ss) = .ok ss := by
  cases fuel <;> simp [graph_loop]

/-- On a well-formed DFA whose targets are real states the loop of `graph` ends
within its budget, with the invariant and an empty `q`. -/
theorem graph_loop_spec (d : dfa) (h : d.well_formed) (hc : d.closed) (fuel : Nat)
    (V q : List Int) (ss : List dot_line) (hinv : graph_inv d V q ss)
    (hfuel : d.size + 1 ≤ fuel + (declared ss).length) :
    ∃ ls V1, graph_loop d fuel (V, q, ss) = .ok ls ∧ graph_inv d V1 [] ls := by
  induction fuel generalizing V q ss with
  | zero =>
    rcases List.eq_nil_or_concat q with hq | ⟨q1, a, hq⟩
    · subst hq
      exact ⟨ss, V, graph_loop_nil d 0 V ss, hinv⟩
    · rw [List.concat_eq_append] at hq
      subst hq
      exfalso
      obtain ⟨row, _, _, _, hstep⟩ := graph_step d h hc V q1 a ss hinv
      obtain ⟨hinv1, hdecl⟩ := hstep _ _ _ rfl
      have hlen := length_le_of_nodup_range _ d.size hinv1.nd_decl (by
        intro x hx
        have := hinv1.reach x ((hinv1.mem x).2 (Or.inl hx))
        exact ⟨this.1, this.2.1⟩)
      rw [hdecl, List.length_append, List.length_singleton] at hlen
      omega
  | succ fuel ih =>
    rcases List.eq_nil_or_concat q with hq | ⟨q1, a, hq⟩
    · subst hq
      exact ⟨ss, V, graph_loop_nil d _ V ss, hinv⟩
    · rw [List.concat_eq_append] at hq
      subst hq
      obtain ⟨row, hrow, hneg, hacc, hstep⟩ := graph_step d h hc V q1 a ss hinv
      obtain ⟨hinv1, hdecl⟩ := hstep _ _ _ rfl
      obtain ⟨ls, V1, h1, h2⟩ := ih _ _ _ hinv1 (by
        rw [hdecl, List.length_append, List.length_singleton]
        omega)
      refine ⟨ls, V1, ?_, h2⟩
      rw [graph_loop]
      simp only [getLast?_concat, hacc, ok_bind, if_neg hneg, hrow, dropLast_concat_eq]
      exact h1

/-- A set of real states that holds the targets of its members holds every real
state reached from a member. -/
theorem closed_under_nxs (d : dfa) (h : d.well_formed) (V : List Int)
    (hV : ∀ x ∈ V, 0 ≤ x)
    (hedges : ∀ a ∈ V, ∀ p ∈ d.transitions.getD a.toNat [], p.2 ∈ V) (w : List Char) (n : Nat)
    (hn : (n : Int) ∈ V) (hlt : nxs d n w < d.size) : ((nxs d n w : Nat) : Int) ∈ V := by
  induction w generalizing n with
  | nil => exact hn
  | cons c w ih =>
    have hstep : nxs d n (c :: w) = nxs d (nx d n c) w := rfl
    rw [hstep] at hlt ⊢
    cases hl : look d.transitions n c with
    | none =>
      rw [look_none_nx d n c hl, nxs_dead d h w] at hlt
      omega
    | some t =>
      have hnx := look_nx d n c t hl
      have hmem := (look_of_mem d.transitions h.2.2.1 n c t).1 hl
      have ht : t ∈ V := by
        have := hedges (n : Int) hn (c, t) (by simpa using hmem)
        exact this
      have ht0 := hV t ht
      rw [hnx] at hlt ⊢
      exact ih t.toNat (by
        have : ((t.toNat : Nat) : Int) = t := by omega
        rw [this]; exact ht) hlt

/-- What `graph` writes for a well-formed DFA whose targets are real states:
the blocks of the declared states, which are the states reached from state 0,
each declared once, state 0 first, each state being the last of the pending
states when it is declared. -/
theorem graph_lines_spec (d : dfa) (h : d.well_formed) (hc : d.closed) :
    ∃ ls, d.graph_lines = .ok ls ∧ ls = (declared ls).flatMap (block d) ∧
      (declared ls).Nodup ∧ (declared ls).head? = some 0 ∧
      (∀ s, s ∈ declared ls ↔ reachable d s) ∧
      ∀ k, k < (declared ls).length →
        (declared ls)[k]? = (pending d ((declared ls).take k)).getLast? := by
  obtain ⟨ls, V1, h1, hinv⟩ := graph_loop_spec d h hc (d.size + 1) [0] [0] []
    (graph_inv_init d h) (by simp [declared])
  have hmem : ∀ x, x ∈ V1 ↔ x ∈ declared ls := by
    intro x
    rw [hinv.mem x]
    simp
  have hrun : ∀ w, d.run 0 w = .ok ((nxs d 0 w : Nat) : Int) := by
    intro w
    have := run_eq d h 0 (Nat.zero_le _) w
    simpa using this
  refine ⟨ls, h1, hinv.blocks, hinv.nd_decl, ?_, ?_, hinv.order⟩
  · rcases hinv.head with hh | ⟨_, hq⟩
    · exact hh
    · exact absurd hq (by simp)
  · intro s
    constructor
    · intro hs
      obtain ⟨_, hlt, w, hw⟩ := hinv.reach s ((hmem s).2 hs)
      refine ⟨w, ?_, hlt⟩
      rw [hrun w, hw]
    · rintro ⟨w, hw, hlt⟩
      rw [hrun w] at hw
      simp only [Except.ok.injEq] at hw
      rw [← hmem, ← hw]
      apply closed_under_nxs d h V1 (fun x hx => (hinv.reach x hx).1)
      · intro a ha p hp
        exact hinv.edges a ((hmem a).1 ha) p hp
      · exact_mod_cast hinv.start
      · omega

/-- The pending states of the DFA of `ab|cd` along the order 0, 2, 3, 1: after
state 0 the pending states are 1, 2, and the last of them, state 2, is the one
declared next. -/
theorem pending_ab_cd :
    pending dfa_ab_cd [] = [0] ∧ pending dfa_ab_cd [0] = [1, 2] ∧
      pending dfa_ab_cd [0, 2] = [1, 3] ∧ pending dfa_ab_cd [0, 2, 3] = [1] ∧
      pending dfa_ab_cd [0, 2, 3, 1] = [] := by
  decide

end dfa

/-- C21 (as it holds): on every well-formed DFA whose targets are real states,
`graph` returns the header, the lines of the loop and the closing brace; the
lines are, for each declared state in turn, its declaration followed by one edge
for every entry of its transition map; the declared states are exactly the
states reached from state 0, each declared once, and state 0 is declared first.
The order of the declarations is last in, first out: the state declared at
step `k` is the last, in the order of discovery, of the states discovered from
the `k` states declared before it and not declared yet (state 0 is discovered
first, then the targets of each declared state in key order, each state the
first time it is met). -/
theorem graph_last_in_first_out (d : dfa) (h : d.well_formed) (hc : d.closed) :
    ∃ ls, d.graph_lines = .ok ls ∧
      d.graph = .ok ("digraph G \x7b\n\tgraph [ordering=\"out\" overlap=scale splines=true];\nrankdir=LR;\n"
        ++ String.join (ls.map dfa.dot_line.render) ++ "\x7d\n") ∧
      ls = (dfa.declared ls).flatMap (dfa.block d) ∧
      (dfa.declared ls).Nodup ∧ (dfa.declared ls).head? = some 0 ∧
      (∀ s, s ∈ dfa.declared ls ↔ dfa.reachable d s) ∧
      ∀ k, k < (dfa.declared ls).length →
        (dfa.declared ls)[k]? = (dfa.pending d ((dfa.declared ls).take k)).getLast? := by
  obtain ⟨ls, h1, h2, h3, h4, h5, h6⟩ := dfa.graph_lines_spec d h hc
  refine ⟨ls, h1, ?_, h2, h3, h4, h5, h6⟩
  unfold dfa.graph
  rw [h1]
  rfl

/-- C21 witness: the theorem applied to the DFA of `ab|cd`. -/
theorem graph_last_in_first_out_witness :
    dfa_ab_cd.well_formed ∧ dfa_ab_cd.closed ∧
      ∃ ls, dfa_ab_cd.graph_lines = .ok ls ∧
        dfa_ab_cd.graph = .ok ("digraph G \x7b\n\tgraph [ordering=\"out\" overlap=scale splines=true];\nrankdir=LR;\n"
          ++ String.join (ls.map dfa.dot_line.render) ++ "\x7d\n") ∧
        ls = (dfa.declared ls).flatMap (dfa.block dfa_ab_cd) ∧
        (dfa.declared ls).Nodup ∧ (dfa.declared ls).head? = some 0 ∧
        (∀ s, s ∈ dfa.declared ls ↔ dfa.reachable dfa_ab_cd s) ∧
        ∀ k, k < (dfa.declared ls).length →
          (dfa.declared ls)[k]? =
            (dfa.pending dfa_ab_cd ((dfa.declared ls).take k)).getLast? :=
  ⟨by decide, by decide, graph_last_in_first_out dfa_ab_cd (by decide) (by decide)⟩

/-- C21 counterexample: for the DFA constructed for `ab|cd`, `graph` declares the
states in the order 0, 2, 3, 1, whose breadth-first distances from state 0 are
0, 1, 2, 1: state 3, two transitions away, is declared before state 1, one
transition away, because the loop takes `q.back()`, the state pushed last. -/
theorem graph_not_breadth_first :
    compile "ab|cd".toList = .ok dfa_ab_cd ∧
      dfa_ab_cd.graph_lines.map dfa.declared = .ok [0, 2, 3, 1] ∧
      [0, 2, 3, 1].map (dfa.dist dfa_ab_cd) = [some 0, some 1, some 2, some 1] ∧
      dfa_ab_cd.transitions[0]? = some [('a', 1), ('c', 2)] ∧
      dfa_ab_cd.graph_lines = .ok
        [dfa.dot_line.node 0 false, dfa.dot_line.edge 0 1 'a', dfa.dot_line.edge 0 2 'c',
          dfa.dot_line.node 2 false, dfa.dot_line.edge 2 3 'd',
          dfa.dot_line.node 3 true,
          dfa.dot_line.node 1 false, dfa.dot_line.edge 1 3 'b'] := by
  refine ⟨by rfl, by rfl, by decide, by rfl, by rfl⟩

end Regex2Dfa

namespace Regex2Dfa
namespace regex_tree

/-- The two loops return the same DFA. -/
theorem construct_loop_eq_trace (t : regex_tree) (fuel : Nat) (st : construct_state)
    (popped : List (List Nat)) :
    construct_loop t fuel st = (construct_trace t fuel st popped).map (fun x => x.1.res) := by
  induction fuel generalizing st popped with
  | zero =>
    obtain ⟨res, c, sigma, unmarked⟩ := st
    cases unmarked <;> rfl
  | succ fuel ih =>
    obtain ⟨res, c, sigma, unmarked⟩ := st
    cases unmarked with
    | nil => rfl
    | cons S queue =>
      simp only [construct_loop, construct_trace]
      cases hb : build_u_map t S (false, []) with
      | error e => rfl
      | ok v =>
        simp only [ok_bind]
        exact ih _ _

theorem construct_dfa_eq_trace (t : regex_tree) :
    t.construct_dfa = t.construct_dfa_trace.map (fun x => x.1.res) := by
  unfold construct_dfa construct_dfa_trace
  cases t.root.firstpos with
  | error e => rfl
  | ok initial =>
    simp only [ok_bind]
    exact construct_loop_eq_trace t _ _ _

/-- The map `state_id` only grows in the loop `for(auto &u_pair : u_map)`. -/
theorem add_transitions_prefix (E : List (Char × List Nat))
    (st : List (Char × Int) × Nat × List (List Nat × Int) × List (List Nat)) :
    ∃ fresh, (add_transitions E st).2.2.1 = st.2.2.1 ++ fresh := by
  induction E generalizing st with
  | nil => exact ⟨[], by simp [add_transitions]⟩
  | cons e rest ih =>
    obtain ⟨S, c, sigma, q⟩ := st
    obtain ⟨a, U⟩ := e
    simp only [add_transitions]
    cases state_id_find U sigma with
    | none =>
      obtain ⟨fresh, hf⟩ := ih (map_set a (c : Int) S, c + 1, sigma ++ [(U, (c : Int))], q ++ [U])
      exact ⟨(U, (c : Int)) :: fresh, by simp only; rw [hf]; simp⟩
    | some i =>
      obtain ⟨fresh, hf⟩ := ih (map_set a i S, c, sigma, q)
      exact ⟨fresh, by simp only; rw [hf]⟩

/-- The loop of `construct_dfa` ends within its budget with an empty queue; the
position sets it took from the queue are the keys of `state_id`, in the order of
their ids. -/
theorem construct_trace_spec (t : regex_tree) (r0 : node) (k : Nat) (hb : built t r0 k)
    (fuel : Nat) (st : construct_state) (popped : List (List Nat)) (hinv : loop_inv t k st)
    (hfuel : 2 ^ (k + 1) + 1 ≤ fuel + st.res.accepting_.length)
    (hpop : popped = (st.state_id.map Prod.fst).take st.res.accepting_.length) :
    ∃ fin, construct_trace t fuel st popped = .ok (fin, fin.state_id.map Prod.fst) ∧
      loop_inv t k fin ∧ fin.unmarked = [] ∧
      fin.current_state = fin.res.accepting_.length := by
  induction fuel generalizing st popped with
  | zero =>
    obtain ⟨res, c, sigma, unmarked⟩ := st
    cases unmarked with
    | nil =>
      have hq := hinv.queue
      simp only at hq hpop
      have hlen : sigma.length = c := sigma_length _ _ _ hinv.sig
      have hle : res.accepting_.length ≤ c := hinv.le
      have hge : c ≤ res.accepting_.length := by
        have := congrArg List.length hq
        simp only [List.length_nil, List.length_drop, List.length_map] at this
        omega
      refine ⟨⟨res, c, sigma, []⟩, ?_, hinv, rfl, by simp only; omega⟩
      simp only [construct_trace]
      rw [hpop, List.take_of_length_le (by simp only [List.length_map]; omega)]
    | cons S queue =>
      exfalso
      have := (loop_step t r0 k hb res c sigma S queue hinv).2.1
      have hcard : c ≤ 2 ^ (k + 1) := sigma_card_le _ _ _ hinv.sig
      simp only at hfuel
      omega
  | succ fuel ih =>
    obtain ⟨res, c, sigma, unmarked⟩ := st
    cases unmarked with
    | nil =>
      have hq := hinv.queue
      simp only at hq hpop
      have hlen : sigma.length = c := sigma_length _ _ _ hinv.sig
      have hle : res.accepting_.length ≤ c := hinv.le
      have hge : c ≤ res.accepting_.length := by
        have := congrArg List.length hq
        simp only [List.length_nil, List.length_drop, List.length_map] at this
        omega
      refine ⟨⟨res, c, sigma, []⟩, ?_, hinv, rfl, by simp only; omega⟩
      simp only [construct_trace]
      rw [hpop, List.take_of_length_le (by simp only [List.length_map]; omega)]
    | cons S queue =>
      obtain ⟨hstep, hlt, hSlt⟩ := loop_step t r0 k hb res c sigma S queue hinv
      have hSmem : ∀ n ∈ S, n ∈ t.root.leaf_ids := by
        intro n hn
        rw [built.root_ids t r0 k hb, List.mem_range]
        exact hSlt n hn
      have hq := hinv.queue
      simp only at hq hpop
      have hlen : sigma.length = c := sigma_length _ _ _ hinv.sig
      have hSk : (sigma.map Prod.fst)[res.accepting_.length]? = some S := by
        have := congrArg List.head? hq
        simp only [List.head?_cons, List.head?_drop] at this
        exact this.symm
      obtain ⟨fresh, hfresh⟩ := add_transitions_prefix (u_map t S).2 ([], c, sigma, queue)
      simp only at hfresh
      obtain ⟨fin, h1, h2, h3, h4⟩ := ih _ (popped ++ [S]) hstep (by
        simp only [List.length_append, List.length_singleton] at hfuel ⊢
        omega) (by
        simp only [List.length_append, List.length_singleton]
        rw [hfresh, List.map_append, List.take_append_of_le_length
          (by simp only [List.length_map]; omega), hpop]
        have hl : res.accepting_.length < (sigma.map Prod.fst).length := by
          simp only [List.length_map]; omega
        rw [List.take_succ, hSk]
        rfl)
      refine ⟨fin, ?_, h2, h3, h4⟩
      simp only [construct_trace, build_u_map_eq t S hSmem, ok_bind]
      exact h1

/-- The function `construct_dfa` returns on every tree the constructor built, with
an empty queue and the invariant of its loop. -/
theorem construct_dfa_trace_spec (t : regex_tree) (r0 : node) (k : Nat) (hb : built t r0 k) :
    ∃ fin, construct_dfa_trace t = .ok (fin, fin.state_id.map Prod.fst) ∧
      construct_dfa t = .ok fin.res ∧ constructed t k fin.res fin.state_id ∧
      fin.unmarked = [] := by
  have hfp : (t.root.fp).Pairwise (fun x y => pos_lt x y = true) := node.pairwise_fp _
  have hfplt : ∀ x ∈ t.root.fp, x < k + 1 := by
    intro x hx
    have := node.fp_sub _ x hx
    rw [built.root_ids t r0 k hb, List.mem_range] at this
    exact this
  have hinv : loop_inv t k ⟨⟨[], []⟩, 1, [(t.root.fp, 0)], [t.root.fp]⟩ := by
    refine ⟨⟨rfl, by simp, ?_⟩, rfl, by simp, rfl, ?_, by simp [state_id_find], ?_⟩
    · intro S hS
      simp only [List.map_cons, List.map_nil, List.mem_singleton] at hS
      subst hS
      exact ⟨hfp, hfplt⟩
    · intro i S hi
      simp at hi
    · intro j hj0 hj1
      simp only at hj1
      omega
  have hfirst := node.firstpos_eq t.root (built.root_nn t r0 k hb)
  obtain ⟨fin, h1, h2, h3, h4⟩ := construct_trace_spec t r0 k hb (2 ^ t.current_id + 1) _ []
    hinv (by rw [hb.cid]; simp) (by simp)
  have htr : construct_dfa_trace t = .ok (fin, fin.state_id.map Prod.fst) := by
    unfold construct_dfa_trace
    rw [hfirst]
    simp only [ok_bind]
    exact h1
  refine ⟨fin, htr, ?_, ?_, h3⟩
  · rw [construct_dfa_eq_trace, htr]
    rfl
  · have hsig := h2.sig
    have hpar := h2.parent
    rw [h4] at hsig hpar
    exact ⟨hsig, h2.len, h2.rows, h2.first, hpar⟩

end regex_tree
end Regex2Dfa

namespace Regex2Dfa

/-- C22: for every input on which the constructor succeeds, the loop of
`construct_dfa` ends within its budget with an empty queue.  The position sets
it took from the queue, one per iteration, are the keys of `state_id` in the
order of their ids `0, 1, ..`: pairwise different sets of leaf ids below
`N = current_id`, so at most `2 ^ N` iterations; and the row and the flag with
index `i` of the result were computed from the position set with id `i`. -/
theorem construct_dfa_terminates (r : List Char) (t : regex_tree)
    (h : regex_tree.new r = .ok t) :
    ∃ fin, t.construct_dfa_trace = .ok (fin, fin.state_id.map Prod.fst) ∧
      t.construct_dfa = .ok fin.res ∧ fin.unmarked = [] ∧
      (fin.state_id.map Prod.fst).Nodup ∧
      (∀ S ∈ fin.state_id.map Prod.fst, ∀ x ∈ S, x < t.current_id) ∧
      (fin.state_id.map Prod.fst).length = fin.res.size ∧
      fin.res.transitions.length = fin.res.size ∧
      fin.res.size ≤ 2 ^ t.current_id ∧
      fin.state_id.map Prod.snd = (List.range fin.res.size).map (fun (i : Nat) => (i : Int)) ∧
      ∀ (i : Nat) (S : List Nat), (fin.state_id.map Prod.fst)[i]? = some S →
        ∃ acc um row, regex_tree.build_u_map t S (false, []) = .ok (acc, um) ∧
          fin.res.accepting_[i]? = some (if acc then 1 else 0) ∧
          fin.res.transitions[i]? = some row ∧
          ∀ a, map_find a row =
            match map_find a um with
            | some U => regex_tree.state_id_find U fin.state_id
            | none => none := by
  obtain ⟨r0, st, _, hb⟩ := regex_tree.new_built r t h
  obtain ⟨fin, h1, h2, hc, h3⟩ := regex_tree.construct_dfa_trace_spec t r0 _ hb
  have hlen := regex_tree.sigma_length _ _ _ hc.sig
  have hcard := regex_tree.sigma_card_le _ _ _ hc.sig
  refine ⟨fin, h1, h2, h3, hc.sig.2.1, ?_, by simp only [List.length_map]; exact hlen,
    hc.len, by rw [hb.cid]; exact hcard, hc.sig.1, ?_⟩
  · intro S hS x hx
    rw [hb.cid]
    exact (hc.sig.2.2 S hS).2 x hx
  · intro i S hS
    have hi : i < fin.res.accepting_.length := by
      by_contra hge
      rw [List.getElem?_eq_none (by
        simp only [List.length_map]
        unfold dfa.size at hlen
        omega)] at hS
      exact absurd hS (by simp)
    obtain ⟨k1, _, row, k3, _, k5⟩ := hc.rows i S hi hS
    have hSmem : ∀ n ∈ S, n ∈ t.root.leaf_ids := by
      intro n hn
      rw [regex_tree.built.root_ids t r0 _ hb, List.mem_range]
      exact (hc.sig.2.2 S (List.mem_iff_getElem?.2 ⟨i, hS⟩)).2 n hn
    refine ⟨(regex_tree.u_map t S).1, (regex_tree.u_map t S).2, row, ?_, k1, k3, k5⟩
    rw [regex_tree.build_u_map_eq t S hSmem]
    rfl

/-- C22 witness: the theorem applied to the regex `a|b`. -/
theorem construct_dfa_terminates_witness :
    regex_tree.new "a|b".toList = .ok tree_a_or_b ∧
      ∃ fin, tree_a_or_b.construct_dfa_trace = .ok (fin, fin.state_id.map Prod.fst) ∧
        tree_a_or_b.construct_dfa = .ok fin.res ∧ fin.unmarked = [] ∧
        (fin.state_id.map Prod.fst).Nodup ∧
        (∀ S ∈ fin.state_id.map Prod.fst, ∀ x ∈ S, x < tree_a_or_b.current_id) ∧
        (fin.state_id.map Prod.fst).length = fin.res.size ∧
        fin.res.transitions.length = fin.res.size ∧
        fin.res.size ≤ 2 ^ tree_a_or_b.current_id ∧
        fin.state_id.map Prod.snd =
          (List.range fin.res.size).map (fun (i : Nat) => (i : Int)) ∧
        ∀ (i : Nat) (S : List Nat), (fin.state_id.map Prod.fst)[i]? = some S →
          ∃ acc um row, regex_tree.build_u_map tree_a_or_b S (false, []) = .ok (acc, um) ∧
            fin.res.accepting_[i]? = some (if acc then 1 else 0) ∧
            fin.res.transitions[i]? = some row ∧
            ∀ a, map_find a row =
              match map_find a um with
              | some U => regex_tree.state_id_find U fin.state_id
              | none => none :=
  ⟨by rfl, construct_dfa_terminates "a|b".toList tree_a_or_b (by rfl)⟩

/-- C23: for every input on which the constructor succeeds, every position set
that `construct_dfa` gave a state id is non-empty; from every state of the
returned DFA some word leads, by `next`, to a state on which `accepting` is
true; so every real state is distinguishable from the dead state `size`; and
every stored transition target is a real state, never the dead id `size`. -/
theorem no_dead_real_state (r : List Char) (t : regex_tree)
    (h : regex_tree.new r = .ok t) :
    ∃ fin d, t.construct_dfa_trace = .ok (fin, fin.state_id.map Prod.fst) ∧
      t.construct_dfa = .ok d ∧ fin.res = d ∧
      (∀ S ∈ fin.state_id.map Prod.fst, S ≠ []) ∧
      (∀ s : Nat, s < d.size →
        ∃ w s1, d.run s w = .ok s1 ∧ d.accepting s1 = .ok true) ∧
      (∀ s : Nat, s < d.size → dfa.distinguishable d s d.size) ∧
      ∀ m ∈ d.transitions, ∀ p ∈ m, 0 ≤ p.2 ∧ p.2 < (d.size : Int) := by
  obtain ⟨r0, st, _, hb⟩ := regex_tree.new_built r t h
  obtain ⟨fin, h1, h2, hc, _⟩ := regex_tree.construct_dfa_trace_spec t r0 _ hb
  have hwf := regex_tree.constructed.well_formed t _ _ _ hc
  have htrim := regex_tree.constructed.trim t r0 _ hb _ _ hc
  have hlen := regex_tree.sigma_length _ _ _ hc.sig
  refine ⟨fin, fin.res, h1, h2, rfl, ?_, ?_, ?_, ?_⟩
  · intro S hS hnil
    obtain ⟨i, hi⟩ := List.mem_iff_getElem?.1 hS
    have hlt : i < fin.res.size := by
      by_contra hge
      rw [List.getElem?_eq_none (by simp only [List.length_map]; omega)] at hi
      exact absurd hi (by simp)
    obtain ⟨p, hp⟩ := regex_tree.constructed.nonempty t r0 _ hb _ _ hc i hlt S hi
    rw [hnil] at hp
    exact absurd hp (List.not_mem_nil _)
  · intro s hs
    obtain ⟨w, hw⟩ := htrim.live s hs
    refine ⟨w, _, dfa.run_eq _ hwf s (Nat.le_of_lt hs) w, ?_⟩
    rw [dfa.accepting_eq _ _ (dfa.nxs_le _ hwf s (Nat.le_of_lt hs) w), hw]
  · intro s hs
    obtain ⟨w, hw⟩ := htrim.live s hs
    refine ⟨w, ?_⟩
    rw [hw, dfa.ac_nxs_dead _ hwf w]
    simp
  · intro m hm p hp
    have h0 := (hwf.2.2.2 m hm p hp).1
    obtain ⟨i, hi⟩ := List.mem_iff_getElem?.1 hm
    have hget : fin.res.transitions.getD i [] = m := by
      rw [List.getD_eq_getElem?_getD, hi]; rfl
    have hlook : dfa.look fin.res.transitions i p.1 = some p.2 := by
      rw [dfa.look_of_mem _ hwf.2.2.1, hget]
      exact hp
    have := htrim.real i p.1 p.2 hlook
    exact ⟨h0, by omega⟩

/-- C23 witness: the theorem applied to the regex `a|b`. -/
theorem no_dead_real_state_witness :
    regex_tree.new "a|b".toList = .ok tree_a_or_b ∧
      ∃ fin d, tree_a_or_b.construct_dfa_trace = .ok (fin, fin.state_id.map Prod.fst) ∧
        tree_a_or_b.construct_dfa = .ok d ∧ fin.res = d ∧
        (∀ S ∈ fin.state_id.map Prod.fst, S ≠ []) ∧
        (∀ s : Nat, s < d.size →
          ∃ w s1, d.run s w = .ok s1 ∧ d.accepting s1 = .ok true) ∧
        (∀ s : Nat, s < d.size → dfa.distinguishable d s d.size) ∧
        ∀ m ∈ d.transitions, ∀ p ∈ m, 0 ≤ p.2 ∧ p.2 < (d.size : Int) :=
  ⟨by rfl, no_dead_real_state "a|b".toList tree_a_or_b (by rfl)⟩

end Regex2Dfa

namespace Regex2Dfa

/-- C3: on the well-formed two-state DFA constructed for the regex `a`, `minimize`
returns a DFA with three states: the group of the dead state is given a row. -/
theorem minimize_grows_dfa_a :
    compile "a".toList = .ok dfa_a ∧ dfa_a.well_formed ∧ dfa_a.size = 2 ∧
      dfa_a.minimize = .ok ⟨[[('a', 1)], [], []], [0, 1, 0]⟩ ∧
      (dfa_a.minimize.map dfa.size) = .ok 3 := by
  refine ⟨by rfl, by decide, by rfl, by rfl, by rfl⟩

/-- C5: on the well-formed three-state DFA constructed for the regex `ab`, where the
dead state (id 3) is indistinguishable from no real state, the groups are
`{0}`, `{1}`, `{2}` and `{3}`, and `minimize` gives each of them a row: the result
has four states, one more than the three classes of the real states. -/
theorem minimize_materializes_dead_state :
    compile "ab".toList = .ok dfa_ab ∧ dfa_ab.well_formed ∧
      (dfa_ab.fill_table.bind (dfa.make_groups dfa_ab)) = .ok [[0], [1], [2], [3]] ∧
      dfa_ab.minimize = .ok ⟨[[('a', 1)], [('b', 2)], [], []], [0, 0, 1, 0]⟩ ∧
      (dfa_ab.minimize.map dfa.size) = .ok 4 := by
  refine ⟨by rfl, by decide, by rfl, by rfl, by rfl⟩

/-- C6: for the regex `(a|b)*abb` the minimized DFA has five states, the four of
the constructed DFA and one for the dead state. -/
theorem minimize_abb_has_five_states :
    compile "(a|b)*abb".toList = .ok dfa_abb ∧
      dfa_abb.minimize = .ok
        ⟨[[('a', 1), ('b', 0)], [('a', 1), ('b', 2)], [('a', 1), ('b', 3)],
          [('a', 1), ('b', 0)], []], [0, 0, 0, 1, 0]⟩ ∧
      ((compile "(a|b)*abb".toList).bind dfa.minimize).map dfa.size = .ok 5 := by
  refine ⟨by rfl, by rfl, by rfl⟩

/-- C7: the DFA of the empty regex, one accepting state without transitions, is
minimized to a DFA with two states. -/
theorem minimize_single_state_grows :
    compile [] = .ok dfa_empty ∧ dfa_empty.well_formed ∧ dfa_empty.size = 1 ∧
      dfa_empty.minimize = .ok ⟨[[], []], [1, 0]⟩ := by
  refine ⟨by rfl, by decide, by rfl, by rfl⟩

/-- C9: for the empty input the constructor succeeds with root
`Cat(Empty, Terminator(0))`, and `construct_dfa` returns one accepting state
with an empty transition map. -/
theorem empty_input_dfa :
    (regex_tree.new []).map (fun t => t.root) =
        .ok (node.cat_node node.empty_node (node.terminator_node 0)) ∧
      (regex_tree.new []).bind regex_tree.construct_dfa = .ok ⟨[[]], [1]⟩ ∧
      dfa.size ⟨[[]], [1]⟩ = 1 ∧ dfa.accepting ⟨[[]], [1]⟩ 0 = .ok true := by
  refine ⟨by rfl, by rfl, by rfl, by rfl⟩

/-- C10: for each of the inputs `(`, `)`, `*a` and `(a` the constructor fails with
the "Invalid Regex" error of `match`, so no tree and no DFA is produced. -/
theorem unbalanced_and_leading_star_fail :
    (regex_tree.new "(".toList).map (fun t => t.root) = .error .invalid_regex ∧
      (regex_tree.new ")".toList).map (fun t => t.root) = .error .invalid_regex ∧
      (regex_tree.new "*a".toList).map (fun t => t.root) = .error .invalid_regex ∧
      (regex_tree.new "(a".toList).map (fun t => t.root) = .error .invalid_regex ∧
      compile "(".toList = .error .invalid_regex ∧
      compile ")".toList = .error .invalid_regex ∧
      compile "*a".toList = .error .invalid_regex ∧
      compile "(a".toList = .error .invalid_regex := by
  refine ⟨by rfl, by rfl, by rfl, by rfl, by rfl, by rfl, by rfl, by rfl⟩

end Regex2Dfa

namespace Regex2Dfa

/-- C11: on the inputs `a|` and `|a` the constructor does not fail with "Invalid
Regex".  For the missing operand `expr` returns a null pointer without an error,
the constructor of `or_node` is called with it and dereferences it; no tree and
no DFA is produced. -/
theorem bar_missing_operand_null_deref :
    regex_tree.new "a|".toList = .error .null_deref ∧
      regex_tree.new "|a".toList = .error .null_deref ∧
      regex_tree.expr (regex_tree.regex 2) ⟨[], 1⟩ = .ok (node.null, ⟨[], 1⟩) ∧
      node.make_or_node (node.letter_node 'a' 0) node.null = .error .null_deref ∧
      regex_tree.expr (regex_tree.regex 2) ⟨"|a".toList, 0⟩ =
        .ok (node.null, ⟨"|a".toList, 0⟩) ∧
      node.make_or_node node.null (node.letter_node 'a' 0) = .error .null_deref ∧
      compile "a|".toList = .error .null_deref ∧
      compile "|a".toList = .error .null_deref := by
  refine ⟨by rfl, by rfl, by rfl, by rfl, by rfl, by rfl, by rfl, by rfl⟩

/-- C12: no input that holds a `+` is accepted by the constructor, and `a+` fails
with "Invalid Regex"; but `a|+` fails by the dereference of the null pointer that
stands for the missing operand of the bar, not with "Invalid Regex". -/
theorem plus_not_always_parse_error :
    (∀ u v t, regex_tree.new (u ++ '+' :: v) ≠ .ok t) ∧
      regex_tree.new "a+".toList = .error .invalid_regex ∧
      regex_tree.new "a|+".toList = .error .null_deref ∧
      regex_tree.new "|+".toList = .error .null_deref := by
  refine ⟨?_, by rfl, by rfl, by rfl⟩
  intro u v t h
  obtain ⟨_, _, _, _, hplus, _⟩ := regex_tree.new_consumed _ t h
  exact hplus (by simp)

/-- C13: entered with `)` as the next character, `regex()` returns a null
pointer, not an `Empty` node, and consumes nothing; on the input `()` the parser
`start` returns that null pointer, the constructor of the root `cat_node`
dereferences it, and no tree and no DFA is produced. -/
theorem regex_at_cparen_returns_null :
    (∀ fuel rest id, regex_tree.regex (fuel + 1) ⟨')' :: rest, id⟩ =
        .ok (node.null, ⟨')' :: rest, id⟩)) ∧
      regex_tree.start ⟨"()".toList, 0⟩ = .ok (node.null, ⟨[], 0⟩) ∧
      node.make_cat_node node.null (node.terminator_node 0) = .error .null_deref ∧
      regex_tree.new "()".toList = .error .null_deref ∧
      compile "()".toList = .error .null_deref := by
  refine ⟨?_, by rfl, by rfl, by rfl, by rfl⟩
  intro fuel rest id
  rfl

/-- C14: on the input `ab()c` the constructor fails with "Invalid Regex": the
empty group makes `term` return a null pointer, which ends the loop of `expr`
after `ab()`, and `match(symbol::empty)` finds the `c` left over.  The input
`abc` gives the four-state DFA that accepts `abc`. -/
theorem empty_group_in_concatenation_fails :
    regex_tree.new "ab()c".toList = .error .invalid_regex ∧
      regex_tree.regex 6 ⟨"ab()c".toList, 0⟩ =
        .ok (node.cat_node (node.letter_node 'a' 0) (node.letter_node 'b' 1),
          ⟨"c".toList, 2⟩) ∧
      compile "ab()c".toList = .error .invalid_regex ∧
      compile "abc".toList = .ok dfa_abc := by
  refine ⟨by rfl, by rfl, by rfl, by rfl⟩

end Regex2Dfa
